import Mathlib

/-! c-t9: a shallow embedding of the predictive text engine

The C sources (`corpus.c`, `node.c`, `tree.c`, `path.c`, `model.c`) are translated
function by function.  Conventions of the embedding:

* a symbol (`t9_symbol_t`, a `uint8_t`) is a natural number;
* a C string is the list of its bytes; the terminating zero byte is implicit at
  the end of the list, and a zero byte inside the list terminates the string
  there, exactly as the C loops stop at it;
* `size_t` arithmetic that can wrap is written with an explicit `% SIZE_MOD`;
* the `uint64_t` occurrence counters are plain naturals: a counter is bumped at
  most once per inserted window and there are fewer windows than bytes in the
  buffer, whose size is a `size_t`, so a counter cannot wrap;
* a `float` probability of the corpus trie is the rational value of an IEEE 754
  binary32 number: the counts are converted and their quotient is rounded to 24
  significant bits, to nearest with ties to even (`round_to_precision`); the
  `double` error rate of `t9_model_evaluate` is rounded to 53 bits in the same
  way.  The exponent range is not modelled: the operands are counts below 2^64,
  so a non-zero quotient lies between 2^-64 and 2^64, inside the normal range of
  both formats;
* the `float` costs of the search tree live in an arbitrary linearly ordered
  type, because `t9/math.h` (`t9_ln`) is not part of the sources;
* code that leaves defined behaviour (a read outside an allocation, a NULL
  dereference) returns `Except.error Fault.undefined_behaviour`; so does a
  floating-point division by zero (undefined in ISO C 6.5.5; an infinity or a NaN
  in IEEE arithmetic, neither of which is a rational number);
* allocation is assumed to succeed, so the `malloc`-failure branches are absent.
-/

namespace T9

/-! ## Basic types -/

/-- How a run of the embedded code can fail to produce a value. -/
inductive Fault where
  | undefined_behaviour
  | out_of_fuel
deriving DecidableEq, Repr

/-- Return codes of `t9/errno.h`. -/
inductive t9_error_t where
  | T9_SUCCESS
  | T9_FAILURE
deriving DecidableEq, Repr

/-- Number of values of a `size_t`. -/
def SIZE_MOD : Nat := 2 ^ 64

/-- Bytes of a string literal. -/
def bytes (s : String) : List Nat := s.toList.map Char.toNat

/-- The characters of a C string: everything before the first zero byte. -/
def cstr : List Nat → List Nat
  | [] => []
  | c :: rest => if c = 0 then [] else c :: cstr rest

/-! ## corpus.h / corpus.c: the key mapping -/

def SYMBOLS_T0 : List Nat := bytes "0"
def SYMBOLS_T1 : List Nat := bytes ".,1"
def SYMBOLS_T2 : List Nat := bytes "aAbBcC2"
def SYMBOLS_T3 : List Nat := bytes "dDeEfF3"
def SYMBOLS_T4 : List Nat := bytes "gGhHiI4"
def SYMBOLS_T5 : List Nat := bytes "jJkKlL5"
def SYMBOLS_T6 : List Nat := bytes "mMnNoO6"
def SYMBOLS_T7 : List Nat := bytes "pPqQrRsS7"
def SYMBOLS_T8 : List Nat := bytes "tTuUvV8"
def SYMBOLS_T9 : List Nat := bytes "wWxXyYzZ9"
def SYMBOLS_TS : List Nat := bytes ""
def SYMBOLS_TR : List Nat := bytes " "

/-- List of existing T9 keys. -/
def LEXICON_SYMBOLS : List Nat := bytes "0123456789*#"

/-- Complete list of corpus symbols. -/
def CORPUS_SYMBOLS : List Nat :=
  SYMBOLS_T0 ++ SYMBOLS_T1 ++ SYMBOLS_T2 ++ SYMBOLS_T3 ++ SYMBOLS_T4 ++ SYMBOLS_T5 ++
  SYMBOLS_T6 ++ SYMBOLS_T7 ++ SYMBOLS_T8 ++ SYMBOLS_T9 ++ SYMBOLS_TS ++ SYMBOLS_TR

/-- The `switch` of `t9_corpus_ltoc`; `none` is the NULL of the `default` branch. -/
def t9_corpus_ltoc (symbol : Nat) : Option (List Nat) :=
  if symbol = ('0').toNat then some SYMBOLS_T0
  else if symbol = ('1').toNat then some SYMBOLS_T1
  else if symbol = ('2').toNat then some SYMBOLS_T2
  else if symbol = ('3').toNat then some SYMBOLS_T3
  else if symbol = ('4').toNat then some SYMBOLS_T4
  else if symbol = ('5').toNat then some SYMBOLS_T5
  else if symbol = ('6').toNat then some SYMBOLS_T6
  else if symbol = ('7').toNat then some SYMBOLS_T7
  else if symbol = ('8').toNat then some SYMBOLS_T8
  else if symbol = ('9').toNat then some SYMBOLS_T9
  else if symbol = ('*').toNat then some SYMBOLS_TS
  else if symbol = ('#').toNat then some SYMBOLS_TR
  else none

/-- The local `key_table` of `t9_corpus_ctol`. -/
def key_table : List (List Nat) :=
  [SYMBOLS_T0, SYMBOLS_T1, SYMBOLS_T2, SYMBOLS_T3, SYMBOLS_T4, SYMBOLS_T5,
   SYMBOLS_T6, SYMBOLS_T7, SYMBOLS_T8, SYMBOLS_T9, SYMBOLS_TS, SYMBOLS_TR]

/-- The inner `while (*ptr != 0)` of `t9_corpus_ctol`: is `symbol` met before the
terminator of the string at `ptr`? -/
def ctol_scan (symbol : Nat) : List Nat → Bool
  | [] => false
  | c :: rest => if c = 0 then false else if c = symbol then true else ctol_scan symbol rest

/-- The outer `for (key = ...)` of `t9_corpus_ctol`, from index `key` on; the list
holds the entries `key_table[key], key_table[key + 1], ...`. -/
def ctol_keys (symbol : Nat) : Nat → List (List Nat) → Option Nat
  | _, [] => none
  | key, ptr :: rest =>
    if ctol_scan symbol ptr then some (LEXICON_SYMBOLS.getD key 0)
    else ctol_keys symbol (key + 1) rest

/-- Function `t9_corpus_ctol`: `some k` is T9_SUCCESS with `*out = k`, `none` is
T9_FAILURE. -/
def t9_corpus_ctol (symbol : Nat) : Option Nat :=
  ctol_keys symbol 0 key_table

/-- The `while (symbol != *lexicon_symbol_table)` loop of
`t9_corpus_validate_lexicon_symbol`; the list is the table from the current
position on.  After the increment the terminator is tested before the next
comparison, so the loop never compares `symbol` with the terminator. -/
def validate_scan (symbol : Nat) : List Nat → Bool
  | [] => false
  | c :: rest =>
    if symbol ≠ c then
      match rest with
      | [] => false
      | _ :: _ => validate_scan symbol rest
    else true

/-- Function `t9_corpus_validate_lexicon_symbol`. -/
def t9_corpus_validate_lexicon_symbol (symbol : Nat) : Bool :=
  validate_scan symbol LEXICON_SYMBOLS

/-- Function `t9_corpus_validate_lexicon_symbols` on a non-NULL string. -/
def t9_corpus_validate_lexicon_symbols : List Nat → Bool
  | [] => true
  | symbol :: rest =>
    if symbol = 0 then true
    else if t9_corpus_validate_lexicon_symbol symbol = false then false
    else t9_corpus_validate_lexicon_symbols rest

/-! ## corpus.c: n-gram generation -/

/-- Structure `corpus_t`; the two sizes are the lengths of the lists.  The
allocation behind each buffer holds the text and one terminating zero byte
(`t9_read_file`). -/
structure corpus_t where
  train_buffer : List Nat
  test_buffer : List Nat

def corpus_t.train_buffer_size (corpus : corpus_t) : Nat := corpus.train_buffer.length

def corpus_t.test_buffer_size (corpus : corpus_t) : Nat := corpus.test_buffer.length

/-- The read of `memcpy(ngram, &buffer[offset], length)`: the allocation has
`buffer.length + 1` bytes, the last one zero; reading past it is undefined. -/
def read_bytes (buffer : List Nat) (offset length : Nat) : Except Fault (List Nat) :=
  if offset + length ≤ buffer.length + 1 then
    .ok (((buffer ++ [0]).drop offset).take length)
  else .error .undefined_behaviour

/-- Function `t9_corpus_ngram`: returns the n-gram string and the new `*offset`.
The test `((size - 1) - offset) < length` is evaluated in `size_t`. -/
def t9_corpus_ngram (corpus : corpus_t) (length : Nat) (offset : Nat) :
    Except Fault (List Nat × Nat) :=
  if ((corpus.train_buffer_size + SIZE_MOD - 1) % SIZE_MOD + SIZE_MOD - offset) % SIZE_MOD
      < length then
    .ok ([], corpus.train_buffer_size)
  else
    match read_bytes corpus.train_buffer offset length with
    | .error e => .error e
    | .ok ngram => .ok (ngram, (offset + 1) % SIZE_MOD)

/-! ## node.h / node.c: corpus nodes -/

/-- Structure `struct_t9_corpus_node_t`.  The `parent` back-reference is the
position of the node in the tree. -/
inductive t9_corpus_node_t where
  | mk (count : Nat) (symbol : Nat) (probability : ℚ) (children : List t9_corpus_node_t)

namespace t9_corpus_node_t

def count : t9_corpus_node_t → Nat
  | mk c _ _ _ => c

def symbol : t9_corpus_node_t → Nat
  | mk _ s _ _ => s

def probability : t9_corpus_node_t → ℚ
  | mk _ _ p _ => p

def children : t9_corpus_node_t → List t9_corpus_node_t
  | mk _ _ _ cs => cs

end t9_corpus_node_t

/-- Function `t9_corpus_node_create`: zeroed memory, empty child vector. -/
def t9_corpus_node_create : t9_corpus_node_t := .mk 0 0 0 []

/-- The search loop of `t9_corpus_node_get_child` over a child vector: index of
the first child carrying `symbol`. -/
def child_index (symbol : Nat) : List t9_corpus_node_t → Option Nat
  | [] => none
  | child :: rest =>
    if child.symbol = symbol then some 0
    else (child_index symbol rest).map (· + 1)

/-- Function `t9_corpus_node_get_child`; the returned pointer is the index of the
child in the parent's vector, `none` is NULL. -/
def t9_corpus_node_get_child (parent : t9_corpus_node_t) (symbol : Nat) : Option Nat :=
  child_index symbol parent.children

/-- Function `t9_corpus_node_add_child`. -/
def t9_corpus_node_add_child (node child : t9_corpus_node_t) : t9_corpus_node_t :=
  .mk node.count node.symbol node.probability (node.children ++ [child])

/-- Function `t9_corpus_node_get_child_safe`: the parent, possibly with a new last
child, and the index of the child. -/
def t9_corpus_node_get_child_safe (parent : t9_corpus_node_t) (symbol : Nat) :
    t9_corpus_node_t × Nat :=
  match t9_corpus_node_get_child parent symbol with
  | some i => (parent, i)
  | none =>
    (t9_corpus_node_add_child parent (.mk 0 symbol 0 []), parent.children.length)

/-- Write through a child pointer: replace the child at an index. -/
def update_child (f : t9_corpus_node_t → t9_corpus_node_t) :
    Nat → List t9_corpus_node_t → List t9_corpus_node_t
  | _, [] => []
  | 0, child :: rest => f child :: rest
  | i + 1, child :: rest => child :: update_child f i rest

/-- Function `t9_corpus_node_insert_ngram`. -/
def t9_corpus_node_insert_ngram : t9_corpus_node_t → List Nat → t9_corpus_node_t
  | node, [] => node
  | node, s :: rest =>
    if s = 0 then node
    else
      match t9_corpus_node_get_child_safe node s with
      | (node1, i) =>
        .mk node1.count node1.symbol node1.probability
          (update_child
            (fun child =>
              t9_corpus_node_insert_ngram
                (.mk (child.count + 1) child.symbol child.probability child.children) rest)
            i node1.children)

/-! ## Binary floating point -/

/-- Nearest integer of a rational, a tie goes to the even neighbour. -/
def round_half_even (y : ℚ) : ℤ :=
  if y - (⌊y⌋ : ℚ) < 1 / 2 then ⌊y⌋
  else if 1 / 2 < y - (⌊y⌋ : ℚ) then ⌊y⌋ + 1
  else if ⌊y⌋ % 2 = 0 then ⌊y⌋ else ⌊y⌋ + 1

/-- For `1 ≤ x`: the number of halvings that keep `x` at or above 1. -/
def exponent_down : Nat → ℚ → ℤ
  | 0, _ => 0
  | fuel + 1, x => if 2 ≤ x then exponent_down fuel (x / 2) + 1 else 0

/-- For `0 < x < 1`: minus the number of doublings that bring `x` to 1 or above. -/
def exponent_up : Nat → ℚ → ℤ
  | 0, _ => 0
  | fuel + 1, x => if x < 1 then exponent_up fuel (2 * x) - 1 else 0

/-- The binary exponent of a positive rational: the integer `e` with
`2 ^ e ≤ x < 2 ^ (e + 1)` (`floor_log2_spec`).  Numerator and denominator bound
the number of steps. -/
def floor_log2 (x : ℚ) : ℤ :=
  if 1 ≤ x then exponent_down x.num.toNat x else exponent_up x.den x

/-- Rounding of a non-negative rational to a binary floating-point number with
`p` significant bits, to nearest, ties to even, unbounded exponent: the value is
scaled so that its integer part has exactly `p` bits, rounded to an integer and
scaled back. -/
def round_to_precision (p : Nat) (x : ℚ) : ℚ :=
  if x ≤ 0 then 0
  else (round_half_even (x * (2 : ℚ) ^ ((p : ℤ) - 1 - floor_log2 x)) : ℚ)
    / (2 : ℚ) ^ ((p : ℤ) - 1 - floor_log2 x)

/-- Significant bits of a `float` (IEEE 754 binary32). -/
def FLT_MANT_DIG : Nat := 24

/-- Significant bits of a `double` (IEEE 754 binary64). -/
def DBL_MANT_DIG : Nat := 53

/-- The value of `(T) a / (T) b` for two unsigned integers with a non-zero `b`
in the floating-point type `T` of `p` significant bits: both conversions round,
and so does the division. -/
def rounded_quotient (p a b : Nat) : ℚ :=
  round_to_precision p (round_to_precision p (a : ℚ) / round_to_precision p (b : ℚ))

/-- The expression `(float) a / (float) b` on two `uint64_t` counts. -/
def float_quotient (a b : Nat) : Except Fault ℚ :=
  if b = 0 then .error .undefined_behaviour else .ok (rounded_quotient FLT_MANT_DIG a b)

mutual
/-- Body of the loop of `t9_corpus_node_finalize` for one child of a node whose
count is `parent_count`: set the probability, then recurse. -/
def finalize_child (parent_count : Nat) : t9_corpus_node_t → Except Fault t9_corpus_node_t
  | .mk c s _ cs =>
    match float_quotient c parent_count with
    | .error e => .error e
    | .ok probability =>
      match finalize_children c cs with
      | .error e => .error e
      | .ok children => .ok (.mk c s probability children)
/-- The loop of `t9_corpus_node_finalize` over the child vector. -/
def finalize_children (parent_count : Nat) :
    List t9_corpus_node_t → Except Fault (List t9_corpus_node_t)
  | [] => .ok []
  | child :: rest =>
    match finalize_child parent_count child with
    | .error e => .error e
    | .ok child1 =>
      match finalize_children parent_count rest with
      | .error e => .error e
      | .ok rest1 => .ok (child1 :: rest1)
end

/-- Function `t9_corpus_node_finalize`. -/
def t9_corpus_node_finalize (node : t9_corpus_node_t) : Except Fault t9_corpus_node_t :=
  match finalize_children node.count node.children with
  | .error e => .error e
  | .ok children => .ok (.mk node.count node.symbol node.probability children)

mutual
/-- The node that `finalize_child` returns when it returns one
(`finalize_child_ok`): the same traversal without the test of the divisor. -/
def finalized_child (parent_count : Nat) : t9_corpus_node_t → t9_corpus_node_t
  | .mk c s _ cs =>
    .mk c s (rounded_quotient FLT_MANT_DIG c parent_count) (finalized_children c cs)
/-- The child vector that `finalize_children` returns when it returns one. -/
def finalized_children (parent_count : Nat) : List t9_corpus_node_t → List t9_corpus_node_t
  | [] => []
  | child :: rest => finalized_child parent_count child :: finalized_children parent_count rest
end

/-- The node that `t9_corpus_node_finalize` returns when it returns one. -/
def finalized_node (node : t9_corpus_node_t) : t9_corpus_node_t :=
  .mk node.count node.symbol node.probability (finalized_children node.count node.children)

/-- The child loop of `t9_corpus_node_conditional_probability`: first child whose
symbol is `symbol`. -/
def matching_child (symbol : Nat) : List t9_corpus_node_t → Option t9_corpus_node_t
  | [] => none
  | child :: rest => if child.symbol = symbol then some child else matching_child symbol rest

/-- Function `t9_corpus_node_conditional_probability`.  `word[0]` and `word[1]`
read the terminator when the list has ended. -/
def t9_corpus_node_conditional_probability : t9_corpus_node_t → List Nat → ℚ
  | node, [] =>
    match matching_child 0 node.children with
    | some child => child.probability
    | none => 0
  | node, w0 :: rest =>
    match matching_child w0 node.children with
    | some child =>
      if rest.headD 0 = 0 then child.probability
      else t9_corpus_node_conditional_probability child rest
    | none => 0

/-! ## tree.h / tree.c: the corpus tree -/

/-- Structure `struct_t9_corpus_tree_t`. -/
structure t9_corpus_tree_t where
  root : t9_corpus_node_t

/-- Function `t9_corpus_tree_create`. -/
def t9_corpus_tree_create : t9_corpus_tree_t :=
  ⟨.mk 0 (' ').toNat 0 []⟩

/-- Constant `PROBABILITY_BUTTON`. -/
def PROBABILITY_BUTTON : ℚ := 1

/-- The `while (*lexicon != 0)` loop of `t9_corpus_tree_button_for_letter`. -/
def button_scan (prob : ℚ) (letter : Nat) : List Nat → ℚ
  | [] => 1 - prob
  | c :: rest =>
    if c = 0 then 1 - prob
    else if c = letter then prob
    else button_scan prob letter rest

/-- Function `t9_corpus_tree_button_for_letter`; the string of an unknown button
is NULL and is dereferenced. -/
def t9_corpus_tree_button_for_letter (button letter : Nat) : Except Fault ℚ :=
  match t9_corpus_ltoc button with
  | none => .error .undefined_behaviour
  | some lexicon => .ok (button_scan PROBABILITY_BUTTON letter lexicon)

/-- Function `t9_corpus_tree_conditional_probability`; `none` is a NULL tree. -/
def t9_corpus_tree_conditional_probability (tree : Option t9_corpus_tree_t)
    (word : List Nat) : ℚ :=
  match tree with
  | none => 0
  | some t => t9_corpus_node_conditional_probability t.root word

/-- The `do ... while (offset != corpus->train_buffer_size)` loop of
`t9_corpus_tree_insert_ngrams`, on the root node. -/
def insert_ngrams_loop (corpus : corpus_t) (ngram_length : Nat) :
    Nat → t9_corpus_node_t → List Nat → Nat → Except Fault t9_corpus_node_t
  | 0, _, _, _ => .error .out_of_fuel
  | fuel + 1, root, ngram, offset =>
    match t9_corpus_ngram corpus ngram_length offset with
    | .error e => .error e
    | .ok (ngram1, offset1) =>
      if offset1 ≠ corpus.train_buffer_size then
        insert_ngrams_loop corpus ngram_length fuel
          (t9_corpus_node_insert_ngram root ngram) ngram1 offset1
      else .ok (t9_corpus_node_insert_ngram root ngram)

/-- Function `t9_corpus_tree_insert_ngrams`.  The offset is a `size_t`, so the
loop makes at most `SIZE_MOD` rounds. -/
def t9_corpus_tree_insert_ngrams (tree : t9_corpus_tree_t) (corpus : corpus_t)
    (ngram_length : Nat) : Except Fault t9_corpus_tree_t :=
  match t9_corpus_ngram corpus ngram_length 0 with
  | .error e => .error e
  | .ok (ngram, offset) =>
    match insert_ngrams_loop corpus ngram_length SIZE_MOD tree.root ngram offset with
    | .error e => .error e
    | .ok root => .ok ⟨root⟩

/-- Sum of the counts of a child vector. -/
def count_sum : List t9_corpus_node_t → Nat
  | [] => 0
  | child :: rest => child.count + count_sum rest

/-- Function `t9_corpus_tree_finalize`: add the counts of the children to the
count of the root, clear the probability of the root, finalize the root. -/
def t9_corpus_tree_finalize (tree : t9_corpus_tree_t) : Except Fault t9_corpus_tree_t :=
  match t9_corpus_node_finalize
      (.mk (tree.root.count + count_sum tree.root.children) tree.root.symbol 0
        tree.root.children) with
  | .error e => .error e
  | .ok root => .ok ⟨root⟩

/-- The tree that `t9_corpus_tree_finalize` returns when it returns one
(`tree_finalize_ok`). -/
def finalized_tree (tree : t9_corpus_tree_t) : t9_corpus_tree_t :=
  ⟨finalized_node
    (.mk (tree.root.count + count_sum tree.root.children) tree.root.symbol 0
      tree.root.children)⟩

/-- Function `build_corpus_tree` of `main.c`: create, fill, finalize. -/
def build_corpus_tree (corpus : corpus_t) (ngram_length : Nat) :
    Except Fault t9_corpus_tree_t :=
  match t9_corpus_tree_insert_ngrams t9_corpus_tree_create corpus ngram_length with
  | .error e => .error e
  | .ok tree => t9_corpus_tree_finalize tree

/-! ## Float costs

`t9/math.h` is not among the sources, so the operations on the `float` costs
are parameters: the type of costs with its comparison (assumed to be a linear
order, which rules out NaN), addition, the zero of `memset`, the function
`x ↦ -t9_ln(x)` and the constant `-1.0f`. -/

/-- The float operations used on costs. -/
class T9Math (C : Type) extends LinearOrder C, Add C, Zero C where
  /-- The function `x ↦ -t9_ln(x)`. -/
  neg_ln : ℚ → C
  /-- The constant `-1.0f`. -/
  minus_one : C

/-! ## node.h / path.h / tree.h / model.h: the search side

A pointer to a search node is the address `addr` the node was allocated at;
`t9_search_node_create` hands out the addresses `next_addr`, `next_addr + 1`, ...
The `parent` back-reference is the position of the node in the tree. -/

/-- Structure `struct_t9_search_node_t`. -/
inductive t9_search_node_t (C : Type) where
  | mk (addr : Nat) (symbol : Nat) (probability : C)
      (children2 : List (t9_search_node_t C))

namespace t9_search_node_t

variable {C : Type}

def addr : t9_search_node_t C → Nat
  | mk a _ _ _ => a

def symbol : t9_search_node_t C → Nat
  | mk _ s _ _ => s

def probability : t9_search_node_t C → C
  | mk _ _ p _ => p

def children2 : t9_search_node_t C → List (t9_search_node_t C)
  | mk _ _ _ cs => cs

end t9_search_node_t

/-- Structure `struct_t9_path_t`: the cost and the vector of node pointers. -/
structure t9_path_t (C : Type) where
  probability : C
  nodes : List Nat

/-- Structure `struct_t9_search_tree_t`, with the allocator state `next_addr`. -/
structure t9_search_tree_t (C : Type) where
  root : t9_search_node_t C
  level_table2 : List (List Nat)
  next_addr : Nat

/-- Structure `t9_model_struct`; `none` is a NULL tree pointer. -/
structure t9_model_t (C : Type) where
  corpus : corpus_t
  corpus_tree : Option t9_corpus_tree_t
  search_tree : Option (t9_search_tree_t C)
  paths : List (t9_path_t C)
  ngram_length : Nat
  number_paths : Nat

section Search

variable {C : Type} [T9Math C]

/-- Function `t9_model_create`: zeroed memory, empty path vector. -/
def t9_model_create : t9_model_t C :=
  ⟨⟨[], []⟩, none, none, [], 0, 0⟩

/-- Function `t9_search_tree_create`: a root with symbol `' '`, cost zero, at
address 0, and an empty level table. -/
def t9_search_tree_create : t9_search_tree_t C :=
  ⟨.mk 0 (' ').toNat 0 [], [], 1⟩

/-- Function `t9_search_node_is_leaf`. -/
def t9_search_node_is_leaf (node : t9_search_node_t C) : Bool :=
  node.children2.length = 0

/-! ### path.c -/

/-- Function `t9_path_create`. -/
def t9_path_create : t9_path_t C := ⟨0, []⟩

/-- Function `t9_path_push`. -/
def t9_path_push (path : t9_path_t C) (node : t9_search_node_t C) : t9_path_t C :=
  ⟨node.probability, path.nodes ++ [node.addr]⟩

/-- Function `t9_path_pop`, called only on a path that has been pushed to. -/
def t9_path_pop (path : t9_path_t C) : t9_path_t C :=
  ⟨T9Math.minus_one, path.nodes.dropLast⟩

/-- Function `t9_path_duplicate`. -/
def t9_path_duplicate (path : t9_path_t C) : t9_path_t C :=
  ⟨path.probability, path.nodes⟩

/-- The loop `for (i = size - 1; i > 0; i--)` of `t9_path_is_equal`, entered with
`i = n`. -/
def is_equal_loop (a b : List Nat) : Nat → Bool
  | 0 => true
  | i + 1 => if a.getD (i + 1) 0 ≠ b.getD (i + 1) 0 then false else is_equal_loop a b i

/-- Function `t9_path_is_equal`.  On two empty paths `size - 1` wraps to the
largest `size_t` and the loop reads far outside the vector. -/
def t9_path_is_equal (path_a path_b : t9_path_t C) : Except Fault Bool :=
  if path_a.nodes.length ≠ path_b.nodes.length then .ok false
  else if path_a.nodes.length = 0 then .error .undefined_behaviour
  else .ok (is_equal_loop path_a.nodes path_b.nodes (path_a.nodes.length - 1))

mutual
/-- Dereference of a node pointer: the live node allocated at `addr` in the tree
under the given node. -/
def find_node (addr : Nat) : t9_search_node_t C → Option (t9_search_node_t C)
  | .mk a s p cs => if a = addr then some (.mk a s p cs) else find_node_list addr cs
/-- Dereference of a node pointer below a child list. -/
def find_node_list (addr : Nat) : List (t9_search_node_t C) → Option (t9_search_node_t C)
  | [] => none
  | child :: rest =>
    match find_node addr child with
    | some n => some n
    | none => find_node_list addr rest
end

/-- The symbol loop of `t9_path_flatten`: read `->symbol` through every pointer. -/
def flatten_loop (root : t9_search_node_t C) : List Nat → Except Fault (List Nat)
  | [] => .ok []
  | addr :: rest =>
    match find_node addr root with
    | none => .error .undefined_behaviour
    | some node =>
      match flatten_loop root rest with
      | .error e => .error e
      | .ok str => .ok (node.symbol :: str)

/-- Function `t9_path_flatten`; the pointers are read in the tree under `root`,
`none` is the NULL returned for a path without nodes. -/
def t9_path_flatten (root : t9_search_node_t C) (path : t9_path_t C) :
    Except Fault (Option (List Nat)) :=
  if path.nodes.length = 0 then .ok none
  else
    match flatten_loop root path.nodes with
    | .error e => .error e
    | .ok str => .ok (some str)

/-! ### model.c: sorting the kept paths -/

/-- Body of the inner loop of `t9_model_sort_paths` at index `i`. -/
def sort_step (paths : List (t9_path_t C)) (i : Nat) : List (t9_path_t C) :=
  match paths.get? i, paths.get? (i + 1) with
  | some p, some q =>
    if q.probability < p.probability then (paths.set i q).set (i + 1) p else paths
  | _, _ => paths

/-- The inner loop `for (i = 0; i < length; i++)`, with `n` rounds left. -/
def sort_inner : Nat → Nat → List (t9_path_t C) → List (t9_path_t C)
  | 0, _, paths => paths
  | n + 1, i, paths => sort_inner n (i + 1) (sort_step paths i)

/-- The outer loop `for (j = 0; j < length; j++)`, with `n` rounds left. -/
def sort_outer (length : Nat) : Nat → List (t9_path_t C) → List (t9_path_t C)
  | 0, paths => paths
  | n + 1, paths => sort_outer length n (sort_inner length 0 paths)

/-- The body of `t9_model_sort_paths` on the path vector: `length = size - 1`
rounds of `length` comparisons each. -/
def sort_paths (paths : List (t9_path_t C)) : List (t9_path_t C) :=
  if paths.length = 0 then paths
  else sort_outer (paths.length - 1) (paths.length - 1) paths

/-- Function `t9_model_sort_paths`. -/
def t9_model_sort_paths (model : t9_model_t C) : t9_model_t C :=
  { model with paths := sort_paths model.paths }

/-! ### node.c: growing the search tree -/

/-- The statement `list_rpush(kv_A(model->search_tree->level_table2, depth), ...)`:
append a node pointer to the level list at index `depth`. -/
def level_push (level_table2 : List (List Nat)) (depth : Nat) (node : Nat) :
    Except Fault (List (List Nat)) :=
  match level_table2.get? depth with
  | none => .error .undefined_behaviour
  | some level => .ok (level_table2.set depth (level ++ [node]))

/-- The `while (*symbol != 0)` loop of the leaf branch of `t9_search_node_insert`.
The list is the rest of `CORPUS_SYMBOLS` from `symbol` on; `children2` is the
child list of the node being expanded and `node_probability` its cost.  The
result is the child list and the model, whose level table and allocator have
moved on. -/
def expand_loop (t9_input : Nat) (node_probability : C) (depth : Nat) :
    List Nat → List Nat → List (t9_search_node_t C) → t9_model_t C →
    Except Fault (List (t9_search_node_t C) × t9_model_t C)
  | [], _, children2, model => .ok (children2, model)
  | symbol :: rest, sequence, children2, model =>
    if symbol = 0 then .ok (children2, model)
    else
      match model.search_tree with
      | none => .error .undefined_behaviour
      | some tree =>
        let sequence_length := (cstr sequence).length
        let sequence1 :=
          if sequence_length ≥ (model.ngram_length + SIZE_MOD - 1) % SIZE_MOD then
            sequence.drop (sequence_length - (model.ngram_length - 1))
          else sequence
        let word := (cstr sequence1 ++ [symbol]).take (model.ngram_length + 1)
        match t9_corpus_tree_button_for_letter t9_input symbol with
        | .error e => .error e
        | .ok button =>
          let prob_t_b : C := T9Math.neg_ln button
          let prob_b_bb : C :=
            T9Math.neg_ln (t9_corpus_tree_conditional_probability model.corpus_tree word)
          let child : t9_search_node_t C :=
            .mk tree.next_addr symbol (prob_t_b + prob_b_bb + node_probability) []
          match level_push tree.level_table2 depth tree.next_addr with
          | .error e => .error e
          | .ok table =>
            expand_loop t9_input node_probability depth rest sequence1
              (children2 ++ [child])
              { model with
                search_tree := some { tree with level_table2 := table,
                                                next_addr := tree.next_addr + 1 } }

mutual
/-- Function `t9_search_node_insert`.  The node is returned with its new subtree
(the caller stores it back where the pointer came from) together with the
model; the C return value is T9_SUCCESS. -/
def t9_search_node_insert : t9_search_node_t C → Nat → List Nat → Nat → t9_model_t C →
    Except Fault (t9_search_node_t C × t9_model_t C)
  | .mk a s p cs, t9_input, sequence, depth, model =>
    match cs with
    | [] =>
      match expand_loop t9_input p depth CORPUS_SYMBOLS sequence [] model with
      | .error e => .error e
      | .ok (children2, model1) => .ok (.mk a s p children2, model1)
    | _ :: _ =>
      match insert_children cs t9_input sequence depth model with
      | .error e => .error e
      | .ok (children2, model1) => .ok (.mk a s p children2, model1)
/-- The descent loop of `t9_search_node_insert` over the children of a node that
is not a leaf. -/
def insert_children : List (t9_search_node_t C) → Nat → List Nat → Nat → t9_model_t C →
    Except Fault (List (t9_search_node_t C) × t9_model_t C)
  | [], _, _, _, model => .ok ([], model)
  | child :: rest, t9_input, sequence, depth, model =>
    match t9_search_node_insert child t9_input (cstr sequence ++ [child.symbol])
        (depth + 1) model with
    | .error e => .error e
    | .ok (child1, model1) =>
      match insert_children rest t9_input sequence depth model1 with
      | .error e => .error e
      | .ok (rest1, model2) => .ok (child1 :: rest1, model2)
end

/-! ### node.c: searching the best paths -/

/-- The guard at the top of `t9_node_search_paths`: the kept list is full and the
node is not better than the worst kept path. -/
def search_cut (model : t9_model_t C) (node_probability : C) : Bool :=
  match model.paths.getLast? with
  | none => false
  | some last =>
    decide (model.paths.length ≥ model.number_paths) &&
      decide (last.probability ≤ node_probability)

/-- The leaf branch of `t9_node_search_paths`: push a copy of the path, sort,
drop the last entry when there is one too many. -/
def search_leaf (model : t9_model_t C) (tmp_path : t9_path_t C) : t9_model_t C :=
  let model1 := t9_model_sort_paths
    { model with paths := model.paths ++ [t9_path_duplicate tmp_path] }
  if model1.paths.length > model1.number_paths then
    { model1 with paths := model1.paths.dropLast }
  else model1

mutual
/-- Function `t9_node_search_paths`; returns the model and the temporary path. -/
def t9_node_search_paths : t9_search_node_t C → t9_model_t C → t9_path_t C →
    t9_model_t C × t9_path_t C
  | .mk _ _ p cs, model, tmp_path =>
    if search_cut model p then (model, tmp_path)
    else
      match cs with
      | [] => (search_leaf model tmp_path, tmp_path)
      | _ :: _ => search_children cs model tmp_path
/-- The child loop of `t9_node_search_paths`. -/
def search_children : List (t9_search_node_t C) → t9_model_t C → t9_path_t C →
    t9_model_t C × t9_path_t C
  | [], model, tmp_path => (model, tmp_path)
  | child :: rest, model, tmp_path =>
    match t9_node_search_paths child model (t9_path_push tmp_path child) with
    | (model1, tmp_path1) => search_children rest model1 (t9_path_pop tmp_path1)
end

/-! ### model.c / node.c: pruning -/

mutual
/-- Unlink the node allocated at `addr` from the child list of its parent
(`list_find` and `list_remove` on `node->parent->children2`) and destroy it. -/
def remove_node (addr : Nat) : t9_search_node_t C → t9_search_node_t C
  | .mk a s p cs => .mk a s p (remove_node_list addr cs)
/-- Unlink the node allocated at `addr` below a child list. -/
def remove_node_list (addr : Nat) : List (t9_search_node_t C) → List (t9_search_node_t C)
  | [] => []
  | child :: rest =>
    if child.addr = addr then rest
    else remove_node addr child :: remove_node_list addr rest
end

/-- Function `__t9_model_prune_path_helper`; `node` is the node pointer.  A
pointer to no live node, a leaf without parent, a missing level list and a node
missing from its level list (`list_remove` of NULL) are undefined. -/
def __t9_model_prune_path_helper (model : t9_model_t C) (node : Nat) (depth : Nat) :
    Except Fault (t9_model_t C) :=
  match model.search_tree with
  | none => .error .undefined_behaviour
  | some tree =>
    match find_node node tree.root with
    | none => .error .undefined_behaviour
    | some n =>
      if t9_search_node_is_leaf n = true then
        if node = tree.root.addr then .error .undefined_behaviour
        else
          match tree.level_table2.get? depth with
          | none => .error .undefined_behaviour
          | some level_map =>
            if node ∈ level_map then
              .ok { model with
                    search_tree := some { tree with
                      root := remove_node node tree.root,
                      level_table2 := tree.level_table2.set depth (level_map.erase node) } }
            else .error .undefined_behaviour
      else .ok model

/-- The `do ... while (i >= 0)` loop of `t9_model_prune_path`, entered at index `i`. -/
def prune_path_loop (path : t9_path_t C) : Nat → t9_model_t C → Except Fault (t9_model_t C)
  | 0, model => __t9_model_prune_path_helper model (path.nodes.getD 0 0) 0
  | i + 1, model =>
    match __t9_model_prune_path_helper model (path.nodes.getD (i + 1) 0) (i + 1) with
    | .error e => .error e
    | .ok model1 => prune_path_loop path i model1

/-- Function `t9_model_prune_path`. -/
def t9_model_prune_path (model : t9_model_t C) (path : t9_path_t C) :
    Except Fault (t9_error_t × t9_model_t C) :=
  if path.nodes.length > 0 then
    match prune_path_loop path (path.nodes.length - 1) model with
    | .error e => .error e
    | .ok model1 => .ok (.T9_SUCCESS, model1)
  else .ok (.T9_SUCCESS, model)

/-- The loop of `t9_search_node_prune` over the kept paths, with its `break`. -/
def path_found (path : t9_path_t C) : List (t9_path_t C) → Except Fault Bool
  | [] => .ok false
  | best_path :: rest =>
    match t9_path_is_equal path best_path with
    | .error e => .error e
    | .ok true => .ok true
    | .ok false => path_found path rest

mutual
/-- Function `t9_search_node_prune`.  The recursion follows the tree as it is when
the node is reached: the list iterator has fetched its next element before the
current child is worked on, and a removal below only unlinks the node being
visited or an ancestor whose last child has just gone, so every node is visited
with the child list it had at the start. -/
def t9_search_node_prune : t9_search_node_t C → t9_model_t C → t9_path_t C →
    Except Fault (t9_model_t C × t9_path_t C)
  | .mk _ _ _ cs, model, path =>
    match cs with
    | [] =>
      match path_found path model.paths with
      | .error e => .error e
      | .ok true => .ok (model, path)
      | .ok false =>
        match t9_model_prune_path model path with
        | .error e => .error e
        | .ok (_, model1) => .ok (model1, path)
    | _ :: _ => prune_children cs model path
/-- The child loop of `t9_search_node_prune`. -/
def prune_children : List (t9_search_node_t C) → t9_model_t C → t9_path_t C →
    Except Fault (t9_model_t C × t9_path_t C)
  | [], model, path => .ok (model, path)
  | child :: rest, model, path =>
    match t9_search_node_prune child model (t9_path_push path child) with
    | .error e => .error e
    | .ok (model1, path1) => prune_children rest model1 (t9_path_pop path1)
end

/-! ### tree.c: the search tree -/

/-- Function `t9_search_tree_prune`. -/
def t9_search_tree_prune (model : t9_model_t C) : Except Fault (t9_model_t C) :=
  if model.ngram_length < 1 then .ok model
  else
    match model.search_tree with
    | none => .error .undefined_behaviour
    | some tree =>
      if tree.level_table2.length < model.ngram_length then .ok model
      else
        match t9_search_node_prune tree.root model t9_path_create with
        | .error e => .error e
        | .ok (model1, _) => .ok model1

/-- Function `t9_search_tree_search_paths`. -/
def t9_search_tree_search_paths (model : t9_model_t C) : Except Fault (t9_model_t C) :=
  match model.search_tree with
  | none => .error .undefined_behaviour
  | some tree =>
    .ok (t9_node_search_paths tree.root { model with paths := [] } t9_path_create).1

/-- Function `t9_search_tree_insert`. -/
def t9_search_tree_insert (model : t9_model_t C) (symbol : Nat) :
    Except Fault (t9_error_t × t9_model_t C) :=
  match model.search_tree with
  | none => .error .undefined_behaviour
  | some tree =>
    match t9_search_node_insert tree.root symbol [] 0 model with
    | .error e => .error e
    | .ok (root, model1) =>
      match model1.search_tree with
      | none => .error .undefined_behaviour
      | some tree1 =>
        match t9_search_tree_search_paths
            { model1 with search_tree := some { tree1 with root := root } } with
        | .error e => .error e
        | .ok model2 =>
          match t9_search_tree_prune model2 with
          | .error e => .error e
          | .ok model3 => .ok (.T9_SUCCESS, model3)

/-- The `while (*symbol != 0)` loop of `t9_search_tree_type`. -/
def type_loop : List Nat → t9_model_t C → Except Fault (t9_error_t × t9_model_t C)
  | [], model => .ok (.T9_SUCCESS, model)
  | symbol :: rest, model =>
    if symbol = 0 then .ok (.T9_SUCCESS, model)
    else
      match model.search_tree with
      | none => .error .undefined_behaviour
      | some tree =>
        match t9_search_tree_insert
            { model with
              search_tree := some { tree with level_table2 := tree.level_table2 ++ [[]] } }
            symbol with
        | .error e => .error e
        | .ok (.T9_FAILURE, model1) => .ok (.T9_FAILURE, model1)
        | .ok (.T9_SUCCESS, model1) => type_loop rest model1

/-- Function `t9_search_tree_type` on a non-NULL model and sequence. -/
def t9_search_tree_type (model : t9_model_t C) (sequence : List Nat) :
    Except Fault (t9_error_t × t9_model_t C) :=
  match model.search_tree with
  | none => .ok (.T9_FAILURE, model)
  | some _ =>
    if t9_corpus_validate_lexicon_symbols sequence = false then .ok (.T9_FAILURE, model)
    else type_loop sequence model

/-- Function `t9_model_autocomplete`; the third component is `*suggestion`, left
untouched (`none`) on failure.  `kv_A(model->paths, 0)` on an empty vector reads
outside the vector. -/
def t9_model_autocomplete (model : t9_model_t C) (lexicon_sequence : List Nat) :
    Except Fault (t9_error_t × t9_model_t C × Option (List Nat)) :=
  match t9_search_tree_type model lexicon_sequence with
  | .error e => .error e
  | .ok (.T9_FAILURE, model1) => .ok (.T9_FAILURE, model1, none)
  | .ok (.T9_SUCCESS, model1) =>
    match model1.search_tree, model1.paths with
    | none, _ => .error .undefined_behaviour
    | some _, [] => .error .undefined_behaviour
    | some tree, path :: _ =>
      match t9_path_flatten tree.root path with
      | .error e => .error e
      | .ok none => .ok (.T9_FAILURE, model1, none)
      | .ok (some str) => .ok (.T9_SUCCESS, model1, some str)

end Search

/-! ## Notions used in the statements -/

/-- One of the twelve key symbols `0`-`9`, `*`, `#`. -/
def is_key_symbol (s : Nat) : Prop :=
  (('0').toNat ≤ s ∧ s ≤ ('9').toNat) ∨ s = ('*').toNat ∨ s = ('#').toNat

/-- The symbol set of a key: the characters of the string `t9_corpus_ltoc` returns
for it (empty for a symbol that is no key). -/
def key_symbol_set (key : Nat) : List Nat :=
  cstr ((t9_corpus_ltoc key).getD [])

/-- The node reached from `node` by following the symbols of `word`, at each step
into the first child carrying the symbol; `none` when a step has no such child. -/
def descend : t9_corpus_node_t → List Nat → Option t9_corpus_node_t
  | node, [] => some node
  | node, s :: rest =>
    match matching_child s node.children with
    | none => none
    | some child => descend child rest

/-- The effect of `t9_corpus_node_get_child_safe` followed by a write through the
returned pointer: `f` is applied to the first child carrying `symbol`, or to a new
last child when there is none. -/
def with_child (symbol : Nat) (f : t9_corpus_node_t → t9_corpus_node_t) :
    List t9_corpus_node_t → List t9_corpus_node_t
  | [] => [f (.mk 0 symbol 0 [])]
  | child :: rest =>
    if child.symbol = symbol then f child :: rest
    else child :: with_child symbol f rest

mutual
/-- No node lies more than `k` levels below the given node. -/
def height_le : Nat → t9_corpus_node_t → Prop
  | k, .mk _ _ _ cs =>
    match k with
    | 0 => cs = []
    | k1 + 1 => height_le_list k1 cs
/-- Every node of the list satisfies `height_le k`. -/
def height_le_list : Nat → List t9_corpus_node_t → Prop
  | _, [] => True
  | k, child :: rest => height_le k child ∧ height_le_list k rest
end

/-- The training text `banana`. -/
def banana : corpus_t := ⟨bytes "banana", []⟩

/-- The finalized trie of the text `banana` with windows of length 2. -/
def banana_tree : t9_corpus_tree_t :=
  match build_corpus_tree banana 2 with
  | .ok tree => tree
  | .error _ => t9_corpus_tree_create

/-- The contiguous windows of length `N` of a text, sliding by one symbol: one
window for every start offset `0, ..., len - N`. -/
def windows (text : List Nat) (N : Nat) : List (List Nat) :=
  if N ≤ text.length then
    (List.range (text.length - N + 1)).map (fun o => (text.drop o).take N)
  else []

/-- Number of windows of length `N` of the text that start with the word `w`. -/
def windows_starting_with (text : List Nat) (N : Nat) (w : List Nat) : Nat :=
  ((windows text N).filter (fun win => decide (win.take w.length = w))).length

/-- The count stored at the node reached from the root by following `w`. -/
def count_at (tree : t9_corpus_tree_t) (w : List Nat) : Option Nat :=
  (descend tree.root w).map (·.count)

mutual
/-- The property `P` holds for the node and for every node below it. -/
def all_nodes (P : t9_corpus_node_t → Prop) : t9_corpus_node_t → Prop
  | .mk c s p cs => P (.mk c s p cs) ∧ all_nodes_list P cs
/-- The property `P` holds for every node of the list and every node below. -/
def all_nodes_list (P : t9_corpus_node_t → Prop) : List t9_corpus_node_t → Prop
  | [] => True
  | child :: rest => all_nodes P child ∧ all_nodes_list P rest
end

/-- Sum of the probabilities of a child vector. -/
def prob_sum : List t9_corpus_node_t → ℚ
  | [] => 0
  | child :: rest => child.probability + prob_sum rest

mutual
/-- Shape of a trie filled with zero-free windows of one length: the node has
been counted at least once, and either it lies on the last level (`k = 0`) and
has no children, or every window through it went on into a child. -/
def full : Nat → t9_corpus_node_t → Prop
  | k, .mk c _ _ cs =>
    1 ≤ c ∧
      match k with
      | 0 => cs = []
      | k1 + 1 => count_sum cs = c ∧ full_list k1 cs
/-- Every node of the list satisfies `full k`. -/
def full_list : Nat → List t9_corpus_node_t → Prop
  | _, [] => True
  | k, child :: rest => full k child ∧ full_list k rest
end

/-! ## A model of the float costs in exact arithmetic

The cost `-ln q` of a likelihood `q` is represented by `q` itself: adding costs
multiplies likelihoods, a smaller likelihood is a larger cost, and the
likelihood 0 is the infinite cost.  The constant `-1.0f`, which is below every
cost of a node, is a value of its own. -/

/-- Costs in exact arithmetic. -/
inductive LogCost where
  | sentinel
  | val (likelihood : ℚ)
deriving DecidableEq

/-- Position of a cost in the order: the sentinel first, then by falling
likelihood. -/
def LogCost.key : LogCost → WithBot ℚᵒᵈ
  | .sentinel => ⊥
  | .val q => ((OrderDual.toDual q : ℚᵒᵈ) : WithBot ℚᵒᵈ)

/-- Sum of two costs. -/
def LogCost.add : LogCost → LogCost → LogCost
  | .val a, .val b => .val (a * b)
  | _, _ => .sentinel

instance : T9Math LogCost :=
  { LinearOrder.lift' LogCost.key (by
      intro a b h
      cases a <;> cases b <;> simp [LogCost.key] at h ⊢
      exact h) with
    add := LogCost.add
    zero := .val 1
    neg_ln := fun q => .val q
    minus_one := .sentinel }

/-- A model as `main` sets it up, for a training text, a window length and a
number of kept paths: corpus tree built, search tree created. -/
def example_model (text : String) (ngram_length number_paths : Nat) : t9_model_t LogCost :=
  match build_corpus_tree ⟨bytes text, []⟩ ngram_length with
  | .ok tree =>
    ⟨⟨bytes text, []⟩, some tree, some t9_search_tree_create, [], ngram_length, number_paths⟩
  | .error _ => t9_model_create

/-- The model of `example_model` at the moment `t9_search_tree_type` calls
`t9_search_tree_insert` for the first key: one empty level list has been pushed. -/
def example_model_first_key (text : String) (ngram_length number_paths : Nat) :
    t9_model_t LogCost :=
  match example_model text ngram_length number_paths with
  | ⟨corpus, corpus_tree, some tree, paths, n, k⟩ =>
    ⟨corpus, corpus_tree, some { tree with level_table2 := tree.level_table2 ++ [[]] },
      paths, n, k⟩
  | model => model

/-- Did the run produce a value? -/
def is_ok {α : Type} : Except Fault α → Bool
  | .ok _ => true
  | .error _ => false

instance (s : Nat) : Decidable (is_key_symbol s) := by
  unfold is_key_symbol
  exact inferInstance

section SearchNotions

variable {C : Type} [T9Math C]

/-- One round of the inner loop of `t9_model_sort_paths` seen from the element it
carries along: `p` is the path in the slot under comparison, the list holds the
slots after it. -/
def bubble_from (p : t9_path_t C) : List (t9_path_t C) → List (t9_path_t C)
  | [] => [p]
  | q :: rest =>
    if q.probability < p.probability then q :: bubble_from p rest
    else p :: bubble_from q rest

/-- One full round of the inner loop of `t9_model_sort_paths`. -/
def bubble_pass : List (t9_path_t C) → List (t9_path_t C)
  | [] => []
  | p :: rest => bubble_from p rest

/-- The kept list is sorted ascending by cost. -/
def paths_sorted (paths : List (t9_path_t C)) : Prop :=
  paths.Pairwise (fun a b => a.probability ≤ b.probability)

end SearchNotions

section FrontierNotions

variable {C : Type} [T9Math C]

mutual
/-- The paths from a node to the frontier below it in depth-first order, each as
the search records it: the node pointers after `nodes` down to the leaf and the
cost of the leaf.  `cost` is the cost recorded when the node itself is a leaf. -/
def frontier : t9_search_node_t C → List Nat → C → List (t9_path_t C)
  | .mk _ _ _ cs, nodes, cost =>
    match cs with
    | [] => [⟨cost, nodes⟩]
    | _ :: _ => frontier_list cs nodes
/-- The frontier paths below a child list. -/
def frontier_list : List (t9_search_node_t C) → List Nat → List (t9_path_t C)
  | [], _ => []
  | child :: rest, nodes =>
    frontier child (nodes ++ [child.addr]) child.probability ++ frontier_list rest nodes
end

/-- All root-to-frontier paths of a candidate tree in depth-first discovery
order.  A root without children is recorded with the cost of the empty path. -/
def root_frontier (root : t9_search_node_t C) : List (t9_path_t C) :=
  frontier root [] 0

/-- The number of frontier nodes and of kept paths of the model a run ends in. -/
def frontier_and_kept {ε : Type} :
    Except Fault (ε × t9_model_t C) → Option (Nat × Nat)
  | .ok (_, model) =>
    match model.search_tree with
    | some tree => some ((root_frontier tree.root).length, model.paths.length)
    | none => none
  | .error _ => none

end FrontierNotions
/-- The model of `example_model` after its first key `2` was typed: the 65
candidates of the first level are in the tree. -/
def example_model_searched (text : String) (ngram_length number_paths : Nat) :
    t9_model_t LogCost :=
  match t9_search_tree_insert (example_model_first_key text ngram_length number_paths) 50 with
  | .ok (_, model) => model
  | .error _ => example_model text ngram_length number_paths

section ExhaustiveSearch

variable {C : Type} [T9Math C]

mutual
/-- Every child below the node costs at least as much as its parent. -/
def cost_monotone : t9_search_node_t C → Bool
  | .mk _ _ p cs => cost_monotone_list p cs
/-- Every node of a child list costs at least `p`, and so on below. -/
def cost_monotone_list : C → List (t9_search_node_t C) → Bool
  | _, [] => true
  | p, child :: rest =>
    decide (p ≤ child.probability) && cost_monotone child && cost_monotone_list p rest
end

/-- The exhaustive search the spec compares with: all root-to-frontier paths in
discovery order, stably sorted ascending by cost, cut to the first `K`. -/
def exhaustive_search (K : Nat) (root : t9_search_node_t C) : List (t9_path_t C) :=
  ((root_frontier root).insertionSort (fun a b => a.probability ≤ b.probability)).take K

/-- Put a path behind every kept path that costs no more. -/
def insert_path (x : t9_path_t C) : List (t9_path_t C) → List (t9_path_t C)
  | [] => [x]
  | b :: l => if x.probability < b.probability then x :: b :: l else b :: insert_path x l

/-- A kept list of at most `K` paths takes in further paths one by one. -/
def absorb (K : Nat) : List (t9_path_t C) → List (t9_path_t C) → List (t9_path_t C)
  | kept, [] => kept
  | kept, x :: xs => absorb K ((insert_path x kept).take K) xs

end ExhaustiveSearch
/-- A candidate tree of two leaves below the root, `a` at likelihood 1/4 and `b`
at likelihood 1/2. -/
def two_leaf_tree : t9_search_tree_t LogCost :=
  ⟨.mk 0 32 0 [.mk 1 97 (.val (1 / 4)) [], .mk 2 98 (.val (1 / 2)) []], [[1, 2]], 3⟩

/-- A model around `two_leaf_tree` that keeps one path. -/
def two_leaf_model : t9_model_t LogCost :=
  ⟨⟨[], []⟩, none, some two_leaf_tree, [], 1, 1⟩

section TreeNotions

variable {C : Type}

mutual
/-- The node pointers of a candidate tree in depth-first order. -/
def node_addrs : t9_search_node_t C → List Nat
  | .mk a _ _ cs => a :: node_addrs_list cs
/-- The node pointers below a child list. -/
def node_addrs_list : List (t9_search_node_t C) → List Nat
  | [] => []
  | child :: rest => node_addrs child ++ node_addrs_list rest
end

mutual
/-- The node pointers `d` levels below a node, from left to right. -/
def level_addrs : Nat → t9_search_node_t C → List Nat
  | d, .mk a _ _ cs =>
    match d with
    | 0 => [a]
    | d + 1 => level_addrs_list d cs
/-- The node pointers `d` levels below the nodes of a child list. -/
def level_addrs_list : Nat → List (t9_search_node_t C) → List Nat
  | _, [] => []
  | d, child :: rest => level_addrs d child ++ level_addrs_list d rest
end

mutual
/-- Every leaf below the node is exactly `d` levels below it. -/
def uniform : Nat → t9_search_node_t C → Prop
  | d, .mk _ _ _ cs =>
    match d with
    | 0 => cs = []
    | d + 1 => cs ≠ [] ∧ uniform_list d cs
/-- Every leaf below the nodes of a child list is exactly `d` levels below them. -/
def uniform_list : Nat → List (t9_search_node_t C) → Prop
  | _, [] => True
  | d, child :: rest => uniform d child ∧ uniform_list d rest
end

/-- The state of a search tree between two keystrokes: no pointer is used twice,
the allocator is ahead of every pointer, the level list at index `i` holds the
nodes at depth `i + 1` from left to right, and every leaf is as deep as there
are level lists. -/
def tree_ok (tree : t9_search_tree_t C) : Prop :=
  (node_addrs tree.root).Nodup ∧
    (∀ i, i < tree.level_table2.length →
      tree.level_table2.get? i = some (level_addrs (i + 1) tree.root)) ∧
    (∀ a ∈ node_addrs tree.root, a < tree.next_addr) ∧
    uniform tree.level_table2.length tree.root

/-- The answer of the loop over the kept paths in `t9_search_node_prune` for a
path with the given nodes: some kept path has the same length and the same
nodes from the second position on. -/
def kept_by (paths : List (t9_path_t C)) (nodes : List Nat) : Bool :=
  paths.any (fun q =>
    decide (nodes.length = q.nodes.length) &&
      is_equal_loop nodes q.nodes (nodes.length - 1))

mutual
/-- What is left of a subtree when every leaf whose path is not accepted by `keep`
is removed together with every node that loses all its children; `path` holds
the pointers from below the root down to the node itself. -/
def prune_node (keep : List Nat → Bool) :
    t9_search_node_t C → List Nat → Option (t9_search_node_t C)
  | .mk a s p cs, path =>
    match cs with
    | [] => if keep path = true then some (.mk a s p []) else none
    | _ :: _ =>
      match prune_list keep cs path with
      | [] => none
      | c :: cs1 => some (.mk a s p (c :: cs1))
/-- What is left of a child list; `path` leads to the parent. -/
def prune_list (keep : List Nat → Bool) :
    List (t9_search_node_t C) → List Nat → List (t9_search_node_t C)
  | [], _ => []
  | child :: rest, path =>
    match prune_node keep child (path ++ [child.addr]) with
    | some c => c :: prune_list keep rest path
    | none => prune_list keep rest path
end

/-- One step of the way from a node up to the root: the parent without the child
list, the children left of the way and the children right of it. -/
structure frame (C : Type) where
  addr : Nat
  symbol : Nat
  probability : C
  lefts : List (t9_search_node_t C)
  rights : List (t9_search_node_t C)

/-- The whole tree around a node: the frames lead from the parent of the node up
to the root. -/
def plug : List (frame C) → t9_search_node_t C → t9_search_node_t C
  | [], node => node
  | f :: ctx, node =>
    plug ctx (.mk f.addr f.symbol f.probability (f.lefts ++ node :: f.rights))

/-- The whole tree around a node given with its child list, after every node on
the way up that has no child left and is not the root was removed. -/
def close_up (a s : Nat) (p : C) (cs : List (t9_search_node_t C)) :
    List (frame C) → t9_search_node_t C
  | [] => .mk a s p cs
  | f :: ctx =>
    match cs with
    | [] => close_up f.addr f.symbol f.probability (f.lefts ++ f.rights) ctx
    | _ :: _ =>
      plug ctx (.mk f.addr f.symbol f.probability (f.lefts ++ .mk a s p cs :: f.rights))

/-- The pointers from below the root down to the node at `a`, as the pruning
walk has pushed them to its path. -/
def chain_to (a : Nat) : List (frame C) → List Nat
  | [] => []
  | f :: ctx => chain_to f.addr ctx ++ [a]

/-- No pointer is used twice and the level list at index `i` holds the nodes at
depth `i + 1` from left to right. -/
def tree_synced (tree : t9_search_tree_t C) : Prop :=
  (node_addrs tree.root).Nodup ∧
    ∀ i, i < tree.level_table2.length →
      tree.level_table2.get? i = some (level_addrs (i + 1) tree.root)

/-- The tree `tree1` is what pruning made of `tree`: its root is `root`, and the
allocator and the number of level lists are as before. -/
def pruned_to (tree tree1 : t9_search_tree_t C) (root : t9_search_node_t C) : Prop :=
  tree1.root = root ∧ tree1.next_addr = tree.next_addr ∧
    tree1.level_table2.length = tree.level_table2.length ∧ tree_synced tree1

end TreeNotions

/-- What `t9_search_tree_prune` makes of the root: the root stays, below it
`prune_list` decides. -/
def prune_root {C : Type} (keep : List Nat → Bool) :
    t9_search_node_t C → t9_search_node_t C
  | .mk a s p cs => .mk a s p (prune_list keep cs [])

section Labels

variable {C : Type}

mutual
/-- The pairs of node pointer and symbol of a candidate tree in depth-first
order. -/
def node_labels : t9_search_node_t C → List (Nat × Nat)
  | .mk a s _ cs => (a, s) :: node_labels_list cs
/-- The pairs of node pointer and symbol below a child list. -/
def node_labels_list : List (t9_search_node_t C) → List (Nat × Nat)
  | [] => []
  | child :: rest => node_labels child ++ node_labels_list rest
end

end Labels
/-- The model `two_leaf_model` after its search: the cheaper leaf `b` is kept. -/
def two_leaf_searched : t9_model_t LogCost :=
  { two_leaf_model with paths := [⟨.val (1 / 2), [2]⟩] }

/-! ### corpus.c / model.c: evaluation -/

/-- The read `seq[i]` in a string whose allocation holds the symbols and one
terminating zero byte; a read behind the terminator is undefined. -/
def read_symbol (seq : List Nat) (i : Nat) : Except Fault Nat :=
  match (seq ++ [0]).get? i with
  | some c => .ok c
  | none => .error .undefined_behaviour

/-- The `for (i = 0; i < length; i++)` loop of `t9_corpus_sequence_diff`, with `n`
rounds left at index `i`.  The counter never exceeds `length`, so it does not
wrap. -/
def sequence_diff_loop (seq1 seq2 : List Nat) : Nat → Nat → Nat → Except Fault Nat
  | 0, _, diff => .ok diff
  | n + 1, i, diff =>
    match read_symbol seq1 i with
    | .error e => .error e
    | .ok a =>
      match read_symbol seq2 i with
      | .error e => .error e
      | .ok b => sequence_diff_loop seq1 seq2 n (i + 1) (if a ≠ b then diff + 1 else diff)

/-- Function `t9_corpus_sequence_diff`. -/
def t9_corpus_sequence_diff (seq1 seq2 : List Nat) (length : Nat) : Except Fault Nat :=
  sequence_diff_loop seq1 seq2 length 0 0

/-- The `for (i = 0; i < __buffer_size; i++)` loop of
`t9_corpus_lexicon_from_corpus`, with `n` rounds left at index `i`; `none` is
T9_FAILURE. -/
def lexicon_loop (buffer : List Nat) : Nat → Nat → List Nat → Except Fault (Option (List Nat))
  | 0, _, out => .ok (some out)
  | n + 1, i, out =>
    match read_symbol buffer i with
    | .error e => .error e
    | .ok c =>
      match t9_corpus_ctol c with
      | none => .ok none
      | some k => lexicon_loop buffer n (i + 1) (out ++ [k])

/-- Function `t9_corpus_lexicon_from_corpus`; the result is the key string before
its terminator, `none` is T9_FAILURE. -/
def t9_corpus_lexicon_from_corpus (__buffer : List Nat) (__buffer_size : Nat) :
    Except Fault (Option (List Nat)) :=
  lexicon_loop __buffer __buffer_size 0 []

/-- Function `t9_model_evaluate`; the third component is `*error`, `none` when it
is not written or is `0.0 / 0.0`, and otherwise the value of the `double`
quotient `(double) diff / (double) length`; the `printf` is left out. -/
def t9_model_evaluate {C : Type} [T9Math C] (model : t9_model_t C) :
    Except Fault (t9_error_t × t9_model_t C × Option ℚ) :=
  match t9_corpus_lexicon_from_corpus model.corpus.test_buffer
      model.corpus.test_buffer_size with
  | .error e => .error e
  | .ok none => .ok (.T9_FAILURE, model, none)
  | .ok (some lexicon_sequence) =>
    let length := (cstr lexicon_sequence).length
    match t9_model_autocomplete model lexicon_sequence with
    | .error e => .error e
    | .ok (.T9_FAILURE, model1, _) => .ok (.T9_FAILURE, model1, none)
    | .ok (.T9_SUCCESS, _, none) => .error .undefined_behaviour
    | .ok (.T9_SUCCESS, model1, some suggestion) =>
      match t9_corpus_sequence_diff suggestion model1.corpus.test_buffer length with
      | .error e => .error e
      | .ok diff =>
        .ok (.T9_SUCCESS, model1,
          if length = 0 then none else some (rounded_quotient DBL_MANT_DIG diff length))

/-- The number of positions `i < L` at which two texts differ. -/
def differing_positions (a b : List Nat) (L : Nat) : Nat :=
  ((List.range L).filter (fun i => decide (a.getD i 0 ≠ b.getD i 0))).length

/-- The key sequence of a text: the key of every character. -/
def key_sequence (text : List Nat) : List Nat :=
  text.map (fun c => (t9_corpus_ctol c).getD 0)

/-- The fresh model of `example_model` with a test text. -/
def example_model_test (text test : String) (ngram_length number_paths : Nat) :
    t9_model_t LogCost :=
  { example_model text ngram_length number_paths with corpus := ⟨bytes text, bytes test⟩ }

/-- The suggestion of a run of `t9_model_autocomplete` that returned T9_SUCCESS. -/
def suggestion_of {C : Type} :
    Except Fault (t9_error_t × t9_model_t C × Option (List Nat)) → Option (List Nat)
  | .ok (.T9_SUCCESS, _, some str) => some str
  | _ => none

/-- The candidate tree and the model after the key `*` was inserted into the
fresh model of `example_model`, before the search. -/
def star_grown (text : String) (ngram_length number_paths : Nat) :
    t9_search_node_t LogCost × t9_model_t LogCost :=
  match t9_search_node_insert (t9_search_tree_create : t9_search_tree_t LogCost).root 42 [] 0
      { example_model text ngram_length number_paths with
        search_tree := some { (t9_search_tree_create : t9_search_tree_t LogCost) with
          level_table2 := (t9_search_tree_create : t9_search_tree_t LogCost).level_table2 ++
            [[]] } } with
  | .ok r => r
  | .error _ => (t9_search_tree_create.root, example_model text ngram_length number_paths)

/-- Every path of the list costs as much as a path of likelihood 0. -/
def all_infinite (paths : List (t9_path_t LogCost)) : Bool :=
  paths.all (fun x =>
    match x.probability with
    | .val q => decide (q = 0)
    | .sentinel => false)

section PureGrowth

variable {C : Type} [T9Math C]

/-- The string `t9_search_node_insert` works with after its first cut to the last
`ngram_length - 1` symbols. -/
def truncated (ngram_length : Nat) (sequence : List Nat) : List Nat :=
  if (cstr sequence).length ≥ (ngram_length + SIZE_MOD - 1) % SIZE_MOD then
    sequence.drop ((cstr sequence).length - (ngram_length - 1))
  else sequence

/-- The cost `t9_search_node_insert` gives the child with the symbol `symbol` of a
leaf of cost `node_probability` reached with the string `sequence`. -/
def child_cost (corpus_tree : Option t9_corpus_tree_t) (ngram_length t9_input : Nat)
    (sequence : List Nat) (node_probability : C) (symbol : Nat) : C :=
  T9Math.neg_ln (if symbol ∈ key_symbol_set t9_input then PROBABILITY_BUTTON
      else 1 - PROBABILITY_BUTTON) +
    T9Math.neg_ln (t9_corpus_tree_conditional_probability corpus_tree
      ((cstr (truncated ngram_length sequence) ++ [symbol]).take (ngram_length + 1))) +
    node_probability

mutual
/-- The candidate tree after a keystroke with every node pointer forgotten (set
to 0): every leaf gets one child per corpus symbol. -/
def grow_pure (corpus_tree : Option t9_corpus_tree_t) (ngram_length t9_input : Nat) :
    t9_search_node_t C → List Nat → t9_search_node_t C
  | .mk _ s p cs, sequence =>
    match cs with
    | [] =>
      .mk 0 s p (CORPUS_SYMBOLS.map (fun symbol =>
        .mk 0 symbol (child_cost corpus_tree ngram_length t9_input sequence p symbol) []))
    | _ :: _ => .mk 0 s p (grow_pure_list corpus_tree ngram_length t9_input cs sequence)
/-- The children of a node after a keystroke, pointers forgotten. -/
def grow_pure_list (corpus_tree : Option t9_corpus_tree_t) (ngram_length t9_input : Nat) :
    List (t9_search_node_t C) → List Nat → List (t9_search_node_t C)
  | [], _ => []
  | child :: rest, sequence =>
    grow_pure corpus_tree ngram_length t9_input child (cstr sequence ++ [child.symbol]) ::
      grow_pure_list corpus_tree ngram_length t9_input rest sequence
end

mutual
/-- A candidate tree with every node pointer forgotten (set to 0). -/
def strip : t9_search_node_t C → t9_search_node_t C
  | .mk _ s p cs => .mk 0 s p (strip_list cs)
/-- A child list with every node pointer forgotten. -/
def strip_list : List (t9_search_node_t C) → List (t9_search_node_t C)
  | [] => []
  | child :: rest => strip child :: strip_list rest
end

mutual
/-- The root-to-frontier paths of a tree in discovery order, each as its cost and
the symbols of its nodes. -/
def frontier_words : t9_search_node_t C → List Nat → C → List (C × List Nat)
  | .mk _ _ _ cs, word, cost =>
    match cs with
    | [] => [(cost, word)]
    | _ :: _ => frontier_words_list cs word
/-- The frontier paths below a child list, as costs and symbols. -/
def frontier_words_list : List (t9_search_node_t C) → List Nat → List (C × List Nat)
  | [], _ => []
  | child :: rest, word =>
    frontier_words child (word ++ [child.symbol]) child.probability ++
      frontier_words_list rest word
end

/-- The first among the cheapest entries of a list. -/
def first_min {α : Type} (cost : α → C) : List α → Option α
  | [] => none
  | a :: l =>
    match first_min cost l with
    | none => some a
    | some h => if cost a ≤ cost h then some a else some h

end PureGrowth

/-- The candidate tree of the text `banana` with `N = 2` after the keys `2` and
`6`, before pruning, node pointers forgotten. -/
def banana_26 : t9_search_node_t LogCost :=
  grow_pure (example_model "banana" 2 1).corpus_tree 2 54
    (grow_pure (example_model "banana" 2 1).corpus_tree 2 50
      (.mk 0 32 0 []) []) []

/-- A second call of `t9_search_tree_type`, made with the sequence `b` when the
first call `r` returned T9_SUCCESS; otherwise the outcome of the first call
stands. -/
def then_type {C : Type} [T9Math C] (r : Except Fault (t9_error_t × t9_model_t C))
    (b : List Nat) : Except Fault (t9_error_t × t9_model_t C) :=
  match r with
  | .ok (.T9_SUCCESS, m1) => t9_search_tree_type m1 b
  | r => r

/-- One keystroke seen from outside: `tree` is the search tree before the level
list of the key is pushed, `tree2` the tree after `t9_search_node_insert`,
`paths` the kept list of the search and `tree3` the tree after
`t9_search_tree_prune`.  The insert is `grow_pure` up to the pointers, the new
nodes are the deepest level and carry the pointers the allocator handed out,
the levels above are as before, and the prune, which does not run before the
tree is `N` levels deep, leaves the root as it was or cut by `prune_root`. -/
def key_step {C : Type} [T9Math C] (corpus_tree : Option t9_corpus_tree_t)
    (ngram_length key : Nat) (tree tree2 : t9_search_tree_t C) (paths : List (t9_path_t C))
    (tree3 : t9_search_tree_t C) : Prop :=
  tree_ok tree2 ∧ tree_ok tree3 ∧
    tree2.level_table2.length = tree.level_table2.length + 1 ∧
    tree3.level_table2.length = tree.level_table2.length + 1 ∧
    strip tree2.root = grow_pure corpus_tree ngram_length key tree.root [] ∧
    (∃ n, level_addrs (tree.level_table2.length + 1) tree2.root =
        List.range' tree.next_addr n ∧ tree2.next_addr = tree.next_addr + n) ∧
    (∀ j, j ≤ tree.level_table2.length →
      level_addrs j tree2.root = level_addrs j tree.root) ∧
    tree3.next_addr = tree2.next_addr ∧
    (tree3.root = tree2.root ∨ tree3.root = prune_root (kept_by paths) tree2.root) ∧
    (tree.level_table2.length + 1 < ngram_length → tree3 = tree2)

/-- The level index agrees with the tree: a pointer is in the level list for
depth `d` (index `d - 1`) exactly when its node is a live node `d ≥ 1` levels
below the root, no level list holds a pointer twice, and no pointer is in two
level lists. -/
def level_index_synced {C : Type} (tree : t9_search_tree_t C) : Prop :=
  (∀ d a, 1 ≤ d →
      (a ∈ level_addrs d tree.root ↔ a ∈ tree.level_table2.getD (d - 1) [])) ∧
    (∀ i, (tree.level_table2.getD i []).Nodup) ∧
    (∀ i j a, a ∈ tree.level_table2.getD i [] → a ∈ tree.level_table2.getD j [] → i = j)

/-- The complete candidate tree after the keys `keys`, node pointers forgotten:
every leaf was expanded at every keystroke and no node was removed. -/
def full_tree {C : Type} [T9Math C] (corpus_tree : Option t9_corpus_tree_t)
    (ngram_length : Nat) (keys : List Nat) : t9_search_node_t C :=
  keys.foldl (fun root key => grow_pure corpus_tree ngram_length key root [])
    (strip (t9_search_tree_create : t9_search_tree_t C).root)

section CostNotions

variable {C : Type} [T9Math C]

/-- The context of the spec for a parent reached by the symbols `path`: the last
`min d (N - 1)` symbols of the `d` symbols of the path. -/
def context (ngram_length : Nat) (path : List Nat) : List Nat :=
  path.drop (path.length - (ngram_length - 1))

/-- The press probability of the spec: `PROBABILITY_BUTTON` for a symbol of the
symbol set of the key, one minus it for any other symbol. -/
def press_probability (key symbol : Nat) : ℚ :=
  if symbol ∈ key_symbol_set key then PROBABILITY_BUTTON else 1 - PROBABILITY_BUTTON

/-- The cost the spec gives a new child with the symbol `symbol` below a parent of
cost `parent_cost` reached by the symbols `path`, for the key `key`: the three
summands of the spec, added in the order in which the code adds them. -/
def spec_child_cost (corpus_tree : Option t9_corpus_tree_t) (ngram_length key : Nat)
    (path : List Nat) (parent_cost : C) (symbol : Nat) : C :=
  T9Math.neg_ln (press_probability key symbol) +
    T9Math.neg_ln (t9_corpus_tree_conditional_probability corpus_tree
      (context ngram_length path ++ [symbol])) +
    parent_cost

mutual
/-- Every node below the node, which is reached by the symbols `path`, carries a
symbol of `CORPUS_SYMBOLS` and the cost `child_cost` computes from the cost of
its parent, the path to its parent and the key of its level; `keys` are the keys
of the levels below the node. -/
def costs_follow (corpus_tree : Option t9_corpus_tree_t) (ngram_length : Nat) :
    List Nat → t9_search_node_t C → List Nat → Prop
  | keys, .mk _ _ p cs, path => costs_follow_list corpus_tree ngram_length keys p path cs
/-- The children of a node of cost `p` reached by `path` carry the costs
`child_cost` computes, and so on below. -/
def costs_follow_list (corpus_tree : Option t9_corpus_tree_t) (ngram_length : Nat) :
    List Nat → C → List Nat → List (t9_search_node_t C) → Prop
  | _, _, _, [] => True
  | keys, p, path, child :: rest =>
    (match keys with
      | [] => False
      | key :: ks =>
        child.symbol ∈ CORPUS_SYMBOLS ∧
          child.probability =
            child_cost corpus_tree ngram_length key path p child.symbol ∧
          costs_follow corpus_tree ngram_length ks child (path ++ [child.symbol])) ∧
      costs_follow_list corpus_tree ngram_length keys p path rest
end

mutual
/-- The nodes below a node reached by the symbols `path`, each as its cost and the
symbols from below the root down to it, in depth-first order. -/
def all_words : t9_search_node_t C → List Nat → List (C × List Nat)
  | .mk _ _ _ cs, path => all_words_list cs path
/-- The nodes of a child list and below, as costs and symbols. -/
def all_words_list : List (t9_search_node_t C) → List Nat → List (C × List Nat)
  | [], _ => []
  | child :: rest, path =>
    (child.probability, path ++ [child.symbol]) ::
      (all_words child (path ++ [child.symbol]) ++ all_words_list rest path)
end

/-- The condition of the spec for a finite cost: at every position of `word` the
symbol is in the symbol set of the key pressed at this position, and the n-gram
of the context and the symbol has a conditional probability other than zero.
`path` holds the symbols before `word`, `keys` the keys from there on. -/
def path_possible (corpus_tree : Option t9_corpus_tree_t) (ngram_length : Nat) :
    List Nat → List Nat → List Nat → Prop
  | _, _, [] => True
  | [], _, _ :: _ => False
  | key :: ks, path, symbol :: rest =>
    symbol ∈ key_symbol_set key ∧
      t9_corpus_tree_conditional_probability corpus_tree
        (context ngram_length path ++ [symbol]) ≠ 0 ∧
      path_possible corpus_tree ngram_length ks (path ++ [symbol]) rest

/-- The cost `+∞`: the value of `-t9_ln(0)`. -/
def infinite_cost : C := T9Math.neg_ln 0

/-- A cost that can occur in the tree: between zero and `+∞`. -/
def cost_in_range (c : C) : Prop := 0 ≤ c ∧ c ≤ infinite_cost

/-- The facts about the float operations behind the monotone growth of the costs:
`-t9_ln` maps a probability to a cost between zero and `+∞`, and the sum of two
such costs is such a cost and not smaller than either. -/
structure cost_range_laws (C : Type) [T9Math C] : Prop where
  neg_ln_range : ∀ q : ℚ, 0 ≤ q → q ≤ 1 → cost_in_range (T9Math.neg_ln q : C)
  add_range : ∀ a b : C, cost_in_range a → cost_in_range b →
    cost_in_range (a + b) ∧ a ≤ a + b ∧ b ≤ a + b

/-- The facts about the float operations behind the finiteness of the costs:
`-t9_ln` of a probability is `+∞` for the probability zero only, and a sum of
two costs is finite exactly when both are. -/
structure cost_finite_laws (C : Type) [T9Math C] : Prop where
  neg_ln_finite : ∀ q : ℚ, 0 ≤ q → q ≤ 1 →
    ((T9Math.neg_ln q : C) < infinite_cost ↔ q ≠ 0)
  add_finite : ∀ a b : C, cost_in_range a → cost_in_range b →
    (a + b < infinite_cost ↔ a < infinite_cost ∧ b < infinite_cost)

end CostNotions

/-- A fresh model of the text `banana` with `N = 2` that keeps `K` paths, with the
trie `banana_tree`. -/
def banana_fresh (K : Nat) : t9_model_t LogCost :=
  ⟨banana, some banana_tree, some t9_search_tree_create, [], 2, K⟩

/-- The upward walk of the spec through a tree, over the pointers of a path given
from its deepest node up: a node that has no children when the walk reaches it
is detached, and the walk stops at the first node that still has children. -/
def spec_prune_walk {C : Type} [T9Math C] :
    List Nat → t9_search_node_t C → t9_search_node_t C
  | [], root => root
  | a :: up, root =>
    match find_node a root with
    | some n =>
      if t9_search_node_is_leaf n = true then spec_prune_walk up (remove_node a root)
      else root
    | none => root

/-- The pointers of the children of the node at `a`. -/
def child_addrs {C : Type} (root : t9_search_node_t C) (a : Nat) : List Nat :=
  match find_node a root with
  | some n => n.children2.map t9_search_node_t.addr
  | none => []

/-- The nodes of a piece of a path have no children other than their successor on
the path: every node has its successor as only child, the last has none. -/
def sole_chain {C : Type} (root : t9_search_node_t C) : List Nat → Prop
  | [] => True
  | [a] => child_addrs root a = []
  | a :: b :: rest => child_addrs root a = [b] ∧ sole_chain root (b :: rest)

/-- The pointers the upward walk removes, seen from the way up to the root: the
node at `a` with the children left in `cs`, then its ancestors below the root,
as long as no child is left. -/
def removed_chain {C : Type} : Nat → List (t9_search_node_t C) → List (frame C) → List Nat
  | _, _, [] => []
  | a, [], f :: ctx => removed_chain f.addr (f.lefts ++ f.rights) ctx ++ [a]
  | _, _ :: _, _ :: _ => []

/-- In the tree `root` every node on the way up has the children its frame lists,
with the node below it in their middle. -/
def chain_children {C : Type} (root : t9_search_node_t C) : Nat → List (frame C) → Prop
  | _, [] => True
  | below, f :: ctx =>
    child_addrs root f.addr =
        f.lefts.map t9_search_node_t.addr ++ below :: f.rights.map t9_search_node_t.addr ∧
      chain_children root f.addr ctx

/-- The windows `t9_corpus_tree_insert_ngrams` hands to
`t9_corpus_node_insert_ngram` for a text longer than `N`: the windows of length
`N` at the start offsets `0, ..., len - N - 1`. -/
def inserted_windows (text : List Nat) (N : Nat) : List (List Nat) :=
  (List.range (text.length - N)).map (fun o => (text.drop o).take N)

/-- The finalized trie of the text `banana` with windows of length 3. -/
def banana_tree3 : t9_corpus_tree_t :=
  match build_corpus_tree ⟨bytes "banana", bytes "00a"⟩ 3 with
  | .ok tree => tree
  | .error _ => t9_corpus_tree_create

/-- A fresh model of the text `banana` with `N = 3`, one kept path and the test
text `00a`. -/
def banana_test_model : t9_model_t LogCost :=
  ⟨⟨bytes "banana", bytes "00a"⟩, some banana_tree3, some t9_search_tree_create, [], 3, 1⟩

/-! # Theorems -/

/-! ## Binary floating point: rounding -/

theorem round_half_even_cases (y : ℚ) :
    (round_half_even y = ⌊y⌋ ∧ y - (⌊y⌋ : ℚ) ≤ 1 / 2) ∨
      (round_half_even y = ⌊y⌋ + 1 ∧ 1 / 2 ≤ y - (⌊y⌋ : ℚ)) := by
  unfold round_half_even
  split_ifs with h1 h2 h3
  · exact Or.inl ⟨rfl, le_of_lt h1⟩
  · exact Or.inr ⟨rfl, le_of_lt h2⟩
  · exact Or.inl ⟨rfl, not_lt.mp h2⟩
  · exact Or.inr ⟨rfl, not_lt.mp h1⟩

theorem round_half_even_error (y : ℚ) : |(round_half_even y : ℚ) - y| ≤ 1 / 2 := by
  have hf1 : (⌊y⌋ : ℚ) ≤ y := Int.floor_le y
  have hf2 : y < (⌊y⌋ : ℚ) + 1 := Int.lt_floor_add_one y
  rcases round_half_even_cases y with ⟨h, hr⟩ | ⟨h, hr⟩
  · rw [h, abs_le]; constructor <;> linarith
  · rw [h, abs_le]; push_cast; constructor <;> linarith

theorem round_half_even_int (k : ℤ) : round_half_even (k : ℚ) = k := by
  unfold round_half_even
  simp

theorem round_half_even_mono {y z : ℚ} (h : y ≤ z) : round_half_even y ≤ round_half_even z := by
  have hfl : ⌊y⌋ ≤ ⌊z⌋ := Int.floor_mono h
  rcases lt_or_eq_of_le hfl with hlt | heq
  · have h1 : round_half_even y ≤ ⌊y⌋ + 1 := by
      rcases round_half_even_cases y with ⟨e, _⟩ | ⟨e, _⟩ <;> omega
    have h2 : ⌊z⌋ ≤ round_half_even z := by
      rcases round_half_even_cases z with ⟨e, _⟩ | ⟨e, _⟩ <;> omega
    omega
  · unfold round_half_even
    rw [← heq]
    have hyz : y - (⌊y⌋ : ℚ) ≤ z - (⌊y⌋ : ℚ) := by linarith
    split_ifs <;> first | omega | (exfalso; linarith)

theorem le_round_half_even (k : ℤ) (y : ℚ) (h : (k : ℚ) ≤ y) : k ≤ round_half_even y := by
  have := round_half_even_mono h
  rwa [round_half_even_int] at this

theorem round_half_even_le (k : ℤ) (y : ℚ) (h : y ≤ (k : ℚ)) : round_half_even y ≤ k := by
  have := round_half_even_mono h
  rwa [round_half_even_int] at this

theorem exponent_down_spec :
    ∀ (fuel : Nat) (x : ℚ), 1 ≤ x → x < 2 ^ fuel →
      (2 : ℚ) ^ exponent_down fuel x ≤ x ∧ x < (2 : ℚ) ^ (exponent_down fuel x + 1) := by
  intro fuel
  induction fuel with
  | zero => intro x h1 h2; simp at h2; linarith
  | succ fuel ih =>
    intro x h1 h2
    unfold exponent_down
    split_ifs with h
    · have h3 := ih (x / 2) (by linarith) (by rw [pow_succ] at h2; linarith)
      have e1 : (2 : ℚ) ^ (exponent_down fuel (x / 2) + 1) =
          2 ^ exponent_down fuel (x / 2) * 2 := zpow_add_one₀ (by norm_num) _
      have e2 : (2 : ℚ) ^ (exponent_down fuel (x / 2) + 1 + 1) =
          2 ^ exponent_down fuel (x / 2) * 2 * 2 := by
        rw [zpow_add_one₀ (by norm_num : (2 : ℚ) ≠ 0), e1]
      rw [e1] at h3
      rw [e1, e2]
      constructor
      · linarith [h3.1]
      · linarith [h3.2]
    · simp only [zpow_zero, zero_add, zpow_one]
      exact ⟨h1, not_le.mp h⟩

theorem exponent_up_spec :
    ∀ (fuel : Nat) (x : ℚ), 0 < x → x < 2 → 1 ≤ x * 2 ^ fuel →
      (2 : ℚ) ^ exponent_up fuel x ≤ x ∧ x < (2 : ℚ) ^ (exponent_up fuel x + 1) := by
  intro fuel
  induction fuel with
  | zero =>
    intro x h0 h2 h1
    simp at h1
    simp only [exponent_up, zpow_zero, zero_add, zpow_one]
    exact ⟨h1, h2⟩
  | succ fuel ih =>
    intro x h0 h2 h1
    unfold exponent_up
    split_ifs with h
    · have h3 := ih (2 * x) (by linarith) (by linarith) (by rw [pow_succ] at h1; linarith)
      rw [sub_add_cancel]
      have e : (2 : ℚ) ^ (exponent_up fuel (2 * x) + 1) = 2 ^ exponent_up fuel (2 * x) * 2 :=
        zpow_add_one₀ (by norm_num) _
      have e2 : (2 : ℚ) ^ (exponent_up fuel (2 * x) - 1) = 2 ^ exponent_up fuel (2 * x) / 2 := by
        rw [zpow_sub_one₀ (by norm_num : (2 : ℚ) ≠ 0)]; rfl
      rw [e] at h3
      rw [e2]
      constructor
      · linarith [h3.1]
      · linarith [h3.2]
    · simp only [zpow_zero, zero_add, zpow_one]
      exact ⟨not_lt.mp h, h2⟩

theorem floor_log2_spec (x : ℚ) (h : 0 < x) :
    (2 : ℚ) ^ floor_log2 x ≤ x ∧ x < (2 : ℚ) ^ (floor_log2 x + 1) := by
  unfold floor_log2
  have hnum : 0 < x.num := Rat.num_pos.mpr h
  have hden : (0 : ℚ) < x.den := by exact_mod_cast x.den_pos
  split_ifs with h1
  · apply exponent_down_spec _ _ h1
    have e : x ≤ (x.num.toNat : ℚ) := by
      have : (x.num.toNat : ℤ) = x.num := Int.toNat_of_nonneg (le_of_lt hnum)
      have e1 : x = (x.num : ℚ) / (x.den : ℚ) := (Rat.num_div_den x).symm
      have e2 : ((x.num.toNat : ℕ) : ℚ) = (x.num : ℚ) := by exact_mod_cast this
      rw [e2]
      have hd1 : (1 : ℚ) ≤ x.den := by exact_mod_cast x.den_pos
      have hn0 : (0 : ℚ) < x.num := by exact_mod_cast hnum
      calc x = (x.num : ℚ) / (x.den : ℚ) := e1
        _ ≤ (x.num : ℚ) / 1 := by
            apply div_le_div_of_nonneg_left (le_of_lt hn0) (by norm_num) hd1
        _ = x.num := by simp
    have : ((x.num.toNat : ℕ) : ℚ) < 2 ^ x.num.toNat := by
      exact_mod_cast Nat.lt_two_pow x.num.toNat
    linarith
  · apply exponent_up_spec _ _ h (by linarith)
    have e1 : x = (x.num : ℚ) / (x.den : ℚ) := (Rat.num_div_den x).symm
    have hn1 : (1 : ℚ) ≤ x.num := by exact_mod_cast hnum
    have hpow : ((x.den : ℕ) : ℚ) < 2 ^ x.den := by exact_mod_cast Nat.lt_two_pow x.den
    have : 1 / (x.den : ℚ) ≤ x := by
      conv_rhs => rw [e1]
      apply div_le_div_of_nonneg_right hn1 (le_of_lt hden)
    have h3 : (1 : ℚ) = 1 / (x.den : ℚ) * x.den := by field_simp
    calc (1 : ℚ) = 1 / (x.den : ℚ) * x.den := h3
      _ ≤ x * 2 ^ x.den := by
          apply mul_le_mul this (le_of_lt hpow) (le_of_lt hden) (le_of_lt h)

theorem floor_log2_mono {x y : ℚ} (hx : 0 < x) (h : x ≤ y) : floor_log2 x ≤ floor_log2 y := by
  have h1 := (floor_log2_spec x hx).1
  have h2 := (floor_log2_spec y (lt_of_lt_of_le hx h)).2
  have h3 : (2 : ℚ) ^ floor_log2 x < (2 : ℚ) ^ (floor_log2 y + 1) := by linarith
  have := (zpow_lt_zpow_iff_right₀ (by norm_num : (1 : ℚ) < 2)).mp h3
  omega



theorem two_zpow_pos (e : ℤ) : (0 : ℚ) < (2 : ℚ) ^ e := zpow_pos (by norm_num) e

theorem round_to_precision_nonneg (p : Nat) (x : ℚ) : 0 ≤ round_to_precision p x := by
  unfold round_to_precision
  split_ifs with h
  · exact le_refl 0
  · have hx : 0 < x := not_le.mp h
    apply div_nonneg _ (le_of_lt (two_zpow_pos _))
    have : (0 : ℤ) ≤ round_half_even (x * (2 : ℚ) ^ ((p : ℤ) - 1 - floor_log2 x)) :=
      le_round_half_even 0 _ (by
        simp only [Int.cast_zero]
        exact le_of_lt (mul_pos hx (two_zpow_pos _)))
    exact_mod_cast this

theorem round_to_precision_error (p : Nat) (x : ℚ) (h : 0 < x) :
    |round_to_precision p x - x| ≤ x / 2 ^ p := by
  unfold round_to_precision
  rw [if_neg (not_le.mpr h)]
  have h1 := (floor_log2_spec x h).1
  have hq := two_zpow_pos (floor_log2 x)
  have key : (2 : ℚ) ^ ((p : ℤ) - 1 - floor_log2 x) * ((2 : ℚ) ^ floor_log2 x * 2) = 2 ^ p := by
    rw [← zpow_add_one₀ (by norm_num : (2 : ℚ) ≠ 0), ← zpow_add₀ (by norm_num : (2 : ℚ) ≠ 0)]
    have : (p : ℤ) - 1 - floor_log2 x + (floor_log2 x + 1) = (p : ℤ) := by ring
    rw [this, zpow_natCast]
  have hs := two_zpow_pos ((p : ℤ) - 1 - floor_log2 x)
  have he := round_half_even_error (x * (2 : ℚ) ^ ((p : ℤ) - 1 - floor_log2 x))
  generalize (2 : ℚ) ^ ((p : ℤ) - 1 - floor_log2 x) = s at key hs he ⊢
  generalize (round_half_even (x * s) : ℚ) = a at he ⊢
  generalize (2 : ℚ) ^ floor_log2 x = t at key hq h1
  have e1 : a / s - x = (a - x * s) / s := by field_simp; ring
  rw [e1, abs_div, abs_of_pos hs, div_le_iff₀ hs, ← key]
  have e2 : x / (s * (t * 2)) * s = x / t * (1 / 2) := by field_simp; ring
  rw [e2]
  have h2 : 1 ≤ x / t := by
    rw [le_div_iff₀ hq]
    linarith
  linarith

theorem round_to_precision_pos (p : Nat) (hp : 1 ≤ p) (x : ℚ) (h : 0 < x) :
    0 < round_to_precision p x := by
  have h1 := round_to_precision_error p x h
  have h2 : x / 2 ^ p ≤ x / 2 := by
    apply div_le_div_of_nonneg_left (le_of_lt h) (by norm_num)
    calc (2 : ℚ) = 2 ^ 1 := by norm_num
      _ ≤ 2 ^ p := pow_le_pow_right₀ (by norm_num) hp
  have h3 := (abs_le.mp h1).1
  linarith

theorem round_to_precision_zero (p : Nat) : round_to_precision p 0 = 0 := by
  simp [round_to_precision]

theorem round_to_precision_bounds (p : Nat) (hp : 1 ≤ p) (x : ℚ) (h : 0 < x) :
    (2 : ℚ) ^ floor_log2 x ≤ round_to_precision p x ∧
      round_to_precision p x ≤ (2 : ℚ) ^ (floor_log2 x + 1) := by
  unfold round_to_precision
  rw [if_neg (not_le.mpr h)]
  have hs := two_zpow_pos ((p : ℤ) - 1 - floor_log2 x)
  have hspec := floor_log2_spec x h
  obtain ⟨q, hq⟩ : ∃ q : Nat, p = q + 1 := ⟨p - 1, by omega⟩
  have e1 : (2 : ℚ) ^ floor_log2 x * (2 : ℚ) ^ ((p : ℤ) - 1 - floor_log2 x) =
      (((2 : ℤ) ^ q : ℤ) : ℚ) := by
    rw [← zpow_add₀ (by norm_num : (2 : ℚ) ≠ 0)]
    have : floor_log2 x + ((p : ℤ) - 1 - floor_log2 x) = (q : ℤ) := by rw [hq]; push_cast; ring
    rw [this, zpow_natCast]; push_cast; rfl
  have e2 : (2 : ℚ) ^ (floor_log2 x + 1) * (2 : ℚ) ^ ((p : ℤ) - 1 - floor_log2 x) =
      (((2 : ℤ) ^ p : ℤ) : ℚ) := by
    rw [← zpow_add₀ (by norm_num : (2 : ℚ) ≠ 0)]
    have : floor_log2 x + 1 + ((p : ℤ) - 1 - floor_log2 x) = (p : ℤ) := by ring
    rw [this, zpow_natCast]; push_cast; rfl
  constructor
  · rw [le_div_iff₀ hs, e1]
    have : ((2 : ℤ) ^ q : ℤ) ≤ round_half_even (x * (2 : ℚ) ^ ((p : ℤ) - 1 - floor_log2 x)) := by
      apply le_round_half_even
      rw [← e1]
      exact mul_le_mul_of_nonneg_right hspec.1 (le_of_lt hs)
    exact_mod_cast this
  · rw [div_le_iff₀ hs, e2]
    have : round_half_even (x * (2 : ℚ) ^ ((p : ℤ) - 1 - floor_log2 x)) ≤ ((2 : ℤ) ^ p : ℤ) := by
      apply round_half_even_le
      rw [← e2]
      exact mul_le_mul_of_nonneg_right (le_of_lt hspec.2) (le_of_lt hs)
    exact_mod_cast this

theorem round_to_precision_mono (p : Nat) (hp : 1 ≤ p) {x y : ℚ} (h : x ≤ y) :
    round_to_precision p x ≤ round_to_precision p y := by
  by_cases hx : x ≤ 0
  · have : round_to_precision p x = 0 := by simp [round_to_precision, hx]
    rw [this]
    exact round_to_precision_nonneg p y
  · have hx0 : 0 < x := not_le.mp hx
    have hy0 : 0 < y := lt_of_lt_of_le hx0 h
    have hle := floor_log2_mono hx0 h
    rcases lt_or_eq_of_le hle with hlt | heq
    · have h1 := (round_to_precision_bounds p hp x hx0).2
      have h2 := (round_to_precision_bounds p hp y hy0).1
      have h3 : (2 : ℚ) ^ (floor_log2 x + 1) ≤ (2 : ℚ) ^ floor_log2 y :=
        zpow_le_zpow_right₀ (by norm_num) (by omega)
      linarith
    · unfold round_to_precision
      rw [if_neg hx, if_neg (not_le.mpr hy0), ← heq]
      have hs := two_zpow_pos ((p : ℤ) - 1 - floor_log2 x)
      apply div_le_div_of_nonneg_right _ (le_of_lt hs)
      have : round_half_even (x * (2 : ℚ) ^ ((p : ℤ) - 1 - floor_log2 x)) ≤
          round_half_even (y * (2 : ℚ) ^ ((p : ℤ) - 1 - floor_log2 x)) :=
        round_half_even_mono (mul_le_mul_of_nonneg_right h (le_of_lt hs))
      exact_mod_cast this

theorem floor_log2_one : floor_log2 1 = 0 := by
  simp [floor_log2, exponent_down]

theorem round_to_precision_one (p : Nat) (hp : 1 ≤ p) : round_to_precision p 1 = 1 := by
  unfold round_to_precision
  rw [if_neg (by norm_num), floor_log2_one]
  obtain ⟨q, hq⟩ : ∃ q : Nat, p = q + 1 := ⟨p - 1, by omega⟩
  have e : (2 : ℚ) ^ ((p : ℤ) - 1 - 0) = (((2 : ℤ) ^ q : ℤ) : ℚ) := by
    have : (p : ℤ) - 1 - 0 = (q : ℤ) := by rw [hq]; push_cast; ring
    rw [this, zpow_natCast]; push_cast; rfl
  rw [e, one_mul, round_half_even_int]
  have : ((((2 : ℤ) ^ q : ℤ)) : ℚ) ≠ 0 := by
    have h2 : (0 : ℤ) < (2 : ℤ) ^ q := pow_pos (by norm_num) q
    exact_mod_cast (ne_of_gt h2)
  exact div_self this


theorem rounded_quotient_unit (p : Nat) (hp : 1 ≤ p) (a b : Nat) (h : a ≤ b) :
    0 ≤ rounded_quotient p a b ∧ rounded_quotient p a b ≤ 1 := by
  refine ⟨round_to_precision_nonneg p _, ?_⟩
  have hq : round_to_precision p (a : ℚ) / round_to_precision p (b : ℚ) ≤ 1 := by
    rcases Nat.eq_zero_or_pos b with hb | hb
    · subst hb
      simp [round_to_precision_zero]
    · have hb1 : 0 < round_to_precision p (b : ℚ) :=
        round_to_precision_pos p hp _ (by exact_mod_cast hb)
      rw [div_le_one hb1]
      exact round_to_precision_mono p hp (by exact_mod_cast h)
  calc rounded_quotient p a b ≤ round_to_precision p 1 := round_to_precision_mono p hp hq
    _ = 1 := round_to_precision_one p hp

theorem rounded_quotient_zero (p b : Nat) : rounded_quotient p 0 b = 0 := by
  simp [rounded_quotient, round_to_precision_zero]

theorem rounded_quotient_self (p : Nat) (hp : 1 ≤ p) (b : Nat) (hb : 0 < b) :
    rounded_quotient p b b = 1 := by
  unfold rounded_quotient
  have hb1 : 0 < round_to_precision p (b : ℚ) :=
    round_to_precision_pos p hp _ (by exact_mod_cast hb)
  rw [div_self (ne_of_gt hb1), round_to_precision_one p hp]

theorem rounded_quotient_pos (p : Nat) (hp : 1 ≤ p) (a b : Nat) (ha : 0 < a) (hb : 0 < b) :
    0 < rounded_quotient p a b := by
  unfold rounded_quotient
  apply round_to_precision_pos p hp
  exact div_pos (round_to_precision_pos p hp _ (by exact_mod_cast ha))
    (round_to_precision_pos p hp _ (by exact_mod_cast hb))

theorem rounded_quotient_error (p : Nat) (hp : 3 ≤ p) (a b : Nat) (hb : 0 < b) :
    |rounded_quotient p a b - (a : ℚ) / (b : ℚ)| ≤ 4 / 2 ^ p * ((a : ℚ) / (b : ℚ)) := by
  rcases Nat.eq_zero_or_pos a with ha | ha
  · subst ha
    simp [rounded_quotient_zero]
  have ha0 : (0 : ℚ) < (a : ℚ) := by exact_mod_cast ha
  have hb0 : (0 : ℚ) < (b : ℚ) := by exact_mod_cast hb
  have hp1 : 1 ≤ p := by omega
  have ha1 := round_to_precision_pos p hp1 _ ha0
  have hb1 := round_to_precision_pos p hp1 _ hb0
  have ea := abs_le.mp (round_to_precision_error p _ ha0)
  have eb := abs_le.mp (round_to_precision_error p _ hb0)
  have eq := abs_le.mp (round_to_precision_error p _ (div_pos ha1 hb1))
  unfold rounded_quotient
  have hu0 : (0 : ℚ) < 1 / 2 ^ p := by positivity
  have hu8 : (1 : ℚ) / 2 ^ p ≤ 1 / 8 := by
    apply div_le_div_of_nonneg_left (by norm_num) (by norm_num)
    calc (8 : ℚ) = 2 ^ 3 := by norm_num
      _ ≤ 2 ^ p := pow_le_pow_right₀ (by norm_num) hp
  have e4 : (4 : ℚ) / 2 ^ p = 4 * (1 / 2 ^ p) := by ring
  have ex : ∀ x : ℚ, x / 2 ^ p = x * (1 / 2 ^ p) := fun x => by ring
  rw [ex] at ea eb eq
  rw [e4]
  generalize (1 : ℚ) / 2 ^ p = u at hu0 hu8 ea eb eq ⊢
  generalize round_to_precision p (a : ℚ) = a1 at ha1 ea eq ⊢
  generalize round_to_precision p (b : ℚ) = b1 at hb1 eb eq ⊢
  generalize round_to_precision p (a1 / b1) = r at eq ⊢
  generalize (a : ℚ) = x at ha0 ea ⊢
  generalize (b : ℚ) = y at hb0 eb ⊢
  have ht : 0 < x / y := div_pos ha0 hb0
  have hq : 0 < a1 / b1 := div_pos ha1 hb1
  have q_le : a1 / b1 ≤ (x * (1 + u)) / (y * (1 - u)) := by
    apply div_le_div₀ (by nlinarith) (by linarith [ea.2]) (by nlinarith) (by linarith [eb.1])
  have q_ge : (x * (1 - u)) / (y * (1 + u)) ≤ a1 / b1 := by
    apply div_le_div₀ (le_of_lt ha1) (by linarith [ea.1]) hb1 (by linarith [eb.2])
  have hxy : 0 < x * y := mul_pos ha0 hb0
  have up : (x * (1 + u)) / (y * (1 - u)) * (1 + u) ≤ x / y * (1 + 4 * u) := by
    have e1 : (x * (1 + u)) / (y * (1 - u)) * (1 + u) = (x * ((1 + u) * (1 + u))) / (y * (1 - u)) := by
      ring
    have e2 : x / y * (1 + 4 * u) = (x * (1 + 4 * u)) / y := by ring
    rw [e1, e2, div_le_div_iff₀ (by nlinarith) hb0]
    have h3 : (1 + u) * (1 + u) ≤ (1 + 4 * u) * (1 - u) := by nlinarith
    have h4 := mul_le_mul_of_nonneg_left h3 (le_of_lt hxy)
    linarith
  have lo : x / y * (1 - 4 * u) ≤ (x * (1 - u)) / (y * (1 + u)) * (1 - u) := by
    have e1 : (x * (1 - u)) / (y * (1 + u)) * (1 - u) = (x * ((1 - u) * (1 - u))) / (y * (1 + u)) := by
      ring
    have e2 : x / y * (1 - 4 * u) = (x * (1 - 4 * u)) / y := by ring
    rw [e1, e2, div_le_div_iff₀ hb0 (by nlinarith)]
    have h3 : (1 - 4 * u) * (1 + u) ≤ (1 - u) * (1 - u) := by nlinarith
    have h4 := mul_le_mul_of_nonneg_left h3 (le_of_lt hxy)
    linarith
  rw [abs_le]
  constructor
  · have h1 : a1 / b1 * (1 - u) ≤ r := by linarith only [eq.1]
    have h2 : (x * (1 - u)) / (y * (1 + u)) * (1 - u) ≤ a1 / b1 * (1 - u) :=
      mul_le_mul_of_nonneg_right q_ge (by linarith only [hu8])
    linarith only [h1, h2, lo]
  · have h1 : r ≤ a1 / b1 * (1 + u) := by linarith only [eq.2]
    have h2 : a1 / b1 * (1 + u) ≤ (x * (1 + u)) / (y * (1 - u)) * (1 + u) :=
      mul_le_mul_of_nonneg_right q_le (by linarith only [hu0])
    linarith only [h1, h2, up]

theorem round_to_precision_exact (p : Nat) (m : Nat) (e : ℤ) (hm : m < 2 ^ p) :
    round_to_precision p ((m : ℚ) * (2 : ℚ) ^ e) = (m : ℚ) * (2 : ℚ) ^ e := by
  rcases Nat.eq_zero_or_pos m with h0 | hpos
  · subst h0
    simp [round_to_precision_zero]
  have hm0 : (0 : ℚ) < (m : ℚ) := by exact_mod_cast hpos
  have hx : 0 < (m : ℚ) * (2 : ℚ) ^ e := mul_pos hm0 (two_zpow_pos e)
  have hspec := floor_log2_spec _ hx
  unfold round_to_precision
  rw [if_neg (not_le.mpr hx)]
  generalize floor_log2 ((m : ℚ) * (2 : ℚ) ^ e) = E at hspec ⊢
  have hs := two_zpow_pos ((p : ℤ) - 1 - E)
  have hy : (m : ℚ) * (2 : ℚ) ^ e * (2 : ℚ) ^ ((p : ℤ) - 1 - E) =
      (m : ℚ) * (2 : ℚ) ^ (e + ((p : ℤ) - 1 - E)) := by
    rw [mul_assoc, ← zpow_add₀ (by norm_num : (2 : ℚ) ≠ 0)]
  have hnonneg : 0 ≤ e + ((p : ℤ) - 1 - E) := by
    by_contra hneg
    have hle : e + ((p : ℤ) - 1 - E) ≤ -1 := by omega
    have h1 : (2 : ℚ) ^ (e + ((p : ℤ) - 1 - E)) ≤ (2 : ℚ) ^ (-1 : ℤ) :=
      zpow_le_zpow_right₀ (by norm_num) hle
    have h2 : (2 : ℚ) ^ E * (2 : ℚ) ^ ((p : ℤ) - 1 - E) ≤
        (m : ℚ) * (2 : ℚ) ^ e * (2 : ℚ) ^ ((p : ℤ) - 1 - E) :=
      mul_le_mul_of_nonneg_right hspec.1 (le_of_lt hs)
    rw [hy, ← zpow_add₀ (by norm_num : (2 : ℚ) ≠ 0)] at h2
    have e3 : E + ((p : ℤ) - 1 - E) = (p : ℤ) - 1 := by ring
    rw [e3] at h2
    have h3 : (m : ℚ) * (2 : ℚ) ^ (e + ((p : ℤ) - 1 - E)) ≤ (m : ℚ) * (2 : ℚ) ^ (-1 : ℤ) :=
      mul_le_mul_of_nonneg_left h1 (le_of_lt hm0)
    have h4 : (m : ℚ) < (2 : ℚ) ^ (p : ℤ) := by
      rw [zpow_natCast]
      exact_mod_cast hm
    have h5 : (2 : ℚ) ^ (p : ℤ) * (2 : ℚ) ^ (-1 : ℤ) = (2 : ℚ) ^ ((p : ℤ) - 1) := by
      rw [← zpow_add₀ (by norm_num : (2 : ℚ) ≠ 0)]
      rfl
    have h6 : (m : ℚ) * (2 : ℚ) ^ (-1 : ℤ) < (2 : ℚ) ^ (p : ℤ) * (2 : ℚ) ^ (-1 : ℤ) :=
      mul_lt_mul_of_pos_right h4 (two_zpow_pos _)
    rw [h5] at h6
    linarith
  obtain ⟨n, hn⟩ := Int.eq_ofNat_of_zero_le hnonneg
  have hint : (m : ℚ) * (2 : ℚ) ^ e * (2 : ℚ) ^ ((p : ℤ) - 1 - E) =
      (((m : ℤ) * (2 : ℤ) ^ n : ℤ) : ℚ) := by
    rw [hy, hn, zpow_natCast]
    push_cast
    rfl
  rw [hint, round_half_even_int, ← hint]
  field_simp

theorem rounded_quotient_exact (p a b : Nat) (ha : a < 2 ^ p) (hb : b < 2 ^ p)
    (m : Nat) (e : ℤ) (hm : m < 2 ^ p) (h : (a : ℚ) / (b : ℚ) = (m : ℚ) * (2 : ℚ) ^ e) :
    rounded_quotient p a b = (a : ℚ) / (b : ℚ) := by
  unfold rounded_quotient
  have h1 := round_to_precision_exact p a 0 ha
  have h2 := round_to_precision_exact p b 0 hb
  simp only [zpow_zero, mul_one] at h1 h2
  rw [h1, h2, h, round_to_precision_exact p m e hm]

mutual
theorem all_nodes_imp (P Q : t9_corpus_node_t → Prop) (h : ∀ n, P n → Q n) :
    ∀ node : t9_corpus_node_t, all_nodes P node → all_nodes Q node
  | .mk c s p cs, hp => by
    simp only [all_nodes] at hp ⊢
    exact ⟨h _ hp.1, all_nodes_list_imp P Q h cs hp.2⟩
theorem all_nodes_list_imp (P Q : t9_corpus_node_t → Prop) (h : ∀ n, P n → Q n) :
    ∀ cs : List t9_corpus_node_t, all_nodes_list P cs → all_nodes_list Q cs
  | [], _ => by simp only [all_nodes_list]
  | child :: rest, hp => by
    simp only [all_nodes_list] at hp ⊢
    exact ⟨all_nodes_imp P Q h child hp.1, all_nodes_list_imp P Q h rest hp.2⟩
end

/-! ## What finalize returns -/


mutual
theorem finalize_child_ok (pc : Nat) :
    ∀ (node node1 : t9_corpus_node_t), finalize_child pc node = .ok node1 →
      node1 = finalized_child pc node
  | .mk c s p cs, node1, h => by
    simp only [finalize_child, float_quotient] at h
    by_cases hpc : pc = 0
    · rw [if_pos hpc] at h; simp at h
    · rw [if_neg hpc] at h
      simp only at h
      cases hc : finalize_children c cs with
      | error e => rw [hc] at h; simp at h
      | ok cs1 =>
        rw [hc] at h
        simp only [Except.ok.injEq] at h
        rw [← h, finalized_child, finalize_children_ok c cs cs1 hc]
theorem finalize_children_ok (pc : Nat) :
    ∀ (cs cs1 : List t9_corpus_node_t), finalize_children pc cs = .ok cs1 →
      cs1 = finalized_children pc cs
  | [], cs1, h => by
    simp only [finalize_children, Except.ok.injEq] at h
    rw [← h, finalized_children]
  | child :: rest, cs1, h => by
    simp only [finalize_children] at h
    cases hc : finalize_child pc child with
    | error e => rw [hc] at h; simp at h
    | ok child1 =>
      rw [hc] at h
      simp only at h
      cases hr : finalize_children pc rest with
      | error e => rw [hr] at h; simp at h
      | ok rest1 =>
        rw [hr] at h
        simp only [Except.ok.injEq] at h
        rw [← h, finalized_children, finalize_child_ok pc child child1 hc,
          finalize_children_ok pc rest rest1 hr]
end

theorem tree_finalize_ok (tree tree1 : t9_corpus_tree_t)
    (h : t9_corpus_tree_finalize tree = .ok tree1) : finalized_tree tree = tree1 := by
  simp only [t9_corpus_tree_finalize, t9_corpus_node_finalize] at h
  cases hc : finalize_children
      (t9_corpus_node_t.mk (tree.root.count + count_sum tree.root.children) tree.root.symbol 0
        tree.root.children).count
      (t9_corpus_node_t.mk (tree.root.count + count_sum tree.root.children) tree.root.symbol 0
        tree.root.children).children with
  | error e => rw [hc] at h; simp at h
  | ok cs1 =>
    rw [hc] at h
    simp only [Except.ok.injEq] at h
    rw [← h, finalized_tree, finalized_node, finalize_children_ok _ _ cs1 hc]

theorem build_ok (corpus : corpus_t) (ngram_length : Nat) (tree : t9_corpus_tree_t)
    (h : build_corpus_tree corpus ngram_length = .ok tree) :
    ∃ tree0, t9_corpus_tree_insert_ngrams t9_corpus_tree_create corpus ngram_length = .ok tree0 ∧
      finalized_tree tree0 = tree := by
  unfold build_corpus_tree at h
  cases hi : t9_corpus_tree_insert_ngrams t9_corpus_tree_create corpus ngram_length with
  | error e => rw [hi] at h; simp at h
  | ok tree0 =>
    rw [hi] at h
    exact ⟨tree0, rfl, tree_finalize_ok tree0 tree h⟩


/-! ## The key mapping -/

theorem lexicon_symbols_eq :
    LEXICON_SYMBOLS = [48, 49, 50, 51, 52, 53, 54, 55, 56, 57, 42, 35] := by
  decide

theorem mem_lexicon_iff (s : Nat) : s ∈ LEXICON_SYMBOLS ↔ is_key_symbol s := by
  rw [lexicon_symbols_eq]
  simp only [is_key_symbol, List.mem_cons, List.mem_singleton, List.not_mem_nil, or_false]
  have h0 : ('0').toNat = 48 := by decide
  have h9 : ('9').toNat = 57 := by decide
  have hs : ('*').toNat = 42 := by decide
  have hr : ('#').toNat = 35 := by decide
  rw [h0, h9, hs, hr]
  omega

theorem validate_scan_iff (s : Nat) (l : List Nat) : validate_scan s l = true ↔ s ∈ l := by
  induction l with
  | nil => simp [validate_scan]
  | cons c rest ih =>
    cases rest with
    | nil => simp [validate_scan]
    | cons d rest2 =>
      unfold validate_scan
      by_cases h : s = c
      · simp [h]
      · simp only [ne_eq, h, not_false_eq_true, if_true, List.mem_cons, false_or]
        rw [ih]
        simp

theorem validate_symbol_iff (s : Nat) :
    t9_corpus_validate_lexicon_symbol s = true ↔ is_key_symbol s := by
  rw [t9_corpus_validate_lexicon_symbol, validate_scan_iff, mem_lexicon_iff]

theorem validate_symbols_iff (symbols : List Nat) :
    t9_corpus_validate_lexicon_symbols symbols = true ↔
      ∀ s ∈ cstr symbols, is_key_symbol s := by
  induction symbols with
  | nil => simp [t9_corpus_validate_lexicon_symbols, cstr]
  | cons c rest ih =>
    unfold t9_corpus_validate_lexicon_symbols cstr
    by_cases h0 : c = 0
    · simp [h0]
    · simp only [h0, if_false]
      by_cases hv : t9_corpus_validate_lexicon_symbol c = true
      · have hk := (validate_symbol_iff c).1 hv
        simp [hv, ih, hk]
      · have hk : ¬ is_key_symbol c := fun hk => hv ((validate_symbol_iff c).2 hk)
        simp only [Bool.not_eq_true] at hv
        simp [hv, hk]

/-- C8: `t9_corpus_validate_lexicon_symbols` accepts a zero-terminated sequence
exactly when every symbol before the terminator is one of the twelve key symbols
(the empty sequence is accepted), and `t9_corpus_validate_lexicon_symbol`
accepts exactly the twelve key symbols (the zero byte is rejected). -/
theorem validate_lexicon_symbols_spec (symbols : List Nat) (symbol : Nat) :
    (t9_corpus_validate_lexicon_symbols symbols = true ↔
        ∀ s ∈ cstr symbols, is_key_symbol s) ∧
      t9_corpus_validate_lexicon_symbols [] = true ∧
      (t9_corpus_validate_lexicon_symbol symbol = true ↔ is_key_symbol symbol) ∧
      t9_corpus_validate_lexicon_symbol 0 = false :=
  ⟨validate_symbols_iff symbols, by decide, validate_symbol_iff symbol, by decide⟩

theorem ctol_scan_iff (s : Nat) (l : List Nat) : ctol_scan s l = true ↔ s ∈ cstr l := by
  induction l with
  | nil => simp [ctol_scan, cstr]
  | cons c rest ih =>
    unfold ctol_scan cstr
    by_cases h0 : c = 0
    · simp [h0]
    · by_cases hc : c = s
      · simp [h0, hc]
      · have hc' : ¬ s = c := fun h => hc h.symm
        simp [h0, hc, hc', ih]

theorem cstr_subset (l : List Nat) : ∀ x ∈ cstr l, x ∈ l := by
  induction l with
  | nil => simp [cstr]
  | cons c rest ih =>
    intro x hx
    unfold cstr at hx
    by_cases h0 : c = 0
    · simp [h0] at hx
    · simp only [h0, if_false, List.mem_cons] at hx
      rcases hx with hx | hx
      · simp [hx]
      · exact List.mem_cons_of_mem _ (ih x hx)

theorem zero_not_mem_cstr (l : List Nat) : 0 ∉ cstr l := by
  induction l with
  | nil => simp [cstr]
  | cons c rest ih =>
    unfold cstr
    by_cases h0 : c = 0
    · simp [h0]
    · simp only [h0, if_false, List.mem_cons, not_or]
      exact ⟨fun h => h0 h.symm, ih⟩

theorem ctol_keys_some (s : Nat) (tbl : List (List Nat)) :
    ∀ i k, ctol_keys s i tbl = some k →
      (∃ l ∈ tbl, s ∈ cstr l) ∧
        ∃ j, i ≤ j ∧ j < i + tbl.length ∧ k = LEXICON_SYMBOLS.getD j 0 := by
  induction tbl with
  | nil => intro i k h; simp [ctol_keys] at h
  | cons l rest ih =>
    intro i k h
    unfold ctol_keys at h
    by_cases hs : ctol_scan s l = true
    · simp only [hs, if_true, Option.some.injEq] at h
      exact ⟨⟨l, by simp, (ctol_scan_iff s l).1 hs⟩, i, le_refl _, by simp, h.symm⟩
    · simp only [hs] at h
      obtain ⟨⟨l', hl', hm⟩, j, h1, h2, h3⟩ := ih (i + 1) k h
      refine ⟨⟨l', List.mem_cons_of_mem _ hl', hm⟩, j, by omega, ?_, h3⟩
      simp only [List.length_cons]
      omega

theorem key_table_subset : ∀ l ∈ key_table, ∀ x ∈ l, x ∈ CORPUS_SYMBOLS := by
  decide

theorem lexicon_getD_mem : ∀ j < 12, LEXICON_SYMBOLS.getD j 0 ∈ LEXICON_SYMBOLS := by
  decide

theorem ltoc_unfold (k : Nat) : t9_corpus_ltoc k =
    if k = 48 then some SYMBOLS_T0 else if k = 49 then some SYMBOLS_T1
    else if k = 50 then some SYMBOLS_T2 else if k = 51 then some SYMBOLS_T3
    else if k = 52 then some SYMBOLS_T4 else if k = 53 then some SYMBOLS_T5
    else if k = 54 then some SYMBOLS_T6 else if k = 55 then some SYMBOLS_T7
    else if k = 56 then some SYMBOLS_T8 else if k = 57 then some SYMBOLS_T9
    else if k = 42 then some SYMBOLS_TS else if k = 35 then some SYMBOLS_TR
    else none := rfl

theorem ltoc_none (k : Nat) (h : k ∉ LEXICON_SYMBOLS) : t9_corpus_ltoc k = none := by
  rw [lexicon_symbols_eq] at h
  simp only [List.mem_cons, List.mem_singleton, List.not_mem_nil, or_false, not_or] at h
  obtain ⟨h0, h1, h2, h3, h4, h5, h6, h7, h8, h9, h10, h11⟩ := h
  rw [ltoc_unfold, if_neg h0, if_neg h1, if_neg h2, if_neg h3, if_neg h4, if_neg h5,
    if_neg h6, if_neg h7, if_neg h8, if_neg h9, if_neg h10, if_neg h11]

theorem ltoc_table :
    ∀ k ∈ LEXICON_SYMBOLS, ∃ set ∈ key_table, t9_corpus_ltoc k = some set := by
  decide

theorem ltoc_some (k : Nat) (set : List Nat) (h : t9_corpus_ltoc k = some set) :
    k ∈ LEXICON_SYMBOLS ∧ set ∈ key_table := by
  by_cases hk : k ∈ LEXICON_SYMBOLS
  · obtain ⟨set', hs, he⟩ := ltoc_table k hk
    rw [he] at h
    simp only [Option.some.injEq] at h
    exact ⟨hk, h ▸ hs⟩
  · rw [ltoc_none k hk] at h
    simp at h

set_option maxRecDepth 100000 in
theorem ctol_ltoc_table : ∀ s ∈ CORPUS_SYMBOLS, ∀ k ∈ LEXICON_SYMBOLS,
    (t9_corpus_ctol s = some k ↔
      (t9_corpus_ltoc k).map (fun set => decide (s ∈ cstr set)) = some true) := by
  decide

set_option maxRecDepth 100000 in
theorem ltoc_disjoint_table : ∀ k ∈ LEXICON_SYMBOLS, ∀ k' ∈ LEXICON_SYMBOLS, k ≠ k' →
    ∀ x ∈ ((t9_corpus_ltoc k).map cstr).getD [],
      x ∉ ((t9_corpus_ltoc k').map cstr).getD [] := by
  decide

theorem ctol_some_iff (s k : Nat) :
    t9_corpus_ctol s = some k ↔ ∃ set, t9_corpus_ltoc k = some set ∧ s ∈ cstr set := by
  by_cases hs : s ∈ CORPUS_SYMBOLS
  · by_cases hk : k ∈ LEXICON_SYMBOLS
    · rw [ctol_ltoc_table s hs k hk]
      constructor
      · intro h
        cases hl : t9_corpus_ltoc k with
        | none => rw [hl] at h; simp at h
        | some set =>
          rw [hl] at h
          simp only [Option.map_some', Option.some.injEq, decide_eq_true_eq] at h
          exact ⟨set, rfl, h⟩
      · rintro ⟨set, hl, hm⟩
        rw [hl]
        simp [hm]
    · constructor
      · intro h
        obtain ⟨-, j, -, hj, hkj⟩ := ctol_keys_some s key_table 0 k h
        exact absurd (hkj ▸ lexicon_getD_mem j (by simpa [key_table] using hj)) hk
      · rintro ⟨set, hl, -⟩
        exact absurd (ltoc_some k set hl).1 hk
  · constructor
    · intro h
      obtain ⟨⟨l, hl, hm⟩, -⟩ := ctol_keys_some s key_table 0 k h
      exact absurd (key_table_subset l hl s (cstr_subset l s hm)) hs
    · rintro ⟨set, hl, hm⟩
      exact absurd (key_table_subset set (ltoc_some k set hl).2 s (cstr_subset set s hm)) hs

/-- C6: `t9_corpus_ctol` is the inverse of the key table `t9_corpus_ltoc`:
`ctol s` succeeds with the key `k` exactly when `s` is a symbol of the set
`ltoc k`, it fails exactly when `s` is in the set of no key, and the sets of two
different keys have no symbol in common. -/
theorem ctol_inverse_of_ltoc (s k : Nat) :
    (t9_corpus_ctol s = some k ↔
        ∃ set, t9_corpus_ltoc k = some set ∧ s ∈ cstr set) ∧
      (t9_corpus_ctol s = none ↔
        ∀ key set, t9_corpus_ltoc key = some set → s ∉ cstr set) ∧
      (∀ key set1 set2, t9_corpus_ltoc k = some set1 → t9_corpus_ltoc key = some set2 →
        k ≠ key → ∀ x ∈ cstr set1, x ∉ cstr set2) := by
  refine ⟨ctol_some_iff s k, ?_, ?_⟩
  · constructor
    · intro h key set hl hm
      have := (ctol_some_iff s key).2 ⟨set, hl, hm⟩
      rw [h] at this
      simp at this
    · intro h
      cases hc : t9_corpus_ctol s with
      | none => rfl
      | some key =>
        obtain ⟨set, hl, hm⟩ := (ctol_some_iff s key).1 hc
        exact absurd hm (h key set hl)
  · intro key set1 set2 h1 h2 hne x hx
    have := ltoc_disjoint_table k (ltoc_some k set1 h1).1 key (ltoc_some key set2 h2).1 hne x
    rw [h1, h2] at this
    exact this hx

theorem button_scan_eq (p : ℚ) (letter : Nat) (l : List Nat) :
    button_scan p letter l = if letter ∈ cstr l then p else 1 - p := by
  induction l with
  | nil => simp [button_scan, cstr]
  | cons c rest ih =>
    unfold button_scan cstr
    by_cases h0 : c = 0
    · simp [h0]
    · by_cases hc : c = letter
      · simp [h0, hc]
      · have hc' : ¬ letter = c := fun h => hc h.symm
        simp [h0, hc, hc', ih]

/-- The value `t9_corpus_tree_button_for_letter` returns for a key symbol. -/
theorem button_for_letter_value (button letter : Nat) (hkey : is_key_symbol button) :
    t9_corpus_tree_button_for_letter button letter =
      .ok (if letter ∈ key_symbol_set button then PROBABILITY_BUTTON
           else 1 - PROBABILITY_BUTTON) := by
  obtain ⟨set, -, hl⟩ := ltoc_table button ((mem_lexicon_iff button).2 hkey)
  simp only [t9_corpus_tree_button_for_letter, key_symbol_set, hl, button_scan_eq,
    Option.getD_some]

/-- C7: for each of the twelve keys and every symbol,
`t9_corpus_tree_button_for_letter` returns the constant `PROBABILITY_BUTTON` when
the symbol is in the symbol set of the key and one minus it otherwise; the
constant is 1, so the result is 1 for a reachable symbol and 0 for any other. -/
theorem button_for_letter_spec (button letter : Nat) (hkey : is_key_symbol button) :
    (t9_corpus_ltoc button).isSome = true ∧
      t9_corpus_tree_button_for_letter button letter =
        .ok (if letter ∈ key_symbol_set button then PROBABILITY_BUTTON
             else 1 - PROBABILITY_BUTTON) ∧
      t9_corpus_tree_button_for_letter button letter =
        .ok (if letter ∈ key_symbol_set button then 1 else 0) := by
  obtain ⟨set, -, hl⟩ := ltoc_table button ((mem_lexicon_iff button).2 hkey)
  refine ⟨by simp [hl], ?_, ?_⟩
  · simp only [t9_corpus_tree_button_for_letter, key_symbol_set, hl, button_scan_eq,
      Option.getD_some]
  · simp only [t9_corpus_tree_button_for_letter, key_symbol_set, hl, button_scan_eq,
      Option.getD_some, PROBABILITY_BUTTON]
    norm_num

/-- Witness of C7 at the key `2` and the letter `b`. -/
theorem button_for_letter_spec_witness :
    is_key_symbol 50 ∧ (t9_corpus_ltoc 50).isSome = true ∧
      t9_corpus_tree_button_for_letter 50 98 =
        .ok (if 98 ∈ key_symbol_set 50 then PROBABILITY_BUTTON
             else 1 - PROBABILITY_BUTTON) ∧
      t9_corpus_tree_button_for_letter 50 98 =
        .ok (if 98 ∈ key_symbol_set 50 then 1 else 0) :=
  ⟨Or.inl (by decide), button_for_letter_spec 50 98 (Or.inl (by decide))⟩

/-! ## The corpus trie -/

theorem update_child_index (symbol : Nat) (f : t9_corpus_node_t → t9_corpus_node_t)
    (cs : List t9_corpus_node_t) :
    (match child_index symbol cs with
      | some i => update_child f i cs
      | none => update_child f cs.length (cs ++ [.mk 0 symbol 0 []])) =
      with_child symbol f cs := by
  induction cs with
  | nil => simp [child_index, update_child, with_child]
  | cons c rest ih =>
    unfold child_index with_child
    by_cases hc : c.symbol = symbol
    · simp [hc, update_child]
    · simp only [hc, if_false]
      cases hi : child_index symbol rest with
      | none =>
        rw [hi] at ih
        simp only [Option.map_none', List.length_cons, List.cons_append, update_child]
        simp only at ih
        exact congrArg (c :: ·) ih
      | some i =>
        rw [hi] at ih
        simp only [Option.map_some', update_child]
        simp only at ih
        rw [ih]

theorem insert_ngram_nil (node : t9_corpus_node_t) :
    t9_corpus_node_insert_ngram node [] = node := by
  cases node; rfl

theorem insert_ngram_zero (node : t9_corpus_node_t) (rest : List Nat) :
    t9_corpus_node_insert_ngram node (0 :: rest) = node := by
  cases node; simp [t9_corpus_node_insert_ngram]

theorem insert_ngram_cons (c s : Nat) (p : ℚ) (cs : List t9_corpus_node_t) (x : Nat)
    (rest : List Nat) (hx : x ≠ 0) :
    t9_corpus_node_insert_ngram (.mk c s p cs) (x :: rest) =
      .mk c s p (with_child x
        (fun child => t9_corpus_node_insert_ngram
          (.mk (child.count + 1) child.symbol child.probability child.children) rest) cs) := by
  rw [← update_child_index]
  simp only [t9_corpus_node_insert_ngram, hx, if_false, t9_corpus_node_get_child_safe,
    t9_corpus_node_get_child, t9_corpus_node_t.children, t9_corpus_node_add_child,
    t9_corpus_node_t.count, t9_corpus_node_t.symbol, t9_corpus_node_t.probability]
  cases child_index x cs <;> rfl

theorem height_le_nil (k s : Nat) (c : Nat) (p : ℚ) : height_le k (.mk c s p []) := by
  cases k <;> simp [height_le, height_le_list]

theorem height_le_count (k : Nat) (c c1 s : Nat) (p p1 : ℚ) (cs : List t9_corpus_node_t)
    (h : height_le k (.mk c s p cs)) : height_le k (.mk c1 s p1 cs) := by
  cases k <;> simpa [height_le] using h

theorem height_le_list_with_child (k x : Nat) (f : t9_corpus_node_t → t9_corpus_node_t)
    (hf : ∀ child, height_le k child → height_le k (f child))
    (cs : List t9_corpus_node_t) (h : height_le_list k cs) :
    height_le_list k (with_child x f cs) := by
  induction cs with
  | nil =>
    simp only [with_child, height_le_list, and_true]
    exact hf _ (height_le_nil k x 0 0)
  | cons c rest ih =>
    simp only [height_le_list] at h
    unfold with_child
    by_cases hc : c.symbol = x
    · simp only [hc, if_true, height_le_list]
      exact ⟨hf c h.1, h.2⟩
    · simp only [hc, if_false, height_le_list]
      exact ⟨h.1, ih h.2⟩

theorem height_le_insert (ngram : List Nat) :
    ∀ (k : Nat) (node : t9_corpus_node_t), ngram.length ≤ k → height_le k node →
      height_le k (t9_corpus_node_insert_ngram node ngram) := by
  induction ngram with
  | nil => intro k node _ h; rw [insert_ngram_nil]; exact h
  | cons x rest ih =>
    intro k node hl h
    by_cases hx : x = 0
    · rw [hx, insert_ngram_zero]; exact h
    · obtain ⟨c, s, p, cs⟩ := node
      rw [insert_ngram_cons c s p cs x rest hx]
      cases k with
      | zero => simp at hl
      | succ k1 =>
        simp only [height_le] at h ⊢
        apply height_le_list_with_child k1 x _ _ cs h
        intro child hchild
        apply ih k1 _ (by simpa using hl)
        obtain ⟨c2, s2, p2, cs2⟩ := child
        exact height_le_count k1 c2 _ s2 p2 _ cs2 hchild


mutual
theorem height_le_finalize_child (pc : Nat) :
    ∀ (k : Nat) (node : t9_corpus_node_t), height_le k node →
      height_le k (finalized_child pc node)
  | 0, .mk c s p cs, h => by
    simp only [height_le] at h
    simp [finalized_child, height_le, h, finalized_children]
  | k1 + 1, .mk c s p cs, h => by
    simp only [height_le] at h
    simp only [finalized_child, height_le]
    exact height_le_finalize_children c k1 cs h
theorem height_le_finalize_children (pc : Nat) :
    ∀ (k : Nat) (cs : List t9_corpus_node_t), height_le_list k cs →
      height_le_list k (finalized_children pc cs)
  | _, [], _ => by simp [finalized_children, height_le_list]
  | k, child :: rest, h => by
    simp only [height_le_list] at h
    simp only [finalized_children, height_le_list]
    exact ⟨height_le_finalize_child pc k child h.1, height_le_finalize_children pc k rest h.2⟩
end

theorem insert_ngrams_loop_invariant (corpus : corpus_t) (ngram_length : Nat)
    (P : t9_corpus_node_t → Prop) (Good : List Nat → Prop)
    (hstep : ∀ root ngram, P root → Good ngram → P (t9_corpus_node_insert_ngram root ngram))
    (hgen : ∀ offset ngram offset1,
      t9_corpus_ngram corpus ngram_length offset = .ok (ngram, offset1) → Good ngram) :
    ∀ (fuel : Nat) (root : t9_corpus_node_t) (ngram : List Nat) (offset : Nat)
      (root1 : t9_corpus_node_t), P root → Good ngram →
      insert_ngrams_loop corpus ngram_length fuel root ngram offset = .ok root1 → P root1 := by
  intro fuel
  induction fuel with
  | zero => intro root ngram offset root1 _ _ h; simp [insert_ngrams_loop] at h
  | succ fuel ih =>
    intro root ngram offset root1 hP hG h
    unfold insert_ngrams_loop at h
    cases hn : t9_corpus_ngram corpus ngram_length offset with
    | error e => rw [hn] at h; simp at h
    | ok r =>
      obtain ⟨ngram1, offset1⟩ := r
      rw [hn] at h
      simp only at h
      by_cases ho : offset1 ≠ corpus.train_buffer_size
      · rw [if_pos ho] at h
        exact ih _ _ _ _ (hstep root ngram hP hG) (hgen offset ngram1 offset1 hn) h
      · rw [if_neg ho] at h
        simp only [Except.ok.injEq] at h
        exact h ▸ hstep root ngram hP hG

theorem insert_ngrams_invariant (corpus : corpus_t) (ngram_length : Nat)
    (P : t9_corpus_node_t → Prop) (Good : List Nat → Prop)
    (hstep : ∀ root ngram, P root → Good ngram → P (t9_corpus_node_insert_ngram root ngram))
    (hgen : ∀ offset ngram offset1,
      t9_corpus_ngram corpus ngram_length offset = .ok (ngram, offset1) → Good ngram)
    (tree tree1 : t9_corpus_tree_t) (hP : P tree.root)
    (h : t9_corpus_tree_insert_ngrams tree corpus ngram_length = .ok tree1) : P tree1.root := by
  unfold t9_corpus_tree_insert_ngrams at h
  cases hn : t9_corpus_ngram corpus ngram_length 0 with
  | error e => rw [hn] at h; simp at h
  | ok r =>
    obtain ⟨ngram, offset⟩ := r
    rw [hn] at h
    simp only at h
    cases hl : insert_ngrams_loop corpus ngram_length SIZE_MOD tree.root ngram offset with
    | error e => rw [hl] at h; simp at h
    | ok root1 =>
      rw [hl] at h
      simp only [Except.ok.injEq] at h
      rw [← h]
      exact insert_ngrams_loop_invariant corpus ngram_length P Good hstep hgen _ _ _ _ _ hP
        (hgen 0 ngram offset hn) hl

theorem ngram_length_le (corpus : corpus_t) (ngram_length offset : Nat) (ngram : List Nat)
    (offset1 : Nat)
    (h : t9_corpus_ngram corpus ngram_length offset = .ok (ngram, offset1)) :
    ngram.length ≤ ngram_length := by
  unfold t9_corpus_ngram at h
  split_ifs at h with hc
  · simp only [Except.ok.injEq, Prod.mk.injEq] at h
    rw [← h.1]; simp
  · unfold read_bytes at h
    split_ifs at h with hb
    simp only [Except.ok.injEq, Prod.mk.injEq] at h
    rw [← h.1]
    exact List.length_take_le _ _

/-- C1 (evaluation at the failing input): the text `banana` has two windows of
length 2 that start with `na` (offsets 2 and 4), but after
`t9_corpus_tree_insert_ngrams` the node reached by `na` has count 1: the window
at the last start offset is never inserted. -/
theorem banana_last_window_missing :
    windows_starting_with (bytes "banana") 2 (bytes "na") = 2 ∧
      (match t9_corpus_tree_insert_ngrams t9_corpus_tree_create banana 2 with
        | .ok tree => count_at tree (bytes "na")
        | .error _ => none) = some 1 := by
  constructor
  · decide
  · decide

theorem count_mk (c s : Nat) (p : ℚ) (cs : List t9_corpus_node_t) :
    (t9_corpus_node_t.mk c s p cs).count = c := rfl

theorem symbol_mk (c s : Nat) (p : ℚ) (cs : List t9_corpus_node_t) :
    (t9_corpus_node_t.mk c s p cs).symbol = s := rfl

theorem probability_mk (c s : Nat) (p : ℚ) (cs : List t9_corpus_node_t) :
    (t9_corpus_node_t.mk c s p cs).probability = p := rfl

theorem children_mk (c s : Nat) (p : ℚ) (cs : List t9_corpus_node_t) :
    (t9_corpus_node_t.mk c s p cs).children = cs := rfl

theorem insert_ngram_count (ngram : List Nat) (node : t9_corpus_node_t) :
    (t9_corpus_node_insert_ngram node ngram).count = node.count := by
  cases ngram with
  | nil => rw [insert_ngram_nil]
  | cons x rest =>
    by_cases hx : x = 0
    · rw [hx, insert_ngram_zero]
    · obtain ⟨c, s, p, cs⟩ := node
      rw [insert_ngram_cons c s p cs x rest hx]
      rfl

theorem all_nodes_list_with_child (P : t9_corpus_node_t → Prop) (x : Nat)
    (f : t9_corpus_node_t → t9_corpus_node_t)
    (hf : ∀ child, all_nodes P child → all_nodes P (f child))
    (hnew : all_nodes P (f (.mk 0 x 0 [])))
    (cs : List t9_corpus_node_t) (h : all_nodes_list P cs) :
    all_nodes_list P (with_child x f cs) := by
  induction cs with
  | nil => simp only [with_child, all_nodes_list, and_true]; exact hnew
  | cons c rest ih =>
    simp only [all_nodes_list] at h
    unfold with_child
    by_cases hc : c.symbol = x
    · simp only [hc, if_true, all_nodes_list]
      exact ⟨hf c h.1, h.2⟩
    · simp only [hc, if_false, all_nodes_list]
      exact ⟨h.1, ih h.2⟩

theorem count_sum_with_child (x : Nat) (f : t9_corpus_node_t → t9_corpus_node_t)
    (hf : ∀ child, (f child).count = child.count + 1) (cs : List t9_corpus_node_t) :
    count_sum (with_child x f cs) = count_sum cs + 1 := by
  induction cs with
  | nil => simp [with_child, count_sum, hf, count_mk]
  | cons c rest ih =>
    unfold with_child
    by_cases hc : c.symbol = x
    · simp only [hc, if_true, count_sum, hf]
      omega
    · simp only [hc, if_false, count_sum, ih]
      omega

theorem insert_bumped_count (rest : List Nat) (child : t9_corpus_node_t) :
    (t9_corpus_node_insert_ngram
      (.mk (child.count + 1) child.symbol child.probability child.children) rest).count =
      child.count + 1 := by
  rw [insert_ngram_count]; rfl

/-! ### Counts never exceed the parent count -/

theorem insert_bumped_counts_le (ngram : List Nat) :
    ∀ (c s : Nat) (p : ℚ) (cs : List t9_corpus_node_t),
      count_sum cs ≤ c →
      all_nodes_list (fun n => count_sum n.children ≤ n.count) cs →
      all_nodes (fun n => count_sum n.children ≤ n.count)
        (t9_corpus_node_insert_ngram (.mk (c + 1) s p cs) ngram) := by
  induction ngram with
  | nil =>
    intro c s p cs h1 h2
    rw [insert_ngram_nil]
    simp only [all_nodes, children_mk, count_mk]
    exact ⟨by omega, h2⟩
  | cons x rest ih =>
    intro c s p cs h1 h2
    by_cases hx : x = 0
    · rw [hx, insert_ngram_zero]
      simp only [all_nodes, children_mk, count_mk]
      exact ⟨by omega, h2⟩
    · rw [insert_ngram_cons (c + 1) s p cs x rest hx]
      simp only [all_nodes, children_mk, count_mk]
      constructor
      · rw [count_sum_with_child x _ (insert_bumped_count rest) cs]
        omega
      · apply all_nodes_list_with_child _ x _ _ _ cs h2
        · intro child hchild
          obtain ⟨c2, s2, p2, cs2⟩ := child
          simp only [all_nodes, children_mk, count_mk] at hchild
          exact ih c2 s2 p2 cs2 hchild.1 hchild.2
        · exact ih 0 x 0 [] (by simp [count_sum]) (by simp [all_nodes_list])

theorem insert_root_counts_le (ngram : List Nat) (root : t9_corpus_node_t)
    (h : all_nodes_list (fun n => count_sum n.children ≤ n.count) root.children) :
    all_nodes_list (fun n => count_sum n.children ≤ n.count)
      (t9_corpus_node_insert_ngram root ngram).children := by
  cases ngram with
  | nil => rw [insert_ngram_nil]; exact h
  | cons x rest =>
    by_cases hx : x = 0
    · rw [hx, insert_ngram_zero]; exact h
    · obtain ⟨c, s, p, cs⟩ := root
      rw [insert_ngram_cons c s p cs x rest hx]
      simp only [children_mk] at h ⊢
      apply all_nodes_list_with_child _ x _ _ _ cs h
      · intro child hchild
        obtain ⟨c2, s2, p2, cs2⟩ := child
        simp only [all_nodes, children_mk, count_mk] at hchild
        exact insert_bumped_counts_le rest c2 s2 p2 cs2 hchild.1 hchild.2
      · exact insert_bumped_counts_le rest 0 x 0 [] (by simp [count_sum])
          (by simp [all_nodes_list])

/-! ### Every inserted node has been counted, so finalize returns -/

theorem insert_bumped_counts_pos (ngram : List Nat) :
    ∀ (c s : Nat) (p : ℚ) (cs : List t9_corpus_node_t),
      all_nodes_list (fun n => 0 < n.count) cs →
      all_nodes (fun n => 0 < n.count)
        (t9_corpus_node_insert_ngram (.mk (c + 1) s p cs) ngram) := by
  induction ngram with
  | nil =>
    intro c s p cs h2
    rw [insert_ngram_nil]
    simp only [all_nodes, count_mk]
    exact ⟨by omega, h2⟩
  | cons x rest ih =>
    intro c s p cs h2
    by_cases hx : x = 0
    · rw [hx, insert_ngram_zero]
      simp only [all_nodes, count_mk]
      exact ⟨by omega, h2⟩
    · rw [insert_ngram_cons (c + 1) s p cs x rest hx]
      simp only [all_nodes, count_mk]
      constructor
      · omega
      · apply all_nodes_list_with_child _ x _ _ _ cs h2
        · intro child hchild
          obtain ⟨c2, s2, p2, cs2⟩ := child
          simp only [all_nodes, children_mk, count_mk] at hchild
          exact ih c2 s2 p2 cs2 hchild.2
        · exact ih 0 x 0 [] (by simp [all_nodes_list])

theorem insert_root_counts_pos (ngram : List Nat) (root : t9_corpus_node_t)
    (h : all_nodes_list (fun n => 0 < n.count) root.children) :
    all_nodes_list (fun n => 0 < n.count)
      (t9_corpus_node_insert_ngram root ngram).children := by
  cases ngram with
  | nil => rw [insert_ngram_nil]; exact h
  | cons x rest =>
    by_cases hx : x = 0
    · rw [hx, insert_ngram_zero]; exact h
    · obtain ⟨c, s, p, cs⟩ := root
      rw [insert_ngram_cons c s p cs x rest hx]
      simp only [children_mk] at h ⊢
      apply all_nodes_list_with_child _ x _ _ _ cs h
      · intro child hchild
        obtain ⟨c2, s2, p2, cs2⟩ := child
        simp only [all_nodes, children_mk, count_mk] at hchild
        exact insert_bumped_counts_pos rest c2 s2 p2 cs2 hchild.2
      · exact insert_bumped_counts_pos rest 0 x 0 [] (by simp [all_nodes_list])

theorem insert_ngrams_counts_pos (corpus : corpus_t) (ngram_length : Nat)
    (tree : t9_corpus_tree_t)
    (h : t9_corpus_tree_insert_ngrams t9_corpus_tree_create corpus ngram_length = .ok tree) :
    all_nodes_list (fun n => 0 < n.count) tree.root.children :=
  insert_ngrams_invariant corpus ngram_length
    (fun root => all_nodes_list (fun n => 0 < n.count) root.children) (fun _ => True)
    (fun root ngram hP _ => insert_root_counts_pos ngram root hP)
    (fun _ _ _ _ => trivial) t9_corpus_tree_create tree
    (by simp [t9_corpus_tree_create, all_nodes_list, children_mk]) h

mutual
theorem finalize_child_returns (pc : Nat) (hpc : 0 < pc) :
    ∀ node : t9_corpus_node_t, all_nodes (fun n => 0 < n.count) node →
      finalize_child pc node = .ok (finalized_child pc node)
  | .mk c s p cs, h => by
    simp only [all_nodes, count_mk] at h
    simp only [finalize_child, float_quotient, if_neg (Nat.pos_iff_ne_zero.mp hpc),
      finalize_children_returns c h.1 cs h.2, finalized_child]
theorem finalize_children_returns (pc : Nat) (hpc : 0 < pc) :
    ∀ cs : List t9_corpus_node_t, all_nodes_list (fun n => 0 < n.count) cs →
      finalize_children pc cs = .ok (finalized_children pc cs)
  | [], _ => by simp only [finalize_children, finalized_children]
  | child :: rest, h => by
    simp only [all_nodes_list] at h
    simp only [finalize_children, finalize_child_returns pc hpc child h.1,
      finalize_children_returns pc hpc rest h.2, finalized_children]
end

theorem tree_finalize_returns (tree : t9_corpus_tree_t)
    (h : all_nodes_list (fun n => 0 < n.count) tree.root.children) :
    t9_corpus_tree_finalize tree = .ok (finalized_tree tree) := by
  obtain ⟨⟨c, s, p, cs⟩⟩ := tree
  simp only [children_mk] at h
  simp only [t9_corpus_tree_finalize, t9_corpus_node_finalize, finalized_tree, finalized_node,
    count_mk, symbol_mk, children_mk, probability_mk]
  cases cs with
  | nil => simp only [finalize_children, finalized_children]
  | cons child rest =>
    have hpos : 0 < c + count_sum (child :: rest) := by
      simp only [all_nodes_list] at h
      obtain ⟨c1, s1, p1, cs1⟩ := child
      simp only [all_nodes, count_mk] at h
      simp only [count_sum, count_mk]
      omega
    rw [finalize_children_returns _ hpos _ h]

theorem build_eq (corpus : corpus_t) (ngram_length : Nat) (tree0 : t9_corpus_tree_t)
    (h : t9_corpus_tree_insert_ngrams t9_corpus_tree_create corpus ngram_length = .ok tree0) :
    build_corpus_tree corpus ngram_length = .ok (finalized_tree tree0) := by
  unfold build_corpus_tree
  rw [h]
  exact tree_finalize_returns tree0 (insert_ngrams_counts_pos corpus ngram_length tree0 h)

theorem count_le_count_sum (cs : List t9_corpus_node_t) :
    ∀ child ∈ cs, child.count ≤ count_sum cs := by
  induction cs with
  | nil => simp
  | cons c rest ih =>
    intro child hm
    simp only [List.mem_cons] at hm
    simp only [count_sum]
    rcases hm with hm | hm
    · rw [hm]; omega
    · have := ih child hm
      omega

theorem ratio_mem_unit (a b : Nat) (h : a ≤ b) :
    0 ≤ (a : ℚ) / (b : ℚ) ∧ (a : ℚ) / (b : ℚ) ≤ 1 := by
  constructor
  · positivity
  · rcases Nat.eq_zero_or_pos b with hb | hb
    · simp [hb]
    · rw [div_le_one (by exact_mod_cast hb)]
      exact_mod_cast h

mutual
theorem finalize_child_unit (pc : Nat) :
    ∀ node : t9_corpus_node_t, node.count ≤ pc →
      all_nodes (fun n => count_sum n.children ≤ n.count) node →
      all_nodes (fun n => 0 ≤ n.probability ∧ n.probability ≤ 1) (finalized_child pc node)
  | .mk c s p cs, hc, h => by
    simp only [all_nodes, children_mk, count_mk] at h hc
    simp only [finalized_child, all_nodes, probability_mk]
    exact ⟨rounded_quotient_unit FLT_MANT_DIG (by decide) c pc hc,
      finalize_children_unit c cs
        (fun child hm => le_trans (count_le_count_sum cs child hm) h.1) h.2⟩
theorem finalize_children_unit (pc : Nat) :
    ∀ cs : List t9_corpus_node_t, (∀ child ∈ cs, child.count ≤ pc) →
      all_nodes_list (fun n => count_sum n.children ≤ n.count) cs →
      all_nodes_list (fun n => 0 ≤ n.probability ∧ n.probability ≤ 1)
        (finalized_children pc cs)
  | [], _, _ => by simp [finalized_children, all_nodes_list]
  | child :: rest, hc, h => by
    simp only [all_nodes_list] at h
    simp only [finalized_children, all_nodes_list]
    exact ⟨finalize_child_unit pc child (hc child (by simp)) h.1,
      finalize_children_unit pc rest (fun c hm => hc c (List.mem_cons_of_mem _ hm)) h.2⟩
end

theorem matching_child_all_nodes (P : t9_corpus_node_t → Prop) (s : Nat)
    (cs : List t9_corpus_node_t) (child : t9_corpus_node_t) (h : all_nodes_list P cs)
    (hm : matching_child s cs = some child) : all_nodes P child := by
  induction cs with
  | nil => simp [matching_child] at hm
  | cons c rest ih =>
    simp only [all_nodes_list] at h
    unfold matching_child at hm
    by_cases hc : c.symbol = s
    · simp only [hc, if_true, Option.some.injEq] at hm
      exact hm ▸ h.1
    · simp only [hc, if_false] at hm
      exact ih h.2 hm

theorem conditional_probability_unit (word : List Nat) :
    ∀ node : t9_corpus_node_t,
      all_nodes_list (fun n => 0 ≤ n.probability ∧ n.probability ≤ 1) node.children →
      0 ≤ t9_corpus_node_conditional_probability node word ∧
        t9_corpus_node_conditional_probability node word ≤ 1 := by
  induction word with
  | nil =>
    intro node h
    simp only [t9_corpus_node_conditional_probability]
    cases hm : matching_child 0 node.children with
    | none => simp
    | some child =>
      have := matching_child_all_nodes _ 0 _ child h hm
      obtain ⟨c, s, p, cs⟩ := child
      simp only [all_nodes] at this
      exact this.1
  | cons w0 rest ih =>
    intro node h
    simp only [t9_corpus_node_conditional_probability]
    cases hm : matching_child w0 node.children with
    | none => simp
    | some child =>
      have := matching_child_all_nodes _ w0 _ child h hm
      obtain ⟨c, s, p, cs⟩ := child
      simp only [all_nodes] at this
      simp only
      by_cases hr : rest.headD 0 = 0
      · rw [if_pos hr]; exact this.1
      · rw [if_neg hr]; exact ih _ this.2

theorem build_unit (corpus : corpus_t) (ngram_length : Nat) (tree : t9_corpus_tree_t)
    (h : build_corpus_tree corpus ngram_length = .ok tree) :
    all_nodes_list (fun n => 0 ≤ n.probability ∧ n.probability ≤ 1) tree.root.children := by
  obtain ⟨tree0, hi, h⟩ := build_ok corpus ngram_length tree h
  have h0 : all_nodes_list (fun n => count_sum n.children ≤ n.count) tree0.root.children :=
    insert_ngrams_invariant corpus ngram_length
      (fun root => all_nodes_list (fun n => count_sum n.children ≤ n.count) root.children)
      (fun _ => True)
      (fun root ngram hP _ => insert_root_counts_le ngram root hP)
      (fun _ _ _ _ => trivial)
      t9_corpus_tree_create tree0 (by simp [t9_corpus_tree_create, all_nodes_list,
        children_mk]) hi
  rw [← h]
  obtain ⟨⟨c, s, p, cs⟩⟩ := tree0
  simp only [finalized_tree, finalized_node, count_mk,
    symbol_mk, children_mk, probability_mk]
    at h0 ⊢
  exact finalize_children_unit _ cs
    (fun child hm => le_trans (count_le_count_sum cs child hm) (by omega)) h0

theorem conditional_probability_unit_of_built (corpus : corpus_t) (N : Nat)
    (tree : t9_corpus_tree_t) (word : List Nat)
    (hbuild : build_corpus_tree corpus N = .ok tree) :
    0 ≤ t9_corpus_tree_conditional_probability (some tree) word ∧
      t9_corpus_tree_conditional_probability (some tree) word ≤ 1 :=
  conditional_probability_unit word tree.root (build_unit corpus N tree hbuild)

/-! ### The finalized probabilities -/

mutual
theorem finalize_child_ratio (pc : Nat) :
    ∀ node : t9_corpus_node_t,
      ((finalized_child pc node).probability =
          rounded_quotient FLT_MANT_DIG (finalized_child pc node).count pc ∧
        (finalized_child pc node).count = node.count) ∧
      all_nodes (fun parent => ∀ child ∈ parent.children,
        child.probability = rounded_quotient FLT_MANT_DIG child.count parent.count)
        (finalized_child pc node)
  | .mk c s p cs => by
    simp only [finalized_child, all_nodes, probability_mk, count_mk, children_mk, and_self,
      true_and]
    exact ⟨(finalize_children_ratio c cs).1, (finalize_children_ratio c cs).2.2⟩
theorem finalize_children_ratio (pc : Nat) :
    ∀ cs : List t9_corpus_node_t,
      (∀ child ∈ finalized_children pc cs,
        child.probability = rounded_quotient FLT_MANT_DIG child.count pc) ∧
      count_sum (finalized_children pc cs) = count_sum cs ∧
      all_nodes_list (fun parent => ∀ child ∈ parent.children,
        child.probability = rounded_quotient FLT_MANT_DIG child.count parent.count)
        (finalized_children pc cs)
  | [] => by simp [finalized_children, all_nodes_list, count_sum]
  | child :: rest => by
    have h1 := finalize_child_ratio pc child
    have h2 := finalize_children_ratio pc rest
    simp only [finalized_children, all_nodes_list, List.mem_cons, forall_eq_or_imp, count_sum]
    exact ⟨⟨h1.1.1, h2.1⟩, by rw [h1.1.2, h2.2.1], h1.2, h2.2.2⟩
end

theorem insert_ngrams_root_count (corpus : corpus_t) (ngram_length : Nat)
    (tree : t9_corpus_tree_t)
    (h : t9_corpus_tree_insert_ngrams t9_corpus_tree_create corpus ngram_length = .ok tree) :
    tree.root.count = 0 :=
  insert_ngrams_invariant corpus ngram_length (fun root => root.count = 0) (fun _ => True)
    (fun root ngram hP _ => (insert_ngram_count ngram root).trans hP)
    (fun _ _ _ _ => trivial) t9_corpus_tree_create tree rfl h

theorem finalize_ratio_of_filled (corpus : corpus_t) (N : Nat) (tree : t9_corpus_tree_t)
    (hbuilt : t9_corpus_tree_insert_ngrams t9_corpus_tree_create corpus N = .ok tree) :
    all_nodes (fun parent => ∀ child ∈ parent.children,
        child.probability = rounded_quotient FLT_MANT_DIG child.count parent.count)
        (finalized_tree tree).root ∧
      (finalized_tree tree).root.count =
        count_sum (finalized_tree tree).root.children := by
  have h0 := insert_ngrams_root_count corpus N tree hbuilt
  obtain ⟨⟨c, s, p, cs⟩⟩ := tree
  simp only [count_mk] at h0
  subst h0
  simp only [finalized_tree, finalized_node, count_mk, symbol_mk,
    children_mk, probability_mk, all_nodes, Nat.zero_add]
  have h := finalize_children_ratio (count_sum cs) cs
  exact ⟨⟨h.1, h.2.2⟩, h.2.1.symm⟩

mutual
theorem finalize_child_error (pc : Nat) :
    ∀ node : t9_corpus_node_t, all_nodes (fun n => 0 < n.count) node →
      all_nodes (fun parent => ∀ child ∈ parent.children,
        |child.probability - (child.count : ℚ) / (parent.count : ℚ)| ≤
          1 / 2 ^ 22 * ((child.count : ℚ) / (parent.count : ℚ)))
        (finalized_child pc node)
  | .mk c s p cs, h => by
    simp only [all_nodes, count_mk] at h
    simp only [finalized_child, all_nodes, children_mk, count_mk]
    exact finalize_children_error c h.1 cs h.2
theorem finalize_children_error (pc : Nat) (hpc : 0 < pc) :
    ∀ cs : List t9_corpus_node_t, all_nodes_list (fun n => 0 < n.count) cs →
      (∀ child ∈ finalized_children pc cs,
        |child.probability - (child.count : ℚ) / (pc : ℚ)| ≤
          1 / 2 ^ 22 * ((child.count : ℚ) / (pc : ℚ))) ∧
      all_nodes_list (fun parent => ∀ child ∈ parent.children,
        |child.probability - (child.count : ℚ) / (parent.count : ℚ)| ≤
          1 / 2 ^ 22 * ((child.count : ℚ) / (parent.count : ℚ)))
        (finalized_children pc cs)
  | [], _ => by simp [finalized_children, all_nodes_list]
  | .mk c s p gs :: rest, h => by
    simp only [all_nodes_list] at h
    have h1 := finalize_child_error pc (.mk c s p gs) h.1
    have h2 := finalize_children_error pc hpc rest h.2
    have h3 := rounded_quotient_error FLT_MANT_DIG (by decide) c pc hpc
    have e : (4 : ℚ) / 2 ^ FLT_MANT_DIG = 1 / 2 ^ 22 := by norm_num [FLT_MANT_DIG]
    rw [e] at h3
    simp only [finalized_children, all_nodes_list, List.mem_cons, forall_eq_or_imp]
    refine ⟨⟨?_, h2.1⟩, h1, h2.2⟩
    simp only [finalized_child, probability_mk, count_mk]
    exact h3
end

theorem finalize_error_of_filled (corpus : corpus_t) (N : Nat) (tree : t9_corpus_tree_t)
    (hbuilt : t9_corpus_tree_insert_ngrams t9_corpus_tree_create corpus N = .ok tree) :
    all_nodes (fun parent => ∀ child ∈ parent.children,
        |child.probability - (child.count : ℚ) / (parent.count : ℚ)| ≤
          1 / 2 ^ 22 * ((child.count : ℚ) / (parent.count : ℚ)))
      (finalized_tree tree).root := by
  have hpos := insert_ngrams_counts_pos corpus N tree hbuilt
  obtain ⟨⟨c, s, p, cs⟩⟩ := tree
  simp only [children_mk] at hpos
  simp only [finalized_tree, finalized_node, count_mk, symbol_mk, children_mk,
    probability_mk, all_nodes]
  cases cs with
  | nil => simp [finalized_children, all_nodes_list]
  | cons child rest =>
    have hp : 0 < c + count_sum (child :: rest) := by
      simp only [all_nodes_list] at hpos
      obtain ⟨c1, s1, p1, cs1⟩ := child
      simp only [all_nodes, count_mk] at hpos
      simp only [count_sum, count_mk]
      omega
    exact finalize_children_error _ hp _ hpos

/-! ### Tries of zero-free texts -/

theorem full_or_fresh_zero (c s : Nat) (p : ℚ) (cs : List t9_corpus_node_t)
    (h : full 0 (.mk c s p cs) ∨ (c = 0 ∧ cs = [])) : cs = [] := by
  rcases h with h | ⟨-, hcs⟩
  · simp only [full] at h
    exact h.2
  · exact hcs

theorem full_or_fresh_succ (k : Nat) (c s : Nat) (p : ℚ) (cs : List t9_corpus_node_t)
    (h : full (k + 1) (.mk c s p cs) ∨ (c = 0 ∧ cs = [])) :
    count_sum cs = c ∧ full_list k cs := by
  rcases h with h | ⟨hc, hcs⟩
  · simp only [full] at h
    exact h.2
  · subst hc hcs
    simp [count_sum, full_list]

theorem full_list_with_child (k x : Nat) (f : t9_corpus_node_t → t9_corpus_node_t)
    (hf : ∀ child, full k child ∨ (child.count = 0 ∧ child.children = []) →
      full k (f child))
    (cs : List t9_corpus_node_t) (h : full_list k cs) :
    full_list k (with_child x f cs) := by
  induction cs with
  | nil =>
    simp only [with_child, full_list, and_true]
    exact hf _ (Or.inr ⟨rfl, rfl⟩)
  | cons c rest ih =>
    simp only [full_list] at h
    unfold with_child
    by_cases hc : c.symbol = x
    · simp only [hc, if_true, full_list]
      exact ⟨hf c (Or.inl h.1), h.2⟩
    · simp only [hc, if_false, full_list]
      exact ⟨h.1, ih h.2⟩

theorem insert_bumped_full (ngram : List Nat) :
    ∀ (k c s : Nat) (p : ℚ) (cs : List t9_corpus_node_t),
      ngram.length = k → 0 ∉ ngram →
      (full k (.mk c s p cs) ∨ (c = 0 ∧ cs = [])) →
      full k (t9_corpus_node_insert_ngram (.mk (c + 1) s p cs) ngram) := by
  induction ngram with
  | nil =>
    intro k c s p cs hl _ h
    simp only [List.length_nil] at hl
    subst hl
    have := full_or_fresh_zero c s p cs h
    rw [insert_ngram_nil]
    simp only [full]
    exact ⟨by omega, this⟩
  | cons x rest ih =>
    intro k c s p cs hl h0 h
    simp only [List.mem_cons, not_or] at h0
    have hx : x ≠ 0 := fun e => h0.1 e.symm
    cases k with
    | zero => simp at hl
    | succ k1 =>
      have hs := full_or_fresh_succ k1 c s p cs h
      rw [insert_ngram_cons (c + 1) s p cs x rest hx]
      simp only [full]
      refine ⟨by omega, ?_, ?_⟩
      · rw [count_sum_with_child x _ (insert_bumped_count rest) cs, hs.1]
      · apply full_list_with_child k1 x _ _ cs hs.2
        intro child hchild
        obtain ⟨c2, s2, p2, cs2⟩ := child
        simp only [count_mk, children_mk, symbol_mk, probability_mk] at hchild ⊢
        exact ih k1 c2 s2 p2 cs2 (by simpa using hl) h0.2 hchild

theorem insert_root_full (k : Nat) (ngram : List Nat) (root : t9_corpus_node_t)
    (hg : cstr ngram = [] ∨ (ngram.length = k + 1 ∧ 0 ∉ ngram))
    (h : full_list k root.children) :
    full_list k (t9_corpus_node_insert_ngram root ngram).children := by
  cases ngram with
  | nil => rw [insert_ngram_nil]; exact h
  | cons x rest =>
    by_cases hx : x = 0
    · rw [hx, insert_ngram_zero]; exact h
    · rcases hg with hg | ⟨hl, h0⟩
      · simp [cstr, hx] at hg
      · obtain ⟨c, s, p, cs⟩ := root
        rw [insert_ngram_cons c s p cs x rest hx]
        simp only [children_mk] at h ⊢
        simp only [List.mem_cons, not_or] at h0
        apply full_list_with_child k x _ _ cs h
        intro child hchild
        obtain ⟨c2, s2, p2, cs2⟩ := child
        simp only [count_mk, children_mk, symbol_mk, probability_mk] at hchild ⊢
        exact insert_bumped_full rest k c2 s2 p2 cs2 (by simpa using hl) h0.2 hchild

theorem ngram_zero_free (corpus : corpus_t) (ngram_length offset : Nat) (ngram : List Nat)
    (offset1 : Nat) (h0 : 0 ∉ corpus.train_buffer)
    (hsize : corpus.train_buffer.length < SIZE_MOD)
    (h : t9_corpus_ngram corpus ngram_length offset = .ok (ngram, offset1)) :
    cstr ngram = [] ∨ (ngram.length = ngram_length ∧ 0 ∉ ngram) := by
  unfold t9_corpus_ngram at h
  split_ifs at h with hc
  · simp only [Except.ok.injEq, Prod.mk.injEq] at h
    left; rw [← h.1]; rfl
  · unfold read_bytes at h
    split_ifs at h with hb
    simp only [Except.ok.injEq, Prod.mk.injEq] at h
    obtain ⟨hn, -⟩ := h
    simp only [corpus_t.train_buffer_size, SIZE_MOD] at hc hsize
    norm_num at hc hsize
    by_cases hin : offset + ngram_length ≤ corpus.train_buffer.length
    · right
      rw [← hn]
      constructor
      · simp only [List.length_take, List.length_drop, List.length_append,
          List.length_singleton]
        omega
      · intro hm
        have h1 := List.mem_of_mem_take hm
        rw [List.drop_append_of_le_length (by omega)] at hm
        rw [List.take_append_of_le_length (by simp only [List.length_drop]; omega)] at hm
        exact h0 (List.mem_of_mem_drop (List.mem_of_mem_take hm))
    · left
      have ho : corpus.train_buffer.length ≤ offset := by
        by_contra hlt
        omega
      rcases Nat.eq_zero_or_pos ngram_length with hz | hp
      · rw [← hn, hz]; rfl
      · have hoe : offset = corpus.train_buffer.length := by omega
        obtain ⟨n, rfl⟩ : ∃ n, ngram_length = n + 1 := ⟨ngram_length - 1, by omega⟩
        rw [← hn, hoe, List.drop_left' rfl]
        simp [cstr]

theorem count_pos_of_full_list (k : Nat) (cs : List t9_corpus_node_t) (h : full_list k cs)
    (hne : cs ≠ []) : 1 ≤ count_sum cs := by
  cases cs with
  | nil => exact absurd rfl hne
  | cons c rest =>
    simp only [full_list] at h
    obtain ⟨c1, s1, p1, cs1⟩ := c
    simp only [full] at h
    simp only [count_sum, count_mk]
    omega

theorem finalize_children_length (pc : Nat) (cs : List t9_corpus_node_t) :
    (finalized_children pc cs).length = cs.length := by
  induction cs with
  | nil => simp [finalized_children]
  | cons c rest ih => simp [finalized_children, ih]

theorem prob_sum_finalize_children (pc : Nat) (hpc : 0 < pc) (cs : List t9_corpus_node_t) :
    |prob_sum (finalized_children pc cs) - (count_sum cs : ℚ) / (pc : ℚ)| ≤
      4 / 2 ^ FLT_MANT_DIG * ((count_sum cs : ℚ) / (pc : ℚ)) := by
  induction cs with
  | nil => simp [finalized_children, prob_sum, count_sum]
  | cons c rest ih =>
    obtain ⟨c1, s1, p1, cs1⟩ := c
    simp only [finalized_children, finalized_child, prob_sum, probability_mk, count_sum,
      count_mk]
    have h1 := rounded_quotient_error FLT_MANT_DIG (by decide) c1 pc hpc
    push_cast
    have e : rounded_quotient FLT_MANT_DIG c1 pc + prob_sum (finalized_children pc rest) -
        ((c1 : ℚ) + (count_sum rest : ℚ)) / (pc : ℚ) =
        (rounded_quotient FLT_MANT_DIG c1 pc - (c1 : ℚ) / (pc : ℚ)) +
          (prob_sum (finalized_children pc rest) - (count_sum rest : ℚ) / (pc : ℚ)) := by
      ring
    rw [e]
    calc |(rounded_quotient FLT_MANT_DIG c1 pc - (c1 : ℚ) / (pc : ℚ)) +
          (prob_sum (finalized_children pc rest) - (count_sum rest : ℚ) / (pc : ℚ))|
        ≤ |rounded_quotient FLT_MANT_DIG c1 pc - (c1 : ℚ) / (pc : ℚ)| +
          |prob_sum (finalized_children pc rest) - (count_sum rest : ℚ) / (pc : ℚ)| :=
          abs_add _ _
      _ ≤ 4 / 2 ^ FLT_MANT_DIG * ((c1 : ℚ) / (pc : ℚ)) +
          4 / 2 ^ FLT_MANT_DIG * ((count_sum rest : ℚ) / (pc : ℚ)) := add_le_add h1 ih
      _ = 4 / 2 ^ FLT_MANT_DIG * (((c1 : ℚ) + (count_sum rest : ℚ)) / (pc : ℚ)) := by ring

theorem prob_sum_finalize_one (pc : Nat) (cs : List t9_corpus_node_t)
    (hs : count_sum cs = pc) (hp : 1 ≤ pc) :
    |prob_sum (finalized_children pc cs) - 1| ≤ 1 / 2 ^ 22 := by
  have h := prob_sum_finalize_children pc (by omega) cs
  rw [hs, div_self (by exact_mod_cast (by omega : pc ≠ 0))] at h
  have e : (4 : ℚ) / 2 ^ FLT_MANT_DIG * 1 = 1 / 2 ^ 22 := by norm_num [FLT_MANT_DIG]
  rw [e] at h
  exact h

mutual
theorem finalize_child_sum_one (pc : Nat) :
    ∀ (k : Nat) (node : t9_corpus_node_t), full k node →
      all_nodes (fun n => n.children ≠ [] →
          count_sum n.children = n.count ∧ |prob_sum n.children - 1| ≤ 1 / 2 ^ 22)
        (finalized_child pc node)
  | 0, .mk c s p cs, h => by
    simp only [full] at h
    simp only [finalized_child, all_nodes, children_mk, h.2, finalized_children, ne_eq,
      not_true_eq_false, false_implies, all_nodes_list, and_self]
  | k1 + 1, .mk c s p cs, h => by
    simp only [full] at h
    simp only [finalized_child, all_nodes, children_mk, count_mk]
    exact ⟨fun _ => ⟨by rw [(finalize_children_ratio c cs).2.1, h.2.1],
        prob_sum_finalize_one c cs h.2.1 h.1⟩,
      finalize_children_sum_one c k1 cs h.2.2⟩
theorem finalize_children_sum_one (pc : Nat) :
    ∀ (k : Nat) (cs : List t9_corpus_node_t), full_list k cs →
      all_nodes_list (fun n => n.children ≠ [] →
          count_sum n.children = n.count ∧ |prob_sum n.children - 1| ≤ 1 / 2 ^ 22)
        (finalized_children pc cs)
  | _, [], _ => by simp [finalized_children, all_nodes_list]
  | k, child :: rest, h => by
    simp only [full_list] at h
    simp only [finalized_children, all_nodes_list]
    exact ⟨finalize_child_sum_one pc k child h.1, finalize_children_sum_one pc k rest h.2⟩
end

theorem descend_all_nodes (P : t9_corpus_node_t → Prop) (word : List Nat) :
    ∀ node n : t9_corpus_node_t, all_nodes P node → descend node word = some n → P n := by
  induction word with
  | nil =>
    intro node n h hd
    simp only [descend, Option.some.injEq] at hd
    obtain ⟨c, s, p, cs⟩ := node
    simp only [all_nodes] at h
    exact hd ▸ h.1
  | cons s rest ih =>
    intro node n h hd
    obtain ⟨c, sy, p, cs⟩ := node
    simp only [all_nodes] at h
    simp only [descend, children_mk] at hd
    cases hm : matching_child s cs with
    | none => rw [hm] at hd; simp at hd
    | some child =>
      rw [hm] at hd
      exact ih child n (matching_child_all_nodes P s cs child h.2 hm) hd

/-- C5 (as stated, refuted): the text `abcdefghijk` with `N = 1` is built from
ten windows of one symbol each, so the root has ten children of count 1 and the
count 10.  Each child stores the `float` nearest to 1/10, which is
13421773/134217728, and the ten stored probabilities sum to 67108865/67108864,
not to 1. -/
theorem children_sum_counterexample :
    (match build_corpus_tree ⟨bytes "abcdefghijk", []⟩ 1 with
      | .ok tree =>
        some (tree.root.count, tree.root.children.map t9_corpus_node_t.count,
          tree.root.children.map t9_corpus_node_t.probability,
          prob_sum tree.root.children)
      | .error _ => none) =
      some (10, List.replicate 10 1, List.replicate 10 (13421773 / 134217728),
        67108865 / 67108864) ∧
    (67108865 / 67108864 : ℚ) ≠ 1 := by
  constructor
  · decide!
  · norm_num

theorem children_sum_one_of_built (corpus : corpus_t) (N : Nat)
    (tree : t9_corpus_tree_t) (hN : 1 ≤ N) (hzero : 0 ∉ corpus.train_buffer)
    (hsize : corpus.train_buffer.length < SIZE_MOD)
    (hbuild : build_corpus_tree corpus N = .ok tree) :
    all_nodes (fun n => n.children ≠ [] →
      count_sum n.children = n.count ∧ |prob_sum n.children - 1| ≤ 1 / 2 ^ 22) tree.root := by
  obtain ⟨k, hk⟩ : ∃ k, N = k + 1 := ⟨N - 1, by omega⟩
  obtain ⟨tree0, hi, hbuild⟩ := build_ok corpus N tree hbuild
  have h0 : full_list k tree0.root.children :=
    insert_ngrams_invariant corpus N (fun root => full_list k root.children)
      (fun ngram => cstr ngram = [] ∨ (ngram.length = k + 1 ∧ 0 ∉ ngram))
      (fun root ngram hP hG => insert_root_full k ngram root hG hP)
      (fun offset ngram offset1 hn => hk ▸
        ngram_zero_free corpus N offset ngram offset1 hzero hsize hn)
      t9_corpus_tree_create tree0 (by simp [t9_corpus_tree_create, full_list,
        children_mk]) hi
  have hc := insert_ngrams_root_count corpus N tree0 hi
  rw [← hbuild]
  obtain ⟨⟨c, s, p, cs⟩⟩ := tree0
  simp only [count_mk] at hc
  subst hc
  simp only [children_mk] at h0
  simp only [finalized_tree, finalized_node, count_mk, symbol_mk,
    children_mk, probability_mk, all_nodes, Nat.zero_add]
  refine ⟨fun hne => ?_, finalize_children_sum_one _ k cs h0⟩
  have hcs : cs ≠ [] := by
    intro e
    rw [e] at hne
    exact hne rfl
  exact ⟨(finalize_children_ratio _ cs).2.1,
    prob_sum_finalize_one _ cs rfl (count_pos_of_full_list k cs h0 hcs)⟩

/-! ## Typing a key sequence -/

theorem validate_symbols_false (sequence : List Nat)
    (h : ∃ s ∈ cstr sequence, ¬ is_key_symbol s) :
    t9_corpus_validate_lexicon_symbols sequence = false := by
  cases hv : t9_corpus_validate_lexicon_symbols sequence with
  | false => rfl
  | true =>
    obtain ⟨s, hs, hk⟩ := h
    exact absurd ((validate_symbols_iff sequence).1 hv s hs) hk

/-- C9: on a key sequence that contains, anywhere before its terminator, a symbol
that is not one of the twelve key symbols, `t9_search_tree_type` and
`t9_model_autocomplete` return T9_FAILURE and the model they leave behind is
the model they were given: search tree, level table and kept paths are
untouched, and no suggestion is produced. -/
theorem invalid_sequence_leaves_model {C : Type} [T9Math C] (model : t9_model_t C)
    (sequence : List Nat) (hbad : ∃ s ∈ cstr sequence, ¬ is_key_symbol s) :
    t9_search_tree_type model sequence = .ok (.T9_FAILURE, model) ∧
      t9_model_autocomplete model sequence = .ok (.T9_FAILURE, model, none) := by
  have hv := validate_symbols_false sequence hbad
  have ht : t9_search_tree_type model sequence = .ok (.T9_FAILURE, model) := by
    unfold t9_search_tree_type
    cases model.search_tree with
    | none => rfl
    | some tree => simp [hv]
  refine ⟨ht, ?_⟩
  unfold t9_model_autocomplete
  rw [ht]

/-- Witness of C9: the sequence `5X9` typed into the model of the text `banana`
with `N = 2` and three kept paths. -/
theorem invalid_sequence_leaves_model_witness :
    (∃ s ∈ cstr (bytes "5X9"), ¬ is_key_symbol s) ∧
      t9_search_tree_type (example_model "banana" 2 3) (bytes "5X9") =
        .ok (.T9_FAILURE, example_model "banana" 2 3) ∧
      t9_model_autocomplete (example_model "banana" 2 3) (bytes "5X9") =
        .ok (.T9_FAILURE, example_model "banana" 2 3, none) :=
  ⟨⟨88, by decide, by decide⟩,
    invalid_sequence_leaves_model (example_model "banana" 2 3) (bytes "5X9")
      ⟨88, by decide, by decide⟩⟩

/-! ## Sorting the kept paths -/

section Sorting

variable {C : Type} [T9Math C]

theorem sort_step_cons (a : t9_path_t C) (l : List (t9_path_t C)) (i : Nat) :
    sort_step (a :: l) (i + 1) = a :: sort_step l i := by
  unfold sort_step
  simp only [List.get?_cons_succ, List.set_cons_succ]
  cases h1 : l.get? i <;> cases h2 : l.get? (i + 1) <;> simp only
  split_ifs <;> rfl

theorem sort_inner_cons (n : Nat) :
    ∀ (i : Nat) (a : t9_path_t C) (l : List (t9_path_t C)),
      sort_inner n (i + 1) (a :: l) = a :: sort_inner n i l := by
  induction n with
  | zero => intro i a l; rfl
  | succ n ih =>
    intro i a l
    simp only [sort_inner, sort_step_cons, ih]

theorem sort_inner_singleton (n : Nat) :
    ∀ (i : Nat) (p : t9_path_t C), sort_inner n i [p] = [p] := by
  induction n with
  | zero => intro i p; rfl
  | succ n ih =>
    intro i p
    have hs : sort_step [p] i = [p] := by
      unfold sort_step
      cases i <;> simp
    simp only [sort_inner, hs, ih]

theorem sort_inner_eq_bubble (l : List (t9_path_t C)) :
    ∀ (n : Nat) (p : t9_path_t C), l.length ≤ n →
      sort_inner n 0 (p :: l) = bubble_from p l := by
  induction l with
  | nil => intro n p _; simp only [bubble_from]; exact sort_inner_singleton n 0 p
  | cons q rest ih =>
    intro n p hn
    cases n with
    | zero => simp at hn
    | succ n =>
      simp only [List.length_cons, Nat.succ_le_succ_iff] at hn
      have hn : rest.length ≤ n := by omega
      simp only [sort_inner, bubble_from]
      have hs : sort_step (p :: q :: rest) 0 =
          if q.probability < p.probability then q :: p :: rest else p :: q :: rest := by
        unfold sort_step
        simp only [List.get?_cons_zero, List.get?_cons_succ, List.set_cons_zero,
          List.set_cons_succ]
      rw [hs]
      split_ifs with hlt
      · rw [sort_inner_cons, ih n p hn]
      · rw [sort_inner_cons, ih n q hn]

theorem sort_inner_eq_pass (l : List (t9_path_t C)) (n : Nat) (h : l.length ≤ n + 1) :
    sort_inner n 0 l = bubble_pass l := by
  cases l with
  | nil =>
    simp only [bubble_pass]
    clear h
    induction n with
    | zero => rfl
    | succ n ih =>
      have hs : ∀ i, sort_step ([] : List (t9_path_t C)) i = [] := by
        intro i; unfold sort_step; simp
      have hi : ∀ (m i : Nat), sort_inner m i ([] : List (t9_path_t C)) = [] := by
        intro m
        induction m with
        | zero => intro i; rfl
        | succ m ihm => intro i; simp only [sort_inner, hs, ihm]
      exact hi _ _
  | cons p rest =>
    simp only [bubble_pass]
    exact sort_inner_eq_bubble rest n p (by simpa using h)

theorem bubble_from_length (l : List (t9_path_t C)) :
    ∀ p : t9_path_t C, (bubble_from p l).length = l.length + 1 := by
  induction l with
  | nil => intro p; rfl
  | cons q rest ih =>
    intro p
    simp only [bubble_from]
    split_ifs <;> simp [ih]

theorem bubble_pass_length (l : List (t9_path_t C)) : (bubble_pass l).length = l.length := by
  cases l with
  | nil => rfl
  | cons p rest => simp [bubble_pass, bubble_from_length]

theorem bubble_from_mem (l : List (t9_path_t C)) :
    ∀ (p x : t9_path_t C), x ∈ bubble_from p l → x ∈ p :: l := by
  induction l with
  | nil => intro p x h; simp only [bubble_from] at h; exact h
  | cons q rest ih =>
    intro p x h
    simp only [bubble_from] at h
    split_ifs at h
    · simp only [List.mem_cons] at h ⊢
      rcases h with h | h
      · right; left; exact h
      · have := ih p x h
        simp only [List.mem_cons] at this
        rcases this with h1 | h1
        · left; exact h1
        · right; right; exact h1
    · simp only [List.mem_cons] at h ⊢
      rcases h with h | h
      · left; exact h
      · have := ih q x h
        simp only [List.mem_cons] at this
        right; exact this

theorem bubble_pass_mem (l : List (t9_path_t C)) (x : t9_path_t C) (h : x ∈ bubble_pass l) :
    x ∈ l := by
  cases l with
  | nil => simp [bubble_pass] at h
  | cons p rest => exact bubble_from_mem rest p x h

theorem bubble_from_last (l : List (t9_path_t C)) :
    ∀ p : t9_path_t C, ∃ init m, bubble_from p l = init ++ [m] ∧
      (∀ x ∈ init, x.probability ≤ m.probability) ∧ p.probability ≤ m.probability ∧
      (∀ x ∈ l, x.probability ≤ m.probability) := by
  induction l with
  | nil => intro p; exact ⟨[], p, rfl, by simp, le_refl _, by simp⟩
  | cons q rest ih =>
    intro p
    simp only [bubble_from]
    split_ifs with hlt
    · obtain ⟨init, m, he, h1, h2, h3⟩ := ih p
      refine ⟨q :: init, m, by rw [he]; rfl, ?_, h2, ?_⟩
      · intro x hx
        simp only [List.mem_cons] at hx
        rcases hx with hx | hx
        · rw [hx]; exact le_trans (le_of_lt hlt) h2
        · exact h1 x hx
      · intro x hx
        simp only [List.mem_cons] at hx
        rcases hx with hx | hx
        · rw [hx]; exact le_trans (le_of_lt hlt) h2
        · exact h3 x hx
    · obtain ⟨init, m, he, h1, h2, h3⟩ := ih q
      have hpq : p.probability ≤ q.probability := not_lt.1 hlt
      refine ⟨p :: init, m, by rw [he]; rfl, ?_, le_trans hpq h2, ?_⟩
      · intro x hx
        simp only [List.mem_cons] at hx
        rcases hx with hx | hx
        · rw [hx]; exact le_trans hpq h2
        · exact h1 x hx
      · intro x hx
        simp only [List.mem_cons] at hx
        rcases hx with hx | hx
        · rw [hx]; exact h2
        · exact h3 x hx

theorem bubble_from_append_max (l : List (t9_path_t C)) (m : t9_path_t C) :
    ∀ p : t9_path_t C, p.probability ≤ m.probability →
      (∀ x ∈ l, x.probability ≤ m.probability) →
      bubble_from p (l ++ [m]) = bubble_from p l ++ [m] := by
  induction l with
  | nil =>
    intro p hp _
    simp only [List.nil_append, bubble_from, not_lt.2 hp, if_false, List.singleton_append]
  | cons q rest ih =>
    intro p hp hl
    have hq : q.probability ≤ m.probability := hl q (by simp)
    have hr : ∀ x ∈ rest, x.probability ≤ m.probability :=
      fun x hx => hl x (List.mem_cons_of_mem _ hx)
    simp only [List.cons_append, bubble_from]
    split_ifs
    · exact congrArg (q :: ·) (ih p hp hr)
    · exact congrArg (p :: ·) (ih q hq hr)

theorem bubble_pass_append_max (l : List (t9_path_t C)) (m : t9_path_t C)
    (hl : ∀ x ∈ l, x.probability ≤ m.probability) :
    bubble_pass (l ++ [m]) = bubble_pass l ++ [m] := by
  cases l with
  | nil => rfl
  | cons p rest =>
    simp only [List.cons_append, bubble_pass]
    exact bubble_from_append_max rest m p (hl p (by simp))
      (fun x hx => hl x (List.mem_cons_of_mem _ hx))

theorem sort_outer_eq (length : Nat) (n : Nat) :
    ∀ l : List (t9_path_t C), l.length ≤ length + 1 →
      sort_outer length n l = bubble_pass^[n] l := by
  induction n with
  | zero => intro l _; rfl
  | succ n ih =>
    intro l hl
    simp only [sort_outer, Function.iterate_succ, Function.comp_apply]
    rw [sort_inner_eq_pass l length hl]
    exact ih (bubble_pass l) (by rw [bubble_pass_length]; exact hl)

theorem iterate_pass_mem (n : Nat) :
    ∀ (l : List (t9_path_t C)) (x : t9_path_t C), x ∈ bubble_pass^[n] l → x ∈ l := by
  induction n with
  | zero => intro l x h; exact h
  | succ n ih =>
    intro l x h
    simp only [Function.iterate_succ, Function.comp_apply] at h
    exact bubble_pass_mem l x (ih _ x h)

theorem iterate_pass_length (n : Nat) :
    ∀ l : List (t9_path_t C), (bubble_pass^[n] l).length = l.length := by
  induction n with
  | zero => intro l; rfl
  | succ n ih =>
    intro l
    simp only [Function.iterate_succ, Function.comp_apply]
    rw [ih, bubble_pass_length]

theorem iterate_pass_append_max (n : Nat) :
    ∀ (l : List (t9_path_t C)) (m : t9_path_t C),
      (∀ x ∈ l, x.probability ≤ m.probability) →
      bubble_pass^[n] (l ++ [m]) = bubble_pass^[n] l ++ [m] := by
  induction n with
  | zero => intro l m _; rfl
  | succ n ih =>
    intro l m hl
    simp only [Function.iterate_succ, Function.comp_apply]
    rw [bubble_pass_append_max l m hl]
    exact ih (bubble_pass l) m (fun x hx => hl x (bubble_pass_mem l x hx))

theorem iterate_pass_sorted (n : Nat) :
    ∀ l : List (t9_path_t C), l.length ≤ n + 1 → paths_sorted (bubble_pass^[n] l) := by
  induction n with
  | zero =>
    intro l hl
    simp only [Function.iterate_zero, id_eq]
    cases l with
    | nil => exact List.Pairwise.nil
    | cons p rest =>
      cases rest with
      | nil => exact List.pairwise_singleton _ _
      | cons q r => simp at hl
  | succ n ih =>
    intro l hl
    cases l with
    | nil =>
      have : bubble_pass^[n + 1] ([] : List (t9_path_t C)) = [] := by
        have hlen := iterate_pass_length (n + 1) ([] : List (t9_path_t C))
        simpa using hlen
      rw [this]
      exact List.Pairwise.nil
    | cons p rest =>
      simp only [Function.iterate_succ, Function.comp_apply, bubble_pass]
      obtain ⟨init, m, he, h1, -, -⟩ := bubble_from_last rest p
      rw [he, iterate_pass_append_max n init m h1]
      have hlen : init.length ≤ n + 1 := by
        have := bubble_from_length rest p
        rw [he] at this
        simp only [List.length_append, List.length_singleton, List.length_cons] at this hl
        omega
      unfold paths_sorted
      rw [List.pairwise_append]
      refine ⟨ih init hlen, List.pairwise_singleton _ _, ?_⟩
      intro x hx y hy
      simp only [List.mem_singleton] at hy
      rw [hy]
      exact h1 x (iterate_pass_mem n init x hx)

theorem sort_paths_sorted (paths : List (t9_path_t C)) : paths_sorted (sort_paths paths) := by
  unfold sort_paths
  split_ifs with h0
  · rw [List.length_eq_zero] at h0
    rw [h0]
    exact List.Pairwise.nil
  · rw [sort_outer_eq _ _ paths (by omega)]
    exact iterate_pass_sorted _ paths (by omega)

theorem sort_paths_length (paths : List (t9_path_t C)) :
    (sort_paths paths).length = paths.length := by
  unfold sort_paths
  split_ifs with h0
  · rfl
  · rw [sort_outer_eq _ _ paths (by omega)]
    exact iterate_pass_length _ paths

end Sorting

/-! ## The kept list after a keystroke -/

section Keystroke

variable {C : Type} [T9Math C]

theorem search_leaf_keeps (K : Nat) (model : t9_model_t C) (tmp_path : t9_path_t C)
    (hK : model.number_paths = K) (hlen : model.paths.length ≤ K) :
    (search_leaf model tmp_path).number_paths = K ∧
      (search_leaf model tmp_path).paths.length ≤ K ∧
      paths_sorted (search_leaf model tmp_path).paths := by
  have hs := sort_paths_sorted (model.paths ++ [t9_path_duplicate tmp_path])
  have hl := sort_paths_length (model.paths ++ [t9_path_duplicate tmp_path])
  simp only [List.length_append, List.length_singleton] at hl
  simp only [search_leaf, t9_model_sort_paths]
  split_ifs with hgt
  · simp only at hgt ⊢
    refine ⟨hK, ?_, ?_⟩
    · rw [List.length_dropLast, hl]
      omega
    · exact List.Pairwise.sublist (List.dropLast_sublist _) hs
  · simp only at hgt ⊢
    refine ⟨hK, ?_, hs⟩
    rw [hK] at hgt
    omega

mutual
theorem node_search_keeps (K : Nat) :
    ∀ (node : t9_search_node_t C) (model : t9_model_t C) (tmp_path : t9_path_t C),
      model.number_paths = K ∧ model.paths.length ≤ K ∧ paths_sorted model.paths →
      (t9_node_search_paths node model tmp_path).1.number_paths = K ∧
        (t9_node_search_paths node model tmp_path).1.paths.length ≤ K ∧
        paths_sorted (t9_node_search_paths node model tmp_path).1.paths
  | .mk a s p [], model, tmp_path, h => by
    simp only [t9_node_search_paths]
    split_ifs
    · exact h
    · exact search_leaf_keeps K model tmp_path h.1 h.2.1
  | .mk a s p (c :: cs), model, tmp_path, h => by
    simp only [t9_node_search_paths]
    split_ifs
    · exact h
    · exact search_children_keeps K (c :: cs) model tmp_path h
theorem search_children_keeps (K : Nat) :
    ∀ (cs : List (t9_search_node_t C)) (model : t9_model_t C) (tmp_path : t9_path_t C),
      model.number_paths = K ∧ model.paths.length ≤ K ∧ paths_sorted model.paths →
      (search_children cs model tmp_path).1.number_paths = K ∧
        (search_children cs model tmp_path).1.paths.length ≤ K ∧
        paths_sorted (search_children cs model tmp_path).1.paths
  | [], model, tmp_path, h => by
    simp only [search_children]
    exact h
  | child :: rest, model, tmp_path, h => by
    simp only [search_children]
    exact search_children_keeps K rest _ _
      (node_search_keeps K child model (t9_path_push tmp_path child) h)
end

theorem search_paths_keeps (model model1 : t9_model_t C)
    (h : t9_search_tree_search_paths model = .ok model1) :
    model1.number_paths = model.number_paths ∧
      model1.paths.length ≤ model.number_paths ∧ paths_sorted model1.paths := by
  unfold t9_search_tree_search_paths at h
  cases ht : model.search_tree with
  | none => rw [ht] at h; simp at h
  | some tree =>
    rw [ht] at h
    simp only [Except.ok.injEq] at h
    rw [← h]
    exact node_search_keeps model.number_paths tree.root _ _
      ⟨rfl, Nat.zero_le _, List.Pairwise.nil⟩

/-! ### Pruning leaves the kept list alone -/

theorem prune_helper_frame (model model1 : t9_model_t C) (node depth : Nat)
    (h : __t9_model_prune_path_helper model node depth = .ok model1) :
    model1.paths = model.paths ∧ model1.number_paths = model.number_paths := by
  unfold __t9_model_prune_path_helper at h
  cases ht : model.search_tree with
  | none => rw [ht] at h; simp at h
  | some tree =>
    rw [ht] at h
    simp only at h
    cases hf : find_node node tree.root with
    | none => rw [hf] at h; simp at h
    | some n =>
      rw [hf] at h
      simp only at h
      split_ifs at h with hleaf hroot
      · cases hl : tree.level_table2.get? depth with
        | none => rw [hl] at h; simp at h
        | some level_map =>
          rw [hl] at h
          simp only at h
          split_ifs at h with hmem
          simp only [Except.ok.injEq] at h
          rw [← h]
          exact ⟨rfl, rfl⟩
      · simp only [Except.ok.injEq] at h
        rw [← h]
        exact ⟨rfl, rfl⟩

theorem prune_path_loop_frame (path : t9_path_t C) (i : Nat) :
    ∀ (model model1 : t9_model_t C), prune_path_loop path i model = .ok model1 →
      model1.paths = model.paths ∧ model1.number_paths = model.number_paths := by
  induction i with
  | zero =>
    intro model model1 h
    simp only [prune_path_loop] at h
    exact prune_helper_frame model model1 _ _ h
  | succ i ih =>
    intro model model1 h
    simp only [prune_path_loop] at h
    cases hh : __t9_model_prune_path_helper model (path.nodes.getD (i + 1) 0) (i + 1) with
    | error e => rw [hh] at h; simp at h
    | ok model2 =>
      rw [hh] at h
      simp only at h
      have h1 := prune_helper_frame model model2 _ _ hh
      have h2 := ih model2 model1 h
      exact ⟨h2.1.trans h1.1, h2.2.trans h1.2⟩

theorem prune_path_frame (model model1 : t9_model_t C) (path : t9_path_t C) (e : t9_error_t)
    (h : t9_model_prune_path model path = .ok (e, model1)) :
    model1.paths = model.paths ∧ model1.number_paths = model.number_paths := by
  unfold t9_model_prune_path at h
  split_ifs at h with hpos
  · cases hl : prune_path_loop path (path.nodes.length - 1) model with
    | error e1 => rw [hl] at h; simp at h
    | ok model2 =>
      rw [hl] at h
      simp only [Except.ok.injEq, Prod.mk.injEq] at h
      rw [← h.2]
      exact prune_path_loop_frame path _ model model2 hl
  · simp only [Except.ok.injEq, Prod.mk.injEq] at h
    rw [← h.2]
    exact ⟨rfl, rfl⟩

mutual
theorem node_prune_frame :
    ∀ (node : t9_search_node_t C) (model : t9_model_t C) (path : t9_path_t C)
      (model1 : t9_model_t C) (path1 : t9_path_t C),
      t9_search_node_prune node model path = .ok (model1, path1) →
      model1.paths = model.paths ∧ model1.number_paths = model.number_paths
  | .mk a s p [], model, path, model1, path1, h => by
    simp only [t9_search_node_prune] at h
    cases hf : path_found path model.paths with
    | error e => rw [hf] at h; simp at h
    | ok found =>
      rw [hf] at h
      cases found with
      | true =>
        simp only [Except.ok.injEq, Prod.mk.injEq] at h
        rw [← h.1]
        exact ⟨rfl, rfl⟩
      | false =>
        simp only at h
        cases hp : t9_model_prune_path model path with
        | error e => rw [hp] at h; simp at h
        | ok r =>
          obtain ⟨e, model2⟩ := r
          rw [hp] at h
          simp only [Except.ok.injEq, Prod.mk.injEq] at h
          rw [← h.1]
          exact prune_path_frame model model2 path e hp
  | .mk a s p (c :: cs), model, path, model1, path1, h => by
    simp only [t9_search_node_prune] at h
    exact prune_children_frame (c :: cs) model path model1 path1 h
theorem prune_children_frame :
    ∀ (cs : List (t9_search_node_t C)) (model : t9_model_t C) (path : t9_path_t C)
      (model1 : t9_model_t C) (path1 : t9_path_t C),
      prune_children cs model path = .ok (model1, path1) →
      model1.paths = model.paths ∧ model1.number_paths = model.number_paths
  | [], model, path, model1, path1, h => by
    simp only [prune_children, Except.ok.injEq, Prod.mk.injEq] at h
    rw [← h.1]
    exact ⟨rfl, rfl⟩
  | child :: rest, model, path, model1, path1, h => by
    simp only [prune_children] at h
    cases hc : t9_search_node_prune child model (t9_path_push path child) with
    | error e => rw [hc] at h; simp at h
    | ok r =>
      obtain ⟨model2, path2⟩ := r
      rw [hc] at h
      simp only at h
      have h1 := node_prune_frame child model _ model2 path2 hc
      have h2 := prune_children_frame rest model2 _ model1 path1 h
      exact ⟨h2.1.trans h1.1, h2.2.trans h1.2⟩
end

theorem tree_prune_frame (model model1 : t9_model_t C)
    (h : t9_search_tree_prune model = .ok model1) :
    model1.paths = model.paths ∧ model1.number_paths = model.number_paths := by
  unfold t9_search_tree_prune at h
  split_ifs at h with hn
  · simp only [Except.ok.injEq] at h
    rw [← h]
    exact ⟨rfl, rfl⟩
  · cases ht : model.search_tree with
    | none => rw [ht] at h; simp at h
    | some tree =>
      rw [ht] at h
      simp only at h
      split_ifs at h with hd
      · simp only [Except.ok.injEq] at h
        rw [← h]
        exact ⟨rfl, rfl⟩
      · cases hp : t9_search_node_prune tree.root model t9_path_create with
        | error e => rw [hp] at h; simp at h
        | ok r =>
          obtain ⟨model2, path2⟩ := r
          rw [hp] at h
          simp only [Except.ok.injEq] at h
          rw [← h]
          exact node_prune_frame tree.root model _ model2 path2 hp

/-! ### Growing the tree leaves the number of kept paths alone -/

theorem expand_loop_frame (t9_input : Nat) (node_probability : C) (depth : Nat)
    (symbols : List Nat) :
    ∀ (sequence : List Nat) (children2 : List (t9_search_node_t C)) (model : t9_model_t C)
      (children3 : List (t9_search_node_t C)) (model1 : t9_model_t C),
      expand_loop t9_input node_probability depth symbols sequence children2 model =
        .ok (children3, model1) →
      model1.number_paths = model.number_paths := by
  induction symbols with
  | nil =>
    intro sequence children2 model children3 model1 h
    simp only [expand_loop, Except.ok.injEq, Prod.mk.injEq] at h
    rw [← h.2]
  | cons symbol rest ih =>
    intro sequence children2 model children3 model1 h
    unfold expand_loop at h
    by_cases h0 : symbol = 0
    · rw [if_pos h0] at h
      simp only [Except.ok.injEq, Prod.mk.injEq] at h
      rw [← h.2]
    · rw [if_neg h0] at h
      cases ht : model.search_tree with
      | none => rw [ht] at h; simp at h
      | some tree =>
        rw [ht] at h
        simp only at h
        cases hb : t9_corpus_tree_button_for_letter t9_input symbol with
        | error e => rw [hb] at h; simp at h
        | ok button =>
          rw [hb] at h
          simp only at h
          cases hl : level_push tree.level_table2 depth tree.next_addr with
          | error e => rw [hl] at h; simp at h
          | ok table =>
            rw [hl] at h
            simp only at h
            have := ih _ _ _ _ _ h
            exact this

mutual
theorem node_insert_frame :
    ∀ (node : t9_search_node_t C) (t9_input : Nat) (sequence : List Nat) (depth : Nat)
      (model : t9_model_t C) (node1 : t9_search_node_t C) (model1 : t9_model_t C),
      t9_search_node_insert node t9_input sequence depth model = .ok (node1, model1) →
      model1.number_paths = model.number_paths
  | .mk a s p [], t9_input, sequence, depth, model, node1, model1, h => by
    simp only [t9_search_node_insert] at h
    cases he : expand_loop t9_input p depth CORPUS_SYMBOLS sequence [] model with
    | error e => rw [he] at h; simp at h
    | ok r =>
      obtain ⟨children2, model2⟩ := r
      rw [he] at h
      simp only [Except.ok.injEq, Prod.mk.injEq] at h
      rw [← h.2]
      exact expand_loop_frame _ _ _ _ _ _ _ _ _ he
  | .mk a s p (c :: cs), t9_input, sequence, depth, model, node1, model1, h => by
    simp only [t9_search_node_insert] at h
    cases hi : insert_children (c :: cs) t9_input sequence depth model with
    | error e => rw [hi] at h; simp at h
    | ok r =>
      obtain ⟨children2, model2⟩ := r
      rw [hi] at h
      simp only [Except.ok.injEq, Prod.mk.injEq] at h
      rw [← h.2]
      exact insert_children_frame (c :: cs) _ _ _ _ _ _ hi
theorem insert_children_frame :
    ∀ (cs : List (t9_search_node_t C)) (t9_input : Nat) (sequence : List Nat) (depth : Nat)
      (model : t9_model_t C) (cs1 : List (t9_search_node_t C)) (model1 : t9_model_t C),
      insert_children cs t9_input sequence depth model = .ok (cs1, model1) →
      model1.number_paths = model.number_paths
  | [], t9_input, sequence, depth, model, cs1, model1, h => by
    simp only [insert_children, Except.ok.injEq, Prod.mk.injEq] at h
    rw [← h.2]
  | child :: rest, t9_input, sequence, depth, model, cs1, model1, h => by
    simp only [insert_children] at h
    cases hc : t9_search_node_insert child t9_input (cstr sequence ++ [child.symbol])
        (depth + 1) model with
    | error e => rw [hc] at h; simp at h
    | ok r =>
      obtain ⟨child1, model2⟩ := r
      rw [hc] at h
      simp only at h
      cases hr : insert_children rest t9_input sequence depth model2 with
      | error e => rw [hr] at h; simp at h
      | ok r2 =>
        obtain ⟨rest1, model3⟩ := r2
        rw [hr] at h
        simp only [Except.ok.injEq, Prod.mk.injEq] at h
        rw [← h.2]
        exact (insert_children_frame rest _ _ _ _ _ _ hr).trans
          (node_insert_frame child _ _ _ _ _ _ hc)
end

/-- C10: after a keystroke processed by `t9_search_tree_insert` the kept list
`model->paths` has at most `number_paths` entries and is sorted ascending by
cost. -/
theorem kept_list_bounded_and_sorted (model : t9_model_t C) (symbol : Nat)
    (e : t9_error_t) (model1 : t9_model_t C)
    (h : t9_search_tree_insert model symbol = .ok (e, model1)) :
    model1.number_paths = model.number_paths ∧
      model1.paths.length ≤ model.number_paths ∧
      paths_sorted model1.paths := by
  unfold t9_search_tree_insert at h
  cases ht : model.search_tree with
  | none => rw [ht] at h; simp at h
  | some tree =>
    rw [ht] at h
    simp only at h
    cases hi : t9_search_node_insert tree.root symbol [] 0 model with
    | error e1 => rw [hi] at h; simp at h
    | ok r =>
      obtain ⟨root, model2⟩ := r
      rw [hi] at h
      simp only at h
      have hK2 := node_insert_frame tree.root symbol [] 0 model root model2 hi
      cases ht2 : model2.search_tree with
      | none => rw [ht2] at h; simp at h
      | some tree2 =>
        rw [ht2] at h
        simp only at h
        cases hs : t9_search_tree_search_paths
            { model2 with search_tree := some { tree2 with root := root } } with
        | error e1 => rw [hs] at h; simp at h
        | ok model3 =>
          rw [hs] at h
          simp only at h
          have h3 := search_paths_keeps _ model3 hs
          simp only at h3
          cases hp : t9_search_tree_prune model3 with
          | error e1 => rw [hp] at h; simp at h
          | ok model4 =>
            rw [hp] at h
            simp only [Except.ok.injEq, Prod.mk.injEq] at h
            have h4 := tree_prune_frame model3 model4 hp
            rw [← h.2, h4.1, h4.2, h3.1, hK2]
            refine ⟨rfl, ?_, h3.2.2⟩
            have := h3.2.1
            rw [hK2] at this
            exact this

end Keystroke

theorem ok_of_is_ok {α : Type} (r : Except Fault α) (h : is_ok r = true) :
    ∃ a, r = .ok a := by
  cases r with
  | error e => simp [is_ok] at h
  | ok a => exact ⟨a, rfl⟩

/-- Witness of C10: the first key `2` typed into the model of the text `banana`
with `N = 1` and three kept paths. -/
theorem kept_list_bounded_and_sorted_witness :
    ∃ e model1,
      t9_search_tree_insert (example_model_first_key "banana" 1 3) 50 = .ok (e, model1) ∧
        model1.number_paths = (example_model_first_key "banana" 1 3).number_paths ∧
        model1.paths.length ≤ (example_model_first_key "banana" 1 3).number_paths ∧
        paths_sorted model1.paths := by
  have hok :
      is_ok (t9_search_tree_insert (example_model_first_key "banana" 1 3) 50) = true := by
    decide!
  obtain ⟨⟨e, model1⟩, h⟩ := ok_of_is_ok _ hok
  exact ⟨e, model1, h,
    kept_list_bounded_and_sorted (example_model_first_key "banana" 1 3) 50 e model1 h⟩

/-! ## The build returns, and the claims about the built trie -/


theorem ngram_stop (corpus : corpus_t) (N offset : Nat)
    (hsize : corpus.train_buffer.length < SIZE_MOD)
    (ho : offset + N = corpus.train_buffer.length) (hN : 1 ≤ N) :
    t9_corpus_ngram corpus N offset = .ok ([], corpus.train_buffer.length) := by
  unfold t9_corpus_ngram
  simp only [corpus_t.train_buffer_size, SIZE_MOD] at hsize ⊢
  norm_num at hsize ⊢
  intro h
  omega

theorem ngram_window (corpus : corpus_t) (N offset : Nat)
    (hsize : corpus.train_buffer.length < SIZE_MOD)
    (ho : offset + N < corpus.train_buffer.length) :
    t9_corpus_ngram corpus N offset =
      .ok (((corpus.train_buffer ++ [0]).drop offset).take N, offset + 1) := by
  unfold t9_corpus_ngram read_bytes
  simp only [corpus_t.train_buffer_size, SIZE_MOD] at hsize ⊢
  norm_num at hsize ⊢
  rw [if_neg (by omega), if_pos (by omega)]
  simp only [Except.ok.injEq, Prod.mk.injEq, true_and]
  omega

theorem insert_ngrams_loop_returns (corpus : corpus_t) (N : Nat) (hN : 1 ≤ N)
    (hsize : corpus.train_buffer.length < SIZE_MOD) (d : Nat) :
    ∀ (fuel offset : Nat) (root : t9_corpus_node_t) (ngram : List Nat),
      offset + N + d = corpus.train_buffer.length → d < fuel →
      ∃ root1, insert_ngrams_loop corpus N fuel root ngram offset = .ok root1 := by
  induction d with
  | zero =>
    intro fuel offset root ngram ho hf
    obtain ⟨fuel1, rfl⟩ : ∃ f, fuel = f + 1 := ⟨fuel - 1, by omega⟩
    unfold insert_ngrams_loop
    rw [ngram_stop corpus N offset hsize (by omega) hN]
    simp [corpus_t.train_buffer_size]
  | succ d ih =>
    intro fuel offset root ngram ho hf
    obtain ⟨fuel1, rfl⟩ : ∃ f, fuel = f + 1 := ⟨fuel - 1, by omega⟩
    unfold insert_ngrams_loop
    rw [ngram_window corpus N offset hsize (by omega)]
    simp only
    rw [if_pos (by simp only [corpus_t.train_buffer_size]; omega)]
    exact ih fuel1 (offset + 1) _ _ (by omega) (by omega)

theorem insert_ngrams_returns (tree : t9_corpus_tree_t) (corpus : corpus_t) (N : Nat)
    (hN : 1 ≤ N) (hlen : N < corpus.train_buffer.length)
    (hsize : corpus.train_buffer.length < SIZE_MOD) :
    ∃ tree1, t9_corpus_tree_insert_ngrams tree corpus N = .ok tree1 := by
  unfold t9_corpus_tree_insert_ngrams
  rw [ngram_window corpus N 0 hsize (by omega)]
  simp only
  obtain ⟨root1, h⟩ := insert_ngrams_loop_returns corpus N hN hsize
    (corpus.train_buffer.length - N - 1) SIZE_MOD (0 + 1) tree.root
    (((corpus.train_buffer ++ [0]).drop 0).take N) (by omega) (by omega)
  rw [h]
  exact ⟨⟨root1⟩, rfl⟩

theorem build_returns (corpus : corpus_t) (N : Nat)
    (hN : 1 ≤ N) (hlen : N < corpus.train_buffer.length)
    (hsize : corpus.train_buffer.length < SIZE_MOD) :
    ∃ tree, build_corpus_tree corpus N = .ok tree := by
  obtain ⟨tree1, h⟩ := insert_ngrams_returns t9_corpus_tree_create corpus N hN hlen hsize
  exact ⟨_, build_eq corpus N tree1 h⟩


/-- C3 (as stated, refuted): in the finalized trie of the text `banana` with
`N = 1` the node `a` has the count 2 and the root the count 5, but the
probability stored at `a` is 13421773/33554432, the `float` nearest to 2/5, and
not the ratio 2/5, which is no `float`. -/
theorem finalize_ratio_counterexample :
    (match build_corpus_tree banana 1 with
      | .ok tree =>
        (descend tree.root (bytes "a")).map
          (fun n => (n.count, tree.root.count, n.probability))
      | .error _ => none) = some (2, 5, 13421773 / 33554432) ∧
    (13421773 / 33554432 : ℚ) ≠ 2 / 5 := by
  constructor
  · decide!
  · norm_num

/-- C3 (amended): for a text longer than the window length `N ≥ 1`, build and
finalize return a trie in which every node that has a parent carries the
binary32 quotient of its count and the count of its parent: both counts
converted to `float`, the quotient rounded to nearest (`rounded_quotient`).  It
differs from the exact ratio `count / parent.count` by at most the fraction
`2 ^ -22` of that ratio, and it is the exact ratio whenever both counts are below
`2 ^ 24` and the ratio is a binary32 number `m * 2 ^ e` with `m < 2 ^ 24`.  The
count of the root is the sum of the counts of its direct children. -/
theorem finalize_stores_rounded_ratio (corpus : corpus_t) (N : Nat) (hN : 1 ≤ N)
    (hlen : N < corpus.train_buffer.length)
    (hsize : corpus.train_buffer.length < SIZE_MOD) :
    ∃ tree, build_corpus_tree corpus N = .ok tree ∧
      all_nodes (fun parent => ∀ child ∈ parent.children,
        child.probability = rounded_quotient FLT_MANT_DIG child.count parent.count)
        tree.root ∧
      all_nodes (fun parent => ∀ child ∈ parent.children,
        |child.probability - (child.count : ℚ) / (parent.count : ℚ)| ≤
          1 / 2 ^ 22 * ((child.count : ℚ) / (parent.count : ℚ)))
        tree.root ∧
      all_nodes (fun parent => ∀ child ∈ parent.children,
        child.count < 2 ^ 24 → parent.count < 2 ^ 24 →
        ∀ (m : Nat) (e : ℤ), m < 2 ^ 24 →
          (child.count : ℚ) / (parent.count : ℚ) = (m : ℚ) * (2 : ℚ) ^ e →
          child.probability = (child.count : ℚ) / (parent.count : ℚ))
        tree.root ∧
      tree.root.count = count_sum tree.root.children := by
  obtain ⟨tree, h⟩ := insert_ngrams_returns t9_corpus_tree_create corpus N hN hlen hsize
  have h1 := finalize_ratio_of_filled corpus N tree h
  refine ⟨finalized_tree tree, build_eq corpus N tree h, h1.1,
    finalize_error_of_filled corpus N tree h, ?_, h1.2⟩
  apply all_nodes_imp _ _ _ _ h1.1
  intro parent hp child hchild hc1 hc2 m e hm hq
  rw [hp child hchild]
  exact rounded_quotient_exact FLT_MANT_DIG _ _ hc1 hc2 m e hm hq

/-- Witness of C3 (amended) on the text `banana` with windows of length 2. -/
theorem finalize_stores_rounded_ratio_witness :
    1 ≤ 2 ∧ 2 < banana.train_buffer.length ∧ banana.train_buffer.length < SIZE_MOD ∧
      ∃ tree, build_corpus_tree banana 2 = .ok tree ∧
        all_nodes (fun parent => ∀ child ∈ parent.children,
          child.probability = rounded_quotient FLT_MANT_DIG child.count parent.count)
          tree.root ∧
        all_nodes (fun parent => ∀ child ∈ parent.children,
          |child.probability - (child.count : ℚ) / (parent.count : ℚ)| ≤
            1 / 2 ^ 22 * ((child.count : ℚ) / (parent.count : ℚ)))
          tree.root ∧
        all_nodes (fun parent => ∀ child ∈ parent.children,
          child.count < 2 ^ 24 → parent.count < 2 ^ 24 →
          ∀ (m : Nat) (e : ℤ), m < 2 ^ 24 →
            (child.count : ℚ) / (parent.count : ℚ) = (m : ℚ) * (2 : ℚ) ^ e →
            child.probability = (child.count : ℚ) / (parent.count : ℚ))
          tree.root ∧
        tree.root.count = count_sum tree.root.children :=
  ⟨by decide, by decide, by decide,
    finalize_stores_rounded_ratio banana 2 (by decide) (by decide) (by decide)⟩

/-- C4: for a training text longer than the window length `N ≥ 1` the build
returns a trie, and on this finalized trie the value returned by
`t9_corpus_tree_conditional_probability` lies in the closed interval from 0 to
1, for every word. -/
theorem conditional_probability_in_unit_interval (corpus : corpus_t) (N : Nat)
    (hN : 1 ≤ N) (hlen : N < corpus.train_buffer.length)
    (hsize : corpus.train_buffer.length < SIZE_MOD) :
    ∃ tree, build_corpus_tree corpus N = .ok tree ∧
      ∀ word, 0 ≤ t9_corpus_tree_conditional_probability (some tree) word ∧
        t9_corpus_tree_conditional_probability (some tree) word ≤ 1 := by
  obtain ⟨tree, h⟩ := build_returns corpus N hN hlen hsize
  exact ⟨tree, h, fun word => conditional_probability_unit_of_built corpus N tree word h⟩

/-- Witness of C4 on the text `banana` with `N = 2`. -/
theorem conditional_probability_in_unit_interval_witness :
    1 ≤ 2 ∧ 2 < banana.train_buffer.length ∧ banana.train_buffer.length < SIZE_MOD ∧
      ∃ tree, build_corpus_tree banana 2 = .ok tree ∧
        ∀ word, 0 ≤ t9_corpus_tree_conditional_probability (some tree) word ∧
          t9_corpus_tree_conditional_probability (some tree) word ≤ 1 :=
  ⟨by decide, by decide, by decide,
    conditional_probability_in_unit_interval banana 2 (by decide) (by decide) (by decide)⟩

/-- C5 (amended): for a training text without zero bytes that is longer than the
window length `N ≥ 1`, build and finalize return a trie in which, at every node
that has at least one child, the counts of the children sum to the count of the
node, every child stores the binary32 quotient of its count and that count, and
the stored probabilities of the children sum to 1 up to the rounding of the
quotients: the sum differs from 1 by at most `2 ^ -22`. -/
theorem children_probabilities_sum_near_one (corpus : corpus_t) (N : Nat)
    (hN : 1 ≤ N) (hlen : N < corpus.train_buffer.length)
    (hsize : corpus.train_buffer.length < SIZE_MOD) (hzero : 0 ∉ corpus.train_buffer) :
    ∃ tree, build_corpus_tree corpus N = .ok tree ∧
      all_nodes (fun n => n.children ≠ [] →
        count_sum n.children = n.count ∧ |prob_sum n.children - 1| ≤ 1 / 2 ^ 22)
        tree.root ∧
      all_nodes (fun parent => ∀ child ∈ parent.children,
        child.probability = rounded_quotient FLT_MANT_DIG child.count parent.count)
        tree.root := by
  obtain ⟨tree0, h0⟩ := insert_ngrams_returns t9_corpus_tree_create corpus N hN hlen hsize
  have h := build_eq corpus N tree0 h0
  exact ⟨_, h, children_sum_one_of_built corpus N _ hN hzero hsize h,
    (finalize_ratio_of_filled corpus N tree0 h0).1⟩

/-- Witness of the amended C5 on the text `banana` with `N = 2`. -/
theorem children_probabilities_sum_near_one_witness :
    1 ≤ 2 ∧ 2 < banana.train_buffer.length ∧ banana.train_buffer.length < SIZE_MOD ∧
      0 ∉ banana.train_buffer ∧
      ∃ tree, build_corpus_tree banana 2 = .ok tree ∧
        all_nodes (fun n => n.children ≠ [] →
          count_sum n.children = n.count ∧ |prob_sum n.children - 1| ≤ 1 / 2 ^ 22)
          tree.root ∧
        all_nodes (fun parent => ∀ child ∈ parent.children,
          child.probability = rounded_quotient FLT_MANT_DIG child.count parent.count)
          tree.root :=
  ⟨by decide, by decide, by decide, by decide,
    children_probabilities_sum_near_one banana 2 (by decide) (by decide) (by decide)
      (by decide)⟩

/-- A text with a zero byte need not have child probabilities that sum to 1: in
the text `b`, 0, `b`, `a`, `a` with `N = 2` the window that starts at the first `b` is cut
short by the zero byte, so the node reached by `b` is counted twice while its
only child is counted once, and the child's probability is 1/2. -/
theorem zero_byte_leaves_count_without_child :
    (match t9_corpus_tree_insert_ngrams t9_corpus_tree_create ⟨[98, 0, 98, 97, 97], []⟩ 2 with
      | .ok tree =>
        (descend tree.root [98]).map (fun n => (n.count, count_sum n.children))
      | .error _ => none) = some (2, 1) := by
  decide

section PathEqual

variable {C : Type}

theorem is_equal_loop_iff (a b : List Nat) (n : Nat) :
    is_equal_loop a b n = true ↔ ∀ i, 1 ≤ i → i ≤ n → a.getD i 0 = b.getD i 0 := by
  induction n with
  | zero =>
    simp only [is_equal_loop, true_iff]
    intro i h1 h2
    omega
  | succ n ih =>
    unfold is_equal_loop
    by_cases h : a.getD (n + 1) 0 = b.getD (n + 1) 0
    · rw [if_neg (not_not.mpr h), ih]
      constructor
      · intro hall i h1 h2
        by_cases hi : i = n + 1
        · rw [hi]; exact h
        · exact hall i h1 (by omega)
      · intro hall i h1 h2
        exact hall i h1 (by omega)
    · rw [if_pos h]
      constructor
      · intro hf; cases hf
      · intro hall
        exact absurd (hall (n + 1) (by omega) (le_refl _)) h

theorem is_equal_loop_tail (a b : List Nat) (hl : a.length = b.length) :
    is_equal_loop a b (a.length - 1) = true ↔ a.tail = b.tail := by
  rw [is_equal_loop_iff]
  cases a with
  | nil =>
    cases b with
    | nil => simp
    | cons y b => simp at hl
  | cons x a =>
    cases b with
    | nil => simp at hl
    | cons y b =>
      simp only [List.length_cons, Nat.add_sub_cancel, List.tail_cons]
      simp only [List.length_cons, Nat.add_right_cancel_iff] at hl
      constructor
      · intro hall
        apply List.ext_getElem hl
        intro i h1 h2
        have := hall (i + 1) (by omega) (by omega)
        simpa [List.getD_eq_getElem?_getD, List.getElem?_eq_getElem h1,
          List.getElem?_eq_getElem h2] using this
      · intro heq i h1 h2
        obtain ⟨j, rfl⟩ : ∃ j, i = j + 1 := ⟨i - 1, by omega⟩
        simp [heq]

/-- C15 (what the code does): `t9_path_is_equal` answers `false` for paths of
different lengths, reads outside both vectors when the two paths are empty, and
otherwise compares every position except the first: the answer is `true` exactly
when the node sequences agree after their first node. -/
theorem path_is_equal_skips_first_node (path_a path_b : t9_path_t C) :
    t9_path_is_equal path_a path_b =
      if path_a.nodes.length ≠ path_b.nodes.length then .ok false
      else if path_a.nodes = [] then .error .undefined_behaviour
      else .ok (decide (path_a.nodes.tail = path_b.nodes.tail)) := by
  unfold t9_path_is_equal
  by_cases hl : path_a.nodes.length = path_b.nodes.length
  · rw [if_neg (not_not.mpr hl), if_neg (not_not.mpr hl)]
    by_cases h0 : path_a.nodes = []
    · rw [if_pos h0, if_pos (by simp [h0])]
    · rw [if_neg h0, if_neg (by simpa [List.length_eq_zero] using h0)]
      congr 1
      rw [Bool.eq_iff_iff, is_equal_loop_tail _ _ hl]
      simp
  · rw [if_pos hl, if_pos hl]

/-- C15 (failing input): two paths of one node each are reported equal whatever
the two nodes are. -/
theorem path_is_equal_one_node (cost_a cost_b : C) (x y : Nat) :
    t9_path_is_equal (⟨cost_a, [x]⟩ : t9_path_t C) ⟨cost_b, [y]⟩ = .ok true := by
  simp [t9_path_is_equal, is_equal_loop]

end PathEqual

/-- C18 (what the code does): with the empty key sequence nothing is typed, and a
model whose kept list is empty is then asked for its first kept path:
`kv_A(model->paths, 0)` reads outside the vector instead of returning
T9_FAILURE. -/
theorem autocomplete_empty_sequence_reads_missing_path {C : Type} [T9Math C]
    (model : t9_model_t C) (tree : t9_search_tree_t C) :
    t9_model_autocomplete { model with search_tree := some tree, paths := [] } [] =
      .error .undefined_behaviour := by
  simp [t9_model_autocomplete, t9_search_tree_type, type_loop,
    t9_corpus_validate_lexicon_symbols, validate_scan]

/-- C14 (failing input): with `N = 1`, `K = 1` and the text `banana`, after the
single key `2` the pruned tree still has 65 frontier nodes for one kept path. -/
theorem prune_keeps_all_depth_one_nodes :
    frontier_and_kept (t9_search_tree_type (example_model "banana" 1 1) (bytes "2")) =
      some (65, 1) := by
  decide!
section SearchFrame

variable {C : Type} [T9Math C]

theorem search_leaf_frame (model : t9_model_t C) (tmp_path : t9_path_t C) :
    search_leaf model tmp_path =
      { model with paths := (search_leaf model tmp_path).paths } := by
  simp only [search_leaf, t9_model_sort_paths]
  split_ifs <;> rfl

mutual
theorem node_search_frame :
    ∀ (node : t9_search_node_t C) (model : t9_model_t C) (tmp_path : t9_path_t C),
      (t9_node_search_paths node model tmp_path).1 =
        { model with paths := (t9_node_search_paths node model tmp_path).1.paths }
  | .mk a s p [], model, tmp_path => by
    simp only [t9_node_search_paths]
    split_ifs
    · rfl
    · exact search_leaf_frame model tmp_path
  | .mk a s p (c :: cs), model, tmp_path => by
    simp only [t9_node_search_paths]
    split_ifs
    · rfl
    · exact search_children_frame (c :: cs) model tmp_path
theorem search_children_frame :
    ∀ (cs : List (t9_search_node_t C)) (model : t9_model_t C) (tmp_path : t9_path_t C),
      (search_children cs model tmp_path).1 =
        { model with paths := (search_children cs model tmp_path).1.paths }
  | [], model, tmp_path => by
    simp only [search_children]
  | child :: rest, model, tmp_path => by
    simp only [search_children]
    have h1 := node_search_frame child model (t9_path_push tmp_path child)
    have h2 := search_children_frame rest
      (t9_node_search_paths child model (t9_path_push tmp_path child)).1
      (t9_path_pop (t9_node_search_paths child model (t9_path_push tmp_path child)).2)
    rw [h2]
    rw [h1]
end

/-- C12: a second call of `t9_search_tree_search_paths` on the model the first
call returned, with the tree untouched in between, returns that same model: the
kept list has the same node sequences, the same costs and the same order. -/
theorem search_paths_idempotent (model model1 : t9_model_t C)
    (h : t9_search_tree_search_paths model = .ok model1) :
    t9_search_tree_search_paths model1 = .ok model1 := by
  obtain ⟨corpus, corpus_tree, search_tree, paths, n, k⟩ := model
  unfold t9_search_tree_search_paths at h ⊢
  cases search_tree with
  | none => cases h
  | some tree =>
    simp only [Except.ok.injEq] at h
    have hf := node_search_frame tree.root
      (⟨corpus, corpus_tree, some tree, [], n, k⟩ : t9_model_t C) t9_path_create
    rw [h] at hf
    rw [hf]
    simp only [Except.ok.injEq]
    rw [← hf]
    exact h

end SearchFrame

/-- Witness of C12: the search run twice on the model of the text `banana` with
`N = 1` and three kept paths, after its 65 first-level candidates were
inserted. -/
theorem search_paths_idempotent_witness :
    ∃ model1 : t9_model_t LogCost,
      t9_search_tree_search_paths
          (example_model_searched "banana" 1 3) = .ok model1 ∧
        t9_search_tree_search_paths model1 = .ok model1 := by
  have hok : is_ok (t9_search_tree_search_paths (example_model_searched "banana" 1 3)) = true := by
    decide!
  obtain ⟨model1, h⟩ := ok_of_is_ok _ hok
  exact ⟨model1, h, search_paths_idempotent _ model1 h⟩

section Exhaustive

variable {C : Type} [T9Math C]

theorem bubble_from_sorted (l : List (t9_path_t C)) :
    ∀ p : t9_path_t C, paths_sorted (p :: l) → bubble_from p l = p :: l := by
  induction l with
  | nil => intro p _; rfl
  | cons q rest ih =>
    intro p h
    have hpq : p.probability ≤ q.probability := (List.pairwise_cons.mp h).1 q (by simp)
    simp only [bubble_from]
    rw [if_neg (not_lt.mpr hpq), ih q (List.pairwise_cons.mp h).2]

theorem bubble_pass_sorted (l : List (t9_path_t C)) (h : paths_sorted l) :
    bubble_pass l = l := by
  cases l with
  | nil => rfl
  | cons p rest => exact bubble_from_sorted rest p h

theorem iterate_pass_of_sorted (n : Nat) (l : List (t9_path_t C)) (h : paths_sorted l) :
    bubble_pass^[n] l = l := by
  induction n with
  | zero => rfl
  | succ n ih =>
    rw [Function.iterate_succ, Function.comp_apply, bubble_pass_sorted l h, ih]

theorem bubble_from_swap_last (x m : t9_path_t C) (hx : x.probability < m.probability)
    (init : List (t9_path_t C)) :
    ∀ p : t9_path_t C, paths_sorted (p :: (init ++ [m])) →
      bubble_from p (init ++ [m, x]) = p :: (init ++ [x, m]) := by
  induction init with
  | nil =>
    intro p h
    have hpm : p.probability ≤ m.probability := (List.pairwise_cons.mp h).1 m (by simp)
    simp only [List.nil_append, bubble_from]
    rw [if_neg (not_lt.mpr hpm), if_pos hx]
  | cons q rest ih =>
    intro p h
    have hpq : p.probability ≤ q.probability := (List.pairwise_cons.mp h).1 q (by simp)
    simp only [List.cons_append, bubble_from]
    rw [if_neg (not_lt.mpr hpq)]
    exact congrArg (p :: ·) (ih q (List.pairwise_cons.mp h).2)

theorem bubble_pass_swap_last (x m : t9_path_t C) (hx : x.probability < m.probability)
    (init : List (t9_path_t C)) (h : paths_sorted (init ++ [m])) :
    bubble_pass (init ++ [m] ++ [x]) = init ++ [x] ++ [m] := by
  cases init with
  | nil =>
    simp only [List.nil_append, List.singleton_append, bubble_pass, bubble_from]
    rw [if_pos hx]
  | cons p rest =>
    simp only [List.cons_append, List.append_assoc, List.singleton_append, bubble_pass]
    exact bubble_from_swap_last x m hx rest p h

theorem insert_path_append_lt (x m : t9_path_t C) (hx : x.probability < m.probability)
    (l : List (t9_path_t C)) :
    insert_path x (l ++ [m]) = insert_path x l ++ [m] := by
  induction l with
  | nil => simp only [List.nil_append, insert_path]; rw [if_pos hx]; rfl
  | cons b rest ih =>
    simp only [List.cons_append, insert_path]
    split_ifs
    · rfl
    · exact congrArg (b :: ·) ih

theorem insert_path_of_le (x : t9_path_t C) (l : List (t9_path_t C))
    (h : ∀ b ∈ l, b.probability ≤ x.probability) : insert_path x l = l ++ [x] := by
  induction l with
  | nil => rfl
  | cons b rest ih =>
    simp only [insert_path]
    rw [if_neg (not_lt.mpr (h b (by simp)))]
    exact congrArg (b :: ·) (ih (fun c hc => h c (List.mem_cons_of_mem _ hc)))

theorem sorted_append_last (init : List (t9_path_t C)) (m : t9_path_t C)
    (h : paths_sorted (init ++ [m])) :
    paths_sorted init ∧ ∀ b ∈ init, b.probability ≤ m.probability := by
  have := List.pairwise_append.mp h
  exact ⟨this.1, fun b hb => this.2.2 b hb m (by simp)⟩

theorem iterate_pass_insert (l : List (t9_path_t C)) (x : t9_path_t C) :
    ∀ n, paths_sorted l → l.length ≤ n → bubble_pass^[n] (l ++ [x]) = insert_path x l := by
  induction l using List.reverseRecOn with
  | nil =>
    intro n _ _
    exact iterate_pass_of_sorted n [x] (List.pairwise_singleton _ _)
  | append_singleton init m ih =>
    intro n hs hn
    obtain ⟨hinit, hle⟩ := sorted_append_last init m hs
    by_cases hx : x.probability < m.probability
    · obtain ⟨k, rfl⟩ : ∃ k, n = k + 1 := ⟨n - 1, by
        simp only [List.length_append, List.length_singleton] at hn; omega⟩
      rw [Function.iterate_succ, Function.comp_apply, bubble_pass_swap_last x m hx init hs,
        iterate_pass_append_max, ih k hinit
          (by simp only [List.length_append, List.length_singleton] at hn; omega),
        insert_path_append_lt x m hx]
      intro b hb
      rcases List.mem_append.mp hb with hb | hb
      · exact hle b hb
      · simp only [List.mem_singleton] at hb
        rw [hb]; exact le_of_lt hx
    · have hmx : m.probability ≤ x.probability := not_lt.mp hx
      have hall : ∀ b ∈ init ++ [m], b.probability ≤ x.probability := by
        intro b hb
        rcases List.mem_append.mp hb with hb | hb
        · exact le_trans (hle b hb) hmx
        · simp only [List.mem_singleton] at hb
          rw [hb]; exact hmx
      rw [insert_path_of_le x _ hall]
      apply iterate_pass_of_sorted
      exact List.pairwise_append.mpr ⟨hs, List.pairwise_singleton _ _, fun a ha b hb => by
        simp only [List.mem_singleton] at hb
        rw [hb]; exact hall a ha⟩

theorem sort_paths_insert (l : List (t9_path_t C)) (x : t9_path_t C) (h : paths_sorted l) :
    sort_paths (l ++ [x]) = insert_path x l := by
  unfold sort_paths
  rw [if_neg (by simp)]
  simp only [List.length_append, List.length_singleton, Nat.add_sub_cancel]
  rw [sort_outer_eq _ _ _ (by simp)]
  exact iterate_pass_insert l x _ h (le_refl _)

end Exhaustive
section Exhaustive2

variable {C : Type} [T9Math C]

theorem insert_path_length (x : t9_path_t C) (l : List (t9_path_t C)) :
    (insert_path x l).length = l.length + 1 := by
  induction l with
  | nil => rfl
  | cons b rest ih =>
    simp only [insert_path]
    split_ifs
    · rfl
    · simp [ih]

theorem insert_path_mem (x : t9_path_t C) (l : List (t9_path_t C)) (y : t9_path_t C) :
    y ∈ insert_path x l ↔ y = x ∨ y ∈ l := by
  induction l with
  | nil => simp [insert_path]
  | cons b rest ih =>
    simp only [insert_path]
    split_ifs
    · simp
    · simp only [List.mem_cons, ih]
      tauto

theorem insert_path_sorted (x : t9_path_t C) (l : List (t9_path_t C)) (h : paths_sorted l) :
    paths_sorted (insert_path x l) := by
  induction l with
  | nil => exact List.pairwise_singleton _ _
  | cons b rest ih =>
    simp only [insert_path]
    have hb := List.pairwise_cons.mp h
    split_ifs with hx
    · refine List.pairwise_cons.mpr ⟨?_, h⟩
      intro y hy
      rcases List.mem_cons.mp hy with hy | hy
      · rw [hy]; exact le_of_lt hx
      · exact le_trans (le_of_lt hx) (hb.1 y hy)
    · refine List.pairwise_cons.mpr ⟨?_, ih hb.2⟩
      intro y hy
      rcases (insert_path_mem x rest y).mp hy with hy | hy
      · rw [hy]; exact not_lt.mp hx
      · exact hb.1 y hy

theorem take_insert_path_take (x : t9_path_t C) :
    ∀ (K : Nat) (l : List (t9_path_t C)),
      ((insert_path x (l.take K))).take K = (insert_path x l).take K := by
  intro K l
  induction l generalizing K with
  | nil => simp
  | cons b rest ih =>
    cases K with
    | zero => simp
    | succ K =>
      simp only [List.take_succ_cons, insert_path]
      split_ifs
      · simp only [List.take_succ_cons]
        congr 1
        cases K with
        | zero => simp
        | succ K => simp only [List.take_succ_cons]; simp [List.take_take]
      · simp only [List.take_succ_cons]
        exact congrArg (b :: ·) (ih K)

theorem take_foldl_insert_take (K : Nat) (xs : List (t9_path_t C)) :
    ∀ l : List (t9_path_t C),
      (xs.foldl (fun acc x => insert_path x acc) (l.take K)).take K =
        (xs.foldl (fun acc x => insert_path x acc) l).take K := by
  induction xs with
  | nil => intro l; simp [List.take_take]
  | cons y ys ih =>
    intro l
    simp only [List.foldl_cons]
    rw [← ih (insert_path y (l.take K)), take_insert_path_take, ih]

theorem absorb_eq_foldl (K : Nat) (xs : List (t9_path_t C)) :
    ∀ kept : List (t9_path_t C), kept.length ≤ K →
      absorb K kept xs = (xs.foldl (fun acc x => insert_path x acc) kept).take K := by
  induction xs with
  | nil =>
    intro kept h
    simp only [absorb, List.foldl_nil]
    exact (List.take_of_length_le h).symm
  | cons y ys ih =>
    intro kept h
    simp only [absorb, List.foldl_cons]
    rw [ih _ (List.length_take_le _ _), take_foldl_insert_take]

theorem absorb_append (K : Nat) (xs ys : List (t9_path_t C)) :
    ∀ kept : List (t9_path_t C), absorb K kept (xs ++ ys) = absorb K (absorb K kept xs) ys := by
  induction xs with
  | nil => intro kept; rfl
  | cons x xs ih => intro kept; simp only [List.cons_append, absorb]; exact ih _

/-- Putting the earlier path in front of every path that costs at least as much
commutes with putting a later path behind every path that costs no more. -/
theorem ordered_insert_insert_path (a x : t9_path_t C) (s : List (t9_path_t C)) :
    List.orderedInsert (fun a b : t9_path_t C => a.probability ≤ b.probability) a
        (insert_path x s) =
      insert_path x
        (List.orderedInsert (fun a b : t9_path_t C => a.probability ≤ b.probability) a s) := by
  induction s with
  | nil =>
    by_cases h : a.probability ≤ x.probability
    · have h2 : ¬ x.probability < a.probability := not_lt.mpr h
      simp [insert_path, List.orderedInsert, h, h2]
    · have h2 : x.probability < a.probability := not_le.mp h
      simp [insert_path, List.orderedInsert, h, h2]
  | cons b rest ih =>
    by_cases hxb : x.probability < b.probability
    · by_cases hax : a.probability ≤ x.probability
      · have hab : a.probability ≤ b.probability := le_trans hax (le_of_lt hxb)
        have hxa : ¬ x.probability < a.probability := not_lt.mpr hax
        simp [insert_path, List.orderedInsert, hxb, hax, hab, hxa]
      · have hxa : x.probability < a.probability := not_le.mp hax
        by_cases hab : a.probability ≤ b.probability
        · simp [insert_path, List.orderedInsert, hxb, hax, hab, hxa]
        · simp [insert_path, List.orderedInsert, hxb, hax, hab, hxa]
    · by_cases hab : a.probability ≤ b.probability
      · have hxa : ¬ x.probability < a.probability :=
          not_lt.mpr (le_trans hab (not_lt.mp hxb))
        simp [insert_path, List.orderedInsert, hxb, hab, hxa]
      · simp only [insert_path, List.orderedInsert, if_neg hxb, if_neg hab]
        rw [ih]

theorem insertion_sort_append_one (l : List (t9_path_t C)) (x : t9_path_t C) :
    (l ++ [x]).insertionSort (fun a b => a.probability ≤ b.probability) =
      insert_path x (l.insertionSort (fun a b => a.probability ≤ b.probability)) := by
  induction l with
  | nil => rfl
  | cons a rest ih =>
    have hc : (a :: rest) ++ [x] = a :: (rest ++ [x]) := rfl
    rw [hc, List.insertionSort, List.insertionSort, ih, ordered_insert_insert_path]

theorem foldl_insert_path_eq (xs : List (t9_path_t C)) :
    ∀ l : List (t9_path_t C),
      xs.foldl (fun acc x => insert_path x acc)
          (l.insertionSort (fun a b => a.probability ≤ b.probability)) =
        (l ++ xs).insertionSort (fun a b => a.probability ≤ b.probability) := by
  induction xs with
  | nil => intro l; simp
  | cons y ys ih =>
    intro l
    simp only [List.foldl_cons]
    rw [← insertion_sort_append_one, ih]
    simp

theorem absorb_nil_eq (K : Nat) (xs : List (t9_path_t C)) :
    absorb K [] xs = (xs.insertionSort (fun a b => a.probability ≤ b.probability)).take K := by
  rw [absorb_eq_foldl K xs [] (Nat.zero_le _)]
  have := foldl_insert_path_eq xs []
  simp only [List.insertionSort, List.nil_append] at this
  rw [this]

end Exhaustive2
section Exhaustive3

variable {C : Type} [T9Math C]

theorem search_leaf_paths (model : t9_model_t C) (tmp_path : t9_path_t C)
    (hlen : model.paths.length ≤ model.number_paths) (hs : paths_sorted model.paths) :
    (search_leaf model tmp_path).paths =
      (insert_path (t9_path_duplicate tmp_path) model.paths).take model.number_paths := by
  simp only [search_leaf, t9_model_sort_paths]
  rw [sort_paths_insert _ _ hs]
  have hl := insert_path_length (t9_path_duplicate tmp_path) model.paths
  split_ifs with hgt
  · simp only at hgt ⊢
    rw [List.dropLast_eq_take, hl]
    have : model.paths.length = model.number_paths := by omega
    rw [this, Nat.add_sub_cancel]
  · simp only at hgt ⊢
    exact (List.take_of_length_le (by omega)).symm

theorem sorted_le_last (l : List (t9_path_t C)) (last : t9_path_t C)
    (hs : paths_sorted l) (hl : l.getLast? = some last) :
    ∀ b ∈ l, b.probability ≤ last.probability := by
  obtain ⟨init, rfl⟩ := List.getLast?_eq_some_iff.mp hl
  intro b hb
  rcases List.mem_append.mp hb with hb | hb
  · exact (sorted_append_last init last hs).2 b hb
  · simp only [List.mem_singleton] at hb
    rw [hb]

theorem absorb_cut (K : Nat) (kept : List (t9_path_t C)) (last : t9_path_t C)
    (hs : paths_sorted kept) (hl : kept.getLast? = some last) (hK : kept.length = K)
    (xs : List (t9_path_t C)) (hx : ∀ x ∈ xs, last.probability ≤ x.probability) :
    absorb K kept xs = kept := by
  induction xs with
  | nil => rfl
  | cons x xs ih =>
    simp only [absorb]
    have h1 : insert_path x kept = kept ++ [x] :=
      insert_path_of_le x kept (fun b hb =>
        le_trans (sorted_le_last kept last hs hl b hb) (hx x (by simp)))
    rw [h1, ← hK, List.take_left', hK]
    · exact ih (fun y hy => hx y (List.mem_cons_of_mem _ hy))
    · rfl

mutual
theorem frontier_cost_ge :
    ∀ (node : t9_search_node_t C) (nodes : List Nat) (cost : C),
      cost_monotone node = true → node.probability ≤ cost →
      ∀ x ∈ frontier node nodes cost, node.probability ≤ x.probability
  | .mk a s p [], nodes, cost, _, hc, x, hx => by
    simp only [frontier, List.mem_singleton] at hx
    rw [hx]
    exact hc
  | .mk a s p (c :: cs), nodes, cost, hm, _, x, hx => by
    simp only [frontier] at hx
    simp only [cost_monotone] at hm
    exact frontier_list_cost_ge (c :: cs) p nodes hm x hx
theorem frontier_list_cost_ge :
    ∀ (cs : List (t9_search_node_t C)) (p : C) (nodes : List Nat),
      cost_monotone_list p cs = true →
      ∀ x ∈ frontier_list cs nodes, p ≤ x.probability
  | [], _, _, _, x, hx => by simp [frontier_list] at hx
  | c :: rest, p, nodes, hm, x, hx => by
    simp only [frontier_list, List.mem_append] at hx
    simp only [cost_monotone_list, Bool.and_eq_true, decide_eq_true_eq] at hm
    rcases hx with hx | hx
    · exact le_trans hm.1.1
        (frontier_cost_ge c (nodes ++ [c.addr]) c.probability hm.1.2 (le_refl _) x hx)
    · exact frontier_list_cost_ge rest p nodes hm.2 x hx
end

theorem search_cut_true (model : t9_model_t C) (p : C) (h : search_cut model p = true) :
    ∃ last, model.paths.getLast? = some last ∧ model.number_paths ≤ model.paths.length ∧
      last.probability ≤ p := by
  unfold search_cut at h
  cases hl : model.paths.getLast? with
  | none => rw [hl] at h; cases h
  | some last =>
    rw [hl] at h
    simp only [ge_iff_le, Bool.and_eq_true, decide_eq_true_eq] at h
    exact ⟨last, rfl, h.1, h.2⟩

mutual
theorem node_search_spec :
    ∀ (node : t9_search_node_t C) (model : t9_model_t C) (tmp_path : t9_path_t C),
      cost_monotone node = true →
      model.paths.length ≤ model.number_paths → paths_sorted model.paths →
      (model.paths = [] ∨ node.probability ≤ tmp_path.probability) →
      (t9_node_search_paths node model tmp_path).1.paths =
          absorb model.number_paths model.paths
            (frontier node tmp_path.nodes tmp_path.probability) ∧
        (t9_node_search_paths node model tmp_path).2.nodes = tmp_path.nodes
  | .mk a s p [], model, tmp_path, hm, hlen, hs, hc => by
    simp only [t9_node_search_paths]
    split_ifs with hcut
    · obtain ⟨last, hl, hfull, hle⟩ := search_cut_true model p hcut
      refine ⟨?_, rfl⟩
      have hc2 : p ≤ tmp_path.probability := by
        rcases hc with hc | hc
        · rw [hc] at hl; cases hl
        · exact hc
      symm
      apply absorb_cut _ _ last hs hl (le_antisymm hlen hfull)
      intro x hx
      simp only [frontier, List.mem_singleton] at hx
      rw [hx]
      exact le_trans hle hc2
    · refine ⟨?_, rfl⟩
      rw [search_leaf_paths model tmp_path hlen hs]
      rfl
  | .mk a s p (c :: cs), model, tmp_path, hm, hlen, hs, hc => by
    simp only [t9_node_search_paths]
    split_ifs with hcut
    · obtain ⟨last, hl, hfull, hle⟩ := search_cut_true model p hcut
      refine ⟨?_, rfl⟩
      symm
      apply absorb_cut _ _ last hs hl (le_antisymm hlen hfull)
      intro x hx
      simp only [frontier] at hx
      simp only [cost_monotone] at hm
      exact le_trans hle (frontier_list_cost_ge (c :: cs) p _ hm x hx)
    · simp only [frontier]
      simp only [cost_monotone] at hm
      exact search_children_spec (c :: cs) p model tmp_path hm hlen hs
theorem search_children_spec :
    ∀ (cs : List (t9_search_node_t C)) (p : C) (model : t9_model_t C)
      (tmp_path : t9_path_t C),
      cost_monotone_list p cs = true →
      model.paths.length ≤ model.number_paths → paths_sorted model.paths →
      (search_children cs model tmp_path).1.paths =
          absorb model.number_paths model.paths (frontier_list cs tmp_path.nodes) ∧
        (search_children cs model tmp_path).2.nodes = tmp_path.nodes
  | [], _, model, tmp_path, _, _, _ => by
    simp only [search_children, frontier_list, absorb, and_self]
  | child :: rest, p, model, tmp_path, hm, hlen, hs => by
    simp only [cost_monotone_list, Bool.and_eq_true, decide_eq_true_eq] at hm
    have h1 := node_search_spec child model (t9_path_push tmp_path child) hm.1.2 hlen hs
      (Or.inr (le_refl _))
    have hk := node_search_keeps model.number_paths child model (t9_path_push tmp_path child)
      ⟨rfl, hlen, hs⟩
    have h2 := search_children_spec rest p
      (t9_node_search_paths child model (t9_path_push tmp_path child)).1
      (t9_path_pop (t9_node_search_paths child model (t9_path_push tmp_path child)).2)
      hm.2 (by rw [hk.1]; exact hk.2.1) hk.2.2
    have hn : (t9_path_pop
        (t9_node_search_paths child model (t9_path_push tmp_path child)).2).nodes =
        tmp_path.nodes := by
      show (t9_node_search_paths child model
        (t9_path_push tmp_path child)).2.nodes.dropLast = tmp_path.nodes
      rw [h1.2]
      simp only [t9_path_push, List.dropLast_concat]
    simp only [search_children, frontier_list]
    rw [h2.1, h2.2, hn, hk.1, h1.1, absorb_append]
    exact ⟨rfl, rfl⟩
end

/-- C11: on a candidate tree in which no child costs less than its parent, the
kept list `t9_search_tree_search_paths` leaves in the model is the list of all
root-to-frontier paths in depth-first discovery order, stably sorted ascending
by cost and cut to its first `K` entries; nothing else of the model changes.  It
holds for every `K`, so for every `K ≥ 1`. -/
theorem branch_and_bound_exact (model : t9_model_t C) (tree : t9_search_tree_t C)
    (htree : model.search_tree = some tree) (hmono : cost_monotone tree.root = true) :
    t9_search_tree_search_paths model =
      .ok { model with paths := exhaustive_search model.number_paths tree.root } := by
  obtain ⟨corpus, corpus_tree, search_tree, paths, n, k⟩ := model
  simp only at htree
  subst htree
  unfold t9_search_tree_search_paths
  simp only [Except.ok.injEq]
  have hspec := node_search_spec tree.root
    (⟨corpus, corpus_tree, some tree, [], n, k⟩ : t9_model_t C) t9_path_create hmono
    (Nat.zero_le _) List.Pairwise.nil (Or.inl rfl)
  have hf := node_search_frame tree.root
    (⟨corpus, corpus_tree, some tree, [], n, k⟩ : t9_model_t C) t9_path_create
  rw [hf, hspec.1]
  simp only [absorb_nil_eq, exhaustive_search, root_frontier, t9_path_create]

end Exhaustive3
/-- Witness of C11: the tree of two leaves, one kept path. -/
theorem branch_and_bound_exact_witness :
    cost_monotone two_leaf_tree.root = true ∧
      t9_search_tree_search_paths two_leaf_model =
        .ok { two_leaf_model with
              paths := exhaustive_search two_leaf_model.number_paths two_leaf_tree.root } :=
  ⟨by decide!, branch_and_bound_exact two_leaf_model two_leaf_tree rfl (by decide!)⟩

section TreeBasics

variable {C : Type}

theorem node_addrs_list_append (l1 l2 : List (t9_search_node_t C)) :
    node_addrs_list (l1 ++ l2) = node_addrs_list l1 ++ node_addrs_list l2 := by
  induction l1 with
  | nil => rfl
  | cons c rest ih =>
    show node_addrs c ++ node_addrs_list (rest ++ l2) =
      (node_addrs c ++ node_addrs_list rest) ++ node_addrs_list l2
    rw [ih, List.append_assoc]

theorem level_addrs_list_append (d : Nat) (l1 l2 : List (t9_search_node_t C)) :
    level_addrs_list d (l1 ++ l2) = level_addrs_list d l1 ++ level_addrs_list d l2 := by
  induction l1 with
  | nil => rfl
  | cons c rest ih =>
    show level_addrs d c ++ level_addrs_list d (rest ++ l2) =
      (level_addrs d c ++ level_addrs_list d rest) ++ level_addrs_list d l2
    rw [ih, List.append_assoc]

theorem addr_mem_node_addrs (node : t9_search_node_t C) : node.addr ∈ node_addrs node := by
  cases node with
  | mk a s p cs => simp [node_addrs, t9_search_node_t.addr]

mutual
theorem level_addrs_subset :
    ∀ (node : t9_search_node_t C) (d b : Nat), b ∈ level_addrs d node → b ∈ node_addrs node
  | .mk a s p cs, 0, b, h => by
    simp only [level_addrs, List.mem_singleton] at h
    simp [node_addrs, h]
  | .mk a s p cs, d + 1, b, h => by
    simp only [level_addrs] at h
    simp only [node_addrs, List.mem_cons]
    exact Or.inr (level_addrs_list_subset cs d b h)
theorem level_addrs_list_subset :
    ∀ (cs : List (t9_search_node_t C)) (d b : Nat),
      b ∈ level_addrs_list d cs → b ∈ node_addrs_list cs
  | [], _, _, h => by simp [level_addrs_list] at h
  | c :: rest, d, b, h => by
    simp only [level_addrs_list, List.mem_append] at h
    simp only [node_addrs_list, List.mem_append]
    rcases h with h | h
    · exact Or.inl (level_addrs_subset c d b h)
    · exact Or.inr (level_addrs_list_subset rest d b h)
end

mutual
theorem find_node_none :
    ∀ (node : t9_search_node_t C) (a : Nat), a ∉ node_addrs node → find_node a node = none
  | .mk b s p cs, a, h => by
    simp only [node_addrs, List.mem_cons, not_or] at h
    simp only [find_node]
    rw [if_neg (fun hb => h.1 hb.symm)]
    exact find_node_list_none cs a h.2
theorem find_node_list_none :
    ∀ (cs : List (t9_search_node_t C)) (a : Nat),
      a ∉ node_addrs_list cs → find_node_list a cs = none
  | [], _, _ => rfl
  | c :: rest, a, h => by
    simp only [node_addrs_list, List.mem_append, not_or] at h
    simp only [find_node_list, find_node_none c a h.1]
    exact find_node_list_none rest a h.2
end

mutual
theorem find_node_some :
    ∀ (node : t9_search_node_t C) (a : Nat), a ∈ node_addrs node →
      ∃ n, find_node a node = some n
  | .mk b s p cs, a, h => by
    simp only [node_addrs, List.mem_cons] at h
    simp only [find_node]
    by_cases hb : b = a
    · rw [if_pos hb]; exact ⟨_, rfl⟩
    · rw [if_neg hb]
      rcases h with h | h
      · exact absurd h.symm hb
      · exact find_node_list_some cs a h
theorem find_node_list_some :
    ∀ (cs : List (t9_search_node_t C)) (a : Nat), a ∈ node_addrs_list cs →
      ∃ n, find_node_list a cs = some n
  | [], _, h => by simp [node_addrs_list] at h
  | c :: rest, a, h => by
    simp only [node_addrs_list, List.mem_append] at h
    simp only [find_node_list]
    cases hf : find_node a c with
    | some n => exact ⟨n, rfl⟩
    | none =>
      rcases h with h | h
      · obtain ⟨n, hn⟩ := find_node_some c a h
        rw [hn] at hf; cases hf
      · exact find_node_list_some rest a h
end

theorem find_node_list_append (a : Nat) (l1 l2 : List (t9_search_node_t C))
    (h : a ∉ node_addrs_list l1) :
    find_node_list a (l1 ++ l2) = find_node_list a l2 := by
  induction l1 with
  | nil => rfl
  | cons c rest ih =>
    simp only [node_addrs_list, List.mem_append, not_or] at h
    show find_node_list a (c :: (rest ++ l2)) = find_node_list a l2
    rw [find_node_list, find_node_none c a h.1]
    exact ih h.2

mutual
theorem remove_node_not_mem :
    ∀ (node : t9_search_node_t C) (a : Nat), a ∉ node_addrs node → remove_node a node = node
  | .mk b s p cs, a, h => by
    simp only [node_addrs, List.mem_cons, not_or] at h
    simp only [remove_node, remove_node_list_not_mem cs a h.2]
theorem remove_node_list_not_mem :
    ∀ (cs : List (t9_search_node_t C)) (a : Nat),
      a ∉ node_addrs_list cs → remove_node_list a cs = cs
  | [], _, _ => rfl
  | c :: rest, a, h => by
    simp only [node_addrs_list, List.mem_append, not_or] at h
    simp only [remove_node_list]
    rw [if_neg (fun hc : c.addr = a => h.1 (hc ▸ addr_mem_node_addrs c)),
      remove_node_not_mem c a h.1, remove_node_list_not_mem rest a h.2]
end

theorem remove_node_list_append (a : Nat) (l1 l2 : List (t9_search_node_t C))
    (h : a ∉ node_addrs_list l1) :
    remove_node_list a (l1 ++ l2) = l1 ++ remove_node_list a l2 := by
  induction l1 with
  | nil => rfl
  | cons c rest ih =>
    simp only [node_addrs_list, List.mem_append, not_or] at h
    show remove_node_list a (c :: (rest ++ l2)) = c :: (rest ++ remove_node_list a l2)
    rw [remove_node_list, if_neg (fun hc : c.addr = a => h.1 (hc ▸ addr_mem_node_addrs c)),
      remove_node_not_mem c a h.1, ih h.2]

end TreeBasics
section PlugLemmas

variable {C : Type}

theorem node_addrs_frame (a s : Nat) (p : C) (l r : List (t9_search_node_t C))
    (node : t9_search_node_t C) :
    node_addrs (.mk a s p (l ++ node :: r)) =
      a :: (node_addrs_list l ++ (node_addrs node ++ node_addrs_list r)) := by
  simp only [node_addrs, node_addrs_list_append, node_addrs_list]

theorem find_node_mem (node n : t9_search_node_t C) (a : Nat)
    (h : find_node a node = some n) : a ∈ node_addrs node := by
  by_contra hn
  rw [find_node_none node a hn] at h
  cases h

theorem plug_nodup_inner (ctx : List (frame C)) :
    ∀ node : t9_search_node_t C, (node_addrs (plug ctx node)).Nodup →
      (node_addrs node).Nodup := by
  induction ctx with
  | nil => intro node h; exact h
  | cons f ctx ih =>
    intro node h
    have h1 := ih _ h
    rw [node_addrs_frame] at h1
    exact ((List.nodup_append.mp (List.nodup_cons.mp h1).2).2.1 |> List.nodup_append.mp).1

theorem frame_disjoint (a s : Nat) (p : C) (l r : List (t9_search_node_t C))
    (node : t9_search_node_t C) (b : Nat)
    (h : (node_addrs (.mk a s p (l ++ node :: r))).Nodup) (hb : b ∈ node_addrs node) :
    a ≠ b ∧ b ∉ node_addrs_list l ∧ b ∉ node_addrs_list r := by
  rw [node_addrs_frame] at h
  obtain ⟨ha, h2⟩ := List.nodup_cons.mp h
  obtain ⟨-, h3, hd⟩ := List.nodup_append.mp h2
  obtain ⟨-, -, hd2⟩ := List.nodup_append.mp h3
  refine ⟨?_, ?_, ?_⟩
  · intro hab
    apply ha
    rw [hab]
    simp [hb]
  · intro hl
    exact hd hl (List.mem_append_left _ hb)
  · intro hr
    exact hd2 hb hr

theorem plug_find (ctx : List (frame C)) :
    ∀ (node n : t9_search_node_t C) (a : Nat),
      find_node a node = some n → (node_addrs (plug ctx node)).Nodup →
      find_node a (plug ctx node) = some n := by
  induction ctx with
  | nil => intro node n a h _; exact h
  | cons f ctx ih =>
    intro node n a h hnd
    apply ih _ n a _ hnd
    have hmem := find_node_mem node n a h
    obtain ⟨h1, h2, -⟩ := frame_disjoint _ _ _ _ _ _ a (plug_nodup_inner ctx _ hnd) hmem
    simp only [find_node]
    rw [if_neg h1, find_node_list_append a _ _ h2]
    simp only [find_node_list, h]

theorem plug_remove (ctx : List (frame C)) :
    ∀ (node : t9_search_node_t C) (a : Nat),
      a ∈ node_addrs_list node.children2 → (node_addrs (plug ctx node)).Nodup →
      remove_node a (plug ctx node) = plug ctx (remove_node a node) := by
  induction ctx with
  | nil => intro node a _ _; rfl
  | cons f ctx ih =>
    intro node a h hnd
    have hmem : a ∈ node_addrs node := by
      cases node with
      | mk b s p cs =>
        simp only [node_addrs, List.mem_cons]
        exact Or.inr h
    have hne : node.addr ≠ a := by
      have := plug_nodup_inner ctx _ hnd
      have h2 := plug_nodup_inner [f] node this
      cases node with
      | mk b s p cs =>
        simp only [node_addrs] at h2
        intro hb
        simp only [t9_search_node_t.addr] at hb
        exact (List.nodup_cons.mp h2).1 (hb ▸ h)
    obtain ⟨-, h2, h3⟩ := frame_disjoint _ _ _ _ _ _ a (plug_nodup_inner ctx _ hnd) hmem
    simp only [plug]
    rw [ih _ a _ hnd]
    · simp only [remove_node]
      rw [remove_node_list_append a _ _ h2]
      simp only [remove_node_list]
      rw [if_neg hne, remove_node_list_not_mem _ a h3]
    · simp only [t9_search_node_t.children2, node_addrs_list_append, node_addrs_list,
        List.mem_append]
      exact Or.inr (Or.inl hmem)

theorem plug_remove_hole (f : frame C) (ctx : List (frame C)) (node : t9_search_node_t C)
    (hnd : (node_addrs (plug (f :: ctx) node)).Nodup) :
    remove_node node.addr (plug (f :: ctx) node) =
      plug ctx (.mk f.addr f.symbol f.probability (f.lefts ++ f.rights)) := by
  have hmem := addr_mem_node_addrs node
  obtain ⟨-, h2, -⟩ := frame_disjoint _ _ _ _ _ _ node.addr (plug_nodup_inner ctx _ hnd) hmem
  simp only [plug]
  rw [plug_remove ctx _ node.addr _ hnd]
  · simp only [remove_node]
    rw [remove_node_list_append _ _ _ h2]
    simp only [remove_node_list, if_pos]
  · simp only [t9_search_node_t.children2, node_addrs_list_append, node_addrs_list,
      List.mem_append]
    exact Or.inr (Or.inl hmem)

theorem plug_sublist (ctx : List (frame C)) :
    ∀ node1 node2 : t9_search_node_t C,
      (node_addrs node1).Sublist (node_addrs node2) →
      (node_addrs (plug ctx node1)).Sublist (node_addrs (plug ctx node2)) := by
  induction ctx with
  | nil => intro node1 node2 h; exact h
  | cons f ctx ih =>
    intro node1 node2 h
    apply ih
    rw [node_addrs_frame, node_addrs_frame]
    exact List.Sublist.cons₂ _ (List.Sublist.append (List.Sublist.refl _)
      (List.Sublist.append h (List.Sublist.refl _)))

theorem plug_level_mem (ctx : List (frame C)) :
    ∀ (node : t9_search_node_t C) (r a : Nat), a ∈ level_addrs r node →
      a ∈ level_addrs (r + ctx.length) (plug ctx node) := by
  induction ctx with
  | nil => intro node r a h; exact h
  | cons f ctx ih =>
    intro node r a h
    have := ih (.mk f.addr f.symbol f.probability (f.lefts ++ node :: f.rights)) (r + 1) a (by
      simp only [level_addrs, level_addrs_list_append, level_addrs_list, List.mem_append]
      exact Or.inr (Or.inl h))
    simpa only [plug, List.length_cons, Nat.add_assoc, Nat.add_comm 1] using this

end PlugLemmas
section PruneSteps

variable {C : Type}

theorem erase_middle (a : Nat) (l m r : List Nat) (hl : a ∉ l) (hr : a ∉ r) :
    (l ++ (m ++ r)).erase a = l ++ (m.erase a ++ r) := by
  rw [List.erase_append_right _ hl]
  by_cases hm : a ∈ m
  · rw [List.erase_append_left _ hm]
  · rw [List.erase_append_right _ hm, List.erase_of_not_mem hr, List.erase_of_not_mem hm]

theorem plug_level_erase (ctx : List (frame C)) :
    ∀ (node1 node2 : t9_search_node_t C) (r a : Nat), a ∈ node_addrs node1 →
      (node_addrs (plug ctx node1)).Nodup →
      (∀ i, level_addrs i node2 =
        if i = r then (level_addrs i node1).erase a else level_addrs i node1) →
      ∀ i, level_addrs i (plug ctx node2) =
        if i = r + ctx.length then (level_addrs i (plug ctx node1)).erase a
        else level_addrs i (plug ctx node1) := by
  induction ctx with
  | nil => intro node1 node2 r a _ _ h i; exact h i
  | cons f ctx ih =>
    intro node1 node2 r a hmem hnd h i
    obtain ⟨h1, h2, h3⟩ := frame_disjoint _ _ _ _ _ _ a (plug_nodup_inner ctx _ hnd) hmem
    have hstep := ih (.mk f.addr f.symbol f.probability (f.lefts ++ node1 :: f.rights))
      (.mk f.addr f.symbol f.probability (f.lefts ++ node2 :: f.rights)) (r + 1) a
      (by rw [node_addrs_frame]; simp [hmem]) hnd (by
        intro j
        cases j with
        | zero => simp only [level_addrs]; rw [if_neg (by omega)]
        | succ j =>
          simp only [level_addrs, level_addrs_list_append, level_addrs_list]
          rw [h j]
          by_cases hj : j = r
          · rw [if_pos hj, if_pos (by omega)]
            exact (erase_middle a _ _ _
              (fun hx => h2 (level_addrs_list_subset _ _ _ hx))
              (fun hx => h3 (level_addrs_list_subset _ _ _ hx))).symm
          · rw [if_neg hj, if_neg (by omega)]) i
    simpa only [plug, List.length_cons, Nat.add_assoc, Nat.add_comm 1] using hstep

theorem level_addrs_leaf (a s : Nat) (p : C) (i : Nat) :
    level_addrs i (.mk a s p []) = if i = 0 then [a] else [] := by
  cases i with
  | zero => rfl
  | succ i => simp [level_addrs, level_addrs_list]

theorem plug_hole_levels (f : frame C) (ctx : List (frame C)) (a s : Nat) (p : C)
    (hnd : (node_addrs (plug (f :: ctx) (.mk a s p []))).Nodup) :
    ∀ i, level_addrs i
        (plug ctx (.mk f.addr f.symbol f.probability (f.lefts ++ f.rights))) =
      if i = ctx.length + 1 then (level_addrs i (plug (f :: ctx) (.mk a s p []))).erase a
      else level_addrs i (plug (f :: ctx) (.mk a s p [])) := by
  have hmem : a ∈ node_addrs (.mk a s p [] : t9_search_node_t C) := by simp [node_addrs]
  obtain ⟨h1, h2, h3⟩ := frame_disjoint _ _ _ _ _ _ a (plug_nodup_inner ctx _ hnd) hmem
  intro i
  have := plug_level_erase ctx
    (.mk f.addr f.symbol f.probability (f.lefts ++ .mk a s p [] :: f.rights))
    (.mk f.addr f.symbol f.probability (f.lefts ++ f.rights)) 1 a
    (by rw [node_addrs_frame]; simp [hmem]) hnd (by
      intro j
      cases j with
      | zero => simp only [level_addrs]; rw [if_neg (by omega)]
      | succ j =>
        cases j with
        | zero =>
          simp only [level_addrs, level_addrs_list_append, level_addrs_list]
          rw [if_pos trivial, erase_middle a (level_addrs_list 0 f.lefts) [a]
            (level_addrs_list 0 f.rights)
            (fun hx => h2 (level_addrs_list_subset _ _ _ hx))
            (fun hx => h3 (level_addrs_list_subset _ _ _ hx))]
          simp
        | succ j =>
          simp [level_addrs, level_addrs_list_append, level_addrs_list]) i
  simpa only [plug, Nat.add_comm 1] using this

end PruneSteps
section PruneLoop

variable {C : Type}

theorem model_eta (m : t9_model_t C) (tree : t9_search_tree_t C)
    (hm : m.search_tree = some tree) : ({ m with search_tree := some tree } : t9_model_t C) = m := by
  cases m
  simp only at hm
  subst hm
  rfl

theorem root_addr_ne (root : t9_search_node_t C) (d a : Nat)
    (h : a ∈ level_addrs (d + 1) root) (hnd : (node_addrs root).Nodup) : a ≠ root.addr := by
  cases root with
  | mk b s p cs =>
    simp only [level_addrs] at h
    simp only [node_addrs] at hnd
    intro hab
    simp only [t9_search_node_t.addr] at hab
    exact (List.nodup_cons.mp hnd).1 (hab ▸ level_addrs_list_subset cs d a h)

theorem chain_to_length (ctx : List (frame C)) : ∀ a, (chain_to a ctx).length = ctx.length := by
  induction ctx with
  | nil => intro a; rfl
  | cons f ctx ih => intro a; simp [chain_to, ih]

theorem close_up_of_ne (a s : Nat) (p : C) (cs : List (t9_search_node_t C))
    (ctx : List (frame C)) (h : cs ≠ []) :
    close_up a s p cs ctx = plug ctx (.mk a s p cs) := by
  cases ctx with
  | nil => rfl
  | cons f ctx =>
    cases cs with
    | nil => exact absurd rfl h
    | cons c cs => rfl

theorem helper_on_leaf (m : t9_model_t C) (tree : t9_search_tree_t C) (f : frame C)
    (ctx : List (frame C)) (a s : Nat) (p : C)
    (hm : m.search_tree = some tree) (hroot : tree.root = plug (f :: ctx) (.mk a s p []))
    (hs : tree_synced tree) (hlen : ctx.length < tree.level_table2.length) :
    ∃ tree1, __t9_model_prune_path_helper m a ctx.length =
        .ok { m with search_tree := some tree1 } ∧
      pruned_to tree tree1
        (plug ctx (.mk f.addr f.symbol f.probability (f.lefts ++ f.rights))) := by
  obtain ⟨hnd, hlev⟩ := hs
  rw [hroot] at hnd
  have hfind : find_node a tree.root = some (.mk a s p []) := by
    rw [hroot]
    exact plug_find _ _ _ a (by simp [find_node]) hnd
  have hmem : a ∈ level_addrs (ctx.length + 1) tree.root := by
    rw [hroot]
    have := plug_level_mem (f :: ctx) (.mk a s p [] : t9_search_node_t C) 0 a
      (by simp [level_addrs])
    simpa using this
  have hne : a ≠ tree.root.addr := root_addr_ne _ _ a hmem (hroot ▸ hnd)
  have hget := hlev ctx.length hlen
  refine ⟨{ tree with
      root := remove_node a tree.root,
      level_table2 := tree.level_table2.set ctx.length
        ((level_addrs (ctx.length + 1) tree.root).erase a) }, ?_, ?_⟩
  · simp only [__t9_model_prune_path_helper, hm, hfind, t9_search_node_is_leaf,
      t9_search_node_t.children2, hget, List.length_nil, decide_True, if_true, if_neg hne,
      if_pos hmem]
  · have hrm : remove_node a tree.root =
        plug ctx (.mk f.addr f.symbol f.probability (f.lefts ++ f.rights)) := by
      rw [hroot]
      exact plug_remove_hole f ctx (.mk a s p []) hnd
    refine ⟨hrm, rfl, by simp, ?_, ?_⟩
    · simp only [hrm]
      refine List.Nodup.sublist (plug_sublist ctx _ _ ?_) hnd
      rw [node_addrs_frame]
      simp only [node_addrs, node_addrs_list_append]
      exact List.Sublist.cons₂ _ (List.Sublist.append (List.Sublist.refl _)
        (List.sublist_append_right _ _))
    · intro i hi
      simp only [List.length_set] at hi
      simp only [hrm]
      have hl := plug_hole_levels f ctx a s p hnd (i + 1)
      rw [← hroot] at hl
      rw [hl]
      by_cases hic : i = ctx.length
      · subst hic
        simp [hlen]
      · rw [if_neg (by omega)]
        simp only [List.get?_eq_getElem?]
        rw [List.getElem?_set_ne (fun h => hic h.symm)]
        simpa only [List.get?_eq_getElem?] using hlev i hi

theorem helper_on_inner (m : t9_model_t C) (tree : t9_search_tree_t C)
    (ctx : List (frame C)) (a s : Nat) (p : C) (c : t9_search_node_t C)
    (cs : List (t9_search_node_t C)) (d : Nat)
    (hm : m.search_tree = some tree) (hroot : tree.root = plug ctx (.mk a s p (c :: cs)))
    (hnd : (node_addrs tree.root).Nodup) :
    __t9_model_prune_path_helper m a d = .ok m := by
  have hfind : find_node a tree.root = some (.mk a s p (c :: cs)) := by
    rw [hroot]
    exact plug_find _ _ _ a (by simp [find_node]) (hroot ▸ hnd)
  simp [__t9_model_prune_path_helper, hm, hfind, t9_search_node_is_leaf,
    t9_search_node_t.children2]

theorem pruned_to_trans (tree tree1 tree2 : t9_search_tree_t C)
    (r1 r2 : t9_search_node_t C) (h1 : pruned_to tree tree1 r1)
    (h2 : pruned_to tree1 tree2 r2) : pruned_to tree tree2 r2 :=
  ⟨h2.1, h2.2.1.trans h1.2.1, h2.2.2.1.trans h1.2.2.1, h2.2.2.2⟩

theorem prune_loop_close (ctx : List (frame C)) :
    ∀ (f : frame C) (a s : Nat) (p : C) (cs : List (t9_search_node_t C))
      (m : t9_model_t C) (tree : t9_search_tree_t C) (path : t9_path_t C)
      (suffix : List Nat),
      m.search_tree = some tree → tree.root = plug (f :: ctx) (.mk a s p cs) →
      tree_synced tree → ctx.length < tree.level_table2.length →
      path.nodes = chain_to f.addr ctx ++ a :: suffix →
      ∃ tree1, prune_path_loop path ctx.length m = .ok { m with search_tree := some tree1 } ∧
        pruned_to tree tree1 (close_up a s p cs (f :: ctx)) := by
  induction ctx with
  | nil =>
    intro f a s p cs m tree path suffix hm hroot hs hlen hpath
    have hget : path.nodes.getD 0 0 = a := by rw [hpath]; rfl
    simp only [List.length_nil, prune_path_loop, hget]
    cases cs with
    | nil => exact helper_on_leaf m tree f [] a s p hm hroot hs hlen
    | cons c cs =>
      refine ⟨tree, ?_, hroot, rfl, rfl, hs⟩
      rw [model_eta m tree hm]
      exact helper_on_inner m tree [f] a s p c cs 0 hm hroot hs.1
  | cons g ctx ih =>
    intro f a s p cs m tree path suffix hm hroot hs hlen hpath
    have hget : path.nodes.getD (ctx.length + 1) 0 = a := by
      rw [hpath, List.getD_eq_getElem?_getD,
        List.getElem?_append_right (by simp [chain_to_length])]
      simp [chain_to_length]
    have hpath2 : path.nodes = chain_to g.addr ctx ++ f.addr :: (a :: suffix) := by
      rw [hpath]; simp [chain_to]
    simp only [List.length_cons, prune_path_loop, hget]
    cases cs with
    | nil =>
      obtain ⟨tree1, h1, hp1⟩ := helper_on_leaf m tree f (g :: ctx) a s p hm hroot hs hlen
      simp only [List.length_cons] at h1
      rw [h1]
      obtain ⟨tree2, h2, hp2⟩ := ih g f.addr f.symbol f.probability (f.lefts ++ f.rights)
        { m with search_tree := some tree1 } tree1 path (a :: suffix) rfl hp1.1 hp1.2.2.2
        (by rw [hp1.2.2.1]; simp only [List.length_cons] at hlen; omega) hpath2
      exact ⟨tree2, h2, pruned_to_trans _ _ _ _ _ hp1 hp2⟩
    | cons c cs =>
      rw [helper_on_inner m tree (f :: g :: ctx) a s p c cs _ hm hroot hs.1]
      obtain ⟨tree2, h2, hp2⟩ := ih g f.addr f.symbol f.probability
        (f.lefts ++ .mk a s p (c :: cs) :: f.rights) m tree path (a :: suffix) hm hroot hs
        (by simp only [List.length_cons] at hlen; omega) hpath2
      refine ⟨tree2, h2, ?_⟩
      rw [close_up_of_ne _ _ _ _ _ (by simp)] at hp2
      exact hp2

end PruneLoop
section PruneWalk

variable {C : Type}

theorem path_found_eq (path : t9_path_t C) (hne : path.nodes ≠ []) :
    ∀ paths : List (t9_path_t C), path_found path paths = .ok (kept_by paths path.nodes) := by
  intro paths
  induction paths with
  | nil => rfl
  | cons q rest ih =>
    have hlen : path.nodes.length ≠ 0 := by
      intro h; exact hne (List.length_eq_zero.mp h)
    simp only [path_found, t9_path_is_equal, kept_by, List.any_cons]
    by_cases hl : path.nodes.length = q.nodes.length
    · rw [if_neg (not_not.mpr hl), if_neg hlen]
      cases hq : is_equal_loop path.nodes q.nodes (path.nodes.length - 1) with
      | true => simp [hl]
      | false =>
        simp only [hl, decide_True, Bool.true_and, Bool.false_or]
        rw [ih]
        simp only [kept_by, hl]
    · rw [if_pos hl]
      simp only [hl, decide_False, Bool.false_and, Bool.false_or]
      rw [ih]
      rfl

theorem prune_path_leaf (m : t9_model_t C) (tree : t9_search_tree_t C) (f : frame C)
    (ctx : List (frame C)) (a s : Nat) (p : C) (path : t9_path_t C)
    (hm : m.search_tree = some tree) (hroot : tree.root = plug (f :: ctx) (.mk a s p []))
    (hs : tree_synced tree) (hlen : ctx.length < tree.level_table2.length)
    (hpath : path.nodes = chain_to a (f :: ctx)) :
    ∃ tree1, t9_model_prune_path m path =
        .ok (.T9_SUCCESS, { m with search_tree := some tree1 }) ∧
      pruned_to tree tree1
        (close_up f.addr f.symbol f.probability (f.lefts ++ f.rights) ctx) := by
  obtain ⟨tree1, h1, hp⟩ := prune_loop_close ctx f a s p [] m tree path [] hm hroot hs hlen
    (by rw [hpath]; rfl)
  refine ⟨tree1, ?_, hp⟩
  have hl : path.nodes.length = ctx.length + 1 := by
    rw [hpath]; simp [chain_to, chain_to_length]
  simp only [t9_model_prune_path, hl, Nat.add_sub_cancel, h1]
  rw [if_pos (by omega)]

/-- The tree after the pruning walk has left the subtree at a node: the subtree
is replaced by what is left of it, or the node is gone and so is every ancestor
that lost its last child. -/
theorem prune_result_root (f : frame C) (ctx : List (frame C)) (a s : Nat) (p : C)
    (cs : List (t9_search_node_t C)) :
    close_up a s p cs (f :: ctx) =
      match cs with
      | [] => close_up f.addr f.symbol f.probability (f.lefts ++ f.rights) ctx
      | c :: cs1 => plug (f :: ctx) (.mk a s p (c :: cs1)) := by
  cases cs <;> rfl

end PruneWalk
section PruneSim

variable {C : Type} [T9Math C]

mutual
theorem prune_node_sim :
    ∀ (node : t9_search_node_t C) (f : frame C) (ctx : List (frame C)) (k : Nat)
      (m : t9_model_t C) (tree : t9_search_tree_t C) (path : t9_path_t C),
      m.search_tree = some tree → tree.root = plug (f :: ctx) node → tree_synced tree →
      uniform k node → ctx.length + 1 + k ≤ tree.level_table2.length →
      path.nodes = chain_to node.addr (f :: ctx) →
      ∃ tree1 path1,
        t9_search_node_prune node m path =
          .ok ({ m with search_tree := some tree1 }, path1) ∧
        path1.nodes = path.nodes ∧
        pruned_to tree tree1
          (match prune_node (kept_by m.paths) node path.nodes with
           | some node1 => plug (f :: ctx) node1
           | none => close_up f.addr f.symbol f.probability (f.lefts ++ f.rights) ctx)
  | .mk a s p [], f, ctx, k, m, tree, path, hm, hroot, hs, _, hlen, hpath => by
    have hne : path.nodes ≠ [] := by
      rw [hpath]; simp [chain_to]
    simp only [t9_search_node_prune, path_found_eq path hne, prune_node]
    cases hk : kept_by m.paths path.nodes with
    | true =>
      refine ⟨tree, path, ?_, rfl, ?_⟩
      · rw [model_eta m tree hm]
      · simp only [if_true]
        exact ⟨hroot, rfl, rfl, hs⟩
    | false =>
      obtain ⟨tree1, h1, hp⟩ := prune_path_leaf m tree f ctx a s p path hm hroot hs
        (by omega) hpath
      refine ⟨tree1, path, ?_, rfl, ?_⟩
      · simp only [h1]
      · simpa using hp
  | .mk a s p (c :: cs), f, ctx, k, m, tree, path, hm, hroot, hs, hu, hlen, hpath => by
    cases k with
    | zero => simp [uniform] at hu
    | succ k =>
      simp only [uniform] at hu
      obtain ⟨tree1, path1, h1, hn, hp⟩ := prune_children_sim (c :: cs) a s p [] (f :: ctx) k
        m tree path (by simp) hm hroot hs hu.2
        (by simp only [List.length_cons]; omega) hpath
      refine ⟨tree1, path1, ?_, hn, ?_⟩
      · simp only [t9_search_node_prune, h1]
      · simp only [List.nil_append] at hp
        rw [prune_result_root] at hp
        simp only [prune_node]
        cases hpl : prune_list (kept_by m.paths) (c :: cs) path.nodes with
        | nil => rw [hpl] at hp; exact hp
        | cons c1 cs1 => rw [hpl] at hp; exact hp
theorem prune_children_sim :
    ∀ (rest : List (t9_search_node_t C)) (a s : Nat) (p : C)
      (lefts : List (t9_search_node_t C)) (ctx : List (frame C)) (k : Nat)
      (m : t9_model_t C) (tree : t9_search_tree_t C) (path : t9_path_t C),
      rest ≠ [] → m.search_tree = some tree →
      tree.root = plug ctx (.mk a s p (lefts ++ rest)) → tree_synced tree →
      uniform_list k rest → ctx.length + 1 + k ≤ tree.level_table2.length →
      path.nodes = chain_to a ctx →
      ∃ tree1 path1,
        prune_children rest m path = .ok ({ m with search_tree := some tree1 }, path1) ∧
        path1.nodes = path.nodes ∧
        pruned_to tree tree1
          (close_up a s p (lefts ++ prune_list (kept_by m.paths) rest path.nodes) ctx)
  | [], _, _, _, _, _, _, _, _, _, hne, _, _, _, _, _, _ => absurd rfl hne
  | c :: rest, a, s, p, lefts, ctx, k, m, tree, path, _, hm, hroot, hs, hu, hlen, hpath => by
    simp only [uniform_list] at hu
    obtain ⟨tree1, path1, h1, hn1, hp1⟩ := prune_node_sim c ⟨a, s, p, lefts, rest⟩ ctx k m tree
      (t9_path_push path c) hm hroot hs hu.1 hlen
      (by simp only [t9_path_push, chain_to, hpath])
    have hpop : (t9_path_pop path1).nodes = path.nodes := by
      simp only [t9_path_pop, hn1, t9_path_push, List.dropLast_concat]
    have hpush : (t9_path_push path c).nodes = path.nodes ++ [c.addr] := rfl
    rw [hpush] at hp1
    simp only [prune_children, h1, prune_list]
    cases rest with
    | nil =>
      refine ⟨tree1, t9_path_pop path1, ?_, hpop, ?_⟩
      · simp only [prune_children]
      · cases hpn : prune_node (kept_by m.paths) c (path.nodes ++ [c.addr]) with
        | none =>
          rw [hpn] at hp1
          simpa [prune_list] using hp1
        | some c1 =>
          rw [hpn] at hp1
          simp only [prune_list]
          rw [close_up_of_ne _ _ _ _ _ (by simp)]
          exact hp1
    | cons c2 rest2 =>
      cases hpn : prune_node (kept_by m.paths) c (path.nodes ++ [c.addr]) with
      | none =>
        rw [hpn] at hp1
        simp only at hp1
        rw [close_up_of_ne _ _ _ _ _ (by simp)] at hp1
        obtain ⟨tree2, path2, h2, hn2, hp2⟩ := prune_children_sim (c2 :: rest2) a s p lefts ctx k
          { m with search_tree := some tree1 } tree1 (t9_path_pop path1) (by simp) rfl
          hp1.1 hp1.2.2.2 hu.2 (by rw [hp1.2.2.1]; exact hlen) (by rw [hpop, hpath])
        refine ⟨tree2, path2, h2, by rw [hn2, hpop], ?_⟩
        rw [hpop] at hp2
        exact pruned_to_trans _ _ _ _ _ hp1 hp2
      | some c1 =>
        rw [hpn] at hp1
        simp only [plug] at hp1
        obtain ⟨tree2, path2, h2, hn2, hp2⟩ := prune_children_sim (c2 :: rest2) a s p
          (lefts ++ [c1]) ctx k
          { m with search_tree := some tree1 } tree1 (t9_path_pop path1) (by simp) rfl
          (by rw [hp1.1]; simp) hp1.2.2.2 hu.2 (by rw [hp1.2.2.1]; exact hlen)
          (by rw [hpop, hpath])
        refine ⟨tree2, path2, h2, by rw [hn2, hpop], ?_⟩
        rw [hpop] at hp2
        simp only [List.append_assoc, List.singleton_append] at hp2
        exact pruned_to_trans _ _ _ _ _ hp1 hp2
end

end PruneSim

section PruneFacts

variable {C : Type}

mutual
theorem prune_node_fields (keep : List Nat → Bool) :
    ∀ (node node1 : t9_search_node_t C) (path : List Nat),
      prune_node keep node path = some node1 →
      node1.addr = node.addr ∧ node1.symbol = node.symbol ∧
        node1.probability = node.probability ∧
        (node_addrs node1).Sublist (node_addrs node) ∧
        ∀ k, uniform k node → uniform k node1
  | .mk a s p [], node1, path, h => by
    simp only [prune_node] at h
    split_ifs at h
    simp only [Option.some.injEq] at h
    subst h
    exact ⟨rfl, rfl, rfl, List.Sublist.refl _, fun k hk => hk⟩
  | .mk a s p (c :: cs), node1, path, h => by
    simp only [prune_node] at h
    cases hpl : prune_list keep (c :: cs) path with
    | nil => rw [hpl] at h; cases h
    | cons c1 cs1 =>
      rw [hpl] at h
      simp only [Option.some.injEq] at h
      subst h
      have hl := prune_list_fields keep (c :: cs) path
      rw [hpl] at hl
      refine ⟨rfl, rfl, rfl, ?_, ?_⟩
      · simp only [node_addrs]
        exact List.Sublist.cons₂ _ hl.1
      · intro k hk
        cases k with
        | zero => simp [uniform] at hk
        | succ k =>
          simp only [uniform] at hk ⊢
          exact ⟨by simp, hl.2 k hk.2⟩
theorem prune_list_fields (keep : List Nat → Bool) :
    ∀ (cs : List (t9_search_node_t C)) (path : List Nat),
      (node_addrs_list (prune_list keep cs path)).Sublist (node_addrs_list cs) ∧
        ∀ k, uniform_list k cs → uniform_list k (prune_list keep cs path)
  | [], _ => ⟨List.Sublist.refl _, fun _ h => h⟩
  | c :: rest, path => by
    have hr := prune_list_fields keep rest path
    simp only [prune_list]
    cases hpn : prune_node keep c (path ++ [c.addr]) with
    | none =>
      refine ⟨?_, ?_⟩
      · simp only [node_addrs_list]
        exact List.Sublist.trans hr.1 (List.sublist_append_right _ _)
      · intro k hk
        simp only [uniform_list] at hk
        exact hr.2 k hk.2
    | some c1 =>
      have hc := prune_node_fields keep c c1 (path ++ [c.addr]) hpn
      refine ⟨?_, ?_⟩
      · simp only [node_addrs_list]
        exact List.Sublist.append hc.2.2.2.1 hr.1
      · intro k hk
        simp only [uniform_list] at hk ⊢
        exact ⟨hc.2.2.2.2 k hk.1, hr.2 k hk.2⟩
end

mutual
theorem prune_node_frontier (keep : List Nat → Bool) :
    ∀ (node : t9_search_node_t C) (path : List Nat) (cost : C),
      (frontier node path cost).filter (fun q => keep q.nodes) =
        match prune_node keep node path with
        | some node1 => frontier node1 path cost
        | none => []
  | .mk a s p [], path, cost => by
    simp only [frontier, prune_node, List.filter_cons, List.filter_nil]
    cases hk : keep path <;> simp [frontier]
  | .mk a s p (c :: cs), path, cost => by
    have hl := prune_list_frontier keep (c :: cs) path
    simp only [frontier, prune_node]
    rw [hl]
    cases hpl : prune_list keep (c :: cs) path with
    | nil => simp [frontier_list]
    | cons c1 cs1 => simp [frontier]
theorem prune_list_frontier (keep : List Nat → Bool) :
    ∀ (cs : List (t9_search_node_t C)) (path : List Nat),
      (frontier_list cs path).filter (fun q => keep q.nodes) =
        frontier_list (prune_list keep cs path) path
  | [], _ => rfl
  | c :: rest, path => by
    have hc := prune_node_frontier keep c (path ++ [c.addr]) c.probability
    have hr := prune_list_frontier keep rest path
    simp only [frontier_list, prune_list, List.filter_append, hc, hr]
    cases hpn : prune_node keep c (path ++ [c.addr]) with
    | none => simp
    | some c1 =>
      have hf := prune_node_fields keep c c1 (path ++ [c.addr]) hpn
      simp only [frontier_list, hf.1, hf.2.2.1]
end

end PruneFacts
section FrontierFacts

variable {C : Type}

mutual
theorem frontier_chain :
    ∀ (node : t9_search_node_t C) (pre : List Nat) (cost : C) (q : t9_path_t C),
      q ∈ frontier node pre cost →
      ∃ chain, q.nodes = pre ++ chain ∧
        (∀ i a, chain.get? i = some a → a ∈ level_addrs (i + 1) node) ∧
        ∀ k, uniform k node → chain.length = k
  | .mk a s p [], pre, cost, q, h => by
    simp only [frontier, List.mem_singleton] at h
    subst h
    refine ⟨[], by simp, by simp, ?_⟩
    intro k hk
    cases k with
    | zero => rfl
    | succ k => simp [uniform] at hk
  | .mk a s p (c :: cs), pre, cost, q, h => by
    simp only [frontier] at h
    obtain ⟨chain, h1, h2, h3⟩ := frontier_list_chain (c :: cs) pre q h
    refine ⟨chain, h1, ?_, ?_⟩
    · intro i b hb
      simp only [level_addrs]
      exact h2 i b hb
    · intro k hk
      cases k with
      | zero => simp [uniform] at hk
      | succ k =>
        simp only [uniform] at hk
        exact h3 k hk.2
theorem frontier_list_chain :
    ∀ (cs : List (t9_search_node_t C)) (pre : List Nat) (q : t9_path_t C),
      q ∈ frontier_list cs pre →
      ∃ chain, q.nodes = pre ++ chain ∧
        (∀ i a, chain.get? i = some a → a ∈ level_addrs_list i cs) ∧
        ∀ k, uniform_list k cs → chain.length = k + 1
  | [], _, _, h => by simp [frontier_list] at h
  | c :: rest, pre, q, h => by
    simp only [frontier_list, List.mem_append] at h
    rcases h with h | h
    · obtain ⟨chain, h1, h2, h3⟩ := frontier_chain c (pre ++ [c.addr]) c.probability q h
      refine ⟨c.addr :: chain, by simp [h1], ?_, ?_⟩
      · intro i b hb
        simp only [level_addrs_list, List.mem_append]
        left
        cases i with
        | zero =>
          simp only [List.get?_cons_zero, Option.some.injEq] at hb
          subst hb
          cases c with
          | mk ca cs cp ccs => simp [level_addrs, t9_search_node_t.addr]
        | succ i =>
          simp only [List.get?_cons_succ] at hb
          exact h2 i b hb
      · intro k hk
        simp only [uniform_list] at hk
        simp [h3 k hk.1]
    · obtain ⟨chain, h1, h2, h3⟩ := frontier_list_chain rest pre q h
      refine ⟨chain, h1, ?_, ?_⟩
      · intro i b hb
        simp only [level_addrs_list, List.mem_append]
        exact Or.inr (h2 i b hb)
      · intro k hk
        simp only [uniform_list] at hk
        exact h3 k hk.2
end

theorem root_frontier_nodes [T9Math C] (root : t9_search_node_t C) (q : t9_path_t C)
    (h : q ∈ root_frontier root) :
    (∀ i a, q.nodes.get? i = some a → a ∈ level_addrs (i + 1) root) ∧
      ∀ k, uniform k root → q.nodes.length = k := by
  obtain ⟨chain, h1, h2, h3⟩ := frontier_chain root [] 0 q h
  simp only [List.nil_append] at h1
  rw [h1]
  exact ⟨h2, h3⟩

theorem flatten_loop_ok (root : t9_search_node_t C) :
    ∀ nodes : List Nat, (∀ a ∈ nodes, a ∈ node_addrs root) →
      ∃ str, flatten_loop root nodes = .ok str ∧ str.length = nodes.length := by
  intro nodes
  induction nodes with
  | nil => intro _; exact ⟨[], rfl, rfl⟩
  | cons a rest ih =>
    intro h
    obtain ⟨n, hn⟩ := find_node_some root a (h a (by simp))
    obtain ⟨str, hs, hl⟩ := ih (fun b hb => h b (List.mem_cons_of_mem _ hb))
    exact ⟨n.symbol :: str, by simp only [flatten_loop, hn, hs], by simp [hl]⟩

end FrontierFacts
section SearchFacts

variable {C : Type} [T9Math C]

mutual
theorem node_search_mem (K : Nat) :
    ∀ (node : t9_search_node_t C) (model : t9_model_t C) (tmp_path : t9_path_t C),
      model.number_paths = K ∧ model.paths.length ≤ K ∧ paths_sorted model.paths →
      (∀ q ∈ (t9_node_search_paths node model tmp_path).1.paths,
          q ∈ model.paths ∨ q ∈ frontier node tmp_path.nodes tmp_path.probability) ∧
        (t9_node_search_paths node model tmp_path).2.nodes = tmp_path.nodes ∧
        (1 ≤ K → (t9_node_search_paths node model tmp_path).1.paths ≠ [])
  | .mk a s p [], model, tmp_path, h => by
    simp only [t9_node_search_paths]
    split_ifs with hcut
    · obtain ⟨last, hl, -, -⟩ := search_cut_true model p hcut
      refine ⟨fun q hq => Or.inl hq, rfl, fun _ hn => ?_⟩
      simp only at hn
      rw [hn] at hl
      cases hl
    · have hp := search_leaf_paths model tmp_path (h.1 ▸ h.2.1) h.2.2
      refine ⟨?_, rfl, ?_⟩
      · intro q hq
        simp only at hq
        rw [hp] at hq
        rcases (insert_path_mem _ _ q).mp (List.mem_of_mem_take hq) with hq | hq
        · right
          rw [hq]
          simp [frontier, t9_path_duplicate]
        · exact Or.inl hq
      · intro hK hn
        simp only at hn
        rw [hp] at hn
        have := congrArg List.length hn
        simp only [List.length_take, insert_path_length, List.length_nil] at this
        omega
  | .mk a s p (c :: cs), model, tmp_path, h => by
    simp only [t9_node_search_paths]
    split_ifs with hcut
    · obtain ⟨last, hl, -, -⟩ := search_cut_true model p hcut
      refine ⟨fun q hq => Or.inl hq, rfl, fun _ hn => ?_⟩
      simp only at hn
      rw [hn] at hl
      cases hl
    · have hc := search_children_mem K (c :: cs) model tmp_path h
      simp only [frontier]
      exact ⟨hc.1, hc.2.1, fun hK => hc.2.2 hK (Or.inl (by simp))⟩
theorem search_children_mem (K : Nat) :
    ∀ (cs : List (t9_search_node_t C)) (model : t9_model_t C) (tmp_path : t9_path_t C),
      model.number_paths = K ∧ model.paths.length ≤ K ∧ paths_sorted model.paths →
      (∀ q ∈ (search_children cs model tmp_path).1.paths,
          q ∈ model.paths ∨ q ∈ frontier_list cs tmp_path.nodes) ∧
        (search_children cs model tmp_path).2.nodes = tmp_path.nodes ∧
        (1 ≤ K → cs ≠ [] ∨ model.paths ≠ [] →
          (search_children cs model tmp_path).1.paths ≠ [])
  | [], model, tmp_path, _ => by
    simp only [search_children]
    refine ⟨fun q hq => Or.inl hq, trivial, fun _ hne => ?_⟩
    rcases hne with hne | hne
    · exact absurd rfl hne
    · exact hne
  | child :: rest, model, tmp_path, h => by
    have h1 := node_search_mem K child model (t9_path_push tmp_path child) h
    have hk := node_search_keeps K child model (t9_path_push tmp_path child) h
    have h2 := search_children_mem K rest
      (t9_node_search_paths child model (t9_path_push tmp_path child)).1
      (t9_path_pop (t9_node_search_paths child model (t9_path_push tmp_path child)).2) hk
    have hn : (t9_path_pop
        (t9_node_search_paths child model (t9_path_push tmp_path child)).2).nodes =
        tmp_path.nodes := by
      show (t9_node_search_paths child model
        (t9_path_push tmp_path child)).2.nodes.dropLast = tmp_path.nodes
      rw [h1.2.1]
      simp only [t9_path_push, List.dropLast_concat]
    simp only [search_children, frontier_list]
    rw [hn] at h2
    refine ⟨?_, h2.2.1, fun hK _ => h2.2.2 hK (Or.inr (h1.2.2 hK))⟩
    intro q hq
    rcases h2.1 q hq with hq | hq
    · rcases h1.1 q hq with hq | hq
      · exact Or.inl hq
      · exact Or.inr (List.mem_append_left _ hq)
    · exact Or.inr (List.mem_append_right _ hq)
end

theorem search_paths_facts (model : t9_model_t C) (tree : t9_search_tree_t C)
    (htree : model.search_tree = some tree) :
    ∃ paths, t9_search_tree_search_paths model = .ok { model with paths := paths } ∧
      (∀ q ∈ paths, q ∈ root_frontier tree.root) ∧
      paths.length ≤ model.number_paths ∧ paths_sorted paths ∧
      (1 ≤ model.number_paths → paths ≠ []) := by
  obtain ⟨corpus, corpus_tree, search_tree, paths, n, k⟩ := model
  simp only at htree
  subst htree
  have hinit : (⟨corpus, corpus_tree, some tree, [], n, k⟩ : t9_model_t C).number_paths = k ∧
      (⟨corpus, corpus_tree, some tree, [], n, k⟩ : t9_model_t C).paths.length ≤ k ∧
      paths_sorted (⟨corpus, corpus_tree, some tree, [], n, k⟩ : t9_model_t C).paths :=
    ⟨rfl, Nat.zero_le _, List.Pairwise.nil⟩
  have hmem := node_search_mem k tree.root
    (⟨corpus, corpus_tree, some tree, [], n, k⟩ : t9_model_t C) t9_path_create hinit
  have hkeep := node_search_keeps k tree.root
    (⟨corpus, corpus_tree, some tree, [], n, k⟩ : t9_model_t C) t9_path_create hinit
  have hf := node_search_frame tree.root
    (⟨corpus, corpus_tree, some tree, [], n, k⟩ : t9_model_t C) t9_path_create
  refine ⟨_, ?_, ?_, hkeep.2.1, hkeep.2.2, hmem.2.2⟩
  · unfold t9_search_tree_search_paths
    simp only [Except.ok.injEq]
    exact hf
  · intro q hq
    rcases hmem.1 q hq with h | h
    · simp at h
    · exact h

end SearchFacts
section PruneTop

variable {C : Type} [T9Math C]

theorem is_equal_loop_self (a : List Nat) : ∀ n, is_equal_loop a a n = true := by
  intro n
  induction n with
  | zero => rfl
  | succ n ih => simp [is_equal_loop, ih]

theorem kept_by_self (paths : List (t9_path_t C)) (q : t9_path_t C) (h : q ∈ paths) :
    kept_by paths q.nodes = true := by
  simp only [kept_by, List.any_eq_true, Bool.and_eq_true, decide_eq_true_eq]
  exact ⟨q, h, rfl, is_equal_loop_self _ _⟩

theorem tree_prune_root (m : t9_model_t C) (tree : t9_search_tree_t C)
    (hm : m.search_tree = some tree) (hok : tree_ok tree) :
    ∃ tree1, t9_search_tree_prune m = .ok { m with search_tree := some tree1 } ∧
      tree1.next_addr = tree.next_addr ∧
      tree1.level_table2.length = tree.level_table2.length ∧ tree_synced tree1 ∧
      (tree1.root = tree.root ∨
        (tree.root.children2 ≠ [] ∧ tree1.root = prune_root (kept_by m.paths) tree.root)) := by
  obtain ⟨hnd, hlev, hfresh, hu⟩ := hok
  have hsame : ∃ tree1, (.ok m : Except Fault (t9_model_t C)) =
        .ok { m with search_tree := some tree1 } ∧
      tree1.next_addr = tree.next_addr ∧
      tree1.level_table2.length = tree.level_table2.length ∧ tree_synced tree1 ∧
      (tree1.root = tree.root ∨
        (tree.root.children2 ≠ [] ∧ tree1.root = prune_root (kept_by m.paths) tree.root)) :=
    ⟨tree, by rw [model_eta m tree hm], rfl, rfl, ⟨hnd, hlev⟩, Or.inl rfl⟩
  unfold t9_search_tree_prune
  by_cases hN : m.ngram_length < 1
  · rw [if_pos hN]; exact hsame
  · rw [if_neg hN]
    simp only [hm]
    by_cases hL : tree.level_table2.length < m.ngram_length
    · rw [if_pos hL]; exact hsame
    · rw [if_neg hL]
      obtain ⟨L, hLeq⟩ : ∃ L, tree.level_table2.length = L + 1 :=
        ⟨tree.level_table2.length - 1, by omega⟩
      rw [hLeq] at hu
      cases hr : tree.root with
      | mk a s p cs =>
        rw [hr] at hu
        simp only [uniform] at hu
        cases cs with
        | nil => exact absurd rfl hu.1
        | cons c cs =>
          obtain ⟨tree1, path1, h1, -, hp⟩ := prune_children_sim (c :: cs) a s p [] [] L m tree
            t9_path_create (by simp) hm (by rw [hr]; rfl) ⟨hnd, hlev⟩ hu.2
            (by rw [hLeq]; simp only [List.length_nil]; omega) rfl
          refine ⟨tree1, ?_, hp.2.1, hp.2.2.1, hp.2.2.2, Or.inr ⟨by simp [t9_search_node_t.children2], ?_⟩⟩
          · simp only [t9_search_node_prune, h1]
          · rw [hp.1]
            rfl

theorem prune_root_paths (keep : List Nat → Bool) (root : t9_search_node_t C)
    (hc : root.children2 ≠ []) (q : t9_path_t C) (hq : q ∈ root_frontier root)
    (hk : keep q.nodes = true) :
    q ∈ root_frontier (prune_root keep root) ∧
      (prune_root keep root).children2 ≠ [] := by
  cases root with
  | mk a s p cs =>
    cases cs with
    | nil => exact absurd rfl hc
    | cons c cs =>
      simp only [root_frontier, frontier] at hq
      have hf := prune_list_frontier keep (c :: cs) []
      have hmem : q ∈ frontier_list (prune_list keep (c :: cs) []) [] := by
        rw [← hf]
        exact List.mem_filter.mpr ⟨hq, hk⟩
      simp only [prune_root, root_frontier, t9_search_node_t.children2]
      cases hpl : prune_list keep (c :: cs) [] with
      | nil => rw [hpl] at hmem; simp [frontier_list] at hmem
      | cons c1 cs1 =>
        rw [hpl] at hmem
        simp only [frontier]
        exact ⟨hmem, by simp⟩

theorem prune_root_fields (keep : List Nat → Bool) (root : t9_search_node_t C) :
    (node_addrs (prune_root keep root)).Sublist (node_addrs root) ∧
      ∀ k, uniform k root → (prune_root keep root).children2 ≠ [] →
        uniform k (prune_root keep root) := by
  cases root with
  | mk a s p cs =>
    have hl := prune_list_fields keep cs []
    refine ⟨?_, ?_⟩
    · simp only [prune_root, node_addrs]
      exact List.Sublist.cons₂ _ hl.1
    · intro k hk hne
      simp only [prune_root, t9_search_node_t.children2] at hne ⊢
      cases k with
      | zero =>
        simp only [uniform] at hk
        subst hk
        exact absurd rfl hne
      | succ k =>
        simp only [uniform] at hk ⊢
        exact ⟨hne, hl.2 k hk.2⟩

/-- What `t9_search_tree_prune` does to a tree in the state `tree_ok` whose kept
paths are frontier paths of the tree: it returns, the kept paths are frontier
paths of the pruned tree, and the pruned tree is in the state `tree_ok` again
when a path is kept. -/
theorem tree_prune_facts (m : t9_model_t C) (tree : t9_search_tree_t C)
    (hm : m.search_tree = some tree) (hok : tree_ok tree)
    (hsub : ∀ q ∈ m.paths, q ∈ root_frontier tree.root) :
    ∃ tree1, t9_search_tree_prune m = .ok { m with search_tree := some tree1 } ∧
      tree1.next_addr = tree.next_addr ∧
      tree1.level_table2.length = tree.level_table2.length ∧ tree_synced tree1 ∧
      (∀ q ∈ m.paths, q ∈ root_frontier tree1.root) ∧
      (m.paths ≠ [] → tree_ok tree1) := by
  obtain ⟨tree1, h1, hnext, hlen, hs, hroot⟩ := tree_prune_root m tree hm hok
  refine ⟨tree1, h1, hnext, hlen, hs, ?_, ?_⟩
  · intro q hq
    rcases hroot with hroot | ⟨hc, hroot⟩
    · rw [hroot]; exact hsub q hq
    · rw [hroot]
      exact (prune_root_paths _ _ hc q (hsub q hq) (kept_by_self _ q hq)).1
  · intro hne
    rcases hroot with hroot | ⟨hc, hroot⟩
    · refine ⟨hs.1, hs.2, ?_, ?_⟩
      · rw [hroot, hnext]; exact hok.2.2.1
      · rw [hroot, hlen]; exact hok.2.2.2
    · obtain ⟨q, hq⟩ := List.exists_mem_of_ne_nil _ hne
      have hp := prune_root_paths (kept_by m.paths) _ hc q (hsub q hq) (kept_by_self _ q hq)
      have hf := prune_root_fields (kept_by m.paths) tree.root
      refine ⟨hs.1, hs.2, ?_, ?_⟩
      · rw [hroot, hnext]
        intro a ha
        exact hok.2.2.1 a (hf.1.subset ha)
      · rw [hroot, hlen]
        exact hf.2 _ hok.2.2.2 hp.2

end PruneTop
section Grow

variable {C : Type} [T9Math C]

theorem set_of_get {α : Type} (l : List α) (i : Nat) (x : α) (h : l.get? i = some x) :
    l.set i x = l := by
  induction l generalizing i with
  | nil => rfl
  | cons a rest ih =>
    cases i with
    | zero => simp only [List.get?_cons_zero, Option.some.injEq] at h; simp [h]
    | succ i => simp only [List.get?_cons_succ] at h; simp [ih i h]

theorem get_of_set {α : Type} (l : List α) (i : Nat) (x y : α) (h : l.get? i = some x) :
    (l.set i y).get? i = some y := by
  induction l generalizing i with
  | nil => simp at h
  | cons a rest ih =>
    cases i with
    | zero => simp
    | succ i => simp only [List.get?_cons_succ] at h; simpa using ih i h

theorem corpus_symbols_nonzero : ∀ s ∈ CORPUS_SYMBOLS, s ≠ 0 := by decide

theorem corpus_symbols_length : CORPUS_SYMBOLS.length = 65 := by decide

theorem expand_loop_spec (t9_input : Nat) (node_probability : C) (depth : Nat)
    (hkey : is_key_symbol t9_input) (symbols : List Nat) :
    (∀ s ∈ symbols, s ≠ 0) →
    ∀ (sequence : List Nat) (children2 : List (t9_search_node_t C)) (model : t9_model_t C)
      (tree : t9_search_tree_t C) (level : List Nat),
      model.search_tree = some tree → tree.level_table2.get? depth = some level →
      ∃ new, expand_loop t9_input node_probability depth symbols sequence children2 model =
          .ok (children2 ++ new,
            { model with search_tree := some { tree with
                level_table2 := tree.level_table2.set depth
                  (level ++ List.range' tree.next_addr symbols.length),
                next_addr := tree.next_addr + symbols.length } }) ∧
        new.map t9_search_node_t.addr = List.range' tree.next_addr symbols.length ∧
        (∀ c ∈ new, c.children2 = []) ∧
        new.map t9_search_node_t.symbol = symbols := by
  induction symbols with
  | nil =>
    intro _ sequence children2 model tree level hm hl
    refine ⟨[], ?_, rfl, by simp, rfl⟩
    simp only [expand_loop, List.append_nil, List.length_nil, List.range'_zero, Nat.add_zero]
    rw [set_of_get _ _ _ hl, model_eta model _ hm]
  | cons symbol rest ih =>
    intro h0 sequence children2 model tree level hm hl
    have hs : symbol ≠ 0 := h0 symbol (by simp)
    have hb := button_for_letter_value t9_input symbol hkey
    unfold expand_loop
    rw [if_neg hs]
    simp only [hm, hb, level_push, hl]
    generalize hc : (t9_search_node_t.mk tree.next_addr symbol _ [] : t9_search_node_t C) = child
    generalize (if (cstr sequence).length ≥ (model.ngram_length + SIZE_MOD - 1) % SIZE_MOD then
      List.drop ((cstr sequence).length - (model.ngram_length - 1)) sequence
      else sequence) = seq1
    obtain ⟨new, hrun, hmap, hleaf, hsym⟩ := ih
      (fun s hs => h0 s (List.mem_cons_of_mem _ hs)) seq1 (children2 ++ [child])
      { model with search_tree := some { tree with
          level_table2 := tree.level_table2.set depth (level ++ [tree.next_addr]),
          next_addr := tree.next_addr + 1 } }
      { tree with
          level_table2 := tree.level_table2.set depth (level ++ [tree.next_addr]),
          next_addr := tree.next_addr + 1 }
      (level ++ [tree.next_addr]) rfl (get_of_set _ _ _ _ hl)
    refine ⟨child :: new, ?_, ?_, ?_, ?_⟩
    · rw [hrun]
      simp only [List.set_set, List.append_assoc, List.singleton_append, List.length_cons,
        List.range'_succ, Nat.add_assoc, Nat.add_comm 1]
    · simp only [List.map_cons, hmap, List.length_cons, List.range'_succ, ← hc,
        t9_search_node_t.addr]
    · intro c hcm
      rcases List.mem_cons.mp hcm with hcm | hcm
      · rw [hcm, ← hc]; rfl
      · exact hleaf c hcm
    · simp only [List.map_cons, hsym, ← hc, t9_search_node_t.symbol]

end Grow
section Grow2

variable {C : Type} [T9Math C]

theorem level_zero_list (cs : List (t9_search_node_t C)) :
    level_addrs_list 0 cs = cs.map t9_search_node_t.addr := by
  induction cs with
  | nil => rfl
  | cons c rest ih =>
    cases c with
    | mk a s p ccs => simp [level_addrs_list, level_addrs, ih, t9_search_node_t.addr]

theorem leaf_list_facts (cs : List (t9_search_node_t C)) (h : ∀ c ∈ cs, c.children2 = []) :
    node_addrs_list cs = cs.map t9_search_node_t.addr ∧ uniform_list 0 cs := by
  induction cs with
  | nil => exact ⟨rfl, trivial⟩
  | cons c rest ih =>
    have hc := h c (by simp)
    obtain ⟨h1, h2⟩ := ih (fun d hd => h d (List.mem_cons_of_mem _ hd))
    cases c with
    | mk a s p ccs =>
      simp only [t9_search_node_t.children2] at hc
      subst hc
      refine ⟨?_, ?_⟩
      · simp [node_addrs_list, node_addrs, h1, t9_search_node_t.addr]
      · simp only [uniform_list, uniform]
        exact ⟨trivial, h2⟩

theorem perm_four (a b c d : List Nat) : ((a ++ b) ++ (c ++ d)).Perm ((a ++ c) ++ (b ++ d)) := by
  rw [List.append_assoc, List.append_assoc]
  apply List.Perm.append_left
  rw [← List.append_assoc, ← List.append_assoc]
  exact List.Perm.append_right _ List.perm_append_comm

mutual
theorem node_insert_spec (t9_input : Nat) (hkey : is_key_symbol t9_input) (L : Nat) :
    ∀ (node : t9_search_node_t C) (sequence : List Nat) (depth k : Nat)
      (model : t9_model_t C) (tree : t9_search_tree_t C) (level : List Nat),
      model.search_tree = some tree → tree.level_table2.get? L = some level →
      uniform k node → depth + k = L →
      ∃ node1 new, t9_search_node_insert node t9_input sequence depth model =
          .ok (node1,
            { model with search_tree := some { tree with
                level_table2 := tree.level_table2.set L (level ++ new),
                next_addr := tree.next_addr + new.length } }) ∧
        new = List.range' tree.next_addr new.length ∧
        node1.addr = node.addr ∧ uniform (k + 1) node1 ∧
        level_addrs (k + 1) node1 = new ∧
        (∀ j, j ≤ k → level_addrs j node1 = level_addrs j node) ∧
        (node_addrs node1).Perm (node_addrs node ++ new)
  | .mk a s p [], sequence, depth, k, model, tree, level, hm, hl, hu, hd => by
    cases k with
    | succ k => simp [uniform] at hu
    | zero =>
      simp only [Nat.add_zero] at hd
      subst hd
      obtain ⟨new, hrun, hmap, hleaf, -⟩ := expand_loop_spec t9_input p depth hkey
        CORPUS_SYMBOLS corpus_symbols_nonzero sequence [] model tree level hm hl
      obtain ⟨hna, hun⟩ := leaf_list_facts new hleaf
      have hlen : new.length = CORPUS_SYMBOLS.length := by
        have := congrArg List.length hmap
        simpa using this
      refine ⟨.mk a s p new, List.range' tree.next_addr CORPUS_SYMBOLS.length, ?_, ?_, rfl,
        ?_, ?_, ?_, ?_⟩
      · simp only [t9_search_node_insert, hrun, List.nil_append, List.length_range']
      · simp
      · simp only [uniform]
        refine ⟨?_, hun⟩
        intro hnil
        rw [hnil, corpus_symbols_length] at hlen
        cases hlen
      · simp only [level_addrs, level_zero_list, hmap]
      · intro j hj
        have : j = 0 := by omega
        subst this
        rfl
      · simp only [node_addrs, hna, hmap, node_addrs_list, List.append_nil,
          List.singleton_append]
        exact List.Perm.refl _
  | .mk a s p (c :: cs), sequence, depth, k, model, tree, level, hm, hl, hu, hd => by
    cases k with
    | zero => simp [uniform] at hu
    | succ k =>
      simp only [uniform] at hu
      obtain ⟨cs1, new, hrun, hnew, hlen, hun, hlv, hold, hperm⟩ :=
        insert_children_spec t9_input hkey L (c :: cs) sequence depth k model tree level hm hl
          hu.2 (by omega)
      refine ⟨.mk a s p cs1, new, ?_, hnew, rfl, ?_, ?_, ?_, ?_⟩
      · simp only [t9_search_node_insert, hrun]
      · simp only [uniform]
        refine ⟨?_, hun⟩
        intro hnil
        rw [hnil] at hlen
        cases hlen
      · simp only [level_addrs, hlv]
      · intro j hj
        cases j with
        | zero => rfl
        | succ j =>
          simp only [level_addrs]
          exact hold j (by omega)
      · simp only [node_addrs, List.cons_append]
        exact List.Perm.cons _ hperm
theorem insert_children_spec (t9_input : Nat) (hkey : is_key_symbol t9_input) (L : Nat) :
    ∀ (cs : List (t9_search_node_t C)) (sequence : List Nat) (depth k : Nat)
      (model : t9_model_t C) (tree : t9_search_tree_t C) (level : List Nat),
      model.search_tree = some tree → tree.level_table2.get? L = some level →
      uniform_list k cs → depth + 1 + k = L →
      ∃ cs1 new, insert_children cs t9_input sequence depth model =
          .ok (cs1,
            { model with search_tree := some { tree with
                level_table2 := tree.level_table2.set L (level ++ new),
                next_addr := tree.next_addr + new.length } }) ∧
        new = List.range' tree.next_addr new.length ∧
        cs1.length = cs.length ∧ uniform_list (k + 1) cs1 ∧
        level_addrs_list (k + 1) cs1 = new ∧
        (∀ j, j ≤ k → level_addrs_list j cs1 = level_addrs_list j cs) ∧
        (node_addrs_list cs1).Perm (node_addrs_list cs ++ new)
  | [], sequence, depth, k, model, tree, level, hm, hl, _, _ => by
    refine ⟨[], [], ?_, rfl, rfl, trivial, rfl, fun _ _ => rfl, List.Perm.refl _⟩
    simp only [insert_children, List.append_nil, List.length_nil, Nat.add_zero]
    rw [set_of_get _ _ _ hl, model_eta model _ hm]
  | c :: rest, sequence, depth, k, model, tree, level, hm, hl, hu, hd => by
    simp only [uniform_list] at hu
    obtain ⟨c1, new1, hrun1, hnew1, -, hun1, hlv1, hold1, hperm1⟩ :=
      node_insert_spec t9_input hkey L c (cstr sequence ++ [c.symbol]) (depth + 1) k model tree
        level hm hl hu.1 hd
    obtain ⟨cs1, new2, hrun2, hnew2, hlen2, hun2, hlv2, hold2, hperm2⟩ :=
      insert_children_spec t9_input hkey L rest sequence depth k
        { model with search_tree := some { tree with
            level_table2 := tree.level_table2.set L (level ++ new1),
            next_addr := tree.next_addr + new1.length } }
        { tree with
            level_table2 := tree.level_table2.set L (level ++ new1),
            next_addr := tree.next_addr + new1.length }
        (level ++ new1) rfl (get_of_set _ _ _ _ hl) hu.2 hd
    refine ⟨c1 :: cs1, new1 ++ new2, ?_, ?_, ?_, ?_, ?_, ?_, ?_⟩
    · simp only [insert_children, hrun1, hrun2, List.set_set, List.append_assoc,
        List.length_append, Nat.add_assoc]
    · simp only at hnew2
      rw [List.length_append, Nat.add_comm new1.length, ← List.range'_append_1, ← hnew1,
        ← hnew2]
    · simp [hlen2]
    · exact ⟨hun1, hun2⟩
    · simp only [level_addrs_list, hlv1, hlv2]
    · intro j hj
      simp only [level_addrs_list, hold1 j hj, hold2 j hj]
    · simp only [node_addrs_list]
      exact List.Perm.trans (List.Perm.append hperm1 hperm2) (perm_four _ _ _ _)
end

end Grow2

section LabelFacts

variable {C : Type}

mutual
theorem labels_fst :
    ∀ node : t9_search_node_t C, (node_labels node).map Prod.fst = node_addrs node
  | .mk a s p cs => by
    simp only [node_labels, node_addrs, List.map_cons, labels_list_fst cs]
theorem labels_list_fst :
    ∀ cs : List (t9_search_node_t C),
      (node_labels_list cs).map Prod.fst = node_addrs_list cs
  | [] => rfl
  | c :: rest => by
    simp only [node_labels_list, node_addrs_list, List.map_append, labels_fst c,
      labels_list_fst rest]
end

mutual
theorem find_label :
    ∀ (node n : t9_search_node_t C) (a : Nat), find_node a node = some n →
      (a, n.symbol) ∈ node_labels node
  | .mk b s p cs, n, a, h => by
    simp only [find_node] at h
    simp only [node_labels, List.mem_cons]
    by_cases hb : b = a
    · rw [if_pos hb] at h
      simp only [Option.some.injEq] at h
      subst h
      left
      simp [hb, t9_search_node_t.symbol]
    · rw [if_neg hb] at h
      exact Or.inr (find_label_list cs n a h)
theorem find_label_list :
    ∀ (cs : List (t9_search_node_t C)) (n : t9_search_node_t C) (a : Nat),
      find_node_list a cs = some n → (a, n.symbol) ∈ node_labels_list cs
  | [], _, _, h => by simp [find_node_list] at h
  | c :: rest, n, a, h => by
    simp only [find_node_list] at h
    simp only [node_labels_list, List.mem_append]
    cases hf : find_node a c with
    | some n1 =>
      rw [hf] at h
      simp only [Option.some.injEq] at h
      subst h
      exact Or.inl (find_label c n1 a hf)
    | none =>
      rw [hf] at h
      exact Or.inr (find_label_list rest n a h)
end

mutual
theorem prune_node_labels (keep : List Nat → Bool) :
    ∀ (node node1 : t9_search_node_t C) (path : List Nat),
      prune_node keep node path = some node1 →
      (node_labels node1).Sublist (node_labels node)
  | .mk a s p [], node1, path, h => by
    simp only [prune_node] at h
    split_ifs at h
    simp only [Option.some.injEq] at h
    subst h
    exact List.Sublist.refl _
  | .mk a s p (c :: cs), node1, path, h => by
    simp only [prune_node] at h
    cases hpl : prune_list keep (c :: cs) path with
    | nil => rw [hpl] at h; cases h
    | cons c1 cs1 =>
      rw [hpl] at h
      simp only [Option.some.injEq] at h
      subst h
      have hl := prune_list_labels keep (c :: cs) path
      rw [hpl] at hl
      simp only [node_labels]
      exact List.Sublist.cons₂ _ hl
theorem prune_list_labels (keep : List Nat → Bool) :
    ∀ (cs : List (t9_search_node_t C)) (path : List Nat),
      (node_labels_list (prune_list keep cs path)).Sublist (node_labels_list cs)
  | [], _ => List.Sublist.refl _
  | c :: rest, path => by
    have hr := prune_list_labels keep rest path
    simp only [prune_list]
    cases hpn : prune_node keep c (path ++ [c.addr]) with
    | none =>
      simp only [node_labels_list]
      exact List.Sublist.trans hr (List.sublist_append_right _ _)
    | some c1 =>
      simp only [node_labels_list]
      exact List.Sublist.append (prune_node_labels keep c c1 (path ++ [c.addr]) hpn) hr
end

theorem prune_root_labels (keep : List Nat → Bool) (root : t9_search_node_t C) :
    (node_labels (prune_root keep root)).Sublist (node_labels root) := by
  cases root with
  | mk a s p cs =>
    simp only [prune_root, node_labels]
    exact List.Sublist.cons₂ _ (prune_list_labels keep cs [])

theorem label_unique (l : List (Nat × Nat)) (h : (l.map Prod.fst).Nodup) (a s1 s2 : Nat)
    (h1 : (a, s1) ∈ l) (h2 : (a, s2) ∈ l) : s1 = s2 := by
  induction l with
  | nil => simp at h1
  | cons x rest ih =>
    simp only [List.map_cons, List.nodup_cons, List.mem_map, not_exists, not_and] at h
    rcases List.mem_cons.mp h1 with h1 | h1 <;> rcases List.mem_cons.mp h2 with h2 | h2
    · rw [← h1] at h2
      exact (Prod.mk.inj h2).2.symm
    · exact absurd (by rw [← h1]) (h.1 (a, s2) h2)
    · exact absurd (by rw [← h2]) (h.1 (a, s1) h1)
    · exact ih h.2 h1 h2

theorem flatten_loop_sub (root root1 : t9_search_node_t C)
    (hsub : (node_labels root1).Sublist (node_labels root))
    (hnd : (node_addrs root).Nodup) :
    ∀ nodes : List Nat, (∀ a ∈ nodes, a ∈ node_addrs root1) →
      flatten_loop root1 nodes = flatten_loop root nodes := by
  intro nodes
  induction nodes with
  | nil => intro _; rfl
  | cons a rest ih =>
    intro h
    have ha1 := h a (by simp)
    have ha : a ∈ node_addrs root := by
      rw [← labels_fst] at ha1 ⊢
      exact (hsub.map Prod.fst).subset ha1
    obtain ⟨n1, hn1⟩ := find_node_some root1 a ha1
    obtain ⟨n, hn⟩ := find_node_some root a ha
    have hs : n1.symbol = n.symbol :=
      label_unique (node_labels root) (by rw [labels_fst]; exact hnd) a _ _
        (hsub.subset (find_label root1 n1 a hn1)) (find_label root n a hn)
    simp only [flatten_loop, hn1, hn, hs,
      ih (fun b hb => h b (List.mem_cons_of_mem _ hb))]

end LabelFacts
section Keystroke2

variable {C : Type} [T9Math C]

theorem set_last {α : Type} (l : List α) (x y : α) : (l ++ [x]).set l.length y = l ++ [y] := by
  induction l with
  | nil => rfl
  | cons a rest ih => simp [ih]

theorem get_last {α : Type} (l : List α) (x : α) : (l ++ [x]).get? l.length = some x := by
  induction l with
  | nil => rfl
  | cons a rest ih => simp

theorem get_init {α : Type} (l : List α) (x : α) (i : Nat) (h : i < l.length) :
    (l ++ [x]).get? i = l.get? i := by
  simp only [List.get?_eq_getElem?]
  exact List.getElem?_append_left h

theorem frontier_nodes_mem (root : t9_search_node_t C) (q : t9_path_t C)
    (h : q ∈ root_frontier root) : ∀ a ∈ q.nodes, a ∈ node_addrs root := by
  intro a ha
  obtain ⟨i, hi⟩ := List.mem_iff_get?.mp ha
  exact level_addrs_subset root (i + 1) a ((root_frontier_nodes root q h).1 i a hi)

/-- The pruning facts with the symbols: every node pruning leaves in the tree has
the pointer and the symbol it had before. -/
theorem tree_prune_labels (m : t9_model_t C) (tree : t9_search_tree_t C)
    (hm : m.search_tree = some tree) (hok : tree_ok tree)
    (hsub : ∀ q ∈ m.paths, q ∈ root_frontier tree.root) :
    ∃ tree1, t9_search_tree_prune m = .ok { m with search_tree := some tree1 } ∧
      tree1.next_addr = tree.next_addr ∧
      tree1.level_table2.length = tree.level_table2.length ∧ tree_synced tree1 ∧
      (∀ q ∈ m.paths, q ∈ root_frontier tree1.root) ∧
      (m.paths ≠ [] → tree_ok tree1) ∧
      (node_labels tree1.root).Sublist (node_labels tree.root) := by
  obtain ⟨tree1, h1, hnext, hlen, hs, hroot⟩ := tree_prune_root m tree hm hok
  obtain ⟨tree2, h2, -, -, -, hq, hok2⟩ := tree_prune_facts m tree hm hok hsub
  have heq : tree2 = tree1 := by
    rw [h1] at h2
    simp only [Except.ok.injEq, t9_model_t.mk.injEq, Option.some.injEq, true_and,
      and_true] at h2
    exact h2.symm
  subst heq
  refine ⟨tree2, h1, hnext, hlen, hs, hq, hok2, ?_⟩
  rcases hroot with hroot | ⟨-, hroot⟩
  · rw [hroot]
  · rw [hroot]
    exact prune_root_labels _ _

theorem grow_spec (m : t9_model_t C) (tree : t9_search_tree_t C) (key : Nat)
    (hok : tree_ok tree) (hkey : is_key_symbol key) :
    ∃ root1 new,
      t9_search_node_insert tree.root key [] 0
          { m with search_tree := some { tree with
              level_table2 := tree.level_table2 ++ [[]] } } =
        .ok (root1, { m with search_tree := some { tree with
              level_table2 := tree.level_table2 ++ [new],
              next_addr := tree.next_addr + new.length } }) ∧
      tree_ok (⟨root1, tree.level_table2 ++ [new], tree.next_addr + new.length⟩ :
        t9_search_tree_t C) := by
  obtain ⟨hnd, hlev, hfresh, hu⟩ := hok
  obtain ⟨root1, new, hrun, hnew, -, hun, hlv, hold, hperm⟩ :=
    node_insert_spec key hkey tree.level_table2.length tree.root [] 0
      tree.level_table2.length
      { m with search_tree := some { tree with level_table2 := tree.level_table2 ++ [[]] } }
      { tree with level_table2 := tree.level_table2 ++ [[]] } [] rfl (get_last _ _) hu
      (Nat.zero_add _)
  simp only at hnew
  refine ⟨root1, new, ?_, ?_, ?_, ?_, ?_⟩
  · rw [hrun]
    simp only [List.nil_append, set_last]
  · refine (List.Perm.nodup_iff hperm).mpr (List.nodup_append.mpr ⟨hnd, ?_, ?_⟩)
    · rw [hnew]; exact List.nodup_range' _ _
    · intro a ha hb
      rw [hnew] at hb
      have := (List.mem_range'_1.mp hb).1
      have := hfresh a ha
      omega
  · intro i hi
    simp only [List.length_append, List.length_singleton] at hi
    by_cases hiL : i < tree.level_table2.length
    · rw [get_init _ _ _ hiL, hlev i hiL, hold (i + 1) (by omega)]
    · have : i = tree.level_table2.length := by omega
      subst this
      rw [get_last, hlv]
  · intro a ha
    rcases List.mem_append.mp (hperm.subset ha) with ha | ha
    · have := hfresh a ha
      simp only
      omega
    · rw [hnew] at ha
      have := (List.mem_range'_1.mp ha).2
      simpa using this
  · simpa using hun

/-- One keystroke on a tree in the state `tree_ok`, with at least one kept path
asked for: the insert grows the tree to `tree2`, the search keeps `paths`, the
prune leaves `tree3`; all three return, both trees are in the state `tree_ok`,
the kept list is not empty, and every kept path is a root-to-frontier path of
both trees with the same symbols in both. -/
theorem keystroke_full (m : t9_model_t C) (tree : t9_search_tree_t C) (key : Nat)
    (hok : tree_ok tree) (hkey : is_key_symbol key)
    (hK : 1 ≤ m.number_paths) :
    ∃ tree2 paths tree3,
      (∃ m1, t9_search_node_insert tree.root key [] 0
          { m with search_tree := some { tree with
              level_table2 := tree.level_table2 ++ [[]] } } = .ok (tree2.root, m1)) ∧
      tree_ok tree2 ∧ tree2.level_table2.length = tree.level_table2.length + 1 ∧
      t9_search_tree_search_paths { m with search_tree := some tree2 } =
        .ok { m with search_tree := some tree2, paths := paths } ∧
      t9_search_tree_insert
          { m with search_tree := some { tree with
              level_table2 := tree.level_table2 ++ [[]] } } key =
        .ok (.T9_SUCCESS, { m with search_tree := some tree3, paths := paths }) ∧
      tree_ok tree3 ∧ tree3.level_table2.length = tree.level_table2.length + 1 ∧
      paths ≠ [] ∧ paths.length ≤ m.number_paths ∧ paths_sorted paths ∧
      (∀ q ∈ paths, q ∈ root_frontier tree2.root ∧ q ∈ root_frontier tree3.root ∧
        flatten_loop tree3.root q.nodes = flatten_loop tree2.root q.nodes) ∧
      t9_search_tree_prune { m with search_tree := some tree2, paths := paths } =
        .ok { m with search_tree := some tree3, paths := paths } := by
  obtain ⟨root1, new, hrun, hok2⟩ := grow_spec m tree key hok hkey
  obtain ⟨paths, hsearch, hsub, hlen, hsorted, hne⟩ := search_paths_facts
    (t9_model_t.mk m.corpus m.corpus_tree
      (some (t9_search_tree_t.mk root1 (tree.level_table2 ++ [new])
        (tree.next_addr + new.length)))
      m.paths m.ngram_length m.number_paths) _ rfl
  obtain ⟨tree3, hprune, -, hlen3, -, hsub3, hok3, hlab⟩ := tree_prune_labels
    (t9_model_t.mk m.corpus m.corpus_tree
      (some (t9_search_tree_t.mk root1 (tree.level_table2 ++ [new])
        (tree.next_addr + new.length)))
      paths m.ngram_length m.number_paths) _ rfl hok2 hsub
  refine ⟨⟨root1, tree.level_table2 ++ [new], tree.next_addr + new.length⟩, paths, tree3,
    ⟨_, hrun⟩, hok2, by simp, hsearch, ?_, hok3 (hne hK), by simpa using hlen3, hne hK, hlen,
    hsorted, ?_, hprune⟩
  · simp only [t9_search_tree_insert, hrun]
    simp only at hsearch hprune
    rw [hsearch]
    simp only [hprune]
  · intro q hq
    refine ⟨hsub q hq, hsub3 q hq, ?_⟩
    exact flatten_loop_sub _ _ hlab hok2.1 q.nodes (frontier_nodes_mem _ q (hsub3 q hq))

/-- The facts of `keystroke_full` without the equation of the prune. -/
theorem keystroke_spec (m : t9_model_t C) (tree : t9_search_tree_t C) (key : Nat)
    (hok : tree_ok tree) (hkey : is_key_symbol key)
    (hK : 1 ≤ m.number_paths) :
    ∃ tree2 paths tree3,
      (∃ m1, t9_search_node_insert tree.root key [] 0
          { m with search_tree := some { tree with
              level_table2 := tree.level_table2 ++ [[]] } } = .ok (tree2.root, m1)) ∧
      tree_ok tree2 ∧ tree2.level_table2.length = tree.level_table2.length + 1 ∧
      t9_search_tree_search_paths { m with search_tree := some tree2 } =
        .ok { m with search_tree := some tree2, paths := paths } ∧
      t9_search_tree_insert
          { m with search_tree := some { tree with
              level_table2 := tree.level_table2 ++ [[]] } } key =
        .ok (.T9_SUCCESS, { m with search_tree := some tree3, paths := paths }) ∧
      tree_ok tree3 ∧ tree3.level_table2.length = tree.level_table2.length + 1 ∧
      paths ≠ [] ∧ paths.length ≤ m.number_paths ∧ paths_sorted paths ∧
      ∀ q ∈ paths, q ∈ root_frontier tree2.root ∧ q ∈ root_frontier tree3.root ∧
        flatten_loop tree3.root q.nodes = flatten_loop tree2.root q.nodes := by
  obtain ⟨tree2, paths, tree3, h1, h2, h3, h4, h5, h6, h7, h8, h9, h10, h11, -⟩ :=
    keystroke_full m tree key hok hkey hK
  exact ⟨tree2, paths, tree3, h1, h2, h3, h4, h5, h6, h7, h8, h9, h10, h11⟩

end Keystroke2
section Typing

variable {C : Type} [T9Math C]

theorem tree_ok_create : tree_ok (t9_search_tree_create : t9_search_tree_t C) := by
  refine ⟨?_, ?_, ?_, ?_⟩
  · simp [t9_search_tree_create, node_addrs, node_addrs_list]
  · intro i hi
    simp [t9_search_tree_create] at hi
  · intro a ha
    simp only [t9_search_tree_create, node_addrs, node_addrs_list, List.mem_singleton] at ha
    simp [t9_search_tree_create, ha]
  · simp [t9_search_tree_create, uniform]

/-- Typing a valid key sequence into a model whose tree is in the state `tree_ok`
and that keeps at least one path: the loop returns T9_SUCCESS, the tree is in
the state `tree_ok` again and one level deeper per key, and after at least one
key the kept list is not empty, sorted ascending by cost, and holds
root-to-frontier paths of the tree. -/
theorem type_loop_spec (sequence : List Nat) :
    ∀ (m : t9_model_t C) (tree : t9_search_tree_t C),
      m.search_tree = some tree → tree_ok tree → 1 ≤ m.number_paths →
      (∀ s ∈ cstr sequence, is_key_symbol s) →
      ∃ tree1 paths1,
        type_loop sequence m =
          .ok (.T9_SUCCESS, { m with search_tree := some tree1, paths := paths1 }) ∧
        tree_ok tree1 ∧
        tree1.level_table2.length = tree.level_table2.length + (cstr sequence).length ∧
        (cstr sequence ≠ [] →
          paths1 ≠ [] ∧ paths_sorted paths1 ∧ paths1.length ≤ m.number_paths ∧
            ∀ q ∈ paths1, q ∈ root_frontier tree1.root) := by
  induction sequence with
  | nil =>
    intro m tree hm hok _ _
    refine ⟨tree, m.paths, ?_, hok, rfl, fun h => absurd rfl h⟩
    simp only [type_loop]
    rw [model_eta m tree hm]
  | cons s rest ih =>
    intro m tree hm hok hK hvalid
    by_cases h0 : s = 0
    · refine ⟨tree, m.paths, ?_, hok, by simp [cstr, h0], fun h => absurd (by simp [cstr, h0]) h⟩
      simp only [type_loop, if_pos h0]
      rw [model_eta m tree hm]
    · have hc : cstr (s :: rest) = s :: cstr rest := by simp [cstr, h0]
      rw [hc] at hvalid ⊢
      obtain ⟨tree2, paths, tree3, -, -, -, -, hins, hok3, hlen3, hne, hlen, hsorted, hq⟩ :=
        keystroke_spec m tree s hok (hvalid s (by simp)) hK
      obtain ⟨tree1, paths1, hrun, hok1, hlen1, hrest⟩ := ih
        { m with search_tree := some tree3, paths := paths } tree3 rfl hok3 hK
        (fun x hx => hvalid x (List.mem_cons_of_mem _ hx))
      by_cases hr : cstr rest = []
      · refine ⟨tree1, paths1, ?_, hok1, ?_, fun _ => ?_⟩
        · simp only [type_loop, if_neg h0, hm, hins, hrun]
        · rw [hlen1, hlen3]; simp only [List.length_cons]; omega
        · have hrun2 : type_loop rest { m with search_tree := some tree3, paths := paths } =
              .ok (.T9_SUCCESS, { m with search_tree := some tree3, paths := paths }) := by
            cases rest with
            | nil => rfl
            | cons r rest2 =>
              have hr0 : r = 0 := by
                by_contra hne0
                simp [cstr, hne0] at hr
              simp only [type_loop, if_pos hr0]
          rw [hrun2] at hrun
          simp only [Except.ok.injEq, Prod.mk.injEq, true_and, t9_model_t.mk.injEq,
            Option.some.injEq, and_true] at hrun
          rw [← hrun.1, ← hrun.2]
          exact ⟨hne, hsorted, hlen, fun q hq1 => (hq q hq1).2.1⟩
      · refine ⟨tree1, paths1, ?_, hok1, ?_, fun _ => hrest hr⟩
        · simp only [type_loop, if_neg h0, hm, hins, hrun]
        · rw [hlen1, hlen3]; simp only [List.length_cons]; omega

theorem flatten_loop_symbols (root : t9_search_node_t C) :
    ∀ (nodes str : List Nat), flatten_loop root nodes = .ok str →
      nodes.map (fun a => (find_node a root).map t9_search_node_t.symbol) = str.map some := by
  intro nodes
  induction nodes with
  | nil =>
    intro str h
    simp only [flatten_loop, Except.ok.injEq] at h
    subst h
    rfl
  | cons a rest ih =>
    intro str h
    simp only [flatten_loop] at h
    cases hf : find_node a root with
    | none => rw [hf] at h; cases h
    | some n =>
      rw [hf] at h
      cases hr : flatten_loop root rest with
      | error e => rw [hr] at h; cases h
      | ok str1 =>
        rw [hr] at h
        simp only [Except.ok.injEq] at h
        subst h
        simp only [List.map_cons, hf, Option.map_some', ih str1 hr]

end Typing
section Autocomplete

variable {C : Type} [T9Math C]

/-- The run of `t9_model_autocomplete` on a non-empty sequence of key symbols:
success, and the string read through the first kept path. -/
theorem autocomplete_spec (m : t9_model_t C) (tree : t9_search_tree_t C)
    (sequence : List Nat) (hm : m.search_tree = some tree) (hok : tree_ok tree)
    (hK : 1 ≤ m.number_paths) (hvalid : ∀ s ∈ cstr sequence, is_key_symbol s)
    (hne : cstr sequence ≠ []) :
    ∃ tree1 first rest str,
      t9_model_autocomplete m sequence =
        .ok (.T9_SUCCESS, { m with search_tree := some tree1, paths := first :: rest },
          some str) ∧
      (∀ q ∈ rest, first.probability ≤ q.probability) ∧
      first.nodes.map (fun a => (find_node a tree1.root).map t9_search_node_t.symbol) =
        str.map some ∧
      first.nodes.length = str.length ∧
      str.length = tree.level_table2.length + (cstr sequence).length ∧
      (tree.level_table2 = [] → str.length = (cstr sequence).length) := by
  obtain ⟨tree1, paths1, hrun, hok1, hlen1, hrest⟩ := type_loop_spec sequence m tree hm hok hK hvalid
  obtain ⟨hne1, hsorted, -, hfront⟩ := hrest hne
  cases paths1 with
  | nil => exact absurd rfl hne1
  | cons first rest =>
    have hf := hfront first (by simp)
    have hnodes := frontier_nodes_mem tree1.root first hf
    have hflen := (root_frontier_nodes tree1.root first hf).2 _ hok1.2.2.2
    obtain ⟨str, hstr, hslen⟩ := flatten_loop_ok tree1.root first.nodes hnodes
    have hpos : 0 < (cstr sequence).length := List.length_pos.mpr hne
    refine ⟨tree1, first, rest, str, ?_, ?_, flatten_loop_symbols _ _ _ hstr, hslen.symm, ?_, ?_⟩
    · have hnz : first.nodes.length ≠ 0 := by omega
      simp only [t9_model_autocomplete, t9_search_tree_type, hm,
        (validate_symbols_iff sequence).2 hvalid, hrun, t9_path_flatten]
      rw [if_neg (by decide)]
      simp only [if_neg hnz, hstr]
    · exact fun q hq => (List.pairwise_cons.mp hsorted).1 q hq
    · rw [hslen, hflen, hlen1]
    · intro hfresh
      rw [hslen, hflen, hlen1, hfresh]
      simp

/-- C17: on a model whose search tree is in the state `tree_ok` (the state of a
fresh tree, kept by every keystroke) and that keeps `K ≥ 1` paths, for every
non-empty sequence of key symbols `t9_model_autocomplete` returns T9_SUCCESS; the
returned string holds, in order, the symbols read through the node pointers of
the first entry of the kept list, which costs no more than any other entry; it
has one symbol per level of the tree, that is the depth before the call plus the
length of the sequence (the length of the sequence on a fresh tree). -/
theorem autocomplete_returns_first_kept (m : t9_model_t C) (tree : t9_search_tree_t C)
    (sequence : List Nat) (hm : m.search_tree = some tree) (hok : tree_ok tree)
    (hK : 1 ≤ m.number_paths) (hvalid : ∀ s ∈ cstr sequence, is_key_symbol s)
    (hne : cstr sequence ≠ []) :
    ∃ tree1 first rest str,
      t9_model_autocomplete m sequence =
        .ok (.T9_SUCCESS, { m with search_tree := some tree1, paths := first :: rest },
          some str) ∧
      (∀ q ∈ rest, first.probability ≤ q.probability) ∧
      first.nodes.map (fun a => (find_node a tree1.root).map t9_search_node_t.symbol) =
        str.map some ∧
      first.nodes.length = str.length ∧
      str.length = tree.level_table2.length + (cstr sequence).length ∧
      (tree.level_table2 = [] → str.length = (cstr sequence).length) :=
  autocomplete_spec m tree sequence hm hok hK hvalid hne

/-- C13: in a state reached after insert and search, that is the tree in the
state `tree_ok` and every kept path a root-to-frontier path of it,
`t9_search_tree_prune` returns, leaves the kept list as it is, and every node a
kept path refers to is still a live node of the tree and still in the level list
of its depth. -/
theorem prune_keeps_kept_nodes (m : t9_model_t C) (tree : t9_search_tree_t C)
    (hm : m.search_tree = some tree) (hok : tree_ok tree)
    (hsub : ∀ q ∈ m.paths, q ∈ root_frontier tree.root) :
    ∃ tree1, t9_search_tree_prune m = .ok { m with search_tree := some tree1 } ∧
      ∀ q ∈ m.paths, ∀ i a, q.nodes.get? i = some a →
        (∃ n, find_node a tree1.root = some n) ∧
          ∃ level, tree1.level_table2.get? i = some level ∧ a ∈ level := by
  obtain ⟨tree1, hrun, -, hlen, hs, hq, -, -⟩ := tree_prune_labels m tree hm hok hsub
  refine ⟨tree1, hrun, ?_⟩
  intro q hqm i a hia
  have hfa := (root_frontier_nodes tree1.root q (hq q hqm)).1 i a hia
  refine ⟨find_node_some _ _ (level_addrs_subset _ _ _ hfa), _, hs.2 i ?_, hfa⟩
  have hl := (root_frontier_nodes tree.root q (hsub q hqm)).2 _ hok.2.2.2
  have hi : i < q.nodes.length := by
    by_contra hge
    rw [List.get?_eq_none.mpr (by omega)] at hia
    cases hia
  omega

end Autocomplete

theorem tree_ok_two_leaf : tree_ok two_leaf_tree := by
  refine ⟨?_, ?_, ?_, ?_⟩
  · simp [two_leaf_tree, node_addrs, node_addrs_list]
  · intro i hi
    simp only [two_leaf_tree, List.length_singleton] at hi
    have : i = 0 := by omega
    subst this
    rfl
  · intro a ha
    simp only [two_leaf_tree, node_addrs, node_addrs_list, List.mem_cons, List.append_nil,
      List.mem_append, List.mem_singleton, List.not_mem_nil, or_false] at ha
    simp only [two_leaf_tree]
    omega
  · simp [two_leaf_tree, uniform, uniform_list]

/-- Witness of C13: the tree of two leaves with the cheaper leaf kept. -/
theorem prune_keeps_kept_nodes_witness :
    (∀ q ∈ two_leaf_searched.paths, q ∈ root_frontier two_leaf_tree.root) ∧
      ∃ tree1, t9_search_tree_prune two_leaf_searched =
          .ok { two_leaf_searched with search_tree := some tree1 } ∧
        ∀ q ∈ two_leaf_searched.paths, ∀ i a, q.nodes.get? i = some a →
          (∃ n, find_node a tree1.root = some n) ∧
            ∃ level, tree1.level_table2.get? i = some level ∧ a ∈ level :=
  ⟨by simp [two_leaf_searched, two_leaf_tree, root_frontier, frontier, frontier_list,
      t9_search_node_t.addr, t9_search_node_t.probability],
    prune_keeps_kept_nodes two_leaf_searched two_leaf_tree rfl tree_ok_two_leaf
      (by simp [two_leaf_searched, two_leaf_tree, root_frontier, frontier, frontier_list,
        t9_search_node_t.addr, t9_search_node_t.probability])⟩

/-- Witness of C17: the keys `2`, `6` typed into the fresh model of the text
`banana` with `N = 2` and three kept paths. -/
theorem autocomplete_returns_first_kept_witness :
    ∃ tree1 first rest str,
      t9_model_autocomplete (example_model "banana" 2 3) (bytes "26") =
        .ok (.T9_SUCCESS,
          { example_model "banana" 2 3 with
            search_tree := some tree1, paths := first :: rest }, some str) ∧
      (∀ q ∈ rest, first.probability ≤ q.probability) ∧
      first.nodes.map (fun a => (find_node a tree1.root).map t9_search_node_t.symbol) =
        str.map some ∧
      first.nodes.length = str.length ∧
      str.length =
        (t9_search_tree_create : t9_search_tree_t LogCost).level_table2.length +
          (cstr (bytes "26")).length ∧
      ((t9_search_tree_create : t9_search_tree_t LogCost).level_table2 = [] →
        str.length = (cstr (bytes "26")).length) :=
  autocomplete_returns_first_kept (example_model "banana" 2 3) t9_search_tree_create
    (bytes "26") (by rfl) tree_ok_create (by decide!) (by decide) (by decide)

section Evaluate

set_option maxRecDepth 100000 in
theorem ctol_table_total : ∀ s ∈ CORPUS_SYMBOLS, ∃ k ∈ LEXICON_SYMBOLS,
    t9_corpus_ctol s = some k := by
  decide

theorem key_symbol_nonzero (k : Nat) (h : is_key_symbol k) : k ≠ 0 := by
  have h0 : ('0').toNat = 48 := by decide
  have hs : ('*').toNat = 42 := by decide
  have hr : ('#').toNat = 35 := by decide
  simp only [is_key_symbol, h0, hs, hr] at h
  omega

theorem ctol_of_alphabet (c : Nat) (h : c ∈ CORPUS_SYMBOLS) :
    ∃ k, t9_corpus_ctol c = some k ∧ is_key_symbol k := by
  obtain ⟨k, hk, hc⟩ := ctol_table_total c h
  exact ⟨k, hc, (mem_lexicon_iff k).1 hk⟩

theorem read_symbol_ok (seq : List Nat) (i : Nat) (h : i < seq.length) :
    read_symbol seq i = .ok (seq.getD i 0) := by
  simp only [read_symbol, List.get?_eq_getElem?, List.getElem?_append_left h,
    List.getD_eq_getElem?_getD, List.getElem?_eq_getElem h, Option.getD_some]

theorem lexicon_loop_spec (buffer : List Nat) (halpha : ∀ c ∈ buffer, c ∈ CORPUS_SYMBOLS) :
    ∀ (n i : Nat) (out : List Nat), i + n = buffer.length →
      lexicon_loop buffer n i out = .ok (some (out ++ key_sequence (buffer.drop i))) := by
  intro n
  induction n with
  | zero =>
    intro i out h
    simp only [Nat.add_zero] at h
    simp [lexicon_loop, key_sequence, h]
  | succ n ih =>
    intro i out h
    have hi : i < buffer.length := by omega
    obtain ⟨k, hk, -⟩ := ctol_of_alphabet (buffer.getD i 0) (halpha _ (by
      rw [List.getD_eq_getElem?_getD, List.getElem?_eq_getElem hi]
      exact List.getElem_mem _))
    simp only [lexicon_loop, read_symbol_ok buffer i hi, hk]
    rw [ih (i + 1) (out ++ [k]) (by omega)]
    have hd : buffer.drop i = buffer.getD i 0 :: buffer.drop (i + 1) := by
      rw [List.getD_eq_getElem?_getD, List.getElem?_eq_getElem hi]
      exact List.drop_eq_getElem_cons hi
    rw [hd]
    simp only [key_sequence, List.map_cons, hk, Option.getD_some, List.append_assoc,
      List.singleton_append]

theorem key_sequence_facts (text : List Nat) (halpha : ∀ c ∈ text, c ∈ CORPUS_SYMBOLS) :
    (key_sequence text).length = text.length ∧ cstr (key_sequence text) = key_sequence text ∧
      ∀ s ∈ key_sequence text, is_key_symbol s := by
  induction text with
  | nil => exact ⟨rfl, rfl, by simp [key_sequence]⟩
  | cons c rest ih =>
    obtain ⟨k, hk, hkey⟩ := ctol_of_alphabet c (halpha c (by simp))
    obtain ⟨h1, h2, h3⟩ := ih (fun x hx => halpha x (List.mem_cons_of_mem _ hx))
    have hcons : key_sequence (c :: rest) = k :: key_sequence rest := by
      simp [key_sequence, hk]
    rw [hcons]
    refine ⟨by simp [h1], ?_, ?_⟩
    · simp only [cstr, if_neg (key_symbol_nonzero k hkey), h2]
    · intro s hs
      rcases List.mem_cons.mp hs with hs | hs
      · rw [hs]; exact hkey
      · exact h3 s hs

theorem sequence_diff_loop_spec (a b : List Nat) :
    ∀ (n i diff : Nat), i + n ≤ a.length → i + n ≤ b.length →
      sequence_diff_loop a b n i diff =
        .ok (diff + ((List.range' i n).filter
          (fun j => decide (a.getD j 0 ≠ b.getD j 0))).length) := by
  intro n
  induction n with
  | zero => intro i diff _ _; simp [sequence_diff_loop]
  | succ n ih =>
    intro i diff ha hb
    simp only [sequence_diff_loop, read_symbol_ok a i (by omega),
      read_symbol_ok b i (by omega)]
    rw [ih (i + 1) _ (by omega) (by omega)]
    simp only [List.range'_succ, List.filter_cons]
    by_cases hne : a.getD i 0 = b.getD i 0
    · have hd : decide (a.getD i 0 ≠ b.getD i 0) = false := decide_eq_false (not_not.mpr hne)
      rw [if_neg (not_not.mpr hne), hd, if_neg (by decide)]
    · have hd : decide (a.getD i 0 ≠ b.getD i 0) = true := decide_eq_true hne
      rw [if_pos hne, hd, if_pos rfl, List.length_cons]
      congr 1
      omega

theorem sequence_diff_spec (a b : List Nat) (L : Nat) (ha : L ≤ a.length) (hb : L ≤ b.length) :
    t9_corpus_sequence_diff a b L = .ok (differing_positions a b L) := by
  unfold t9_corpus_sequence_diff differing_positions
  rw [sequence_diff_loop_spec a b L 0 0 (by omega) (by omega), List.range_eq_range']
  simp

theorem differing_positions_self (a : List Nat) (L : Nat) : differing_positions a a L = 0 := by
  simp [differing_positions]

end Evaluate
theorem differing_positions_le (a b : List Nat) (L : Nat) : differing_positions a b L ≤ L := by
  unfold differing_positions
  calc ((List.range L).filter (fun i => decide (a.getD i 0 ≠ b.getD i 0))).length
      ≤ (List.range L).length := List.length_filter_le _ _
    _ = L := List.length_range L

/-- The run of `t9_model_evaluate` on a fresh model: the suggestion of
`t9_model_autocomplete` for the key sequence of the test text, and the `double`
quotient of the number of differing positions and the length. -/
theorem evaluate_returns_quotient {C : Type} [T9Math C] (m : t9_model_t C)
    (hfresh : m.search_tree = some t9_search_tree_create) (hK : 1 ≤ m.number_paths)
    (hne : m.corpus.test_buffer ≠ [])
    (halpha : ∀ c ∈ m.corpus.test_buffer, c ∈ CORPUS_SYMBOLS) :
    ∃ m1 suggestion,
      t9_model_autocomplete m (key_sequence m.corpus.test_buffer) =
        .ok (.T9_SUCCESS, m1, some suggestion) ∧
      t9_model_evaluate m =
        .ok (.T9_SUCCESS, m1,
          some (rounded_quotient DBL_MANT_DIG
            (differing_positions suggestion m.corpus.test_buffer
              m.corpus.test_buffer.length) m.corpus.test_buffer.length)) := by
  obtain ⟨hklen, hkc, hkv⟩ := key_sequence_facts m.corpus.test_buffer halpha
  have hLpos : 0 < m.corpus.test_buffer.length := List.length_pos.mpr hne
  have hkne : cstr (key_sequence m.corpus.test_buffer) ≠ [] := by
    rw [hkc]
    intro h
    rw [h] at hklen
    simp only [List.length_nil] at hklen
    omega
  obtain ⟨tree1, first, rest, str, hrun, -, -, -, hslen, -⟩ :=
    autocomplete_spec m t9_search_tree_create
      (key_sequence m.corpus.test_buffer) hfresh tree_ok_create hK
      (by rw [hkc]; exact hkv) hkne
  have hsl : str.length = m.corpus.test_buffer.length := by
    rw [hslen, hkc, hklen]
    simp [t9_search_tree_create]
  have hlex : t9_corpus_lexicon_from_corpus m.corpus.test_buffer
      m.corpus.test_buffer_size = .ok (some (key_sequence m.corpus.test_buffer)) := by
    unfold t9_corpus_lexicon_from_corpus corpus_t.test_buffer_size
    rw [lexicon_loop_spec _ halpha _ 0 [] (by omega)]
    simp
  have hdiff := sequence_diff_spec str m.corpus.test_buffer m.corpus.test_buffer.length
    (by omega) (le_refl _)
  have heval : t9_model_evaluate m =
      .ok (.T9_SUCCESS, { m with search_tree := some tree1, paths := first :: rest },
        some (rounded_quotient DBL_MANT_DIG
          (differing_positions str m.corpus.test_buffer m.corpus.test_buffer.length)
          m.corpus.test_buffer.length)) := by
    simp only [t9_model_evaluate, hlex, hrun, hkc, hklen, hdiff]
    rw [if_neg (by omega)]
  exact ⟨_, str, hrun, heval⟩

/-- C20 (amended): for a fresh model that keeps `K ≥ 1` paths and a non-empty test
text over the corpus alphabet, `t9_model_evaluate` returns T9_SUCCESS with the
error rate `(double) d / (double) L`: `L` is the length of the test text and `d`
the number of positions `i < L` at which the suggestion `t9_model_autocomplete`
returns for the key sequence of the text differs from the text.  The value is
the quotient `d / L` rounded to a `double`: it differs from `d / L` by at most
the fraction `2 ^ -51` of it, it is `d / L` itself whenever `L < 2 ^ 53` and
`d / L` is a binary64 number `m * 2 ^ e` with `m < 2 ^ 53`, and it is 0 when the
suggestion is the text. -/
theorem evaluate_error_rate {C : Type} [T9Math C] (m : t9_model_t C)
    (hfresh : m.search_tree = some t9_search_tree_create) (hK : 1 ≤ m.number_paths)
    (hne : m.corpus.test_buffer ≠ [])
    (halpha : ∀ c ∈ m.corpus.test_buffer, c ∈ CORPUS_SYMBOLS) :
    ∃ m1 suggestion,
      t9_model_autocomplete m (key_sequence m.corpus.test_buffer) =
        .ok (.T9_SUCCESS, m1, some suggestion) ∧
      t9_model_evaluate m =
        .ok (.T9_SUCCESS, m1,
          some (rounded_quotient DBL_MANT_DIG
            (differing_positions suggestion m.corpus.test_buffer
              m.corpus.test_buffer.length) m.corpus.test_buffer.length)) ∧
      |rounded_quotient DBL_MANT_DIG
            (differing_positions suggestion m.corpus.test_buffer
              m.corpus.test_buffer.length) m.corpus.test_buffer.length -
          (differing_positions suggestion m.corpus.test_buffer
              m.corpus.test_buffer.length : ℚ) / (m.corpus.test_buffer.length : ℚ)| ≤
        1 / 2 ^ 51 *
          ((differing_positions suggestion m.corpus.test_buffer
              m.corpus.test_buffer.length : ℚ) / (m.corpus.test_buffer.length : ℚ)) ∧
      (m.corpus.test_buffer.length < 2 ^ 53 →
        ∀ (k : Nat) (e : ℤ), k < 2 ^ 53 →
          (differing_positions suggestion m.corpus.test_buffer
              m.corpus.test_buffer.length : ℚ) / (m.corpus.test_buffer.length : ℚ) =
            (k : ℚ) * (2 : ℚ) ^ e →
          t9_model_evaluate m =
            .ok (.T9_SUCCESS, m1,
              some ((differing_positions suggestion m.corpus.test_buffer
                m.corpus.test_buffer.length : ℚ) / (m.corpus.test_buffer.length : ℚ)))) ∧
      (suggestion = m.corpus.test_buffer →
        t9_model_evaluate m = .ok (.T9_SUCCESS, m1, some 0)) := by
  obtain ⟨m1, str, hrun, heval⟩ := evaluate_returns_quotient m hfresh hK hne halpha
  have hLpos : 0 < m.corpus.test_buffer.length := List.length_pos.mpr hne
  refine ⟨m1, str, hrun, heval, ?_, ?_, ?_⟩
  · have h := rounded_quotient_error DBL_MANT_DIG (by decide)
      (differing_positions str m.corpus.test_buffer m.corpus.test_buffer.length)
      m.corpus.test_buffer.length hLpos
    have e : (4 : ℚ) / 2 ^ DBL_MANT_DIG = 1 / 2 ^ 51 := by norm_num [DBL_MANT_DIG]
    rw [e] at h
    exact h
  · intro hL k e hk hq
    rw [heval, rounded_quotient_exact DBL_MANT_DIG _ _
      (lt_of_le_of_lt (differing_positions_le _ _ _) hL) hL k e hk hq]
  · intro hs
    rw [heval, hs, differing_positions_self, rounded_quotient_zero]

/-- Witness of C20 (amended): the fresh model of the text `banana` with `N = 2`, three kept
paths and the test text `an`. -/
theorem evaluate_error_rate_witness :
    ∃ m1 suggestion,
      t9_model_autocomplete (example_model_test "banana" "an" 2 3)
          (key_sequence (example_model_test "banana" "an" 2 3).corpus.test_buffer) =
        .ok (.T9_SUCCESS, m1, some suggestion) ∧
      t9_model_evaluate (example_model_test "banana" "an" 2 3) =
        .ok (.T9_SUCCESS, m1,
          some (rounded_quotient DBL_MANT_DIG
            (differing_positions suggestion
              (example_model_test "banana" "an" 2 3).corpus.test_buffer
              (example_model_test "banana" "an" 2 3).corpus.test_buffer.length)
            (example_model_test "banana" "an" 2 3).corpus.test_buffer.length)) ∧
      |rounded_quotient DBL_MANT_DIG
            (differing_positions suggestion
              (example_model_test "banana" "an" 2 3).corpus.test_buffer
              (example_model_test "banana" "an" 2 3).corpus.test_buffer.length)
            (example_model_test "banana" "an" 2 3).corpus.test_buffer.length -
          (differing_positions suggestion
              (example_model_test "banana" "an" 2 3).corpus.test_buffer
              (example_model_test "banana" "an" 2 3).corpus.test_buffer.length : ℚ) /
            ((example_model_test "banana" "an" 2 3).corpus.test_buffer.length : ℚ)| ≤
        1 / 2 ^ 51 *
          ((differing_positions suggestion
              (example_model_test "banana" "an" 2 3).corpus.test_buffer
              (example_model_test "banana" "an" 2 3).corpus.test_buffer.length : ℚ) /
            ((example_model_test "banana" "an" 2 3).corpus.test_buffer.length : ℚ)) ∧
      ((example_model_test "banana" "an" 2 3).corpus.test_buffer.length < 2 ^ 53 →
        ∀ (k : Nat) (e : ℤ), k < 2 ^ 53 →
          (differing_positions suggestion
              (example_model_test "banana" "an" 2 3).corpus.test_buffer
              (example_model_test "banana" "an" 2 3).corpus.test_buffer.length : ℚ) /
            ((example_model_test "banana" "an" 2 3).corpus.test_buffer.length : ℚ) =
            (k : ℚ) * (2 : ℚ) ^ e →
          t9_model_evaluate (example_model_test "banana" "an" 2 3) =
            .ok (.T9_SUCCESS, m1,
              some ((differing_positions suggestion
                (example_model_test "banana" "an" 2 3).corpus.test_buffer
                (example_model_test "banana" "an" 2 3).corpus.test_buffer.length : ℚ) /
                ((example_model_test "banana" "an" 2 3).corpus.test_buffer.length : ℚ)))) ∧
      (suggestion = (example_model_test "banana" "an" 2 3).corpus.test_buffer →
        t9_model_evaluate (example_model_test "banana" "an" 2 3) =
          .ok (.T9_SUCCESS, m1, some 0)) :=
  evaluate_error_rate (example_model_test "banana" "an" 2 3) (by rfl) (by decide!)
    (by decide) (by decide)

section Ties

variable {C : Type} [T9Math C]

theorem take_take_append {α : Type} (K : Nat) (a b : List α) :
    ((a.take K) ++ b).take K = (a ++ b).take K := by
  induction a generalizing K with
  | nil => simp
  | cons x rest ih =>
    cases K with
    | zero => simp
    | succ K => simp [ih K]

theorem absorb_ties (c : C) (K : Nat) (xs : List (t9_path_t C)) :
    ∀ kept : List (t9_path_t C), kept.length ≤ K →
      (∀ y ∈ kept, y.probability = c) → (∀ x ∈ xs, x.probability = c) →
      absorb K kept xs = (kept ++ xs).take K := by
  induction xs with
  | nil =>
    intro kept hlen _ _
    simp only [absorb, List.append_nil]
    exact (List.take_of_length_le hlen).symm
  | cons x xs ih =>
    intro kept hlen hk hx
    have hins : insert_path x kept = kept ++ [x] :=
      insert_path_of_le x kept (fun b hb => by rw [hk b hb, hx x (by simp)])
    simp only [absorb, hins]
    rw [ih _ (List.length_take_le _ _)
      (fun y hy => by
        rcases List.mem_append.mp (List.mem_of_mem_take hy) with hy | hy
        · exact hk y hy
        · simp only [List.mem_singleton] at hy
          rw [hy]; exact hx x (by simp))
      (fun y hy => hx y (List.mem_cons_of_mem _ hy)),
      take_take_append]
    simp

theorem sorted_of_ties (c : C) (l : List (t9_path_t C)) (h : ∀ y ∈ l, y.probability = c) :
    paths_sorted l := by
  apply List.pairwise_of_forall_mem_list
  intro a ha b hb
  rw [h a ha, h b hb]

mutual
theorem node_search_ties (c : C) :
    ∀ (node : t9_search_node_t C) (model : t9_model_t C) (tmp_path : t9_path_t C),
      model.paths.length ≤ model.number_paths →
      (∀ y ∈ model.paths, y.probability = c) →
      (∀ x ∈ frontier node tmp_path.nodes tmp_path.probability, x.probability = c) →
      (t9_node_search_paths node model tmp_path).1.paths =
          absorb model.number_paths model.paths
            (frontier node tmp_path.nodes tmp_path.probability) ∧
        (t9_node_search_paths node model tmp_path).2.nodes = tmp_path.nodes
  | .mk a s p [], model, tmp_path, hlen, hk, hx => by
    have hs := sorted_of_ties c model.paths hk
    simp only [t9_node_search_paths]
    split_ifs with hcut
    · obtain ⟨last, hl, hfull, -⟩ := search_cut_true model p hcut
      refine ⟨?_, rfl⟩
      symm
      apply absorb_cut _ _ last hs hl (le_antisymm hlen hfull)
      intro x hxm
      rw [hx x hxm, hk last (List.mem_of_mem_getLast? hl)]
    · refine ⟨?_, rfl⟩
      rw [search_leaf_paths model tmp_path hlen hs]
      rfl
  | .mk a s p (ch :: cs), model, tmp_path, hlen, hk, hx => by
    have hs := sorted_of_ties c model.paths hk
    simp only [t9_node_search_paths]
    split_ifs with hcut
    · obtain ⟨last, hl, hfull, -⟩ := search_cut_true model p hcut
      refine ⟨?_, rfl⟩
      symm
      apply absorb_cut _ _ last hs hl (le_antisymm hlen hfull)
      intro x hxm
      rw [hx x hxm, hk last (List.mem_of_mem_getLast? hl)]
    · simp only [frontier] at hx ⊢
      exact search_children_ties c (ch :: cs) model tmp_path hlen hk hx
theorem search_children_ties (c : C) :
    ∀ (cs : List (t9_search_node_t C)) (model : t9_model_t C) (tmp_path : t9_path_t C),
      model.paths.length ≤ model.number_paths →
      (∀ y ∈ model.paths, y.probability = c) →
      (∀ x ∈ frontier_list cs tmp_path.nodes, x.probability = c) →
      (search_children cs model tmp_path).1.paths =
          absorb model.number_paths model.paths (frontier_list cs tmp_path.nodes) ∧
        (search_children cs model tmp_path).2.nodes = tmp_path.nodes
  | [], model, tmp_path, _, _, _ => by
    simp only [search_children, frontier_list, absorb, and_self]
  | child :: rest, model, tmp_path, hlen, hk, hx => by
    have hs := sorted_of_ties c model.paths hk
    simp only [frontier_list, List.mem_append] at hx
    have h1 := node_search_ties c child model (t9_path_push tmp_path child) hlen hk
      (fun x hxm => hx x (Or.inl hxm))
    have hkeep := node_search_keeps model.number_paths child model
      (t9_path_push tmp_path child) ⟨rfl, hlen, hs⟩
    have hmem := node_search_mem model.number_paths child model
      (t9_path_push tmp_path child) ⟨rfl, hlen, hs⟩
    have hn : (t9_path_pop
        (t9_node_search_paths child model (t9_path_push tmp_path child)).2).nodes =
        tmp_path.nodes := by
      show (t9_node_search_paths child model
        (t9_path_push tmp_path child)).2.nodes.dropLast = tmp_path.nodes
      rw [h1.2]
      simp only [t9_path_push, List.dropLast_concat]
    have h2 := search_children_ties c rest
      (t9_node_search_paths child model (t9_path_push tmp_path child)).1
      (t9_path_pop (t9_node_search_paths child model (t9_path_push tmp_path child)).2)
      (by rw [hkeep.1]; exact hkeep.2.1)
      (fun y hy => by
        rcases hmem.1 y hy with hy | hy
        · exact hk y hy
        · exact hx y (Or.inl hy))
      (by rw [hn]; exact fun x hxm => hx x (Or.inr hxm))
    simp only [search_children, frontier_list]
    rw [h2.1, h2.2, hn, hkeep.1, h1.1, absorb_append]
    exact ⟨rfl, rfl⟩
end

theorem search_paths_ties (model : t9_model_t C) (tree : t9_search_tree_t C) (c : C)
    (htree : model.search_tree = some tree)
    (hties : ∀ x ∈ root_frontier tree.root, x.probability = c) :
    t9_search_tree_search_paths model =
      .ok { model with paths := (root_frontier tree.root).take model.number_paths } := by
  obtain ⟨corpus, corpus_tree, search_tree, paths, n, k⟩ := model
  simp only at htree
  subst htree
  unfold t9_search_tree_search_paths
  simp only [Except.ok.injEq]
  have hspec := node_search_ties c tree.root
    (⟨corpus, corpus_tree, some tree, [], n, k⟩ : t9_model_t C) t9_path_create
    (Nat.zero_le _) (by simp) hties
  have hf := node_search_frame tree.root
    (⟨corpus, corpus_tree, some tree, [], n, k⟩ : t9_model_t C) t9_path_create
  rw [hf, hspec.1]
  have ha := absorb_ties c k (root_frontier tree.root) [] (Nat.zero_le _) (by simp) hties
  simp only [root_frontier, t9_path_create, List.nil_append] at ha ⊢
  rw [ha]

theorem cstr_of_nonzero (l : List Nat) (h : ∀ s ∈ l, s ≠ 0) : cstr l = l := by
  induction l with
  | nil => rfl
  | cons a rest ih =>
    simp only [cstr, if_neg (h a (by simp)), ih (fun s hs => h s (List.mem_cons_of_mem _ hs))]

theorem cstr_append_nonzero (a b : List Nat) (h : ∀ s ∈ a, s ≠ 0) :
    cstr (a ++ b) = a ++ cstr b := by
  induction a with
  | nil => rfl
  | cons x rest ih =>
    show cstr (x :: (rest ++ b)) = x :: (rest ++ cstr b)
    rw [cstr, if_neg (h x (by simp)), ih (fun s hs => h s (List.mem_cons_of_mem _ hs))]

theorem type_loop_append (a b : List Nat) (ha : ∀ s ∈ a, s ≠ 0) :
    ∀ m : t9_model_t C,
      type_loop (a ++ b) m =
        match type_loop a m with
        | .ok (.T9_SUCCESS, m1) => type_loop b m1
        | r => r := by
  induction a with
  | nil => intro m; rfl
  | cons s rest ih =>
    intro m
    have hs : s ≠ 0 := ha s (by simp)
    simp only [List.cons_append, type_loop, if_neg hs]
    cases hm : m.search_tree with
    | none => rfl
    | some tree =>
      simp only
      cases hi : t9_search_tree_insert
          { m with search_tree := some { tree with
              level_table2 := tree.level_table2 ++ [[]] } } s with
      | error e => rfl
      | ok r =>
        obtain ⟨e, m1⟩ := r
        cases e with
        | T9_FAILURE => rfl
        | T9_SUCCESS =>
          simp only
          exact ih (fun x hx => ha x (List.mem_cons_of_mem _ hx)) m1

end Ties
theorem star_grown_eq :
    t9_search_node_insert (t9_search_tree_create : t9_search_tree_t LogCost).root 42 [] 0
        { example_model "banana" 2 3 with
          search_tree := some { (t9_search_tree_create : t9_search_tree_t LogCost) with
            level_table2 :=
              (t9_search_tree_create : t9_search_tree_t LogCost).level_table2 ++ [[]] } } =
      .ok ((star_grown "banana" 2 3).1, (star_grown "banana" 2 3).2) := by
  have hok : is_ok (t9_search_node_insert
      (t9_search_tree_create : t9_search_tree_t LogCost).root 42 [] 0
      { example_model "banana" 2 3 with
        search_tree := some { (t9_search_tree_create : t9_search_tree_t LogCost) with
          level_table2 :=
            (t9_search_tree_create : t9_search_tree_t LogCost).level_table2 ++ [[]] } }) =
      true := by
    decide!
  obtain ⟨r, hr⟩ := ok_of_is_ok _ hok
  simp only [star_grown, hr]

theorem star_grown_infinite :
    ∀ x ∈ root_frontier (star_grown "banana" 2 3).1, x.probability = LogCost.val 0 := by
  have h : all_infinite (root_frontier (star_grown "banana" 2 3).1) = true := by decide!
  intro x hx
  have hx2 := List.all_eq_true.mp h x hx
  cases hp : x.probability with
  | sentinel => rw [hp] at hx2; cases hx2
  | val q =>
    rw [hp] at hx2
    simp only [decide_eq_true_eq] at hx2
    rw [hx2]

section PureGrowthFacts

variable {C : Type} [T9Math C]

theorem cstr_drop (s : List Nat) : ∀ k, k ≤ (cstr s).length →
    cstr (s.drop k) = (cstr s).drop k := by
  induction s with
  | nil => intro k _; simp [cstr]
  | cons a rest ih =>
    intro k hk
    cases k with
    | zero => rfl
    | succ k =>
      by_cases h0 : a = 0
      · simp [cstr, h0] at hk
      · simp only [cstr, if_neg h0, List.length_cons] at hk ⊢
        simp only [List.drop_succ_cons]
        exact ih k (by omega)

theorem truncated_idem (N : Nat) (sequence : List Nat) :
    truncated N (truncated N sequence) = truncated N sequence := by
  unfold truncated
  by_cases h : (cstr sequence).length ≥ (N + SIZE_MOD - 1) % SIZE_MOD
  · rw [if_pos h]
    have hc := cstr_drop sequence ((cstr sequence).length - (N - 1)) (by omega)
    rw [hc]
    split_ifs with h2
    · rw [List.length_drop]
      have : (cstr sequence).length - ((cstr sequence).length - (N - 1)) - (N - 1) = 0 := by
        omega
      rw [this, List.drop_zero]
    · rfl
  · rw [if_neg h, if_neg h]

theorem child_cost_truncated (corpus_tree : Option t9_corpus_tree_t) (N t9_input : Nat)
    (sequence : List Nat) (p : C) (symbol : Nat) :
    child_cost corpus_tree N t9_input (truncated N sequence) p symbol =
      child_cost corpus_tree N t9_input sequence p symbol := by
  simp only [child_cost, truncated_idem]

theorem strip_list_append (l1 l2 : List (t9_search_node_t C)) :
    strip_list (l1 ++ l2) = strip_list l1 ++ strip_list l2 := by
  induction l1 with
  | nil => rfl
  | cons c rest ih =>
    show strip c :: strip_list (rest ++ l2) = strip c :: strip_list rest ++ strip_list l2
    rw [ih]
    rfl

theorem expand_loop_costs (t9_input : Nat) (p : C) (depth : Nat)
    (hkey : is_key_symbol t9_input) (symbols : List Nat) :
    (∀ s ∈ symbols, s ≠ 0) →
    ∀ (sequence : List Nat) (children2 : List (t9_search_node_t C)) (model : t9_model_t C)
      (children3 : List (t9_search_node_t C)) (model1 : t9_model_t C),
      expand_loop t9_input p depth symbols sequence children2 model = .ok (children3, model1) →
      model1.corpus_tree = model.corpus_tree ∧ model1.ngram_length = model.ngram_length ∧
        strip_list children3 = strip_list children2 ++ symbols.map (fun symbol =>
          .mk 0 symbol
            (child_cost model.corpus_tree model.ngram_length t9_input sequence p symbol) []) := by
  induction symbols with
  | nil =>
    intro _ sequence children2 model children3 model1 h
    simp only [expand_loop, Except.ok.injEq, Prod.mk.injEq] at h
    rw [← h.1, ← h.2]
    simp
  | cons symbol rest ih =>
    intro h0 sequence children2 model children3 model1 h
    have hs : symbol ≠ 0 := h0 symbol (by simp)
    have hb := button_for_letter_value t9_input symbol hkey
    unfold expand_loop at h
    rw [if_neg hs] at h
    cases ht : model.search_tree with
    | none => rw [ht] at h; simp at h
    | some tree =>
      rw [ht] at h
      simp only [hb] at h
      cases hl : level_push tree.level_table2 depth tree.next_addr with
      | error e => rw [hl] at h; simp at h
      | ok table =>
        rw [hl] at h
        simp only at h
        have hi := ih (fun s hs => h0 s (List.mem_cons_of_mem _ hs)) _ _ _ _ _ h
        obtain ⟨h1, h2, h3⟩ := hi
        simp only at h1 h2 h3
        refine ⟨h1, h2, ?_⟩
        rw [h3, strip_list_append]
        have hfold : ∀ s, child_cost model.corpus_tree model.ngram_length t9_input
            (if (cstr sequence).length ≥ (model.ngram_length + SIZE_MOD - 1) % SIZE_MOD then
              List.drop ((cstr sequence).length - (model.ngram_length - 1)) sequence
            else sequence) p s =
            child_cost model.corpus_tree model.ngram_length t9_input sequence p s :=
          fun s => child_cost_truncated model.corpus_tree model.ngram_length t9_input
            sequence p s
        simp only [hfold, List.map_cons, List.append_assoc, List.singleton_append]
        rfl

mutual
theorem node_insert_strip (t9_input : Nat) (hkey : is_key_symbol t9_input) :
    ∀ (node : t9_search_node_t C) (sequence : List Nat) (depth : Nat) (model : t9_model_t C)
      (node1 : t9_search_node_t C) (model1 : t9_model_t C),
      t9_search_node_insert node t9_input sequence depth model = .ok (node1, model1) →
      model1.corpus_tree = model.corpus_tree ∧ model1.ngram_length = model.ngram_length ∧
        strip node1 = grow_pure model.corpus_tree model.ngram_length t9_input node sequence
  | .mk a s p [], sequence, depth, model, node1, model1, h => by
    simp only [t9_search_node_insert] at h
    cases he : expand_loop t9_input p depth CORPUS_SYMBOLS sequence [] model with
    | error e => rw [he] at h; simp at h
    | ok r =>
      obtain ⟨children2, m2⟩ := r
      rw [he] at h
      simp only [Except.ok.injEq, Prod.mk.injEq] at h
      obtain ⟨h1, h2, h3⟩ := expand_loop_costs t9_input p depth hkey CORPUS_SYMBOLS
        corpus_symbols_nonzero sequence [] model children2 m2 he
      rw [← h.1, ← h.2]
      refine ⟨h1, h2, ?_⟩
      simp only [strip, grow_pure, h3, strip_list, List.nil_append]
  | .mk a s p (c :: cs), sequence, depth, model, node1, model1, h => by
    simp only [t9_search_node_insert] at h
    cases he : insert_children (c :: cs) t9_input sequence depth model with
    | error e => rw [he] at h; simp at h
    | ok r =>
      obtain ⟨children2, m2⟩ := r
      rw [he] at h
      simp only [Except.ok.injEq, Prod.mk.injEq] at h
      obtain ⟨h1, h2, h3⟩ := insert_children_strip t9_input hkey (c :: cs) sequence depth
        model children2 m2 he
      rw [← h.1, ← h.2]
      refine ⟨h1, h2, ?_⟩
      simp only [strip, grow_pure, h3]
theorem insert_children_strip (t9_input : Nat) (hkey : is_key_symbol t9_input) :
    ∀ (cs : List (t9_search_node_t C)) (sequence : List Nat) (depth : Nat)
      (model : t9_model_t C) (cs1 : List (t9_search_node_t C)) (model1 : t9_model_t C),
      insert_children cs t9_input sequence depth model = .ok (cs1, model1) →
      model1.corpus_tree = model.corpus_tree ∧ model1.ngram_length = model.ngram_length ∧
        strip_list cs1 =
          grow_pure_list model.corpus_tree model.ngram_length t9_input cs sequence
  | [], sequence, depth, model, cs1, model1, h => by
    simp only [insert_children, Except.ok.injEq, Prod.mk.injEq] at h
    rw [← h.1, ← h.2]
    exact ⟨rfl, rfl, rfl⟩
  | child :: rest, sequence, depth, model, cs1, model1, h => by
    simp only [insert_children] at h
    cases hc : t9_search_node_insert child t9_input (cstr sequence ++ [child.symbol])
        (depth + 1) model with
    | error e => rw [hc] at h; simp at h
    | ok r =>
      obtain ⟨child1, m2⟩ := r
      rw [hc] at h
      simp only at h
      cases hr : insert_children rest t9_input sequence depth m2 with
      | error e => rw [hr] at h; simp at h
      | ok r2 =>
        obtain ⟨rest1, m3⟩ := r2
        rw [hr] at h
        simp only [Except.ok.injEq, Prod.mk.injEq] at h
        obtain ⟨h1, h2, h3⟩ := node_insert_strip t9_input hkey child _ _ model child1 m2 hc
        obtain ⟨h4, h5, h6⟩ := insert_children_strip t9_input hkey rest sequence depth m2
          rest1 m3 hr
        rw [← h.1, ← h.2]
        refine ⟨h4.trans h1, h5.trans h2, ?_⟩
        simp only [strip_list, grow_pure_list, h3, h6, h1, h2]
end

mutual
theorem grow_pure_strip (ct : Option t9_corpus_tree_t) (N t9_input : Nat) :
    ∀ (node : t9_search_node_t C) (sequence : List Nat),
      grow_pure ct N t9_input (strip node) sequence = grow_pure ct N t9_input node sequence
  | .mk a s p [], sequence => by simp only [strip, strip_list, grow_pure]
  | .mk a s p (c :: cs), sequence => by
    have h := grow_pure_list_strip ct N t9_input (c :: cs) sequence
    simp only [strip_list] at h
    simp only [strip, strip_list, grow_pure, h]
theorem grow_pure_list_strip (ct : Option t9_corpus_tree_t) (N t9_input : Nat) :
    ∀ (cs : List (t9_search_node_t C)) (sequence : List Nat),
      grow_pure_list ct N t9_input (strip_list cs) sequence =
        grow_pure_list ct N t9_input cs sequence
  | [], _ => rfl
  | c :: rest, sequence => by
    have hs : (strip c).symbol = c.symbol := by
      cases c with
      | mk a s p cs => rfl
    simp only [strip_list, grow_pure_list, hs, grow_pure_strip ct N t9_input c,
      grow_pure_list_strip ct N t9_input rest]
end

mutual
theorem cost_monotone_strip :
    ∀ node : t9_search_node_t C, cost_monotone (strip node) = cost_monotone node
  | .mk a s p cs => by
    simp only [strip, cost_monotone, cost_monotone_list_strip p cs]
theorem cost_monotone_list_strip :
    ∀ (p : C) (cs : List (t9_search_node_t C)),
      cost_monotone_list p (strip_list cs) = cost_monotone_list p cs
  | _, [] => rfl
  | p, c :: rest => by
    have hp : (strip c).probability = c.probability := by
      cases c with
      | mk a s q cs => rfl
    simp only [strip_list, cost_monotone_list, hp, cost_monotone_strip c,
      cost_monotone_list_strip p rest]
end

mutual
theorem frontier_words_strip :
    ∀ (node : t9_search_node_t C) (word : List Nat) (cost : C),
      frontier_words (strip node) word cost = frontier_words node word cost
  | .mk a s p [], word, cost => by simp only [strip, strip_list, frontier_words]
  | .mk a s p (c :: cs), word, cost => by
    have h := frontier_words_list_strip (c :: cs) word
    simp only [strip_list] at h
    simp only [strip, strip_list, frontier_words, h]
theorem frontier_words_list_strip :
    ∀ (cs : List (t9_search_node_t C)) (word : List Nat),
      frontier_words_list (strip_list cs) word = frontier_words_list cs word
  | [], _ => rfl
  | c :: rest, word => by
    have hs : (strip c).symbol = c.symbol ∧ (strip c).probability = c.probability := by
      cases c with
      | mk a s p cs => exact ⟨rfl, rfl⟩
    simp only [strip_list, frontier_words_list, hs.1, hs.2, frontier_words_strip c,
      frontier_words_list_strip rest]
end

end PureGrowthFacts
section WordsFacts

variable {C : Type} [T9Math C]

mutual
theorem frontier_words_map (sym : Nat → Option Nat) :
    ∀ (node : t9_search_node_t C) (pre word : List Nat) (cost : C),
      (∀ a s, (a, s) ∈ node_labels node → sym a = some s) →
      pre.map sym = word.map some →
      (frontier node pre cost).map (fun q => (q.probability, q.nodes.map sym)) =
        (frontier_words node word cost).map (fun cw => (cw.1, cw.2.map some))
  | .mk a s p [], pre, word, cost, _, hpre => by
    simp only [frontier, frontier_words, List.map_cons, List.map_nil, hpre]
  | .mk a s p (c :: cs), pre, word, cost, hlab, hpre => by
    simp only [frontier, frontier_words]
    apply frontier_words_list_map sym (c :: cs) pre word _ hpre
    intro b t hb
    apply hlab
    simp only [node_labels, List.mem_cons]
    exact Or.inr hb
theorem frontier_words_list_map (sym : Nat → Option Nat) :
    ∀ (cs : List (t9_search_node_t C)) (pre word : List Nat),
      (∀ a s, (a, s) ∈ node_labels_list cs → sym a = some s) →
      pre.map sym = word.map some →
      (frontier_list cs pre).map (fun q => (q.probability, q.nodes.map sym)) =
        (frontier_words_list cs word).map (fun cw => (cw.1, cw.2.map some))
  | [], _, _, _, _ => rfl
  | c :: rest, pre, word, hlab, hpre => by
    simp only [frontier_list, frontier_words_list, List.map_append]
    have hc : sym c.addr = some c.symbol := by
      apply hlab
      simp only [node_labels_list, List.mem_append]
      left
      cases c with
      | mk a s p cs => simp [node_labels, t9_search_node_t.addr, t9_search_node_t.symbol]
    rw [frontier_words_map sym c (pre ++ [c.addr]) (word ++ [c.symbol]) c.probability
        (fun a s h => hlab a s (by
          simp only [node_labels_list, List.mem_append]; exact Or.inl h))
        (by simp only [List.map_append, hpre, List.map_cons, List.map_nil, hc]),
      frontier_words_list_map sym rest pre word
        (fun a s h => hlab a s (by
          simp only [node_labels_list, List.mem_append]; exact Or.inr h)) hpre]
end

/-- In a tree without a repeated pointer, a pointer leads to the symbol it is
listed with. -/
theorem find_symbol_of_label (root : t9_search_node_t C) (h : (node_addrs root).Nodup)
    (a s : Nat) (hl : (a, s) ∈ node_labels root) :
    (find_node a root).map t9_search_node_t.symbol = some s := by
  have ha : a ∈ node_addrs root := by
    rw [← labels_fst]
    exact List.mem_map.mpr ⟨(a, s), hl, rfl⟩
  obtain ⟨n, hn⟩ := find_node_some root a ha
  have h2 := find_label root n a hn
  have := label_unique (node_labels root) (by rw [labels_fst]; exact h) a n.symbol s h2 hl
  rw [hn, Option.map_some', this]

theorem root_frontier_words (root : t9_search_node_t C) (h : (node_addrs root).Nodup) :
    (root_frontier root).map (fun q => (q.probability,
        q.nodes.map (fun a => (find_node a root).map t9_search_node_t.symbol))) =
      (frontier_words root [] 0).map (fun cw => (cw.1, cw.2.map some)) :=
  frontier_words_map _ root [] [] 0 (find_symbol_of_label root h) rfl

theorem map_some_inj (l1 l2 : List Nat) (h : l1.map some = l2.map some) : l1 = l2 :=
  List.map_injective_iff.mpr (Option.some_injective Nat) h

theorem head_insertion_sort {α : Type} (cost : α → C) (l : List α) :
    (l.insertionSort (fun a b => cost a ≤ cost b)).head? = first_min cost l := by
  induction l with
  | nil => rfl
  | cons a rest ih =>
    simp only [List.insertionSort, first_min]
    rw [← ih]
    cases hs : List.insertionSort (fun a b => cost a ≤ cost b) rest with
    | nil => rfl
    | cons h t =>
      simp only [List.orderedInsert, List.head?_cons]
      split_ifs <;> rfl

theorem first_min_map {α β : Type} (cost : β → C) (g : α → β) (l : List α) :
    first_min cost (l.map g) = (first_min (fun a => cost (g a)) l).map g := by
  induction l with
  | nil => rfl
  | cons a rest ih =>
    simp only [List.map_cons, first_min, ih]
    cases first_min (fun a => cost (g a)) rest with
    | none => rfl
    | some h =>
      simp only [Option.map_some']
      split_ifs <;> rfl

/-- The first path of the exhaustive search of a tree without a repeated pointer
carries the symbols of the first cheapest frontier word. -/
theorem exhaustive_head_word (K : Nat) (hK : 1 ≤ K) (root : t9_search_node_t C)
    (h : (node_addrs root).Nodup) (first : t9_path_t C) (rest : List (t9_path_t C))
    (hex : exhaustive_search K root = first :: rest) :
    ∃ cw, first_min Prod.fst (frontier_words root [] 0) = some cw ∧
      first.probability = cw.1 ∧
      first.nodes.map (fun a => (find_node a root).map t9_search_node_t.symbol) =
        cw.2.map some := by
  have h1 : ((root_frontier root).insertionSort
      (fun a b => a.probability ≤ b.probability)).head? = some first := by
    obtain ⟨k, hk⟩ : ∃ k, K = k + 1 := ⟨K - 1, by omega⟩
    rw [hk] at hex
    unfold exhaustive_search at hex
    cases hs : (root_frontier root).insertionSort
        (fun a b => a.probability ≤ b.probability) with
    | nil => rw [hs] at hex; simp at hex
    | cons x xs =>
      rw [hs, List.take_succ_cons] at hex
      simp only [List.cons.injEq] at hex
      rw [List.head?_cons, hex.1]
  rw [head_insertion_sort (fun q : t9_path_t C => q.probability)] at h1
  have h2 := congrArg (first_min Prod.fst) (root_frontier_words root h)
  rw [first_min_map, first_min_map, h1] at h2
  simp only [Option.map_some'] at h2
  cases hf : first_min (fun a : C × List Nat => a.1) (frontier_words root [] 0) with
  | none => rw [hf] at h2; simp at h2
  | some cw =>
    rw [hf] at h2
    simp only [Option.map_some', Option.some.injEq, Prod.mk.injEq] at h2
    exact ⟨cw, rfl, h2.1, h2.2⟩

end WordsFacts
section WordsFacts2

variable {C : Type} [T9Math C]

/-- The search is exhaustive on a tree in which no child costs less than its
parent. -/
theorem search_paths_exhaustive (model : t9_model_t C) (tree : t9_search_tree_t C)
    (htree : model.search_tree = some tree) (hmono : cost_monotone tree.root = true) :
    t9_search_tree_search_paths model =
      .ok { model with paths := exhaustive_search model.number_paths tree.root } := by
  obtain ⟨corpus, corpus_tree, search_tree, paths, n, k⟩ := model
  simp only at htree
  subst htree
  unfold t9_search_tree_search_paths
  simp only [Except.ok.injEq]
  have hspec := node_search_spec tree.root
    (⟨corpus, corpus_tree, some tree, [], n, k⟩ : t9_model_t C) t9_path_create hmono
    (Nat.zero_le _) List.Pairwise.nil (Or.inl rfl)
  have hf := node_search_frame tree.root
    (⟨corpus, corpus_tree, some tree, [], n, k⟩ : t9_model_t C) t9_path_create
  rw [hf, hspec.1]
  simp only [absorb_nil_eq, exhaustive_search, root_frontier, t9_path_create]

theorem prune_skip (m : t9_model_t C) (tree : t9_search_tree_t C)
    (hm : m.search_tree = some tree) (h : tree.level_table2.length < m.ngram_length) :
    t9_search_tree_prune m = .ok m := by
  unfold t9_search_tree_prune
  split_ifs with h1
  · rfl
  · simp only [hm, if_pos h]

/-- A frontier path whose symbols are `word` is listed with its cost among the
frontier words. -/
theorem frontier_word_cost (root : t9_search_node_t C) (h : (node_addrs root).Nodup)
    (q : t9_path_t C) (hq : q ∈ root_frontier root) (word : List Nat)
    (hw : flatten_loop root q.nodes = .ok word) :
    (q.probability, word) ∈ frontier_words root [] 0 := by
  have h1 : (q.probability,
      q.nodes.map (fun a => (find_node a root).map t9_search_node_t.symbol)) ∈
      (root_frontier root).map (fun q => (q.probability,
        q.nodes.map (fun a => (find_node a root).map t9_search_node_t.symbol))) :=
    List.mem_map.mpr ⟨q, hq, rfl⟩
  rw [root_frontier_words root h] at h1
  obtain ⟨cw, hcw, he⟩ := List.mem_map.mp h1
  simp only [Prod.mk.injEq] at he
  rw [flatten_loop_symbols root q.nodes word hw] at he
  have h2 := map_some_inj _ _ he.2
  rw [← he.1, ← h2]
  exact hcw

/-- A frontier word is the cost and the symbols of a frontier path. -/
theorem frontier_word_path (root : t9_search_node_t C) (h : (node_addrs root).Nodup)
    (c : C) (word : List Nat) (hw : (c, word) ∈ frontier_words root [] 0) :
    ∃ q ∈ root_frontier root, q.probability = c ∧ flatten_loop root q.nodes = .ok word := by
  have h1 : (c, word.map some) ∈
      (frontier_words root [] 0).map (fun cw => (cw.1, cw.2.map some)) :=
    List.mem_map.mpr ⟨(c, word), hw, rfl⟩
  rw [← root_frontier_words root h] at h1
  obtain ⟨q, hq, he⟩ := List.mem_map.mp h1
  simp only [Prod.mk.injEq] at he
  obtain ⟨str, hs, -⟩ := flatten_loop_ok root q.nodes (frontier_nodes_mem root q hq)
  have h2 := flatten_loop_symbols root q.nodes str hs
  rw [he.2] at h2
  rw [map_some_inj _ _ h2] at *
  exact ⟨q, hq, he.1, hs⟩

end WordsFacts2

theorem example_model_banana (K : Nat) :
    ∃ t, example_model "banana" 2 K =
        ⟨⟨bytes "banana", []⟩, some t, some t9_search_tree_create, [], 2, K⟩ ∧
      (example_model "banana" 2 1).corpus_tree = some t := by
  have hok : is_ok (build_corpus_tree ⟨bytes "banana", []⟩ 2) = true := by decide!
  obtain ⟨t, ht⟩ := ok_of_is_ok _ hok
  exact ⟨t, by simp only [example_model, ht], by simp only [example_model, ht]⟩

set_option maxRecDepth 1000000 in
theorem banana_26_facts :
    cost_monotone banana_26 = true ∧
      (first_min Prod.fst (frontier_words banana_26 [] 0)).map Prod.snd =
        some (bytes "an") ∧
      (frontier_words banana_26 [] 0).filter
          (fun cw => decide (cw.2 = bytes "an") || decide (cw.2 = bytes "bo")) =
        [(LogCost.val (1 / 2), bytes "an"), (LogCost.val 0, bytes "bo")] := by
  decide!

theorem type_loop_cons {C : Type} [T9Math C] (symbol : Nat) (rest : List Nat)
    (m : t9_model_t C) (tree : t9_search_tree_t C) (m1 : t9_model_t C) (h0 : symbol ≠ 0)
    (hm : m.search_tree = some tree)
    (hins : t9_search_tree_insert
        { m with search_tree := some { tree with
            level_table2 := tree.level_table2 ++ [[]] } } symbol = .ok (.T9_SUCCESS, m1)) :
    type_loop (symbol :: rest) m = type_loop rest m1 := by
  simp only [type_loop, if_neg h0, hm, hins]

/-- C16: training text `banana`, `N = 2`, a fresh model keeping `K ≥ 1` paths.
Typing the key `2` succeeds; in the candidate tree `root2` grown by the key `6`
typed next there is a frontier path spelling `an` and one spelling `bo`, every
path spelling `an` has a strictly smaller cumulative cost than every path
spelling `bo`, and `t9_model_autocomplete` on `26` suggests `an`. -/
theorem banana_an_ranks_above_bo (K : Nat) (hK : 1 ≤ K) :
    ∃ m1 tree1 root2 m2,
      type_loop (bytes "2") (example_model "banana" 2 K) = .ok (.T9_SUCCESS, m1) ∧
      m1.search_tree = some tree1 ∧
      t9_search_node_insert tree1.root 54 [] 0
        { m1 with search_tree := some { tree1 with
            level_table2 := tree1.level_table2 ++ [[]] } } = .ok (root2, m2) ∧
      (∃ qa ∈ root_frontier root2, flatten_loop root2 qa.nodes = .ok (bytes "an")) ∧
      (∃ qb ∈ root_frontier root2, flatten_loop root2 qb.nodes = .ok (bytes "bo")) ∧
      (∀ qa ∈ root_frontier root2, ∀ qb ∈ root_frontier root2,
        flatten_loop root2 qa.nodes = .ok (bytes "an") →
        flatten_loop root2 qb.nodes = .ok (bytes "bo") →
        qa.probability < qb.probability) ∧
      suggestion_of (t9_model_autocomplete (example_model "banana" 2 K) (bytes "26")) =
        some (bytes "an") := by
  obtain ⟨t, hM, hct⟩ := example_model_banana K
  obtain ⟨hmono, hbest, hfilter⟩ := banana_26_facts
  have hkey50 : is_key_symbol 50 := by decide
  have hkey54 : is_key_symbol 54 := by decide
  have h50 : (50 : Nat) ≠ 0 := by decide
  have hb2 : bytes "2" = [50] := by decide
  have hb26 : bytes "26" = [50, 54] := by decide
  have h54 : (54 : Nat) ≠ 0 := by decide
  rw [hM]
  -- the key `2`
  obtain ⟨tree2, paths1, tree3, ⟨m1b, hins1⟩, hok2, hlen2, -, hfull1, -, -, -, -, -, -,
      hprune1⟩ :=
    keystroke_full (⟨⟨bytes "banana", []⟩, some t, some t9_search_tree_create, [], 2, K⟩ :
      t9_model_t LogCost) t9_search_tree_create 50 tree_ok_create hkey50 hK
  simp only at hins1 hfull1 hprune1
  have hskip := prune_skip
    (⟨⟨bytes "banana", []⟩, some t, some tree2, paths1, 2, K⟩ : t9_model_t LogCost) tree2 rfl
    (by show tree2.level_table2.length < 2
        rw [hlen2]; simp [t9_search_tree_create])
  rw [hskip] at hprune1
  simp only [Except.ok.injEq, t9_model_t.mk.injEq, Option.some.injEq, true_and,
    and_true] at hprune1
  subst hprune1
  have hs1 := (node_insert_strip 50 hkey50 _ _ _ _ _ _ hins1).2.2
  simp only at hs1
  -- the key `6`
  obtain ⟨tree4, paths2, tree5, ⟨m2b, hins2⟩, hok4, -, hsearch2, hfull2, -, -, hne2, -, -,
      hq2, -⟩ :=
    keystroke_full (⟨⟨bytes "banana", []⟩, some t, some tree2, paths1, 2, K⟩ :
      t9_model_t LogCost) tree2 54 hok2 hkey54 hK
  simp only at hins2 hfull2 hsearch2
  have hs2 := (node_insert_strip 54 hkey54 _ _ _ _ _ _ hins2).2.2
  simp only at hs2
  have hstrip : strip tree4.root = banana_26 := by
    rw [hs2, ← grow_pure_strip, hs1]
    simp only [banana_26, hct]
    rfl
  have hmono4 : cost_monotone tree4.root = true := by
    rw [← cost_monotone_strip, hstrip]; exact hmono
  have hwords : frontier_words tree4.root [] 0 = frontier_words banana_26 [] 0 := by
    rw [← frontier_words_strip, hstrip]
  have hex := search_paths_exhaustive
    (⟨⟨bytes "banana", []⟩, some t, some tree4, paths1, 2, K⟩ : t9_model_t LogCost) tree4 rfl
    hmono4
  rw [hsearch2] at hex
  simp only [Except.ok.injEq, t9_model_t.mk.injEq, true_and, and_true] at hex
  have hmem : ∀ c w, (c, w) ∈ frontier_words banana_26 [] 0 →
      w = bytes "an" ∨ w = bytes "bo" →
      (c, w) = (LogCost.val (1 / 2), bytes "an") ∨ (c, w) = (LogCost.val 0, bytes "bo") := by
    intro c w hc hw
    have : (c, w) ∈ (frontier_words banana_26 [] 0).filter
        (fun cw => decide (cw.2 = bytes "an") || decide (cw.2 = bytes "bo")) := by
      rw [List.mem_filter]
      refine ⟨hc, ?_⟩
      simp only [Bool.or_eq_true, decide_eq_true_eq]
      exact hw
    rw [hfilter] at this
    simpa using this
  have han : (LogCost.val (1 / 2), bytes "an") ∈ frontier_words banana_26 [] 0 := by
    have : (LogCost.val (1 / 2), bytes "an") ∈ (frontier_words banana_26 [] 0).filter
        (fun cw => decide (cw.2 = bytes "an") || decide (cw.2 = bytes "bo")) := by
      rw [hfilter]; simp
    exact (List.mem_filter.mp this).1
  have hbo : (LogCost.val 0, bytes "bo") ∈ frontier_words banana_26 [] 0 := by
    have : (LogCost.val 0, bytes "bo") ∈ (frontier_words banana_26 [] 0).filter
        (fun cw => decide (cw.2 = bytes "an") || decide (cw.2 = bytes "bo")) := by
      rw [hfilter]; simp
    exact (List.mem_filter.mp this).1
  have hne_words : bytes "an" ≠ bytes "bo" := by decide
  have hlt : LogCost.val (1 / 2) < LogCost.val 0 := by decide!
  refine ⟨⟨⟨bytes "banana", []⟩, some t, some tree2, paths1, 2, K⟩, tree2, tree4.root, m2b,
    ?_, rfl, hins2, ?_, ?_, ?_, ?_⟩
  · rw [hb2]
    exact type_loop_cons 50 [] (⟨⟨bytes "banana", []⟩, some t, some t9_search_tree_create, [], 2, K⟩ :
      t9_model_t LogCost) t9_search_tree_create
      (⟨⟨bytes "banana", []⟩, some t, some tree2, paths1, 2, K⟩ : t9_model_t LogCost) h50 rfl hfull1
  · obtain ⟨q, hq, -, hw⟩ := frontier_word_path tree4.root hok4.1 _ _ (by rw [hwords]; exact han)
    exact ⟨q, hq, hw⟩
  · obtain ⟨q, hq, -, hw⟩ := frontier_word_path tree4.root hok4.1 _ _ (by rw [hwords]; exact hbo)
    exact ⟨q, hq, hw⟩
  · intro qa hqa qb hqb hwa hwb
    have ha := frontier_word_cost tree4.root hok4.1 qa hqa _ hwa
    have hb := frontier_word_cost tree4.root hok4.1 qb hqb _ hwb
    rw [hwords] at ha hb
    rcases hmem _ _ ha (Or.inl rfl) with h | h
    · rcases hmem _ _ hb (Or.inr rfl) with h2 | h2
      · exact absurd (Prod.mk.inj h2).2.symm hne_words
      · rw [(Prod.mk.inj h).1, (Prod.mk.inj h2).1]; exact hlt
    · exact absurd (Prod.mk.inj h).2 hne_words
  · cases hp : paths2 with
    | nil => exact absurd hp hne2
    | cons first rest =>
      rw [hp] at hex
      obtain ⟨cw, hcw, -, hsym⟩ := exhaustive_head_word K hK tree4.root hok4.1 first rest
        hex.symm
      rw [hwords] at hcw
      rw [hcw] at hbest
      simp only [Option.map_some', Option.some.injEq] at hbest
      have hfirst : first ∈ paths2 := by rw [hp]; simp
      obtain ⟨hin4, -, hfl⟩ := hq2 first hfirst
      obtain ⟨str, hstr, hlen⟩ := flatten_loop_ok tree4.root first.nodes
        (frontier_nodes_mem tree4.root first hin4)
      have hsym2 := flatten_loop_symbols tree4.root first.nodes str hstr
      rw [hsym, hbest] at hsym2
      have hstr2 : str = bytes "an" := (map_some_inj _ _ hsym2).symm
      rw [hstr2] at hstr hlen
      have hfl3 : first.nodes.length ≠ 0 := by
        rw [← hlen]; decide
      have hv : t9_corpus_validate_lexicon_symbols (bytes "26") = true := by decide
      have htype : type_loop (bytes "26") (⟨⟨bytes "banana", []⟩, some t,
          some t9_search_tree_create, [], 2, K⟩ : t9_model_t LogCost) =
          .ok (.T9_SUCCESS, ⟨⟨bytes "banana", []⟩, some t, some tree5, paths2, 2, K⟩) := by
        rw [hb26]
        exact (type_loop_cons 50 [54] (⟨⟨bytes "banana", []⟩, some t, some t9_search_tree_create, [], 2, K⟩ :
      t9_model_t LogCost) t9_search_tree_create
          (⟨⟨bytes "banana", []⟩, some t, some tree2, paths1, 2, K⟩ : t9_model_t LogCost) h50 rfl hfull1).trans
          (type_loop_cons 54 [] (⟨⟨bytes "banana", []⟩, some t, some tree2, paths1, 2, K⟩ : t9_model_t LogCost) tree2
            (⟨⟨bytes "banana", []⟩, some t, some tree5, paths2, 2, K⟩ : t9_model_t LogCost) h54 rfl hfull2)
      simp only [t9_model_autocomplete, t9_search_tree_type, hv, htype]
      rw [if_neg (by decide)]
      simp only [hp, t9_path_flatten, if_neg hfl3, hfl, hstr, suggestion_of]

/-- Witness of C16: three kept paths. -/
theorem banana_an_ranks_above_bo_witness :
    1 ≤ 3 ∧ ∃ m1 tree1 root2 m2,
      type_loop (bytes "2") (example_model "banana" 2 3) = .ok (.T9_SUCCESS, m1) ∧
      m1.search_tree = some tree1 ∧
      t9_search_node_insert tree1.root 54 [] 0
        { m1 with search_tree := some { tree1 with
            level_table2 := tree1.level_table2 ++ [[]] } } = .ok (root2, m2) ∧
      (∃ qa ∈ root_frontier root2, flatten_loop root2 qa.nodes = .ok (bytes "an")) ∧
      (∃ qb ∈ root_frontier root2, flatten_loop root2 qb.nodes = .ok (bytes "bo")) ∧
      (∀ qa ∈ root_frontier root2, ∀ qb ∈ root_frontier root2,
        flatten_loop root2 qa.nodes = .ok (bytes "an") →
        flatten_loop root2 qb.nodes = .ok (bytes "bo") →
        qa.probability < qb.probability) ∧
      suggestion_of (t9_model_autocomplete (example_model "banana" 2 3) (bytes "26")) =
        some (bytes "an") :=
  ⟨by decide, banana_an_ranks_above_bo 3 (by decide)⟩

theorem ctol_none_iff (s : Nat) :
    t9_corpus_ctol s = none ↔ ∀ key, s ∉ key_symbol_set key := by
  constructor
  · intro h key hm
    unfold key_symbol_set at hm
    cases hl : t9_corpus_ltoc key with
    | none => rw [hl] at hm; simp [cstr] at hm
    | some set =>
      rw [hl] at hm
      simp only [Option.getD_some] at hm
      have := (ctol_some_iff s key).2 ⟨set, hl, hm⟩
      rw [h] at this
      cases this
  · intro h
    cases hc : t9_corpus_ctol s with
    | none => rfl
    | some key =>
      obtain ⟨set, hl, hm⟩ := (ctol_some_iff s key).1 hc
      exact absurd (by simp only [key_symbol_set, hl, Option.getD_some]; exact hm) (h key)

theorem lexicon_loop_total (buffer : List Nat) :
    ∀ (n i : Nat) (out : List Nat), i + n = buffer.length →
      lexicon_loop buffer n i out =
        if ∀ c ∈ buffer.drop i, t9_corpus_ctol c ≠ none then
          .ok (some (out ++ key_sequence (buffer.drop i)))
        else .ok none := by
  intro n
  induction n with
  | zero =>
    intro i out h
    simp only [Nat.add_zero] at h
    simp [lexicon_loop, key_sequence, h]
  | succ n ih =>
    intro i out h
    have hi : i < buffer.length := by omega
    have hd : buffer.drop i = buffer.getD i 0 :: buffer.drop (i + 1) := by
      rw [List.getD_eq_getElem?_getD, List.getElem?_eq_getElem hi]
      exact List.drop_eq_getElem_cons hi
    rw [hd]
    simp only [lexicon_loop, read_symbol_ok buffer i hi]
    cases hk : t9_corpus_ctol (buffer.getD i 0) with
    | none =>
      simp only
      rw [if_neg]
      intro hall
      exact hall _ (List.mem_cons_self _ _) hk
    | some k =>
      simp only
      rw [ih (i + 1) (out ++ [k]) (by omega)]
      by_cases hall : ∀ c ∈ buffer.drop (i + 1), t9_corpus_ctol c ≠ none
      · rw [if_pos hall, if_pos]
        · simp only [key_sequence, List.map_cons, hk, Option.getD_some, List.append_assoc,
            List.singleton_append]
        · intro c hc
          rcases List.mem_cons.mp hc with hc | hc
          · rw [hc, hk]; simp
          · exact hall c hc
      · rw [if_neg hall, if_neg]
        intro h2
        exact hall (fun c hc => h2 c (List.mem_cons_of_mem _ hc))

/-- C21: the conversion of the test text by `t9_corpus_lexicon_from_corpus` always
returns; it fails exactly when some symbol of the text is in the symbol set of
no key; then `t9_model_evaluate` returns T9_FAILURE with the model as it was, so
nothing was typed and the candidate tree, the level index and the kept list are
unchanged.  When every symbol is in the set of some key the result has the
length of the text, holds no zero byte, and its `i`-th symbol is the key
`t9_corpus_ctol` returns for the `i`-th symbol of the text. -/
theorem lexicon_from_corpus_fails_iff {C : Type} [T9Math C] (m : t9_model_t C) :
    (t9_corpus_lexicon_from_corpus m.corpus.test_buffer m.corpus.test_buffer_size = .ok none ↔
        ∃ c ∈ m.corpus.test_buffer, ∀ key, c ∉ key_symbol_set key) ∧
      (t9_corpus_lexicon_from_corpus m.corpus.test_buffer m.corpus.test_buffer_size =
          .ok none →
        t9_model_evaluate m = .ok (.T9_FAILURE, m, none)) ∧
      ((¬ ∃ c ∈ m.corpus.test_buffer, ∀ key, c ∉ key_symbol_set key) →
        ∃ out, t9_corpus_lexicon_from_corpus m.corpus.test_buffer
            m.corpus.test_buffer_size = .ok (some out) ∧
          out.length = m.corpus.test_buffer.length ∧ cstr out = out ∧
          ∀ i, i < m.corpus.test_buffer.length →
            t9_corpus_ctol (m.corpus.test_buffer.getD i 0) = some (out.getD i 0)) := by
  have hrun := lexicon_loop_total m.corpus.test_buffer m.corpus.test_buffer.length 0 []
    (Nat.zero_add _)
  simp only [List.drop_zero, List.nil_append] at hrun
  have hiff : (∀ c ∈ m.corpus.test_buffer, t9_corpus_ctol c ≠ none) ↔
      ¬ ∃ c ∈ m.corpus.test_buffer, ∀ key, c ∉ key_symbol_set key := by
    constructor
    · rintro h ⟨c, hc, hno⟩
      exact h c hc ((ctol_none_iff c).2 hno)
    · intro h c hc hn
      exact h ⟨c, hc, (ctol_none_iff c).1 hn⟩
  unfold t9_corpus_lexicon_from_corpus corpus_t.test_buffer_size
  refine ⟨?_, ?_, ?_⟩
  · rw [hrun]
    by_cases hall : ∀ c ∈ m.corpus.test_buffer, t9_corpus_ctol c ≠ none
    · rw [if_pos hall]
      constructor
      · intro h; cases h
      · intro h; exact absurd h (hiff.1 hall)
    · rw [if_neg hall]
      constructor
      · intro _
        by_contra hno
        exact hall (hiff.2 hno)
      · intro _; rfl
  · intro h
    simp only [t9_model_evaluate, t9_corpus_lexicon_from_corpus, corpus_t.test_buffer_size, h]
  · intro hno
    have hall := hiff.2 hno
    rw [hrun, if_pos hall]
    have hkey : ∀ text : List Nat, (∀ c ∈ text, t9_corpus_ctol c ≠ none) →
        (key_sequence text).length = text.length ∧
          cstr (key_sequence text) = key_sequence text ∧
          ∀ i, i < text.length →
            t9_corpus_ctol (text.getD i 0) = some ((key_sequence text).getD i 0) := by
      intro text
      induction text with
      | nil => intro _; exact ⟨rfl, rfl, fun i hi => absurd hi (Nat.not_lt_zero _)⟩
      | cons c rest ih =>
        intro h
        obtain ⟨h1, h2, h3⟩ := ih (fun x hx => h x (List.mem_cons_of_mem _ hx))
        cases hk : t9_corpus_ctol c with
        | none => exact absurd hk (h c (List.mem_cons_self _ _))
        | some k =>
          obtain ⟨set, hl, hmem⟩ := (ctol_some_iff c k).1 hk
          have hkz : k ≠ 0 :=
            key_symbol_nonzero k ((mem_lexicon_iff k).1 (ltoc_some k set hl).1)
          have hcons : key_sequence (c :: rest) = k :: key_sequence rest := by
            simp [key_sequence, hk]
          rw [hcons]
          refine ⟨by simp [h1], by simp only [cstr, if_neg hkz, h2], ?_⟩
          intro i hi
          cases i with
          | zero => simpa using hk
          | succ i =>
            have := h3 i (by simpa using hi)
            simpa using this
    obtain ⟨h1, h2, h3⟩ := hkey _ hall
    exact ⟨_, rfl, h1, h2, h3⟩

section SomeTree

variable {C : Type} [T9Math C]

theorem prune_helper_some (model model1 : t9_model_t C) (node depth : Nat)
    (h : __t9_model_prune_path_helper model node depth = .ok model1) :
    model1.search_tree ≠ none := by
  unfold __t9_model_prune_path_helper at h
  cases ht : model.search_tree with
  | none => rw [ht] at h; simp at h
  | some tree =>
    rw [ht] at h
    simp only at h
    cases hf : find_node node tree.root with
    | none => rw [hf] at h; simp at h
    | some n =>
      rw [hf] at h
      simp only at h
      split_ifs at h with hleaf hroot
      · cases hl : tree.level_table2.get? depth with
        | none => rw [hl] at h; simp at h
        | some level_map =>
          rw [hl] at h
          simp only at h
          split_ifs at h with hmem
          simp only [Except.ok.injEq] at h
          rw [← h]
          simp
      · simp only [Except.ok.injEq] at h
        rw [← h, ht]
        simp

theorem prune_path_loop_some (path : t9_path_t C) (i : Nat) :
    ∀ (model model1 : t9_model_t C), prune_path_loop path i model = .ok model1 →
      model1.search_tree ≠ none := by
  induction i with
  | zero =>
    intro model model1 h
    simp only [prune_path_loop] at h
    exact prune_helper_some model model1 _ _ h
  | succ i ih =>
    intro model model1 h
    simp only [prune_path_loop] at h
    cases hh : __t9_model_prune_path_helper model (path.nodes.getD (i + 1) 0) (i + 1) with
    | error e => rw [hh] at h; simp at h
    | ok model2 =>
      rw [hh] at h
      simp only at h
      exact ih model2 model1 h

theorem prune_path_some (model model1 : t9_model_t C) (path : t9_path_t C) (e : t9_error_t)
    (hs : model.search_tree ≠ none)
    (h : t9_model_prune_path model path = .ok (e, model1)) :
    model1.search_tree ≠ none := by
  unfold t9_model_prune_path at h
  split_ifs at h with hpos
  · cases hl : prune_path_loop path (path.nodes.length - 1) model with
    | error e1 => rw [hl] at h; simp at h
    | ok model2 =>
      rw [hl] at h
      simp only [Except.ok.injEq, Prod.mk.injEq] at h
      rw [← h.2]
      exact prune_path_loop_some path _ model model2 hl
  · simp only [Except.ok.injEq, Prod.mk.injEq] at h
    rw [← h.2]
    exact hs

mutual
theorem node_prune_some :
    ∀ (node : t9_search_node_t C) (model : t9_model_t C) (path : t9_path_t C)
      (model1 : t9_model_t C) (path1 : t9_path_t C),
      model.search_tree ≠ none →
      t9_search_node_prune node model path = .ok (model1, path1) →
      model1.search_tree ≠ none
  | .mk a s p [], model, path, model1, path1, hs, h => by
    simp only [t9_search_node_prune] at h
    cases hf : path_found path model.paths with
    | error e => rw [hf] at h; simp at h
    | ok found =>
      rw [hf] at h
      cases found with
      | true =>
        simp only [Except.ok.injEq, Prod.mk.injEq] at h
        rw [← h.1]
        exact hs
      | false =>
        simp only at h
        cases hp : t9_model_prune_path model path with
        | error e => rw [hp] at h; simp at h
        | ok r =>
          obtain ⟨e, model2⟩ := r
          rw [hp] at h
          simp only [Except.ok.injEq, Prod.mk.injEq] at h
          rw [← h.1]
          exact prune_path_some model model2 path e hs hp
  | .mk a s p (c :: cs), model, path, model1, path1, hs, h => by
    simp only [t9_search_node_prune] at h
    exact prune_children_some (c :: cs) model path model1 path1 hs h
theorem prune_children_some :
    ∀ (cs : List (t9_search_node_t C)) (model : t9_model_t C) (path : t9_path_t C)
      (model1 : t9_model_t C) (path1 : t9_path_t C),
      model.search_tree ≠ none →
      prune_children cs model path = .ok (model1, path1) →
      model1.search_tree ≠ none
  | [], model, path, model1, path1, hs, h => by
    simp only [prune_children, Except.ok.injEq, Prod.mk.injEq] at h
    rw [← h.1]
    exact hs
  | child :: rest, model, path, model1, path1, hs, h => by
    simp only [prune_children] at h
    cases hc : t9_search_node_prune child model (t9_path_push path child) with
    | error e => rw [hc] at h; simp at h
    | ok r =>
      obtain ⟨model2, path2⟩ := r
      rw [hc] at h
      simp only at h
      have h1 := node_prune_some child model _ model2 path2 hs hc
      exact prune_children_some rest model2 _ model1 path1 h1 h
end

theorem tree_prune_some (model model1 : t9_model_t C) (hs : model.search_tree ≠ none)
    (h : t9_search_tree_prune model = .ok model1) :
    model1.search_tree ≠ none := by
  unfold t9_search_tree_prune at h
  split_ifs at h with hn
  · simp only [Except.ok.injEq] at h
    rw [← h]
    exact hs
  · cases ht : model.search_tree with
    | none => rw [ht] at h; simp at h
    | some tree =>
      rw [ht] at h
      simp only at h
      split_ifs at h with hd
      · simp only [Except.ok.injEq] at h
        rw [← h]
        exact hs
      · cases hp : t9_search_node_prune tree.root model t9_path_create with
        | error e => rw [hp] at h; simp at h
        | ok r =>
          obtain ⟨model2, path2⟩ := r
          rw [hp] at h
          simp only [Except.ok.injEq] at h
          rw [← h]
          exact node_prune_some tree.root model _ model2 path2 hs hp

/-- A run of `t9_search_tree_insert` that returns has returned T9_SUCCESS with a
search tree in the model. -/
theorem tree_insert_some (model model1 : t9_model_t C) (symbol : Nat) (e : t9_error_t)
    (h : t9_search_tree_insert model symbol = .ok (e, model1)) :
    e = .T9_SUCCESS ∧ model1.search_tree ≠ none := by
  unfold t9_search_tree_insert at h
  cases ht : model.search_tree with
  | none => rw [ht] at h; simp at h
  | some tree =>
    rw [ht] at h
    simp only at h
    cases hi : t9_search_node_insert tree.root symbol [] 0 model with
    | error e1 => rw [hi] at h; simp at h
    | ok r =>
      obtain ⟨root, m1⟩ := r
      rw [hi] at h
      simp only at h
      cases ht1 : m1.search_tree with
      | none => rw [ht1] at h; simp at h
      | some tree1 =>
        rw [ht1] at h
        simp only at h
        cases hsp : t9_search_tree_search_paths
            { m1 with search_tree := some { tree1 with root := root } } with
        | error e1 => rw [hsp] at h; simp at h
        | ok m2 =>
          rw [hsp] at h
          simp only at h
          cases hp : t9_search_tree_prune m2 with
          | error e1 => rw [hp] at h; simp at h
          | ok m3 =>
            rw [hp] at h
            simp only [Except.ok.injEq, Prod.mk.injEq] at h
            refine ⟨h.1.symm, ?_⟩
            rw [← h.2]
            refine tree_prune_some m2 m3 ?_ hp
            simp only [t9_search_tree_search_paths, Except.ok.injEq] at hsp
            rw [← hsp, node_search_frame]
            simp

theorem type_loop_some (sequence : List Nat) :
    ∀ (m m1 : t9_model_t C) (e : t9_error_t), m.search_tree ≠ none →
      type_loop sequence m = .ok (e, m1) → e = .T9_SUCCESS ∧ m1.search_tree ≠ none := by
  induction sequence with
  | nil =>
    intro m m1 e hs h
    simp only [type_loop, Except.ok.injEq, Prod.mk.injEq] at h
    rw [← h.1, ← h.2]
    exact ⟨rfl, hs⟩
  | cons s rest ih =>
    intro m m1 e hs h
    unfold type_loop at h
    split_ifs at h with h0
    · simp only [Except.ok.injEq, Prod.mk.injEq] at h
      rw [← h.1, ← h.2]
      exact ⟨rfl, hs⟩
    · cases ht : m.search_tree with
      | none => exact absurd ht hs
      | some tree =>
        rw [ht] at h
        simp only at h
        cases hi : t9_search_tree_insert
            { m with search_tree := some { tree with
                level_table2 := tree.level_table2 ++ [[]] } } s with
        | error e1 => rw [hi] at h; simp at h
        | ok r =>
          obtain ⟨e2, m2⟩ := r
          obtain ⟨he2, hs2⟩ := tree_insert_some _ m2 s e2 hi
          subst he2
          rw [hi] at h
          simp only at h
          exact ih m2 m1 e hs2 h

end SomeTree

/-- C26: `t9_search_node_insert` on a node without children, for any key, any
sequence and any depth that has a level list, returns the node with exactly one
new child per symbol of `CORPUS_SYMBOLS`, in the order of the alphabet: 65
children with pairwise distinct symbols, each without children.  The key does
not matter: a symbol outside the symbol set of the key gets its child as
well. -/
theorem leaf_expansion_creates_alphabet {C : Type} [T9Math C] (a s : Nat) (p : C)
    (key : Nat) (sequence : List Nat) (depth : Nat) (model : t9_model_t C)
    (tree : t9_search_tree_t C) (level : List Nat) (hkey : is_key_symbol key)
    (hm : model.search_tree = some tree)
    (hl : tree.level_table2.get? depth = some level) :
    ∃ children,
      t9_search_node_insert (.mk a s p []) key sequence depth model =
        .ok (.mk a s p children,
          { model with search_tree := some { tree with
              level_table2 := tree.level_table2.set depth
                (level ++ List.range' tree.next_addr 65),
              next_addr := tree.next_addr + 65 } }) ∧
      children.map t9_search_node_t.addr = List.range' tree.next_addr 65 ∧
      children.map t9_search_node_t.symbol = CORPUS_SYMBOLS ∧
      children.length = 65 ∧
      (children.map t9_search_node_t.symbol).Nodup ∧
      (∀ c ∈ children, c.children2 = []) ∧
      (∀ S ∈ CORPUS_SYMBOLS, S ∉ key_symbol_set key → ∃ c ∈ children, c.symbol = S) := by
  obtain ⟨new, hrun, haddr, hleaf, hsym⟩ := expand_loop_spec key p depth hkey CORPUS_SYMBOLS
    corpus_symbols_nonzero sequence [] model tree level hm hl
  simp only [List.nil_append, corpus_symbols_length] at hrun haddr
  refine ⟨new, ?_, haddr, hsym, ?_, ?_, hleaf, ?_⟩
  · simp only [t9_search_node_insert, hrun]
  · have := congrArg List.length hsym
    rw [List.length_map] at this
    rw [this]
    exact corpus_symbols_length
  · rw [hsym]
    decide
  · intro S hS _
    have : S ∈ new.map t9_search_node_t.symbol := by rw [hsym]; exact hS
    obtain ⟨c, hc, hcs⟩ := List.mem_map.mp this
    exact ⟨c, hc, hcs⟩

/-- Witness of C26: the leaf `a` of the tree of two leaves, the key `2`. -/
theorem leaf_expansion_creates_alphabet_witness :
    is_key_symbol 50 ∧ two_leaf_model.search_tree = some two_leaf_tree ∧
      two_leaf_tree.level_table2.get? 0 = some [1, 2] ∧
      ∃ children,
        t9_search_node_insert (.mk 1 97 (LogCost.val (1 / 4)) []) 50 [97] 0 two_leaf_model =
          .ok (.mk 1 97 (LogCost.val (1 / 4)) children,
            { two_leaf_model with search_tree := some { two_leaf_tree with
                level_table2 := two_leaf_tree.level_table2.set 0
                  ([1, 2] ++ List.range' two_leaf_tree.next_addr 65),
                next_addr := two_leaf_tree.next_addr + 65 } }) ∧
        children.map t9_search_node_t.addr = List.range' two_leaf_tree.next_addr 65 ∧
        children.map t9_search_node_t.symbol = CORPUS_SYMBOLS ∧
        children.length = 65 ∧
        (children.map t9_search_node_t.symbol).Nodup ∧
        (∀ c ∈ children, c.children2 = []) ∧
        (∀ S ∈ CORPUS_SYMBOLS, S ∉ key_symbol_set 50 → ∃ c ∈ children, c.symbol = S) :=
  ⟨by decide, rfl, rfl,
    leaf_expansion_creates_alphabet 1 97 (LogCost.val (1 / 4)) 50 [97] 0 two_leaf_model
      two_leaf_tree [1, 2] (by decide) rfl rfl⟩

section KeyStep

variable {C : Type} [T9Math C]

/-- One keystroke on a tree in the state `tree_ok`, with at least one kept path
asked for: insert, search and prune return, and the three trees are related as
`key_step` says. -/
theorem keystroke_detail (m : t9_model_t C) (tree : t9_search_tree_t C) (key : Nat)
    (hok : tree_ok tree) (hkey : is_key_symbol key) (hK : 1 ≤ m.number_paths) :
    ∃ tree2 paths tree3,
      t9_search_node_insert tree.root key [] 0
          { m with search_tree := some { tree with
              level_table2 := tree.level_table2 ++ [[]] } } =
        .ok (tree2.root, { m with search_tree := some { tree2 with root := tree.root } }) ∧
      t9_search_tree_search_paths { m with search_tree := some tree2 } =
        .ok { m with search_tree := some tree2, paths := paths } ∧
      t9_search_tree_prune { m with search_tree := some tree2, paths := paths } =
        .ok { m with search_tree := some tree3, paths := paths } ∧
      t9_search_tree_insert
          { m with search_tree := some { tree with
              level_table2 := tree.level_table2 ++ [[]] } } key =
        .ok (.T9_SUCCESS, { m with search_tree := some tree3, paths := paths }) ∧
      paths ≠ [] ∧ (∀ q ∈ paths, q ∈ root_frontier tree2.root) ∧
      key_step m.corpus_tree m.ngram_length key tree tree2 paths tree3 := by
  obtain ⟨hnd, hlev, hfresh, hu⟩ := hok
  have hok : tree_ok tree := ⟨hnd, hlev, hfresh, hu⟩
  obtain ⟨root1, new, hrun, hnew, -, hun, hlv, hold, hperm⟩ :=
    node_insert_spec key hkey tree.level_table2.length tree.root [] 0
      tree.level_table2.length
      { m with search_tree := some { tree with level_table2 := tree.level_table2 ++ [[]] } }
      { tree with level_table2 := tree.level_table2 ++ [[]] } [] rfl (get_last _ _) hu
      (Nat.zero_add _)
  simp only at hnew
  simp only [List.nil_append, set_last] at hrun
  obtain ⟨root1b, newb, hrunb, hok2⟩ := grow_spec m tree key hok hkey
  rw [hrun] at hrunb
  simp only [Except.ok.injEq, Prod.mk.injEq, t9_model_t.mk.injEq, Option.some.injEq,
    t9_search_tree_t.mk.injEq, true_and] at hrunb
  obtain ⟨hr, hrest⟩ := hrunb
  have hnn : new = newb := by
    have := hrest.1.1
    exact List.singleton_inj.mp (List.append_cancel_left this)
  subst hr hnn
  obtain ⟨paths, hsearch, hsub, -, -, hne⟩ := search_paths_facts
    (t9_model_t.mk m.corpus m.corpus_tree
      (some (t9_search_tree_t.mk root1 (tree.level_table2 ++ [new])
        (tree.next_addr + new.length)))
      m.paths m.ngram_length m.number_paths) _ rfl
  obtain ⟨tree3, hprune, hnext3, hlen3, -, -, hok3, -⟩ := tree_prune_labels
    (t9_model_t.mk m.corpus m.corpus_tree
      (some (t9_search_tree_t.mk root1 (tree.level_table2 ++ [new])
        (tree.next_addr + new.length)))
      paths m.ngram_length m.number_paths) _ rfl hok2 hsub
  obtain ⟨tree3b, hpruneb, -, -, -, hroot⟩ := tree_prune_root
    (t9_model_t.mk m.corpus m.corpus_tree
      (some (t9_search_tree_t.mk root1 (tree.level_table2 ++ [new])
        (tree.next_addr + new.length)))
      paths m.ngram_length m.number_paths) _ rfl hok2
  rw [hprune] at hpruneb
  simp only [Except.ok.injEq, t9_model_t.mk.injEq, Option.some.injEq, true_and,
    and_true] at hpruneb
  subst hpruneb
  have hstrip := (node_insert_strip key hkey _ _ _ _ _ _ hrun).2.2
  simp only at hstrip hsearch hprune hlen3 hnext3 hroot
  refine ⟨⟨root1, tree.level_table2 ++ [new], tree.next_addr + new.length⟩, paths, tree3,
    hrun, hsearch, hprune, ?_, hne hK, hsub, hok2, hok3 (hne hK), by simp,
    by simpa using hlen3, hstrip, ⟨new.length, ?_, rfl⟩, ?_, hnext3, ?_, ?_⟩
  · simp only [t9_search_tree_insert, hrun]
    rw [hsearch]
    simp only [hprune]
  · simp only
    rw [hlv]
    exact hnew
  · intro j hj
    exact hold j hj
  · rcases hroot with h | h
    · exact Or.inl h
    · exact Or.inr h.2
  · intro hlt
    have hskip := prune_skip
      (t9_model_t.mk m.corpus m.corpus_tree
        (some (t9_search_tree_t.mk root1 (tree.level_table2 ++ [new])
          (tree.next_addr + new.length)))
        paths m.ngram_length m.number_paths) _ rfl
      (by simpa using hlt)
    rw [hskip] at hprune
    simp only [Except.ok.injEq, t9_model_t.mk.injEq, Option.some.injEq, true_and,
      and_true] at hprune
    exact hprune.symm

/-- Typing key by key: a property of the tree that every keystroke carries over
holds after the whole sequence. -/
theorem type_loop_induct (m : t9_model_t C) (hK : 1 ≤ m.number_paths)
    (P : List Nat → t9_search_tree_t C → Prop)
    (hstep : ∀ keys0 key tree tree2 paths tree3, P keys0 tree → tree_ok tree →
      is_key_symbol key →
      key_step m.corpus_tree m.ngram_length key tree tree2 paths tree3 →
      P (keys0 ++ [key]) tree3) :
    ∀ (keys keys0 : List Nat) (tree : t9_search_tree_t C) (paths0 : List (t9_path_t C)),
      (∀ s ∈ keys, is_key_symbol s) → tree_ok tree → P keys0 tree →
      ∃ tree1 paths1,
        type_loop keys { m with search_tree := some tree, paths := paths0 } =
          .ok (.T9_SUCCESS, { m with search_tree := some tree1, paths := paths1 }) ∧
        tree_ok tree1 ∧ P (keys0 ++ keys) tree1 := by
  intro keys
  induction keys with
  | nil =>
    intro keys0 tree paths0 _ hok hP
    exact ⟨tree, paths0, rfl, hok, by simpa using hP⟩
  | cons key rest ih =>
    intro keys0 tree paths0 hvalid hok hP
    have hkey := hvalid key (by simp)
    obtain ⟨tree2, paths, tree3, -, -, -, hins, -, -, hstep3⟩ := keystroke_detail
      (t9_model_t.mk m.corpus m.corpus_tree (some tree) paths0 m.ngram_length m.number_paths)
      tree key hok hkey hK
    have hP3 := hstep keys0 key tree tree2 paths tree3 hP hok hkey hstep3
    obtain ⟨tree1, paths1, hrun, hok1, hP1⟩ := ih (keys0 ++ [key]) tree3 paths
      (fun s hs => hvalid s (List.mem_cons_of_mem _ hs)) hstep3.2.1 hP3
    refine ⟨tree1, paths1, ?_, hok1, by simpa using hP1⟩
    rw [type_loop_cons key rest
      (t9_model_t.mk m.corpus m.corpus_tree (some tree) paths0 m.ngram_length m.number_paths)
      tree
      (t9_model_t.mk m.corpus m.corpus_tree (some tree3) paths m.ngram_length m.number_paths)
      (key_symbol_nonzero key hkey) rfl hins]
    exact hrun

end KeyStep

section LevelFacts

variable {C : Type}

mutual
theorem prune_node_levels (keep : List Nat → Bool) :
    ∀ (node node1 : t9_search_node_t C) (path : List Nat),
      prune_node keep node path = some node1 →
      ∀ j, (level_addrs j node1).Sublist (level_addrs j node)
  | .mk a s p [], node1, path, h => by
    simp only [prune_node] at h
    split_ifs at h
    simp only [Option.some.injEq] at h
    subst h
    exact fun j => List.Sublist.refl _
  | .mk a s p (c :: cs), node1, path, h => by
    simp only [prune_node] at h
    cases hpl : prune_list keep (c :: cs) path with
    | nil => rw [hpl] at h; cases h
    | cons c1 cs1 =>
      rw [hpl] at h
      simp only [Option.some.injEq] at h
      subst h
      have hl := prune_list_levels keep (c :: cs) path
      rw [hpl] at hl
      intro j
      cases j with
      | zero => simp only [level_addrs]; exact List.Sublist.refl _
      | succ j => simp only [level_addrs]; exact hl j
theorem prune_list_levels (keep : List Nat → Bool) :
    ∀ (cs : List (t9_search_node_t C)) (path : List Nat) (j : Nat),
      (level_addrs_list j (prune_list keep cs path)).Sublist (level_addrs_list j cs)
  | [], _, _ => List.Sublist.refl _
  | c :: rest, path, j => by
    have hr := prune_list_levels keep rest path j
    simp only [prune_list]
    cases hpn : prune_node keep c (path ++ [c.addr]) with
    | none =>
      simp only [level_addrs_list]
      exact List.Sublist.trans hr (List.sublist_append_right _ _)
    | some c1 =>
      have hc := prune_node_levels keep c c1 (path ++ [c.addr]) hpn j
      simp only [level_addrs_list]
      exact List.Sublist.append hc hr
end

theorem prune_root_levels (keep : List Nat → Bool) (root : t9_search_node_t C) (j : Nat) :
    (level_addrs j (prune_root keep root)).Sublist (level_addrs j root) := by
  cases root with
  | mk a s p cs =>
    cases j with
    | zero => simp only [prune_root, level_addrs]; exact List.Sublist.refl _
    | succ j =>
      simp only [prune_root, level_addrs]
      exact prune_list_levels keep cs [] j

mutual
theorem uniform_no_deeper :
    ∀ (node : t9_search_node_t C) (k d : Nat), uniform k node → k < d →
      level_addrs d node = []
  | .mk a s p cs, 0, d, h, hd => by
    simp only [uniform] at h
    subst h
    cases d with
    | zero => omega
    | succ d => simp only [level_addrs, level_addrs_list]
  | .mk a s p cs, k + 1, d, h, hd => by
    simp only [uniform] at h
    cases d with
    | zero => omega
    | succ d =>
      simp only [level_addrs]
      exact uniform_list_no_deeper cs k d h.2 (by omega)
theorem uniform_list_no_deeper :
    ∀ (cs : List (t9_search_node_t C)) (k d : Nat), uniform_list k cs → k < d →
      level_addrs_list d cs = []
  | [], _, _, _, _ => rfl
  | c :: rest, k, d, h, hd => by
    simp only [uniform_list] at h
    simp only [level_addrs_list, uniform_no_deeper c k d h.1 hd,
      uniform_list_no_deeper rest k d h.2 hd, List.append_nil]
end

mutual
theorem levels_nodup :
    ∀ (node : t9_search_node_t C), (node_addrs node).Nodup →
      (∀ d, (level_addrs d node).Nodup) ∧
        ∀ d e a, a ∈ level_addrs d node → a ∈ level_addrs e node → d = e
  | .mk a s p cs, h => by
    simp only [node_addrs, List.nodup_cons] at h
    obtain ⟨h1, h2⟩ := levels_list_nodup cs h.2
    refine ⟨?_, ?_⟩
    · intro d
      cases d with
      | zero => simp [level_addrs]
      | succ d => simp only [level_addrs]; exact h1 d
    · intro d e b hd he
      cases d with
      | zero =>
        cases e with
        | zero => rfl
        | succ e =>
          simp only [level_addrs, List.mem_singleton] at hd he
          subst hd
          exact absurd (level_addrs_list_subset cs e b he) h.1
      | succ d =>
        cases e with
        | zero =>
          simp only [level_addrs, List.mem_singleton] at hd he
          subst he
          exact absurd (level_addrs_list_subset cs d b hd) h.1
        | succ e =>
          simp only [level_addrs] at hd he
          rw [h2 d e b hd he]
theorem levels_list_nodup :
    ∀ (cs : List (t9_search_node_t C)), (node_addrs_list cs).Nodup →
      (∀ d, (level_addrs_list d cs).Nodup) ∧
        ∀ d e a, a ∈ level_addrs_list d cs → a ∈ level_addrs_list e cs → d = e
  | [], _ => ⟨fun _ => List.nodup_nil, fun d e a h _ => by simp [level_addrs_list] at h⟩
  | c :: rest, h => by
    simp only [node_addrs_list, List.nodup_append] at h
    obtain ⟨hc, hr, hdis⟩ := h
    obtain ⟨c1, c2⟩ := levels_nodup c hc
    obtain ⟨r1, r2⟩ := levels_list_nodup rest hr
    refine ⟨?_, ?_⟩
    · intro d
      simp only [level_addrs_list]
      refine List.nodup_append.mpr ⟨c1 d, r1 d, ?_⟩
      intro b hb1 hb2
      exact hdis (level_addrs_subset c d b hb1) (level_addrs_list_subset rest d b hb2)
    · intro d e b hd he
      simp only [level_addrs_list, List.mem_append] at hd he
      rcases hd with hd | hd <;> rcases he with he | he
      · exact c2 d e b hd he
      · exact absurd (level_addrs_list_subset rest e b he)
          (fun hx => hdis (level_addrs_subset c d b hd) hx)
      · exact absurd (level_addrs_list_subset rest d b hd)
          (fun hx => hdis (level_addrs_subset c e b he) hx)
      · exact r2 d e b hd he
end

theorem synced_of_tree_ok (tree : t9_search_tree_t C) (hok : tree_ok tree) :
    level_index_synced tree := by
  obtain ⟨hnd, hlev, -, hu⟩ := hok
  obtain ⟨n1, n2⟩ := levels_nodup tree.root hnd
  have hget : ∀ i, tree.level_table2.getD i [] =
      if i < tree.level_table2.length then level_addrs (i + 1) tree.root else [] := by
    intro i
    by_cases hi : i < tree.level_table2.length
    · rw [if_pos hi, List.getD_eq_getElem?_getD, ← List.get?_eq_getElem?, hlev i hi]
      rfl
    · rw [if_neg hi, List.getD_eq_getElem?_getD, List.getElem?_eq_none (by omega)]
      rfl
  refine ⟨?_, ?_, ?_⟩
  · intro d a hd
    rw [hget]
    by_cases hi : d - 1 < tree.level_table2.length
    · rw [if_pos hi]
      have : d - 1 + 1 = d := by omega
      rw [this]
    · rw [if_neg hi, uniform_no_deeper tree.root _ d hu (by omega)]
  · intro i
    rw [hget]
    split_ifs
    · exact n1 _
    · exact List.nodup_nil
  · intro i j a hi hj
    rw [hget] at hi hj
    split_ifs at hi hj with h1 h2
    · have := n2 _ _ a hi hj
      omega
    all_goals simp at hi hj

end LevelFacts

section LastKey

variable {C : Type} [T9Math C]

theorem tree_type_eq_loop (m : t9_model_t C) (x : List Nat)
    (hx : ∀ s ∈ x, is_key_symbol s) (hs : m.search_tree ≠ none) :
    t9_search_tree_type m x = type_loop x m := by
  have hz : ∀ s ∈ x, s ≠ 0 := fun s hs => key_symbol_nonzero s (hx s hs)
  have hv : t9_corpus_validate_lexicon_symbols x = true := by
    rw [validate_symbols_iff, cstr_of_nonzero x hz]; exact hx
  unfold t9_search_tree_type
  cases hm : m.search_tree with
  | none => exact absurd hm hs
  | some t =>
    simp only [hv]
    rw [if_neg (by decide)]

/-- The last keystroke of a typed sequence: the calls made for it and the trees
they leave. -/
theorem last_keystroke (m : t9_model_t C) (tree : t9_search_tree_t C) (init : List Nat)
    (key : Nat) (hm : m.search_tree = some tree) (hok : tree_ok tree)
    (hK : 1 ≤ m.number_paths) (hinit : ∀ s ∈ init, is_key_symbol s)
    (hkey : is_key_symbol key) :
    ∃ tree0 paths0 tree2 paths tree3,
      t9_search_tree_type m init =
        .ok (.T9_SUCCESS, { m with search_tree := some tree0, paths := paths0 }) ∧
      tree_ok tree0 ∧
      tree0.level_table2.length = tree.level_table2.length + init.length ∧
      t9_search_node_insert tree0.root key [] 0
          { m with search_tree := some { tree0 with
              level_table2 := tree0.level_table2 ++ [[]] }, paths := paths0 } =
        .ok (tree2.root,
          { m with search_tree := some { tree2 with root := tree0.root },
                   paths := paths0 }) ∧
      t9_search_tree_search_paths { m with search_tree := some tree2, paths := paths0 } =
        .ok { m with search_tree := some tree2, paths := paths } ∧
      t9_search_tree_prune { m with search_tree := some tree2, paths := paths } =
        .ok { m with search_tree := some tree3, paths := paths } ∧
      t9_search_tree_type m (init ++ [key]) =
        .ok (.T9_SUCCESS, { m with search_tree := some tree3, paths := paths }) ∧
      key_step m.corpus_tree m.ngram_length key tree0 tree2 paths tree3 ∧
      paths ≠ [] ∧ ∀ q ∈ paths, q ∈ root_frontier tree2.root := by
  have hz : ∀ s ∈ init, s ≠ 0 := fun s hs => key_symbol_nonzero s (hinit s hs)
  have hs : m.search_tree ≠ none := by rw [hm]; simp
  obtain ⟨tree0, paths0, hrun0, hok0, hlen0, -⟩ := type_loop_spec init m tree hm hok hK
    (by rw [cstr_of_nonzero init hz]; exact hinit)
  rw [cstr_of_nonzero init hz] at hlen0
  obtain ⟨tree2, paths, tree3, hins, hsearch, hprune, hfull, hne, hsub, hstep⟩ :=
    keystroke_detail
      (t9_model_t.mk m.corpus m.corpus_tree (some tree0) paths0 m.ngram_length m.number_paths)
      tree0 key hok0 hkey hK
  refine ⟨tree0, paths0, tree2, paths, tree3, ?_, hok0, hlen0, hins, hsearch, hprune, ?_,
    hstep, hne, hsub⟩
  · rw [tree_type_eq_loop m init hinit hs]; exact hrun0
  · have hall : ∀ s ∈ init ++ [key], is_key_symbol s := by
      intro s hs
      rcases List.mem_append.mp hs with hs | hs
      · exact hinit s hs
      · rw [List.mem_singleton.mp hs]; exact hkey
    rw [tree_type_eq_loop m (init ++ [key]) hall hs, type_loop_append init [key] hz m, hrun0]
    exact type_loop_cons key []
      (t9_model_t.mk m.corpus m.corpus_tree (some tree0) paths0 m.ngram_length m.number_paths)
      tree0
      (t9_model_t.mk m.corpus m.corpus_tree (some tree3) paths m.ngram_length m.number_paths)
      (key_symbol_nonzero key hkey) rfl hfull

end LastKey

/-- C23: a valid key sequence, written `init ++ [key]`, typed into a fresh model
that keeps `K ≥ 1` paths (for every `N`).  Typing `init` returns T9_SUCCESS with
a tree `tree0` of `d - 1` level lists whose leaves are all `d - 1` levels deep,
where `d` is the length of the whole sequence; typing the whole sequence returns
T9_SUCCESS with a tree `tree1` of `d` level lists, all leaves `d` levels deep and
every frontier path `d` nodes long.  The nodes at depth `d` of `tree1` carry
pointers the allocator handed out after `tree0` was left and before `tree1`
was, so they were created by the `d`-th keystroke, and every node above was
there before it. -/
theorem depth_equals_keystrokes {C : Type} [T9Math C] (m : t9_model_t C)
    (init : List Nat) (key : Nat)
    (hfresh : m.search_tree = some t9_search_tree_create) (hK : 1 ≤ m.number_paths)
    (hinit : ∀ s ∈ init, is_key_symbol s) (hkey : is_key_symbol key) :
    ∃ m0 tree0 m1 tree1,
      t9_search_tree_type m init = .ok (.T9_SUCCESS, m0) ∧ m0.search_tree = some tree0 ∧
      t9_search_tree_type m (init ++ [key]) = .ok (.T9_SUCCESS, m1) ∧
      m1.search_tree = some tree1 ∧
      tree0.level_table2.length = init.length ∧ uniform init.length tree0.root ∧
      tree1.level_table2.length = (init ++ [key]).length ∧
      uniform (init ++ [key]).length tree1.root ∧
      (∀ q ∈ root_frontier tree1.root, q.nodes.length = (init ++ [key]).length) ∧
      (∀ a ∈ level_addrs (init ++ [key]).length tree1.root,
        tree0.next_addr ≤ a ∧ a < tree1.next_addr) ∧
      (∀ j, j < (init ++ [key]).length → ∀ a ∈ level_addrs j tree1.root,
        a < tree0.next_addr ∧ a ∈ level_addrs j tree0.root) := by
  obtain ⟨tree0, paths0, tree2, paths, tree3, hrun0, hok0, hlen0, -, -, -, hrun1, hstep, -, -⟩ :=
    last_keystroke m t9_search_tree_create init key hfresh tree_ok_create hK hinit hkey
  obtain ⟨hok2, hok3, hlen2, hlen3, -, ⟨n, hnew, hnext2⟩, hold, hnext3, hroot, -⟩ := hstep
  have hl0 : tree0.level_table2.length = init.length := by
    rw [hlen0]; simp [t9_search_tree_create]
  have hsub : ∀ j, (level_addrs j tree3.root).Sublist (level_addrs j tree2.root) := by
    intro j
    rcases hroot with h | h
    · rw [h]
    · rw [h]; exact prune_root_levels _ _ j
  have hd : (init ++ [key]).length = tree0.level_table2.length + 1 := by
    rw [hl0]; simp
  refine ⟨_, tree0, _, tree3, hrun0, rfl, hrun1, rfl, hl0, ?_, ?_, ?_, ?_, ?_, ?_⟩
  · rw [← hl0]; exact hok0.2.2.2
  · rw [hd]; exact hlen3
  · rw [hd, ← hlen3]; exact hok3.2.2.2
  · intro q hq
    rw [hd, ← hlen3]
    exact (root_frontier_nodes tree3.root q hq).2 _ hok3.2.2.2
  · intro a ha
    rw [hd] at ha
    have h2 := (hsub _).subset ha
    rw [hnew] at h2
    have := List.mem_range'_1.mp h2
    rw [hnext3, hnext2]
    omega
  · intro j hj a ha
    have hj2 : j ≤ tree0.level_table2.length := by omega
    have h2 := (hsub j).subset ha
    rw [hold j hj2] at h2
    exact ⟨hok0.2.2.1 a (level_addrs_subset tree0.root j a h2), h2⟩

/-- Witness of C23: the keys `2` and `6` typed into the fresh model of the text
`banana`. -/
theorem depth_equals_keystrokes_witness :
    (example_model "banana" 2 3).search_tree = some t9_search_tree_create ∧
      1 ≤ (example_model "banana" 2 3).number_paths ∧
      (∀ s ∈ [50], is_key_symbol s) ∧ is_key_symbol 54 ∧
      ∃ m0 tree0 m1 tree1,
        t9_search_tree_type (example_model "banana" 2 3) [50] = .ok (.T9_SUCCESS, m0) ∧
        m0.search_tree = some tree0 ∧
        t9_search_tree_type (example_model "banana" 2 3) ([50] ++ [54]) =
          .ok (.T9_SUCCESS, m1) ∧
        m1.search_tree = some tree1 ∧
        tree0.level_table2.length = [50].length ∧ uniform [50].length tree0.root ∧
        tree1.level_table2.length = ([50] ++ [54]).length ∧
        uniform ([50] ++ [54]).length tree1.root ∧
        (∀ q ∈ root_frontier tree1.root, q.nodes.length = ([50] ++ [54]).length) ∧
        (∀ a ∈ level_addrs ([50] ++ [54]).length tree1.root,
          tree0.next_addr ≤ a ∧ a < tree1.next_addr) ∧
        (∀ j, j < ([50] ++ [54]).length → ∀ a ∈ level_addrs j tree1.root,
          a < tree0.next_addr ∧ a ∈ level_addrs j tree0.root) :=
  ⟨by rfl, by decide!, by decide, by decide,
    depth_equals_keystrokes (example_model "banana" 2 3) [50] 54 (by rfl) (by decide!)
      (by decide) (by decide)⟩

/-- C24: a valid key sequence, written `init ++ [key]`, typed into a fresh model
that keeps `K ≥ 1` paths (for every `N`).  Typing `init` leaves a tree `tree0`;
the insert of the last key returns and leaves the tree `tree2`, the search the
kept list `paths`, the prune returns and leaves `tree3`, the tree with which
`t9_search_tree_type` returns T9_SUCCESS.  After the insert and after the prune
the level index agrees with the tree (`level_index_synced`): a pointer is in
the level list at index `d - 1` exactly when its node is a live node at depth
`d ≥ 1`, once, and in no other level list. -/
theorem level_index_stays_synced {C : Type} [T9Math C] (m : t9_model_t C)
    (init : List Nat) (key : Nat)
    (hfresh : m.search_tree = some t9_search_tree_create) (hK : 1 ≤ m.number_paths)
    (hinit : ∀ s ∈ init, is_key_symbol s) (hkey : is_key_symbol key) :
    ∃ tree0 paths0 tree2 paths tree3,
      t9_search_tree_type m init =
        .ok (.T9_SUCCESS, { m with search_tree := some tree0, paths := paths0 }) ∧
      t9_search_node_insert tree0.root key [] 0
          { m with search_tree := some { tree0 with
              level_table2 := tree0.level_table2 ++ [[]] }, paths := paths0 } =
        .ok (tree2.root,
          { m with search_tree := some { tree2 with root := tree0.root },
                   paths := paths0 }) ∧
      t9_search_tree_search_paths { m with search_tree := some tree2, paths := paths0 } =
        .ok { m with search_tree := some tree2, paths := paths } ∧
      t9_search_tree_prune { m with search_tree := some tree2, paths := paths } =
        .ok { m with search_tree := some tree3, paths := paths } ∧
      t9_search_tree_type m (init ++ [key]) =
        .ok (.T9_SUCCESS, { m with search_tree := some tree3, paths := paths }) ∧
      level_index_synced tree0 ∧ level_index_synced tree2 ∧ level_index_synced tree3 := by
  obtain ⟨tree0, paths0, tree2, paths, tree3, hrun0, hok0, -, hins, hsearch, hprune, hrun1,
      hstep, -, -⟩ :=
    last_keystroke m t9_search_tree_create init key hfresh tree_ok_create hK hinit hkey
  exact ⟨tree0, paths0, tree2, paths, tree3, hrun0, hins, hsearch, hprune, hrun1,
    synced_of_tree_ok tree0 hok0, synced_of_tree_ok tree2 hstep.1,
    synced_of_tree_ok tree3 hstep.2.1⟩

/-- Witness of C24: the keys `2` and `6` typed into the fresh model of the text
`banana`. -/
theorem level_index_stays_synced_witness :
    (example_model "banana" 2 3).search_tree = some t9_search_tree_create ∧
      1 ≤ (example_model "banana" 2 3).number_paths ∧
      (∀ s ∈ [50], is_key_symbol s) ∧ is_key_symbol 54 ∧
      ∃ tree0 paths0 tree2 paths tree3,
        t9_search_tree_type (example_model "banana" 2 3) [50] =
          .ok (.T9_SUCCESS, { example_model "banana" 2 3 with
            search_tree := some tree0, paths := paths0 }) ∧
        t9_search_node_insert tree0.root 54 [] 0
            { example_model "banana" 2 3 with search_tree := some { tree0 with
                level_table2 := tree0.level_table2 ++ [[]] }, paths := paths0 } =
          .ok (tree2.root,
            { example_model "banana" 2 3 with
              search_tree := some { tree2 with root := tree0.root }, paths := paths0 }) ∧
        t9_search_tree_search_paths
            { example_model "banana" 2 3 with search_tree := some tree2, paths := paths0 } =
          .ok { example_model "banana" 2 3 with search_tree := some tree2, paths := paths } ∧
        t9_search_tree_prune
            { example_model "banana" 2 3 with search_tree := some tree2, paths := paths } =
          .ok { example_model "banana" 2 3 with search_tree := some tree3, paths := paths } ∧
        t9_search_tree_type (example_model "banana" 2 3) ([50] ++ [54]) =
          .ok (.T9_SUCCESS, { example_model "banana" 2 3 with
            search_tree := some tree3, paths := paths }) ∧
        level_index_synced tree0 ∧ level_index_synced tree2 ∧ level_index_synced tree3 :=
  ⟨by rfl, by decide!, by decide, by decide,
    level_index_stays_synced (example_model "banana" 2 3) [50] 54 (by rfl) (by decide!)
      (by decide) (by decide)⟩

section FullTree

variable {C : Type} [T9Math C]

mutual
theorem grow_pure_frontier_length (ct : Option t9_corpus_tree_t) (N key : Nat) :
    ∀ (node : t9_search_node_t C) (sequence word : List Nat) (cost : C),
      (frontier_words (grow_pure ct N key node sequence) word cost).length =
        65 * (frontier_words node word cost).length
  | .mk a s p [], sequence, word, cost => by
    have h : ∀ (l : List Nat) (f : Nat → C),
        (frontier_words_list (l.map (fun symbol => t9_search_node_t.mk 0 symbol (f symbol) []))
          word).length = l.length := by
      intro l f
      induction l with
      | nil => rfl
      | cons x rest ih =>
        simp only [List.map_cons, frontier_words_list, frontier_words, List.length_append,
          List.length_cons, List.length_nil, ih]
        omega
    have hc : CORPUS_SYMBOLS = 48 :: CORPUS_SYMBOLS.tail := by decide
    simp only [grow_pure, frontier_words, List.length_cons, List.length_nil]
    rw [hc]
    simp only [List.map_cons, frontier_words]
    rw [← List.map_cons (fun symbol => t9_search_node_t.mk 0 symbol
      (child_cost ct N key sequence p symbol) []), ← hc, h, corpus_symbols_length]
  | .mk a s p (c :: cs), sequence, word, cost => by
    have h := grow_pure_list_frontier_length ct N key (c :: cs) sequence word
    simp only [grow_pure_list] at h
    simp only [grow_pure, frontier_words, grow_pure_list]
    exact h
theorem grow_pure_list_frontier_length (ct : Option t9_corpus_tree_t) (N key : Nat) :
    ∀ (cs : List (t9_search_node_t C)) (sequence word : List Nat),
      (frontier_words_list (grow_pure_list ct N key cs sequence) word).length =
        65 * (frontier_words_list cs word).length
  | [], _, _ => rfl
  | c :: rest, sequence, word => by
    have hs : ∀ x, (grow_pure ct N key c x).symbol = c.symbol ∧
        (grow_pure ct N key c x).probability = c.probability := by
      intro x
      cases c with
      | mk a s p cs =>
        cases cs with
        | nil => simp only [grow_pure]; exact ⟨rfl, rfl⟩
        | cons c1 cs1 => simp only [grow_pure]; exact ⟨rfl, rfl⟩
    simp only [grow_pure_list, frontier_words_list, List.length_append, (hs _).1, (hs _).2,
      grow_pure_frontier_length ct N key c, grow_pure_list_frontier_length ct N key rest]
    omega
end

theorem full_tree_snoc (ct : Option t9_corpus_tree_t) (N : Nat) (keys : List Nat)
    (key : Nat) :
    (full_tree ct N (keys ++ [key]) : t9_search_node_t C) =
      grow_pure ct N key (full_tree ct N keys) [] := by
  simp only [full_tree, List.foldl_append, List.foldl_cons, List.foldl_nil]

theorem full_tree_frontier_length (ct : Option t9_corpus_tree_t) (N : Nat)
    (keys : List Nat) :
    (frontier_words (full_tree ct N keys : t9_search_node_t C) [] 0).length =
      65 ^ keys.length := by
  induction keys using List.reverseRecOn with
  | nil => rfl
  | append_singleton keys key ih =>
    rw [full_tree_snoc, grow_pure_frontier_length, ih, List.length_append,
      List.length_singleton, pow_succ, Nat.mul_comm]

theorem root_frontier_length (root : t9_search_node_t C) (h : (node_addrs root).Nodup) :
    (root_frontier root).length = (frontier_words root [] 0).length := by
  have := congrArg List.length (root_frontier_words root h)
  simpa using this

end FullTree

/-- C29: a valid key sequence of length `d < N` typed into a fresh model that
keeps `K ≥ 1` paths.  `t9_search_tree_type` returns T9_SUCCESS with a tree that
is, up to the node pointers, the complete tree `full_tree` in which every leaf
was expanded at every keystroke and nothing was removed: all leaves are `d`
levels deep and there are `65 ^ d` frontier paths.  On any model with `N ≥ 1`
whose tree has at least `N` level lists `t9_search_tree_prune` is the run of
`t9_search_node_prune` from the root with an empty path. -/
theorem prune_waits_for_depth {C : Type} [T9Math C] (m : t9_model_t C) (keys : List Nat)
    (hfresh : m.search_tree = some t9_search_tree_create) (hK : 1 ≤ m.number_paths)
    (hvalid : ∀ s ∈ keys, is_key_symbol s) (hlen : keys.length < m.ngram_length) :
    (∃ tree1 paths1,
      t9_search_tree_type m keys =
        .ok (.T9_SUCCESS, { m with search_tree := some tree1, paths := paths1 }) ∧
      strip tree1.root = full_tree m.corpus_tree m.ngram_length keys ∧
      tree1.level_table2.length = keys.length ∧ uniform keys.length tree1.root ∧
      (root_frontier tree1.root).length = 65 ^ keys.length) ∧
    ∀ (model : t9_model_t C) (tree : t9_search_tree_t C),
      model.search_tree = some tree → 1 ≤ model.ngram_length →
      model.ngram_length ≤ tree.level_table2.length →
      t9_search_tree_prune model =
        (t9_search_node_prune tree.root model t9_path_create).map Prod.fst := by
  refine ⟨?_, ?_⟩
  · obtain ⟨tree1, paths1, hrun, hok1, hP⟩ := type_loop_induct m hK
      (fun keys0 tree => tree.level_table2.length = keys0.length ∧
        (keys0.length < m.ngram_length →
          strip tree.root = full_tree m.corpus_tree m.ngram_length keys0))
      (by
        intro keys0 key tree tree2 paths tree3 hP _ _ hstep
        obtain ⟨-, -, -, hlen3, hstrip, -, -, -, -, hskip⟩ := hstep
        refine ⟨by rw [hlen3, hP.1]; simp, ?_⟩
        intro hlt
        simp only [List.length_append, List.length_singleton] at hlt
        rw [hskip (by rw [hP.1]; exact hlt), hstrip, ← grow_pure_strip,
          hP.2 (by omega), full_tree_snoc])
      keys [] t9_search_tree_create m.paths hvalid tree_ok_create ⟨rfl, fun _ => rfl⟩
    simp only [List.nil_append] at hP
    have hm : ({ m with search_tree := some t9_search_tree_create, paths := m.paths } :
        t9_model_t C) = m := model_eta m _ hfresh
    rw [hm] at hrun
    refine ⟨tree1, paths1, ?_, hP.2 hlen, hP.1, ?_, ?_⟩
    · rw [tree_type_eq_loop m keys hvalid (by rw [hfresh]; simp)]
      exact hrun
    · rw [← hP.1]; exact hok1.2.2.2
    · rw [root_frontier_length tree1.root hok1.1, ← frontier_words_strip, hP.2 hlen,
        full_tree_frontier_length]
  · intro model tree hm hN hd
    unfold t9_search_tree_prune
    rw [if_neg (by omega)]
    simp only [hm]
    rw [if_neg (by omega)]
    cases t9_search_node_prune tree.root model t9_path_create with
    | error e => rfl
    | ok r => rfl

/-- Witness of C29: the key `2` typed into the fresh model of the text `banana`
with `N = 2`. -/
theorem prune_waits_for_depth_witness :
    (example_model "banana" 2 3).search_tree = some t9_search_tree_create ∧
      1 ≤ (example_model "banana" 2 3).number_paths ∧
      (∀ s ∈ [50], is_key_symbol s) ∧
      [50].length < (example_model "banana" 2 3).ngram_length ∧
      (∃ tree1 paths1,
        t9_search_tree_type (example_model "banana" 2 3) [50] =
          .ok (.T9_SUCCESS, { example_model "banana" 2 3 with
            search_tree := some tree1, paths := paths1 }) ∧
        strip tree1.root = full_tree (example_model "banana" 2 3).corpus_tree
          (example_model "banana" 2 3).ngram_length [50] ∧
        tree1.level_table2.length = [50].length ∧ uniform [50].length tree1.root ∧
        (root_frontier tree1.root).length = 65 ^ [50].length) ∧
      ∀ (model : t9_model_t LogCost) (tree : t9_search_tree_t LogCost),
        model.search_tree = some tree → 1 ≤ model.ngram_length →
        model.ngram_length ≤ tree.level_table2.length →
        t9_search_tree_prune model =
          (t9_search_node_prune tree.root model t9_path_create).map Prod.fst :=
  ⟨by rfl, by decide!, by decide, by decide!,
    prune_waits_for_depth (example_model "banana" 2 3) [50] (by rfl) (by decide!)
      (by decide) (by decide!)⟩

section SpecCost

variable {C : Type} [T9Math C]

theorem truncated_eq_context (N : Nat) (path : List Nat) (hN : 1 ≤ N) (hN2 : N < SIZE_MOD)
    (hz : ∀ s ∈ path, s ≠ 0) : truncated N path = context N path := by
  unfold truncated context
  rw [cstr_of_nonzero path hz]
  have hmod : (N + SIZE_MOD - 1) % SIZE_MOD = N - 1 := by
    have : N + SIZE_MOD - 1 = (N - 1) + SIZE_MOD := by omega
    rw [this, Nat.add_mod_right, Nat.mod_eq_of_lt (by omega)]
  rw [hmod]
  split_ifs with h
  · rfl
  · have : path.length - (N - 1) = 0 := by omega
    rw [this, List.drop_zero]

theorem child_cost_eq_spec (ct : Option t9_corpus_tree_t) (N key : Nat) (path : List Nat)
    (p : C) (symbol : Nat) (hN : 1 ≤ N) (hN2 : N < SIZE_MOD) (hz : ∀ s ∈ path, s ≠ 0) :
    child_cost ct N key path p symbol = spec_child_cost ct N key path p symbol := by
  unfold child_cost spec_child_cost press_probability
  rw [truncated_eq_context N path hN hN2 hz]
  have hzc : ∀ s ∈ context N path, s ≠ 0 := fun s hs => hz s (List.mem_of_mem_drop hs)
  rw [cstr_of_nonzero _ hzc]
  have hlen : (context N path ++ [symbol]).length ≤ N + 1 := by
    unfold context
    simp only [List.length_append, List.length_drop, List.length_singleton]
    omega
  rw [List.take_of_length_le hlen]

theorem frontier_words_leaves (word : List Nat) (f : Nat → C) (l : List Nat) :
    frontier_words_list (l.map (fun symbol => t9_search_node_t.mk 0 symbol (f symbol) []))
        word =
      l.map (fun symbol => (f symbol, word ++ [symbol])) := by
  induction l with
  | nil => rfl
  | cons x rest ih =>
    simp only [List.map_cons, frontier_words_list, frontier_words, ih,
      t9_search_node_t.symbol, t9_search_node_t.probability, List.singleton_append]

theorem grow_pure_fields (ct : Option t9_corpus_tree_t) (N key : Nat)
    (c : t9_search_node_t C) (x : List Nat) :
    (grow_pure ct N key c x).symbol = c.symbol ∧
      (grow_pure ct N key c x).probability = c.probability := by
  cases c with
  | mk a s p cs =>
    cases cs with
    | nil => simp only [grow_pure]; exact ⟨rfl, rfl⟩
    | cons c1 cs1 => simp only [grow_pure]; exact ⟨rfl, rfl⟩

mutual
theorem grow_pure_frontier (ct : Option t9_corpus_tree_t) (N key : Nat) (hN : 1 ≤ N)
    (hN2 : N < SIZE_MOD) :
    ∀ (node : t9_search_node_t C) (word : List Nat) (cost : C),
      (∀ l ∈ node_labels_list node.children2, l.2 ≠ 0) → (∀ s ∈ word, s ≠ 0) →
      frontier_words (grow_pure ct N key node word) word cost =
        (frontier_words node word node.probability).flatMap (fun pw =>
          CORPUS_SYMBOLS.map (fun symbol =>
            (spec_child_cost ct N key pw.2 pw.1 symbol, pw.2 ++ [symbol])))
  | .mk a s p [], word, cost, _, hz => by
    have hc : CORPUS_SYMBOLS = 48 :: CORPUS_SYMBOLS.tail := by decide
    simp only [grow_pure, frontier_words, t9_search_node_t.probability, List.flatMap_cons,
      List.flatMap_nil, List.append_nil]
    rw [hc]
    simp only [List.map_cons, frontier_words]
    rw [← List.map_cons (fun symbol => t9_search_node_t.mk 0 symbol
      (child_cost ct N key word p symbol) []),
      ← List.map_cons (fun symbol => (spec_child_cost ct N key word p symbol,
        word ++ [symbol])), ← hc, frontier_words_leaves]
    apply List.map_congr_left
    intro symbol _
    rw [child_cost_eq_spec ct N key word p symbol hN hN2 hz]
  | .mk a s p (c :: cs), word, cost, hl, hz => by
    have h := grow_pure_list_frontier ct N key hN hN2 (c :: cs) word hl hz
    simp only [grow_pure_list] at h
    simp only [grow_pure, frontier_words, grow_pure_list]
    exact h
theorem grow_pure_list_frontier (ct : Option t9_corpus_tree_t) (N key : Nat) (hN : 1 ≤ N)
    (hN2 : N < SIZE_MOD) :
    ∀ (cs : List (t9_search_node_t C)) (word : List Nat),
      (∀ l ∈ node_labels_list cs, l.2 ≠ 0) → (∀ s ∈ word, s ≠ 0) →
      frontier_words_list (grow_pure_list ct N key cs word) word =
        (frontier_words_list cs word).flatMap (fun pw =>
          CORPUS_SYMBOLS.map (fun symbol =>
            (spec_child_cost ct N key pw.2 pw.1 symbol, pw.2 ++ [symbol])))
  | [], _, _, _ => rfl
  | c :: rest, word, hl, hz => by
    have hcz : c.symbol ≠ 0 := by
      have := hl (c.addr, c.symbol) (by
        cases c with
        | mk a s p cs =>
          simp [node_labels_list, node_labels, t9_search_node_t.addr,
            t9_search_node_t.symbol])
      exact this
    have hz2 : ∀ s ∈ word ++ [c.symbol], s ≠ 0 := by
      intro s hs
      rcases List.mem_append.mp hs with hs | hs
      · exact hz s hs
      · rw [List.mem_singleton.mp hs]; exact hcz
    have hlc : ∀ l ∈ node_labels_list c.children2, l.2 ≠ 0 := by
      intro l hm
      apply hl
      cases c with
      | mk a s p cs =>
        simp only [node_labels_list, node_labels, List.mem_append, List.mem_cons]
        exact Or.inl (Or.inr hm)
    have hlr : ∀ l ∈ node_labels_list rest, l.2 ≠ 0 := by
      intro l hm
      apply hl
      simp only [node_labels_list, List.mem_append]
      exact Or.inr hm
    have hf := grow_pure_fields ct N key c (cstr word ++ [c.symbol])
    simp only [grow_pure_list, frontier_words_list, hf.1, hf.2, List.flatMap_append]
    rw [cstr_of_nonzero word hz,
      grow_pure_frontier ct N key hN hN2 c (word ++ [c.symbol]) c.probability hlc hz2,
      grow_pure_list_frontier ct N key hN hN2 rest word hlr hz]
end

end SpecCost


/-- C25: the call `t9_search_node_insert(root, key, "", 0, model)` that
`t9_search_tree_insert` makes, on a tree in the state `tree_ok` whose symbols are
not zero, for a window length `1 ≤ N ≤ 255`.  The call returns; the root keeps
its cost; the frontier of the new tree consists, parent by parent in the old
frontier and symbol by symbol in `CORPUS_SYMBOLS`, of one child with the path of
the parent extended by the symbol and with the cost `spec_child_cost`: the sum
of `-ln` of the press probability of the key and the symbol, `-ln` of the
conditional probability of the context (the last `min d (N - 1)` symbols of the
path to the parent) followed by the symbol, and the cost of the parent.  The
root of a new tree has cost zero. -/
theorem child_cost_formula {C : Type} [T9Math C] (m : t9_model_t C)
    (tree : t9_search_tree_t C) (key : Nat) (hok : tree_ok tree) (hkey : is_key_symbol key)
    (hN : 1 ≤ m.ngram_length) (hN2 : m.ngram_length < 256)
    (hsym : ∀ l ∈ node_labels_list tree.root.children2, l.2 ≠ 0) :
    ∃ root2 model1,
      t9_search_node_insert tree.root key [] 0
          { m with search_tree := some { tree with
              level_table2 := tree.level_table2 ++ [[]] } } = .ok (root2, model1) ∧
      root2.probability = tree.root.probability ∧
      frontier_words root2 [] root2.probability =
        (frontier_words tree.root [] tree.root.probability).flatMap (fun pw =>
          CORPUS_SYMBOLS.map (fun symbol =>
            (spec_child_cost m.corpus_tree m.ngram_length key pw.2 pw.1 symbol,
              pw.2 ++ [symbol]))) ∧
      (t9_search_tree_create : t9_search_tree_t C).root.probability = 0 := by
  obtain ⟨root1, new, hrun, -⟩ := grow_spec m tree key hok hkey
  have hstrip := (node_insert_strip key hkey _ _ _ _ _ _ hrun).2.2
  simp only at hstrip
  have hp : root1.probability = tree.root.probability := by
    have := congrArg t9_search_node_t.probability hstrip
    rw [(grow_pure_fields _ _ _ _ _).2] at this
    rw [← this]
    cases root1 with
    | mk a s p cs => rfl
  refine ⟨root1, _, hrun, hp, ?_, rfl⟩
  rw [← frontier_words_strip, hstrip]
  exact grow_pure_frontier m.corpus_tree m.ngram_length key hN
    (by unfold SIZE_MOD; omega) tree.root [] _ hsym (by simp)

/-- Witness of C25: the first key `2` on the fresh model of the text `banana`. -/
theorem child_cost_formula_witness :
    tree_ok (t9_search_tree_create : t9_search_tree_t LogCost) ∧ is_key_symbol 50 ∧
      1 ≤ (banana_fresh 3).ngram_length ∧ (banana_fresh 3).ngram_length < 256 ∧
      (∀ l ∈ node_labels_list
        (t9_search_tree_create : t9_search_tree_t LogCost).root.children2, l.2 ≠ 0) ∧
      ∃ root2 model1,
        t9_search_node_insert (t9_search_tree_create : t9_search_tree_t LogCost).root 50 [] 0
            (t9_model_t.mk (banana_fresh 3).corpus (banana_fresh 3).corpus_tree
              (some (t9_search_tree_t.mk
                (t9_search_tree_create : t9_search_tree_t LogCost).root
                ((t9_search_tree_create : t9_search_tree_t LogCost).level_table2 ++ [[]])
                (t9_search_tree_create : t9_search_tree_t LogCost).next_addr))
              (banana_fresh 3).paths (banana_fresh 3).ngram_length
              (banana_fresh 3).number_paths) = .ok (root2, model1) ∧
        root2.probability = (t9_search_tree_create : t9_search_tree_t LogCost).root.probability ∧
        frontier_words root2 [] root2.probability =
          (frontier_words (t9_search_tree_create : t9_search_tree_t LogCost).root []
            (t9_search_tree_create : t9_search_tree_t LogCost).root.probability).flatMap
            (fun pw => CORPUS_SYMBOLS.map (fun symbol =>
              (spec_child_cost (banana_fresh 3).corpus_tree (banana_fresh 3).ngram_length 50
                pw.2 pw.1 symbol, pw.2 ++ [symbol]))) ∧
        (t9_search_tree_create : t9_search_tree_t LogCost).root.probability = 0 :=
  ⟨tree_ok_create, by decide, by decide, by decide, by decide,
    child_cost_formula (banana_fresh 3) t9_search_tree_create 50 tree_ok_create (by decide)
      (by decide) (by decide) (by decide)⟩


section CostsFollow

variable {C : Type} [T9Math C]

theorem costs_follow_leaves (ct : Option t9_corpus_tree_t) (N key : Nat) (p : C)
    (path : List Nat) (l : List Nat) (hl : ∀ s ∈ l, s ∈ CORPUS_SYMBOLS) :
    costs_follow_list ct N [key] p path
      (l.map (fun symbol => t9_search_node_t.mk 0 symbol
        (child_cost ct N key path p symbol) [])) := by
  induction l with
  | nil => simp only [List.map_nil, costs_follow_list]
  | cons x rest ih =>
    simp only [List.map_cons, costs_follow_list, costs_follow, t9_search_node_t.symbol,
      t9_search_node_t.probability, and_true, true_and]
    exact ⟨hl x (by simp), ih (fun s hs => hl s (List.mem_cons_of_mem _ hs))⟩

mutual
theorem costs_follow_grow (ct : Option t9_corpus_tree_t) (N key : Nat) :
    ∀ (node : t9_search_node_t C) (keys path : List Nat),
      uniform keys.length node → costs_follow ct N keys node path →
      (∀ s ∈ path, s ≠ 0) →
      costs_follow ct N (keys ++ [key]) (grow_pure ct N key node path) path
  | .mk a s p [], keys, path, hu, _, _ => by
    have hk : keys = [] := by
      cases keys with
      | nil => rfl
      | cons k ks => simp [uniform] at hu
    subst hk
    simp only [grow_pure, costs_follow, List.nil_append]
    exact costs_follow_leaves ct N key p path CORPUS_SYMBOLS (fun s hs => hs)
  | .mk a s p (c :: cs), keys, path, hu, hf, hz => by
    cases keys with
    | nil => simp [uniform] at hu
    | cons k ks =>
      simp only [List.length_cons, uniform] at hu
      simp only [costs_follow] at hf
      simp only [grow_pure, costs_follow]
      exact costs_follow_list_grow ct N key (c :: cs) k ks p path hu.2 hf hz
theorem costs_follow_list_grow (ct : Option t9_corpus_tree_t) (N key : Nat) :
    ∀ (cs : List (t9_search_node_t C)) (k : Nat) (ks : List Nat) (p : C) (path : List Nat),
      uniform_list ks.length cs → costs_follow_list ct N (k :: ks) p path cs →
      (∀ s ∈ path, s ≠ 0) →
      costs_follow_list ct N (k :: ks ++ [key]) p path (grow_pure_list ct N key cs path)
  | [], _, _, _, _, _, _, _ => by simp only [grow_pure_list, costs_follow_list]
  | c :: rest, k, ks, p, path, hu, hf, hz => by
    simp only [uniform_list] at hu
    simp only [costs_follow_list] at hf
    obtain ⟨⟨hsym, hcost, hsub⟩, hrest⟩ := hf
    have hcz : c.symbol ≠ 0 := corpus_symbols_nonzero _ hsym
    have hz2 : ∀ s ∈ path ++ [c.symbol], s ≠ 0 := by
      intro s hs
      rcases List.mem_append.mp hs with hs | hs
      · exact hz s hs
      · rw [List.mem_singleton.mp hs]; exact hcz
    have hfld := grow_pure_fields ct N key c (cstr path ++ [c.symbol])
    simp only [grow_pure_list, costs_follow_list, List.cons_append, hfld.1, hfld.2]
    refine ⟨⟨hsym, hcost, ?_⟩, ?_⟩
    · rw [cstr_of_nonzero path hz]
      exact costs_follow_grow ct N key c ks (path ++ [c.symbol]) hu.1 hsub hz2
    · exact costs_follow_list_grow ct N key rest k ks p path hu.2 hrest hz
end

mutual
theorem costs_follow_strip (ct : Option t9_corpus_tree_t) (N : Nat) :
    ∀ (node : t9_search_node_t C) (keys path : List Nat),
      costs_follow ct N keys (strip node) path → costs_follow ct N keys node path
  | .mk a s p cs, keys, path, h => by
    simp only [strip, costs_follow] at h ⊢
    exact costs_follow_list_strip ct N cs keys p path h
theorem costs_follow_list_strip (ct : Option t9_corpus_tree_t) (N : Nat) :
    ∀ (cs : List (t9_search_node_t C)) (keys : List Nat) (p : C) (path : List Nat),
      costs_follow_list ct N keys p path (strip_list cs) →
      costs_follow_list ct N keys p path cs
  | [], _, _, _, _ => by simp only [costs_follow_list]
  | c :: rest, keys, p, path, h => by
    have hs : (strip c).symbol = c.symbol ∧ (strip c).probability = c.probability := by
      cases c with
      | mk a s q cs => exact ⟨rfl, rfl⟩
    simp only [strip_list, costs_follow_list, hs.1, hs.2] at h
    simp only [costs_follow_list]
    obtain ⟨h1, h2⟩ := h
    refine ⟨?_, costs_follow_list_strip ct N rest keys p path h2⟩
    cases keys with
    | nil => exact h1
    | cons k ks =>
      simp only at h1 ⊢
      exact ⟨h1.1, h1.2.1, costs_follow_strip ct N c ks _ h1.2.2⟩
end

mutual
theorem costs_follow_prune (ct : Option t9_corpus_tree_t) (N : Nat)
    (keep : List Nat → Bool) :
    ∀ (node node1 : t9_search_node_t C) (pointers keys path : List Nat),
      prune_node keep node pointers = some node1 →
      costs_follow ct N keys node path → costs_follow ct N keys node1 path
  | .mk a s p [], node1, pointers, keys, path, h, hf => by
    simp only [prune_node] at h
    split_ifs at h
    simp only [Option.some.injEq] at h
    subst h
    exact hf
  | .mk a s p (c :: cs), node1, pointers, keys, path, h, hf => by
    simp only [prune_node] at h
    cases hpl : prune_list keep (c :: cs) pointers with
    | nil => rw [hpl] at h; cases h
    | cons c1 cs1 =>
      rw [hpl] at h
      simp only [Option.some.injEq] at h
      subst h
      simp only [costs_follow] at hf ⊢
      have := costs_follow_list_prune ct N keep (c :: cs) pointers keys p path hf
      rw [hpl] at this
      exact this
theorem costs_follow_list_prune (ct : Option t9_corpus_tree_t) (N : Nat)
    (keep : List Nat → Bool) :
    ∀ (cs : List (t9_search_node_t C)) (pointers keys : List Nat) (p : C) (path : List Nat),
      costs_follow_list ct N keys p path cs →
      costs_follow_list ct N keys p path (prune_list keep cs pointers)
  | [], _, _, _, _, _ => by simp only [prune_list, costs_follow_list]
  | c :: rest, pointers, keys, p, path, hf => by
    simp only [costs_follow_list] at hf
    obtain ⟨h1, h2⟩ := hf
    have hr := costs_follow_list_prune ct N keep rest pointers keys p path h2
    simp only [prune_list]
    cases hpn : prune_node keep c (pointers ++ [c.addr]) with
    | none => exact hr
    | some c1 =>
      have hfld := prune_node_fields keep c c1 _ hpn
      simp only [costs_follow_list, hfld.2.1, hfld.2.2.1]
      refine ⟨?_, hr⟩
      cases keys with
      | nil => exact h1
      | cons k ks =>
        simp only at h1 ⊢
        exact ⟨h1.1, h1.2.1, costs_follow_prune ct N keep c c1 _ ks _ hpn h1.2.2⟩
end

theorem costs_follow_prune_root (ct : Option t9_corpus_tree_t) (N : Nat)
    (keep : List Nat → Bool) (root : t9_search_node_t C) (keys : List Nat)
    (h : costs_follow ct N keys root []) :
    costs_follow ct N keys (prune_root keep root) [] := by
  cases root with
  | mk a s p cs =>
    simp only [prune_root, costs_follow] at h ⊢
    exact costs_follow_list_prune ct N keep cs [] keys p [] h

/-- One keystroke carries the cost formula over, to the tree after the insert
and to the tree after the prune. -/
theorem key_step_costs (ct : Option t9_corpus_tree_t) (N key : Nat) (keys0 : List Nat)
    (tree tree2 : t9_search_tree_t C) (paths : List (t9_path_t C))
    (tree3 : t9_search_tree_t C) (hok : tree_ok tree)
    (hlen : tree.level_table2.length = keys0.length)
    (hf : costs_follow ct N keys0 tree.root [])
    (hstep : key_step ct N key tree tree2 paths tree3) :
    costs_follow ct N (keys0 ++ [key]) tree2.root [] ∧
      costs_follow ct N (keys0 ++ [key]) tree3.root [] := by
  obtain ⟨-, -, -, -, hstrip, -, -, -, hroot, -⟩ := hstep
  have h2 : costs_follow ct N (keys0 ++ [key]) tree2.root [] := by
    apply costs_follow_strip
    rw [hstrip]
    exact costs_follow_grow ct N key tree.root keys0 [] (by rw [← hlen]; exact hok.2.2.2) hf
      (by simp)
  refine ⟨h2, ?_⟩
  rcases hroot with h | h
  · rw [h]; exact h2
  · rw [h]; exact costs_follow_prune_root ct N _ _ _ h2

theorem key_step_root_cost (ct : Option t9_corpus_tree_t) (N key : Nat)
    (tree tree2 : t9_search_tree_t C) (paths : List (t9_path_t C))
    (tree3 : t9_search_tree_t C) (hstep : key_step ct N key tree tree2 paths tree3) :
    tree2.root.probability = tree.root.probability ∧
      tree3.root.probability = tree.root.probability := by
  obtain ⟨-, -, -, -, hstrip, -, -, -, hroot, -⟩ := hstep
  have h2 : tree2.root.probability = tree.root.probability := by
    have := congrArg t9_search_node_t.probability hstrip
    rw [(grow_pure_fields _ _ _ _ _).2] at this
    rw [← this]
    cases tree2.root with
    | mk a s p cs => rfl
  refine ⟨h2, ?_⟩
  rcases hroot with h | h
  · rw [h]; exact h2
  · rw [h, ← h2]
    cases tree2.root with
    | mk a s p cs => rfl

/-- The last keystroke of a sequence typed into a fresh model, with the cost
formula on the trees it leaves. -/
theorem last_keystroke_costs (m : t9_model_t C) (init : List Nat) (key : Nat)
    (hfresh : m.search_tree = some t9_search_tree_create) (hK : 1 ≤ m.number_paths)
    (hinit : ∀ s ∈ init, is_key_symbol s) (hkey : is_key_symbol key) :
    ∃ (tree0 : t9_search_tree_t C) (paths0 : List (t9_path_t C))
      (tree2 : t9_search_tree_t C) (paths : List (t9_path_t C))
      (tree3 : t9_search_tree_t C),
      t9_search_tree_type m init =
        .ok (.T9_SUCCESS, { m with search_tree := some tree0, paths := paths0 }) ∧
      t9_search_node_insert tree0.root key [] 0
          { m with search_tree := some { tree0 with
              level_table2 := tree0.level_table2 ++ [[]] }, paths := paths0 } =
        .ok (tree2.root,
          { m with search_tree := some { tree2 with root := tree0.root },
                   paths := paths0 }) ∧
      t9_search_tree_type m (init ++ [key]) =
        .ok (.T9_SUCCESS, { m with search_tree := some tree3, paths := paths }) ∧
      tree2.root.probability = 0 ∧ tree3.root.probability = 0 ∧
      costs_follow m.corpus_tree m.ngram_length (init ++ [key]) tree2.root [] ∧
      costs_follow m.corpus_tree m.ngram_length (init ++ [key]) tree3.root [] := by
  have hz : ∀ s ∈ init, s ≠ 0 := fun s hs => key_symbol_nonzero s (hinit s hs)
  have hs : m.search_tree ≠ none := by rw [hfresh]; simp
  obtain ⟨tree0, paths0, hrun0, hok0, hP⟩ := type_loop_induct m hK
    (fun keys0 tree => tree.level_table2.length = keys0.length ∧
      tree.root.probability = 0 ∧
      costs_follow m.corpus_tree m.ngram_length keys0 tree.root [])
    (by
      intro keys0 key tree tree2 paths tree3 hP hok _ hstep
      refine ⟨?_, ?_, (key_step_costs _ _ key keys0 tree tree2 paths tree3 hok hP.1 hP.2.2
        hstep).2⟩
      · rw [hstep.2.2.2.1, hP.1]; simp
      · rw [(key_step_root_cost _ _ _ _ _ _ _ hstep).2]; exact hP.2.1)
    init [] t9_search_tree_create m.paths hinit tree_ok_create
    ⟨rfl, rfl, by simp [t9_search_tree_create, costs_follow, costs_follow_list]⟩
  simp only [List.nil_append] at hP
  have hm : ({ m with search_tree := some t9_search_tree_create, paths := m.paths } :
      t9_model_t C) = m := model_eta m _ hfresh
  rw [hm] at hrun0
  obtain ⟨tree2, paths, tree3, hins, -, -, hfull, -, -, hstep⟩ :=
    keystroke_detail
      (t9_model_t.mk m.corpus m.corpus_tree (some tree0) paths0 m.ngram_length m.number_paths)
      tree0 key hok0 hkey hK
  have hc := key_step_costs _ _ key init tree0 tree2 paths tree3 hok0 hP.1 hP.2.2 hstep
  have hr := key_step_root_cost _ _ _ _ _ _ _ hstep
  refine ⟨tree0, paths0, tree2, paths, tree3, ?_, hins, ?_, by rw [hr.1]; exact hP.2.1,
    by rw [hr.2]; exact hP.2.1, hc.1, hc.2⟩
  · rw [tree_type_eq_loop m init hinit hs]; exact hrun0
  · have hall : ∀ s ∈ init ++ [key], is_key_symbol s := by
      intro s hs
      rcases List.mem_append.mp hs with hs | hs
      · exact hinit s hs
      · rw [List.mem_singleton.mp hs]; exact hkey
    rw [tree_type_eq_loop m (init ++ [key]) hall hs, type_loop_append init [key] hz m, hrun0]
    exact type_loop_cons key []
      (t9_model_t.mk m.corpus m.corpus_tree (some tree0) paths0 m.ngram_length m.number_paths)
      tree0
      (t9_model_t.mk m.corpus m.corpus_tree (some tree3) paths m.ngram_length m.number_paths)
      (key_symbol_nonzero key hkey) rfl hfull

theorem press_probability_cases (key symbol : Nat) :
    (symbol ∈ key_symbol_set key ∧ press_probability key symbol = 1) ∨
      (symbol ∉ key_symbol_set key ∧ press_probability key symbol = 0) := by
  unfold press_probability PROBABILITY_BUTTON
  by_cases h : symbol ∈ key_symbol_set key
  · exact Or.inl ⟨h, by rw [if_pos h]⟩
  · exact Or.inr ⟨h, by rw [if_neg h]; norm_num⟩

theorem child_cost_press (ct : Option t9_corpus_tree_t) (N key : Nat) (path : List Nat)
    (p : C) (symbol : Nat) :
    child_cost ct N key path p symbol =
      T9Math.neg_ln (press_probability key symbol) +
        T9Math.neg_ln (t9_corpus_tree_conditional_probability ct
          ((cstr (truncated N path) ++ [symbol]).take (N + 1))) + p := rfl

theorem child_cost_range (laws : cost_range_laws C) (ct : Option t9_corpus_tree_t)
    (hunit : ∀ word, 0 ≤ t9_corpus_tree_conditional_probability ct word ∧
      t9_corpus_tree_conditional_probability ct word ≤ 1)
    (N key : Nat) (path : List Nat) (p : C) (symbol : Nat) (hp : cost_in_range p) :
    cost_in_range (child_cost ct N key path p symbol) ∧
      p ≤ child_cost ct N key path p symbol := by
  rw [child_cost_press]
  have hA : cost_in_range (T9Math.neg_ln (press_probability key symbol) : C) := by
    rcases press_probability_cases key symbol with h | h
    · rw [h.2]; exact laws.neg_ln_range 1 (by norm_num) (by norm_num)
    · rw [h.2]; exact laws.neg_ln_range 0 (by norm_num) (by norm_num)
  have hB := laws.neg_ln_range _ (hunit ((cstr (truncated N path) ++ [symbol]).take (N + 1))).1
    (hunit ((cstr (truncated N path) ++ [symbol]).take (N + 1))).2
  have hAB := (laws.add_range _ _ hA hB).1
  have h := laws.add_range _ _ hAB hp
  exact ⟨h.1, h.2.2⟩

mutual
theorem monotone_of_follow (laws : cost_range_laws C) (ct : Option t9_corpus_tree_t)
    (hunit : ∀ word, 0 ≤ t9_corpus_tree_conditional_probability ct word ∧
      t9_corpus_tree_conditional_probability ct word ≤ 1) (N : Nat) :
    ∀ (node : t9_search_node_t C) (keys path : List Nat),
      costs_follow ct N keys node path → cost_in_range node.probability →
      cost_monotone node = true ∧ ∀ cw ∈ all_words node path, cost_in_range cw.1
  | .mk a s p cs, keys, path, hf, hp => by
    simp only [costs_follow] at hf
    simp only [cost_monotone, all_words]
    exact monotone_list_of_follow laws ct hunit N cs keys p path hf hp
theorem monotone_list_of_follow (laws : cost_range_laws C) (ct : Option t9_corpus_tree_t)
    (hunit : ∀ word, 0 ≤ t9_corpus_tree_conditional_probability ct word ∧
      t9_corpus_tree_conditional_probability ct word ≤ 1) (N : Nat) :
    ∀ (cs : List (t9_search_node_t C)) (keys : List Nat) (p : C) (path : List Nat),
      costs_follow_list ct N keys p path cs → cost_in_range p →
      cost_monotone_list p cs = true ∧ ∀ cw ∈ all_words_list cs path, cost_in_range cw.1
  | [], _, _, _, _, _ => by
    simp only [cost_monotone_list, all_words_list, List.not_mem_nil, false_implies,
      implies_true, and_self]
  | c :: rest, keys, p, path, hf, hp => by
    simp only [costs_follow_list] at hf
    obtain ⟨h1, h2⟩ := hf
    obtain ⟨r1, r2⟩ := monotone_list_of_follow laws ct hunit N rest keys p path h2 hp
    cases keys with
    | nil => exact absurd h1 (by simp)
    | cons k ks =>
      simp only at h1
      obtain ⟨-, hcost, hsub⟩ := h1
      have hc := child_cost_range laws ct hunit N k path p c.symbol hp
      rw [← hcost] at hc
      obtain ⟨c1, c2⟩ := monotone_of_follow laws ct hunit N c ks _ hsub hc.1
      refine ⟨?_, ?_⟩
      · simp only [cost_monotone_list, Bool.and_eq_true, decide_eq_true_eq]
        exact ⟨⟨hc.2, c1⟩, r1⟩
      · intro cw hcw
        simp only [all_words_list, List.mem_cons, List.mem_append] at hcw
        rcases hcw with hcw | hcw | hcw
        · rw [hcw]; exact hc.1
        · exact c2 cw hcw
        · exact r2 cw hcw
end

mutual
theorem finite_of_follow (rl : cost_range_laws C) (fl : cost_finite_laws C)
    (ct : Option t9_corpus_tree_t)
    (hunit : ∀ word, 0 ≤ t9_corpus_tree_conditional_probability ct word ∧
      t9_corpus_tree_conditional_probability ct word ≤ 1) (N : Nat) (hN : 1 ≤ N)
    (hN2 : N < SIZE_MOD) :
    ∀ (node : t9_search_node_t C) (keys path : List Nat) (Q : Prop),
      costs_follow ct N keys node path → cost_in_range node.probability →
      (node.probability < infinite_cost ↔ Q) → (∀ s ∈ path, s ≠ 0) →
      ∀ cw ∈ all_words node path, ∃ rest, cw.2 = path ++ rest ∧
        (cw.1 < infinite_cost ↔ Q ∧ path_possible ct N keys path rest)
  | .mk a s p cs, keys, path, Q, hf, hp, hQ, hz => by
    simp only [costs_follow] at hf
    simp only [all_words]
    exact finite_list_of_follow rl fl ct hunit N hN hN2 cs keys p path Q hf hp hQ hz
theorem finite_list_of_follow (rl : cost_range_laws C) (fl : cost_finite_laws C)
    (ct : Option t9_corpus_tree_t)
    (hunit : ∀ word, 0 ≤ t9_corpus_tree_conditional_probability ct word ∧
      t9_corpus_tree_conditional_probability ct word ≤ 1) (N : Nat) (hN : 1 ≤ N)
    (hN2 : N < SIZE_MOD) :
    ∀ (cs : List (t9_search_node_t C)) (keys : List Nat) (p : C) (path : List Nat)
      (Q : Prop),
      costs_follow_list ct N keys p path cs → cost_in_range p →
      (p < infinite_cost ↔ Q) → (∀ s ∈ path, s ≠ 0) →
      ∀ cw ∈ all_words_list cs path, ∃ rest, cw.2 = path ++ rest ∧
        (cw.1 < infinite_cost ↔ Q ∧ path_possible ct N keys path rest)
  | [], _, _, _, _, _, _, _, _ => by
    intro cw hcw
    simp [all_words_list] at hcw
  | c :: rest, keys, p, path, Q, hf, hp, hQ, hz => by
    simp only [costs_follow_list] at hf
    obtain ⟨h1, h2⟩ := hf
    have hr := finite_list_of_follow rl fl ct hunit N hN hN2 rest keys p path Q h2 hp hQ hz
    cases keys with
    | nil => exact absurd h1 (by simp)
    | cons k ks =>
      simp only at h1
      obtain ⟨hsym, hcost, hsub⟩ := h1
      have hcz : c.symbol ≠ 0 := corpus_symbols_nonzero _ hsym
      have hz2 : ∀ s ∈ path ++ [c.symbol], s ≠ 0 := by
        intro s hs
        rcases List.mem_append.mp hs with hs | hs
        · exact hz s hs
        · rw [List.mem_singleton.mp hs]; exact hcz
      have hc := child_cost_range rl ct hunit N k path p c.symbol hp
      rw [← hcost] at hc
      have hfin : c.probability < infinite_cost ↔
          Q ∧ c.symbol ∈ key_symbol_set k ∧
            t9_corpus_tree_conditional_probability ct (context N path ++ [c.symbol]) ≠ 0 := by
        rw [hcost, child_cost_eq_spec ct N k path p c.symbol hN hN2 hz]
        unfold spec_child_cost
        have hA : cost_in_range (T9Math.neg_ln (press_probability k c.symbol) : C) := by
          rcases press_probability_cases k c.symbol with h | h
          · rw [h.2]; exact rl.neg_ln_range 1 (by norm_num) (by norm_num)
          · rw [h.2]; exact rl.neg_ln_range 0 (by norm_num) (by norm_num)
        have hu := hunit (context N path ++ [c.symbol])
        have hB := rl.neg_ln_range _ hu.1 hu.2
        have hAB := (rl.add_range _ _ hA hB).1
        rw [fl.add_finite _ _ hAB hp, fl.add_finite _ _ hA hB, hQ,
          fl.neg_ln_finite _ hu.1 hu.2]
        have hpress : (T9Math.neg_ln (press_probability k c.symbol) : C) < infinite_cost ↔
            c.symbol ∈ key_symbol_set k := by
          rcases press_probability_cases k c.symbol with h | h
          · rw [h.2, fl.neg_ln_finite 1 (by norm_num) (by norm_num)]
            exact ⟨fun _ => h.1, fun _ => by norm_num⟩
          · rw [h.2, fl.neg_ln_finite 0 (by norm_num) (by norm_num)]
            exact ⟨fun hne => absurd rfl hne, fun hin => absurd hin h.1⟩
        rw [hpress]
        tauto
      have hsubs := finite_of_follow rl fl ct hunit N hN hN2 c ks (path ++ [c.symbol]) _
        hsub hc.1 hfin hz2
      intro cw hcw
      simp only [all_words_list, List.mem_cons, List.mem_append] at hcw
      rcases hcw with hcw | hcw | hcw
      · rw [hcw]
        refine ⟨[c.symbol], rfl, ?_⟩
        simp only [path_possible, and_true]
        exact hfin
      · obtain ⟨rest1, hw, hiff⟩ := hsubs cw hcw
        refine ⟨c.symbol :: rest1, by rw [hw]; simp, ?_⟩
        rw [hiff]
        simp only [path_possible]
        tauto
      · exact hr cw hcw
end

end CostsFollow
theorem log_cost_val_le (a b : ℚ) : LogCost.val a ≤ LogCost.val b ↔ b ≤ a := by
  show LogCost.key (.val a) ≤ LogCost.key (.val b) ↔ b ≤ a
  simp [LogCost.key]

theorem log_cost_val_lt (a b : ℚ) : LogCost.val a < LogCost.val b ↔ b < a := by
  show LogCost.key (.val a) < LogCost.key (.val b) ↔ b < a
  simp [LogCost.key]

theorem log_cost_in_range (c : LogCost) :
    cost_in_range c ↔ ∃ q : ℚ, c = .val q ∧ 0 ≤ q ∧ q ≤ 1 := by
  unfold cost_in_range infinite_cost
  cases c with
  | sentinel =>
    constructor
    · intro h
      have h1 : LogCost.key (0 : LogCost) ≤ LogCost.key .sentinel := h.1
      have h0 : (0 : LogCost) = .val 1 := rfl
      rw [h0] at h1
      simp [LogCost.key] at h1
    · rintro ⟨q, hq, -⟩
      cases hq
  | val a =>
    have h0 : (0 : LogCost) = .val 1 := rfl
    have hn : (T9Math.neg_ln (0 : ℚ) : LogCost) = .val 0 := rfl
    rw [h0, hn, log_cost_val_le, log_cost_val_le]
    constructor
    · intro h
      exact ⟨a, rfl, h.2, h.1⟩
    · rintro ⟨q, hq, h1, h2⟩
      cases hq
      exact ⟨h2, h1⟩

theorem log_cost_range_laws : cost_range_laws LogCost := by
  refine ⟨?_, ?_⟩
  · intro q h0 h1
    rw [log_cost_in_range]
    exact ⟨q, rfl, h0, h1⟩
  · intro a b ha hb
    rw [log_cost_in_range] at ha hb
    obtain ⟨x, rfl, hx0, hx1⟩ := ha
    obtain ⟨y, rfl, hy0, hy1⟩ := hb
    have hadd : (LogCost.val x + LogCost.val y : LogCost) = .val (x * y) := rfl
    rw [hadd, log_cost_in_range, log_cost_val_le, log_cost_val_le]
    refine ⟨⟨x * y, rfl, mul_nonneg hx0 hy0, ?_⟩, ?_, ?_⟩
    · calc x * y ≤ 1 * 1 := mul_le_mul hx1 hy1 hy0 (by norm_num)
        _ = 1 := by norm_num
    · calc x * y ≤ x * 1 := mul_le_mul_of_nonneg_left hy1 hx0
        _ = x := by ring
    · calc x * y ≤ 1 * y := mul_le_mul_of_nonneg_right hx1 hy0
        _ = y := by ring

theorem log_cost_finite_laws : cost_finite_laws LogCost := by
  have hn : (infinite_cost : LogCost) = .val 0 := rfl
  refine ⟨?_, ?_⟩
  · intro q h0 h1
    have hq : (T9Math.neg_ln q : LogCost) = .val q := rfl
    rw [hn, hq, log_cost_val_lt]
    constructor
    · intro h; exact ne_of_gt h
    · intro h; exact lt_of_le_of_ne h0 (Ne.symm h)
  · intro a b ha hb
    rw [log_cost_in_range] at ha hb
    obtain ⟨x, rfl, hx0, hx1⟩ := ha
    obtain ⟨y, rfl, hy0, hy1⟩ := hb
    have hadd : (LogCost.val x + LogCost.val y : LogCost) = .val (x * y) := rfl
    rw [hadd, hn, log_cost_val_lt, log_cost_val_lt, log_cost_val_lt]
    constructor
    · intro h
      refine ⟨lt_of_le_of_ne hx0 ?_, lt_of_le_of_ne hy0 ?_⟩
      · intro hx; rw [← hx] at h; simp at h
      · intro hy; rw [← hy] at h; simp at h
    · rintro ⟨h1, h2⟩
      exact mul_pos h1 h2

theorem banana_tree_built : build_corpus_tree banana 2 = .ok banana_tree := by
  have hok : is_ok (build_corpus_tree banana 2) = true := by decide!
  obtain ⟨t, ht⟩ := ok_of_is_ok _ hok
  simp only [banana_tree, ht]


/-- C28: a valid key sequence, written `init ++ [key]`, typed into a fresh model
that keeps `K ≥ 1` paths and whose corpus trie was built from its corpus, when
the float operations obey `cost_range_laws`.  Typing returns T9_SUCCESS; in the
tree `tree2` the insert of the last key leaves (it holds every node the insert
created) and in the tree `tree3` the prune leaves, the root has cost zero, no
child costs less than its parent (`cost_monotone`, the precondition of the
branch-and-bound cut), and no node costs less than zero. -/
theorem cost_grows_with_depth {C : Type} [T9Math C] (m : t9_model_t C)
    (ct : t9_corpus_tree_t) (init : List Nat) (key : Nat)
    (hfresh : m.search_tree = some t9_search_tree_create)
    (hct : m.corpus_tree = some ct)
    (hbuild : build_corpus_tree m.corpus m.ngram_length = .ok ct)
    (laws : cost_range_laws C) (hK : 1 ≤ m.number_paths)
    (hinit : ∀ s ∈ init, is_key_symbol s) (hkey : is_key_symbol key) :
    ∃ (tree0 : t9_search_tree_t C) (paths0 : List (t9_path_t C))
      (tree2 : t9_search_tree_t C) (paths : List (t9_path_t C))
      (tree3 : t9_search_tree_t C),
      t9_search_tree_type m init =
        .ok (.T9_SUCCESS, { m with search_tree := some tree0, paths := paths0 }) ∧
      t9_search_node_insert tree0.root key [] 0
          { m with search_tree := some { tree0 with
              level_table2 := tree0.level_table2 ++ [[]] }, paths := paths0 } =
        .ok (tree2.root,
          { m with search_tree := some { tree2 with root := tree0.root },
                   paths := paths0 }) ∧
      t9_search_tree_type m (init ++ [key]) =
        .ok (.T9_SUCCESS, { m with search_tree := some tree3, paths := paths }) ∧
      (tree2.root.probability = 0 ∧ cost_monotone tree2.root = true ∧
        ∀ cw ∈ all_words tree2.root [], 0 ≤ cw.1) ∧
      (tree3.root.probability = 0 ∧ cost_monotone tree3.root = true ∧
        ∀ cw ∈ all_words tree3.root [], 0 ≤ cw.1) := by
  obtain ⟨tree0, paths0, tree2, paths, tree3, hrun0, hins, hrun1, hr2, hr3, hf2, hf3⟩ :=
    last_keystroke_costs m init key hfresh hK hinit hkey
  have hunit : ∀ word, 0 ≤ t9_corpus_tree_conditional_probability m.corpus_tree word ∧
      t9_corpus_tree_conditional_probability m.corpus_tree word ≤ 1 := by
    intro word
    rw [hct]
    exact conditional_probability_unit_of_built m.corpus m.ngram_length ct word hbuild
  have hzero : cost_in_range (0 : C) :=
    ⟨le_refl _, (laws.neg_ln_range 0 (by norm_num) (by norm_num)).1⟩
  have h2 := monotone_of_follow laws m.corpus_tree hunit m.ngram_length tree2.root _ []
    hf2 (by rw [hr2]; exact hzero)
  have h3 := monotone_of_follow laws m.corpus_tree hunit m.ngram_length tree3.root _ []
    hf3 (by rw [hr3]; exact hzero)
  exact ⟨tree0, paths0, tree2, paths, tree3, hrun0, hins, hrun1,
    ⟨hr2, h2.1, fun cw hcw => (h2.2 cw hcw).1⟩, ⟨hr3, h3.1, fun cw hcw => (h3.2 cw hcw).1⟩⟩

/-- Witness of C28: the keys `2` and `6` typed into the fresh model of the text
`banana`, with the costs of `LogCost`. -/
theorem cost_grows_with_depth_witness :
    (banana_fresh 3).search_tree = some t9_search_tree_create ∧
      (banana_fresh 3).corpus_tree = some banana_tree ∧
      build_corpus_tree (banana_fresh 3).corpus (banana_fresh 3).ngram_length =
        .ok banana_tree ∧
      cost_range_laws LogCost ∧ 1 ≤ (banana_fresh 3).number_paths ∧
      (∀ s ∈ [50], is_key_symbol s) ∧ is_key_symbol 54 ∧
      ∃ (tree0 : t9_search_tree_t LogCost) (paths0 : List (t9_path_t LogCost))
        (tree2 : t9_search_tree_t LogCost) (paths : List (t9_path_t LogCost))
        (tree3 : t9_search_tree_t LogCost),
        t9_search_tree_type (banana_fresh 3) [50] =
          .ok (.T9_SUCCESS, t9_model_t.mk (banana_fresh 3).corpus (banana_fresh 3).corpus_tree
            (some tree0) paths0 (banana_fresh 3).ngram_length (banana_fresh 3).number_paths) ∧
        t9_search_node_insert tree0.root 54 [] 0
            (t9_model_t.mk (banana_fresh 3).corpus (banana_fresh 3).corpus_tree
              (some (t9_search_tree_t.mk tree0.root (tree0.level_table2 ++ [[]])
                tree0.next_addr))
              paths0 (banana_fresh 3).ngram_length (banana_fresh 3).number_paths) =
          .ok (tree2.root,
            t9_model_t.mk (banana_fresh 3).corpus (banana_fresh 3).corpus_tree
              (some (t9_search_tree_t.mk tree0.root tree2.level_table2 tree2.next_addr))
              paths0 (banana_fresh 3).ngram_length (banana_fresh 3).number_paths) ∧
        t9_search_tree_type (banana_fresh 3) ([50] ++ [54]) =
          .ok (.T9_SUCCESS, t9_model_t.mk (banana_fresh 3).corpus (banana_fresh 3).corpus_tree
            (some tree3) paths (banana_fresh 3).ngram_length (banana_fresh 3).number_paths) ∧
        (tree2.root.probability = 0 ∧ cost_monotone tree2.root = true ∧
          ∀ cw ∈ all_words tree2.root [], 0 ≤ cw.1) ∧
        (tree3.root.probability = 0 ∧ cost_monotone tree3.root = true ∧
          ∀ cw ∈ all_words tree3.root [], 0 ≤ cw.1) :=
  ⟨rfl, rfl, banana_tree_built, log_cost_range_laws, by decide, by decide, by decide,
    cost_grows_with_depth (banana_fresh 3) banana_tree [50] 54 rfl rfl banana_tree_built
      log_cost_range_laws (by decide) (by decide) (by decide)⟩

/-- C27: a valid key sequence, written `init ++ [key]`, typed into a fresh model
with `1 ≤ N ≤ 255` that keeps `K ≥ 1` paths and whose corpus trie was built from
its corpus, with `PROBABILITY_BUTTON = 1`, when the float operations obey
`cost_range_laws` and `cost_finite_laws`.  Typing returns T9_SUCCESS; in the tree
`tree2` the insert of the last key leaves and in the tree `tree3` the prune
leaves, every node has a cost between zero and `+∞`; the cost is finite exactly
when `path_possible` holds for the symbols on the way to the node, that is when
at every position the symbol is in the symbol set of the key pressed there and
the n-gram of the context and the symbol has a conditional probability other
than zero; otherwise the cost is `+∞`. -/
theorem cost_finite_iff_possible {C : Type} [T9Math C] (m : t9_model_t C)
    (ct : t9_corpus_tree_t) (init : List Nat) (key : Nat)
    (hfresh : m.search_tree = some t9_search_tree_create)
    (hct : m.corpus_tree = some ct)
    (hbuild : build_corpus_tree m.corpus m.ngram_length = .ok ct)
    (rl : cost_range_laws C) (fl : cost_finite_laws C)
    (hN : 1 ≤ m.ngram_length) (hN2 : m.ngram_length < 256) (hK : 1 ≤ m.number_paths)
    (hinit : ∀ s ∈ init, is_key_symbol s) (hkey : is_key_symbol key) :
    ∃ (tree0 : t9_search_tree_t C) (paths0 : List (t9_path_t C))
      (tree2 : t9_search_tree_t C) (paths : List (t9_path_t C))
      (tree3 : t9_search_tree_t C),
      t9_search_tree_type m init =
        .ok (.T9_SUCCESS, { m with search_tree := some tree0, paths := paths0 }) ∧
      t9_search_node_insert tree0.root key [] 0
          { m with search_tree := some { tree0 with
              level_table2 := tree0.level_table2 ++ [[]] }, paths := paths0 } =
        .ok (tree2.root,
          { m with search_tree := some { tree2 with root := tree0.root },
                   paths := paths0 }) ∧
      t9_search_tree_type m (init ++ [key]) =
        .ok (.T9_SUCCESS, { m with search_tree := some tree3, paths := paths }) ∧
      (∀ cw ∈ all_words tree2.root [], cost_in_range cw.1 ∧
        (cw.1 < infinite_cost ↔
          path_possible m.corpus_tree m.ngram_length (init ++ [key]) [] cw.2) ∧
        (¬ path_possible m.corpus_tree m.ngram_length (init ++ [key]) [] cw.2 →
          cw.1 = infinite_cost)) ∧
      (∀ cw ∈ all_words tree3.root [], cost_in_range cw.1 ∧
        (cw.1 < infinite_cost ↔
          path_possible m.corpus_tree m.ngram_length (init ++ [key]) [] cw.2) ∧
        (¬ path_possible m.corpus_tree m.ngram_length (init ++ [key]) [] cw.2 →
          cw.1 = infinite_cost)) := by
  obtain ⟨tree0, paths0, tree2, paths, tree3, hrun0, hins, hrun1, hr2, hr3, hf2, hf3⟩ :=
    last_keystroke_costs m init key hfresh hK hinit hkey
  have hunit : ∀ word, 0 ≤ t9_corpus_tree_conditional_probability m.corpus_tree word ∧
      t9_corpus_tree_conditional_probability m.corpus_tree word ≤ 1 := by
    intro word
    rw [hct]
    exact conditional_probability_unit_of_built m.corpus m.ngram_length ct word hbuild
  have hzero : cost_in_range (0 : C) :=
    ⟨le_refl _, (rl.neg_ln_range 0 (by norm_num) (by norm_num)).1⟩
  have hzfin : (0 : C) < infinite_cost ↔ True := by
    refine ⟨fun _ => trivial, fun _ => ?_⟩
    exact lt_of_le_of_lt (rl.neg_ln_range 1 (by norm_num) (by norm_num)).1
      ((fl.neg_ln_finite 1 (by norm_num) (by norm_num)).2 (by norm_num))
  have hN3 : m.ngram_length < SIZE_MOD := by unfold SIZE_MOD; omega
  have hall : ∀ root : t9_search_node_t C, root.probability = 0 →
      costs_follow m.corpus_tree m.ngram_length (init ++ [key]) root [] →
      ∀ cw ∈ all_words root [], cost_in_range cw.1 ∧
        (cw.1 < infinite_cost ↔
          path_possible m.corpus_tree m.ngram_length (init ++ [key]) [] cw.2) ∧
        (¬ path_possible m.corpus_tree m.ngram_length (init ++ [key]) [] cw.2 →
          cw.1 = infinite_cost) := by
    intro root hr hf cw hcw
    have hrange := (monotone_of_follow rl m.corpus_tree hunit m.ngram_length root _ [] hf
      (by rw [hr]; exact hzero)).2 cw hcw
    obtain ⟨rest, hw, hiff⟩ := finite_of_follow rl fl m.corpus_tree hunit m.ngram_length hN
      hN3 root _ [] True hf (by rw [hr]; exact hzero) (by rw [hr]; exact hzfin) (by simp)
      cw hcw
    simp only [List.nil_append] at hw
    rw [← hw, true_and] at hiff
    refine ⟨hrange, hiff, ?_⟩
    intro hno
    exact le_antisymm hrange.2 (not_lt.mp (fun hlt => hno (hiff.1 hlt)))
  exact ⟨tree0, paths0, tree2, paths, tree3, hrun0, hins, hrun1, hall tree2.root hr2 hf2,
    hall tree3.root hr3 hf3⟩

/-- Witness of C27: the keys `2` and `6` typed into the fresh model of the text
`banana`, with the costs of `LogCost`. -/
theorem cost_finite_iff_possible_witness :
    (banana_fresh 3).search_tree = some t9_search_tree_create ∧
      (banana_fresh 3).corpus_tree = some banana_tree ∧
      build_corpus_tree (banana_fresh 3).corpus (banana_fresh 3).ngram_length =
        .ok banana_tree ∧
      cost_range_laws LogCost ∧ cost_finite_laws LogCost ∧
      1 ≤ (banana_fresh 3).ngram_length ∧ (banana_fresh 3).ngram_length < 256 ∧
      1 ≤ (banana_fresh 3).number_paths ∧
      (∀ s ∈ [50], is_key_symbol s) ∧ is_key_symbol 54 ∧
      ∃ (tree0 : t9_search_tree_t LogCost) (paths0 : List (t9_path_t LogCost))
        (tree2 : t9_search_tree_t LogCost) (paths : List (t9_path_t LogCost))
        (tree3 : t9_search_tree_t LogCost),
        t9_search_tree_type (banana_fresh 3) [50] =
          .ok (.T9_SUCCESS, t9_model_t.mk (banana_fresh 3).corpus (banana_fresh 3).corpus_tree
            (some tree0) paths0 (banana_fresh 3).ngram_length (banana_fresh 3).number_paths) ∧
        t9_search_node_insert tree0.root 54 [] 0
            (t9_model_t.mk (banana_fresh 3).corpus (banana_fresh 3).corpus_tree
              (some (t9_search_tree_t.mk tree0.root (tree0.level_table2 ++ [[]])
                tree0.next_addr))
              paths0 (banana_fresh 3).ngram_length (banana_fresh 3).number_paths) =
          .ok (tree2.root,
            t9_model_t.mk (banana_fresh 3).corpus (banana_fresh 3).corpus_tree
              (some (t9_search_tree_t.mk tree0.root tree2.level_table2 tree2.next_addr))
              paths0 (banana_fresh 3).ngram_length (banana_fresh 3).number_paths) ∧
        t9_search_tree_type (banana_fresh 3) ([50] ++ [54]) =
          .ok (.T9_SUCCESS, t9_model_t.mk (banana_fresh 3).corpus (banana_fresh 3).corpus_tree
            (some tree3) paths (banana_fresh 3).ngram_length (banana_fresh 3).number_paths) ∧
        (∀ cw ∈ all_words tree2.root [], cost_in_range cw.1 ∧
          (cw.1 < infinite_cost ↔
            path_possible (banana_fresh 3).corpus_tree (banana_fresh 3).ngram_length
              ([50] ++ [54]) [] cw.2) ∧
          (¬ path_possible (banana_fresh 3).corpus_tree (banana_fresh 3).ngram_length
              ([50] ++ [54]) [] cw.2 →
            cw.1 = infinite_cost)) ∧
        (∀ cw ∈ all_words tree3.root [], cost_in_range cw.1 ∧
          (cw.1 < infinite_cost ↔
            path_possible (banana_fresh 3).corpus_tree (banana_fresh 3).ngram_length
              ([50] ++ [54]) [] cw.2) ∧
          (¬ path_possible (banana_fresh 3).corpus_tree (banana_fresh 3).ngram_length
              ([50] ++ [54]) [] cw.2 →
            cw.1 = infinite_cost)) :=
  ⟨rfl, rfl, banana_tree_built, log_cost_range_laws, log_cost_finite_laws, by decide,
    by decide, by decide, by decide, by decide,
    cost_finite_iff_possible (banana_fresh 3) banana_tree [50] 54 rfl rfl banana_tree_built
      log_cost_range_laws log_cost_finite_laws (by decide) (by decide) (by decide)
      (by decide) (by decide)⟩


section PruneWalk

variable {C : Type} [T9Math C]

theorem find_node_self (a s : Nat) (p : C) (cs : List (t9_search_node_t C)) :
    find_node a (.mk a s p cs) = some (.mk a s p cs) := by
  simp only [find_node, if_true]

theorem chain_to_reverse (a : Nat) (f : frame C) (ctx : List (frame C)) :
    (chain_to a (f :: ctx)).reverse = a :: (chain_to f.addr ctx).reverse := by
  simp only [chain_to, List.reverse_append, List.reverse_cons, List.reverse_nil,
    List.nil_append, List.singleton_append]

theorem close_up_eq_walk (ctx : List (frame C)) :
    ∀ (f : frame C) (a s : Nat) (p : C) (cs : List (t9_search_node_t C)),
      (node_addrs (plug (f :: ctx) (.mk a s p cs))).Nodup →
      close_up a s p cs (f :: ctx) =
        spec_prune_walk (chain_to a (f :: ctx)).reverse (plug (f :: ctx) (.mk a s p cs)) := by
  induction ctx with
  | nil =>
    intro f a s p cs hnd
    rw [chain_to_reverse]
    simp only [spec_prune_walk,
      plug_find [f] (.mk a s p cs) (.mk a s p cs) a (find_node_self a s p cs) hnd]
    cases cs with
    | nil =>
      have hleaf : t9_search_node_is_leaf (t9_search_node_t.mk a s p ([] : List (t9_search_node_t C))) = true := by
        simp [t9_search_node_is_leaf, t9_search_node_t.children2]
      rw [if_pos hleaf]
      have hrm := plug_remove_hole f [] (.mk a s p []) hnd
      simp only [t9_search_node_t.addr] at hrm
      rw [hrm]
      simp only [close_up, chain_to, List.reverse_nil, spec_prune_walk, plug]
    | cons c cs1 =>
      have hleaf : ¬ t9_search_node_is_leaf (t9_search_node_t.mk a s p (c :: cs1)) = true := by
        simp [t9_search_node_is_leaf, t9_search_node_t.children2]
      rw [if_neg hleaf]
      exact close_up_of_ne a s p (c :: cs1) [f] (by simp)
  | cons g ctx1 ih =>
    intro f a s p cs hnd
    rw [chain_to_reverse]
    simp only [spec_prune_walk,
      plug_find (f :: g :: ctx1) (.mk a s p cs) (.mk a s p cs) a (find_node_self a s p cs) hnd]
    cases cs with
    | nil =>
      have hleaf : t9_search_node_is_leaf (t9_search_node_t.mk a s p ([] : List (t9_search_node_t C))) = true := by
        simp [t9_search_node_is_leaf, t9_search_node_t.children2]
      rw [if_pos hleaf]
      have hrm := plug_remove_hole f (g :: ctx1) (.mk a s p []) hnd
      simp only [t9_search_node_t.addr] at hrm
      rw [hrm]
      have hnd2 : (node_addrs (plug (g :: ctx1)
          (.mk f.addr f.symbol f.probability (f.lefts ++ f.rights)))).Nodup := by
        refine List.Nodup.sublist ?_ hnd
        show (node_addrs (plug (g :: ctx1) _)).Sublist
          (node_addrs (plug (g :: ctx1)
            (.mk f.addr f.symbol f.probability (f.lefts ++ .mk a s p [] :: f.rights))))
        apply plug_sublist
        rw [node_addrs_frame]
        simp only [node_addrs, node_addrs_list_append]
        refine List.Sublist.cons₂ _ (List.Sublist.append (List.Sublist.refl _) ?_)
        exact List.sublist_append_right _ _
      rw [← ih g f.addr f.symbol f.probability (f.lefts ++ f.rights) hnd2]
      simp only [close_up]
    | cons c cs1 =>
      have hleaf : ¬ t9_search_node_is_leaf (t9_search_node_t.mk a s p (c :: cs1)) = true := by
        simp [t9_search_node_is_leaf, t9_search_node_t.children2]
      rw [if_neg hleaf]
      exact close_up_of_ne a s p (c :: cs1) (f :: g :: ctx1) (by simp)

theorem plug_children (F : List (frame C)) :
    ∀ (a s : Nat) (p : C) (cs : List (t9_search_node_t C)),
      (node_addrs (plug F (.mk a s p cs))).Nodup →
      child_addrs (plug F (.mk a s p cs)) a = cs.map t9_search_node_t.addr ∧
        chain_children (plug F (.mk a s p cs)) a F := by
  induction F with
  | nil =>
    intro a s p cs _
    refine ⟨?_, trivial⟩
    simp only [plug, child_addrs, find_node_self, t9_search_node_t.children2]
  | cons f ctx ih =>
    intro a s p cs hnd
    have h := ih f.addr f.symbol f.probability (f.lefts ++ .mk a s p cs :: f.rights) hnd
    refine ⟨?_, ?_, h.2⟩
    · simp only [child_addrs,
        plug_find (f :: ctx) (.mk a s p cs) (.mk a s p cs) a (find_node_self a s p cs) hnd,
        t9_search_node_t.children2]
    · have := h.1
      simp only [List.map_append, List.map_cons, t9_search_node_t.addr] at this
      exact this

theorem removed_chain_spec (R : t9_search_node_t C) (ctx : List (frame C)) :
    ∀ (x : Nat) (l r : List (t9_search_node_t C)) (rem : List Nat),
      child_addrs R x =
        l.map t9_search_node_t.addr ++ rem.take 1 ++ r.map t9_search_node_t.addr →
      sole_chain R rem → chain_children R x ctx →
      ∃ kept, chain_to x ctx ++ rem = kept ++ (removed_chain x (l ++ r) ctx ++ rem) ∧
        sole_chain R (removed_chain x (l ++ r) ctx ++ rem) ∧
        ∀ y, kept.getLast? = some y →
          ¬ sole_chain R (y :: (removed_chain x (l ++ r) ctx ++ rem)) := by
  induction ctx with
  | nil =>
    intro x l r rem _ hrem _
    refine ⟨[], ?_, ?_, ?_⟩
    · simp only [chain_to, removed_chain, List.nil_append]
    · simpa only [removed_chain, List.nil_append] using hrem
    · intro y hy
      simp at hy
  | cons f ctx1 ih =>
    intro x l r rem hx hrem hch
    obtain ⟨hf, hrest⟩ := hch
    cases hlr : l ++ r with
    | nil =>
      have hl : l = [] := (List.append_eq_nil.mp hlr).1
      have hr : r = [] := (List.append_eq_nil.mp hlr).2
      subst hl hr
      simp only [List.map_nil, List.nil_append, List.append_nil] at hx
      have hsole : sole_chain R (x :: rem) := by
        cases rem with
        | nil => simpa [sole_chain] using hx
        | cons b t =>
          simp only [sole_chain]
          exact ⟨by simpa using hx, hrem⟩
      obtain ⟨kept, hk, hs, hmax⟩ := ih f.addr f.lefts f.rights (x :: rem)
        (by simpa using hf) hsole hrest
      refine ⟨kept, ?_, ?_, ?_⟩
      · simp only [chain_to, removed_chain, List.append_assoc, List.singleton_append]
        exact hk
      · simpa only [removed_chain, List.append_assoc, List.singleton_append] using hs
      · intro y hy
        simpa only [removed_chain, List.append_assoc, List.singleton_append] using hmax y hy
    | cons o os =>
      refine ⟨chain_to x (f :: ctx1), ?_, ?_, ?_⟩
      · simp only [removed_chain, List.nil_append]
      · simpa only [removed_chain, List.nil_append] using hrem
      · intro y hy
        simp only [chain_to, List.getLast?_concat, Option.some.injEq] at hy
        subst hy
        simp only [removed_chain, List.nil_append]
        have hlen : (l.map t9_search_node_t.addr ++ rem.take 1 ++
            r.map t9_search_node_t.addr).length = (o :: os).length + (rem.take 1).length := by
          simp only [List.length_append, List.length_map]
          have := congrArg List.length hlr
          simp only [List.length_append] at this
          omega
        intro hsole
        cases rem with
        | nil =>
          simp only [sole_chain] at hsole
          rw [hx] at hsole
          rw [hsole] at hlen
          simp at hlen
        | cons b t =>
          simp only [sole_chain] at hsole
          rw [hx] at hsole
          rw [hsole.1] at hlen
          simp at hlen

theorem plug_addrs_filter (P : Nat → Bool) (ctx : List (frame C)) :
    ∀ n1 n2 : t9_search_node_t C, (node_addrs (plug ctx n2)).Nodup →
      node_addrs n1 = (node_addrs n2).filter P →
      (∀ b ∈ node_addrs (plug ctx n2), b ∉ node_addrs n2 → P b = true) →
      node_addrs (plug ctx n1) = (node_addrs (plug ctx n2)).filter P := by
  induction ctx with
  | nil => intro n1 n2 _ h _; exact h
  | cons g ctx1 ih =>
    intro n1 n2 hnd h hP
    simp only [plug] at hnd hP ⊢
    have hnd2 := plug_nodup_inner ctx1 _ hnd
    have hsub : ∀ b ∈ node_addrs
        (t9_search_node_t.mk g.addr g.symbol g.probability (g.lefts ++ n2 :: g.rights)),
        b ∈ node_addrs (plug ctx1
          (t9_search_node_t.mk g.addr g.symbol g.probability (g.lefts ++ n2 :: g.rights))) := by
      intro b hb
      have := plug_sublist ctx1
        (t9_search_node_t.mk g.addr g.symbol g.probability (g.lefts ++ n2 :: g.rights))
        (t9_search_node_t.mk g.addr g.symbol g.probability (g.lefts ++ n2 :: g.rights))
        (List.Sublist.refl _)
      clear this
      have hfind := find_node_some _ b hb
      obtain ⟨n, hn⟩ := hfind
      exact find_node_mem _ n b (plug_find ctx1 _ n b hn hnd)
    apply ih _ _ hnd
    · rw [node_addrs_frame, node_addrs_frame, h]
      rw [node_addrs_frame] at hnd2
      have hout : ∀ b, b = g.addr ∨ b ∈ node_addrs_list g.lefts ∨ b ∈ node_addrs_list g.rights →
          P b = true := by
        intro b hb
        have hbn : b ∉ node_addrs n2 := by
          intro hin
          have hd := frame_disjoint g.addr g.symbol g.probability g.lefts g.rights n2 b
            (by rw [node_addrs_frame]; exact hnd2) hin
          rcases hb with hb | hb | hb
          · exact hd.1 hb.symm
          · exact hd.2.1 hb
          · exact hd.2.2 hb
        apply hP b _ hbn
        apply hsub
        rw [node_addrs_frame]
        rcases hb with hb | hb | hb
        · rw [hb]; simp
        · simp [hb]
        · simp [hb]
      simp only [List.filter_cons, hout g.addr (Or.inl rfl), if_true, List.filter_append]
      rw [List.filter_eq_self.mpr (fun b hb => hout b (Or.inr (Or.inl hb))),
        List.filter_eq_self.mpr (fun b hb => hout b (Or.inr (Or.inr hb)))]
    · intro b hb hbn
      apply hP b hb
      intro hin
      apply hbn
      rw [node_addrs_frame]
      simp [hin]

theorem frame_addrs_without_leaf (f : frame C) (a s : Nat) (p : C)
    (hnd : (node_addrs (t9_search_node_t.mk f.addr f.symbol f.probability
      (f.lefts ++ .mk a s p [] :: f.rights))).Nodup) :
    node_addrs (t9_search_node_t.mk f.addr f.symbol f.probability (f.lefts ++ f.rights)) =
      (node_addrs (t9_search_node_t.mk f.addr f.symbol f.probability
        (f.lefts ++ .mk a s p [] :: f.rights))).filter (fun b => decide (b ∉ [a])) := by
  have hd := frame_disjoint f.addr f.symbol f.probability f.lefts f.rights
    (.mk a s p []) a hnd (by simp [node_addrs])
  have e1 : (node_addrs_list f.lefts).filter (fun b => decide (b ∉ [a])) =
      node_addrs_list f.lefts := by
    apply List.filter_eq_self.mpr
    intro b hb
    have : b ≠ a := fun h => hd.2.1 (h ▸ hb)
    simpa using this
  have e2 : (node_addrs_list f.rights).filter (fun b => decide (b ∉ [a])) =
      node_addrs_list f.rights := by
    apply List.filter_eq_self.mpr
    intro b hb
    have : b ≠ a := fun h => hd.2.2 (h ▸ hb)
    simpa using this
  have e3 : decide (f.addr ∉ [a]) = true := by simpa using hd.1
  have e4 : decide (a ∉ [a]) = false := by simp
  rw [node_addrs_frame]
  simp only [node_addrs, node_addrs_list, List.append_nil, node_addrs_list_append,
    List.filter_cons, List.filter_append, List.filter_nil, e1, e2, e3, e4, if_true,
    Bool.false_eq_true, if_false, List.nil_append]

theorem close_up_addrs (ctx : List (frame C)) :
    ∀ (f : frame C) (a s : Nat) (p : C) (cs : List (t9_search_node_t C)),
      (node_addrs (plug (f :: ctx) (.mk a s p cs))).Nodup →
      node_addrs (close_up a s p cs (f :: ctx)) =
        (node_addrs (plug (f :: ctx) (.mk a s p cs))).filter
          (fun b => decide (b ∉ removed_chain a cs (f :: ctx))) := by
  induction ctx with
  | nil =>
    intro f a s p cs hnd
    cases cs with
    | cons c cs1 =>
      rw [close_up_of_ne a s p (c :: cs1) [f] (by simp)]
      simp [removed_chain]
    | nil =>
      simp only [close_up, removed_chain, List.nil_append]
      have h := plug_addrs_filter (fun b => decide (b ∉ [a])) []
        (.mk f.addr f.symbol f.probability (f.lefts ++ f.rights))
        (.mk f.addr f.symbol f.probability (f.lefts ++ .mk a s p [] :: f.rights))
        (by simpa only [plug] using hnd) ?_ ?_
      · simpa only [plug] using h
      · simp only [plug] at hnd
        exact frame_addrs_without_leaf f a s p hnd
      · intro b _ hbn
        have : b ≠ a := by
          intro h
          apply hbn
          rw [node_addrs_frame, h]
          simp [node_addrs]
        simpa using this
  | cons g ctx1 ih =>
    intro f a s p cs hnd
    cases cs with
    | cons c cs1 =>
      rw [close_up_of_ne a s p (c :: cs1) (f :: g :: ctx1) (by simp)]
      simp [removed_chain]
    | nil =>
      have hnd2 : (node_addrs (plug (g :: ctx1)
          (.mk f.addr f.symbol f.probability (f.lefts ++ f.rights)))).Nodup := by
        refine List.Nodup.sublist ?_ hnd
        show (node_addrs (plug (g :: ctx1) _)).Sublist
          (node_addrs (plug (g :: ctx1)
            (.mk f.addr f.symbol f.probability (f.lefts ++ .mk a s p [] :: f.rights))))
        apply plug_sublist
        rw [node_addrs_frame]
        simp only [node_addrs, node_addrs_list_append]
        refine List.Sublist.cons₂ _ (List.Sublist.append (List.Sublist.refl _) ?_)
        exact List.sublist_append_right _ _
      have h1 := ih g f.addr f.symbol f.probability (f.lefts ++ f.rights) hnd2
      have hinner := plug_nodup_inner (g :: ctx1) _ hnd
      have hd := frame_disjoint f.addr f.symbol f.probability f.lefts f.rights
        (.mk a s p []) a (by
          have := plug_nodup_inner (g :: ctx1)
            (.mk f.addr f.symbol f.probability (f.lefts ++ .mk a s p [] :: f.rights))
            (by simpa only [plug] using hnd)
          exact this) (by simp [node_addrs])
      have h2 := plug_addrs_filter (fun b => decide (b ∉ [a])) (g :: ctx1)
        (.mk f.addr f.symbol f.probability (f.lefts ++ f.rights))
        (.mk f.addr f.symbol f.probability (f.lefts ++ .mk a s p [] :: f.rights))
        (by simpa only [plug] using hnd) (frame_addrs_without_leaf f a s p hinner) (by
          intro b _ hbn
          have : b ≠ a := by
            intro h
            apply hbn
            rw [node_addrs_frame, h]
            simp [node_addrs]
          simpa using this)
      have hcu : close_up a s p [] (f :: g :: ctx1) =
          close_up f.addr f.symbol f.probability (f.lefts ++ f.rights) (g :: ctx1) := by
        simp only [close_up]
      rw [hcu, h1, h2]
      have hpl : plug (f :: g :: ctx1) (t9_search_node_t.mk a s p []) =
          plug (g :: ctx1)
            (.mk f.addr f.symbol f.probability (f.lefts ++ .mk a s p [] :: f.rights)) := by
        simp only [plug]
      rw [hpl, List.filter_filter]
      apply List.filter_congr
      intro b _
      simp only [removed_chain, List.mem_append, List.mem_singleton, not_or, decide_not,
        Bool.and_eq_true, Bool.not_eq_true', decide_eq_false_iff_not, Bool.decide_and]

end PruneWalk

/-- C30: `t9_model_prune_path` on a path that leads from below the root down to a
node of a tree whose level index agrees with it (the tree is given as the node
and the frames `f :: ctx` on the way up to the root).  The call returns
T9_SUCCESS; the tree it leaves is the tree of the upward walk of the spec
(`spec_prune_walk`: from the deepest node up, a node is detached when it has no
children at that moment, and the walk stops at the first node that still has
children), with the allocator and the number of level lists as before and the
level index in agreement with the new tree, so a detached node is gone from its
level list as well.  The detached nodes are `removed`, the longest suffix of the
path whose nodes have no children other than their successor (`sole_chain`):
the path is `kept ++ removed`, `removed` is such a chain, the suffix that is one
node longer is not, and the nodes of the new tree are the nodes of the old tree
without those of `removed`. -/
theorem prune_path_removes_longest_suffix {C : Type} [T9Math C] (m : t9_model_t C)
    (tree : t9_search_tree_t C) (f : frame C) (ctx : List (frame C)) (a s : Nat) (p : C)
    (cs : List (t9_search_node_t C)) (path : t9_path_t C)
    (hm : m.search_tree = some tree) (hroot : tree.root = plug (f :: ctx) (.mk a s p cs))
    (hs : tree_synced tree) (hlen : ctx.length < tree.level_table2.length)
    (hpath : path.nodes = chain_to a (f :: ctx)) :
    ∃ tree1 kept removed,
      t9_model_prune_path m path =
        .ok (.T9_SUCCESS, { m with search_tree := some tree1 }) ∧
      tree1.root = spec_prune_walk path.nodes.reverse tree.root ∧
      path.nodes = kept ++ removed ∧ sole_chain tree.root removed ∧
      (∀ x, kept.getLast? = some x → ¬ sole_chain tree.root (x :: removed)) ∧
      node_addrs tree1.root =
        (node_addrs tree.root).filter (fun b => decide (b ∉ removed)) ∧
      tree1.next_addr = tree.next_addr ∧
      tree1.level_table2.length = tree.level_table2.length ∧ tree_synced tree1 := by
  have hnd : (node_addrs (plug (f :: ctx) (.mk a s p cs))).Nodup := by
    rw [← hroot]; exact hs.1
  obtain ⟨tree1, hrun, hr1, hnext, hlen1, hs1⟩ :=
    prune_loop_close ctx f a s p cs m tree path [] hm hroot hs hlen
      (by rw [hpath]; simp only [chain_to])
  obtain ⟨hca, hcc⟩ := plug_children (f :: ctx) a s p cs hnd
  obtain ⟨kept, hk, hsole, hmax⟩ := removed_chain_spec
    (plug (f :: ctx) (.mk a s p cs)) (f :: ctx) a cs [] []
    (by simpa using hca) trivial hcc
  simp only [List.append_nil] at hk hsole hmax
  have hplen : path.nodes.length = ctx.length + 1 := by
    rw [hpath, chain_to_length]; rfl
  refine ⟨tree1, kept, removed_chain a cs (f :: ctx), ?_, ?_, ?_, ?_, ?_, ?_, hnext, hlen1,
    hs1⟩
  · unfold t9_model_prune_path
    rw [if_pos (by omega)]
    have : path.nodes.length - 1 = ctx.length := by omega
    rw [this, hrun]
  · rw [hr1, hpath, hroot]
    exact close_up_eq_walk ctx f a s p cs hnd
  · rw [hpath]; exact hk
  · rw [hroot]; exact hsole
  · rw [hroot]; exact hmax
  · rw [hr1, hroot]
    exact close_up_addrs ctx f a s p cs hnd

/-- Witness of C30: the path to the leaf `a` of the tree of two leaves. -/
theorem prune_path_removes_longest_suffix_witness :
    two_leaf_model.search_tree = some two_leaf_tree ∧
      two_leaf_tree.root =
        plug ((⟨0, 32, 0, [], [.mk 2 98 (.val (1 / 2)) []]⟩ : frame LogCost) :: [])
          (.mk 1 97 (.val (1 / 4)) []) ∧
      tree_synced two_leaf_tree ∧
      ([] : List (frame LogCost)).length < two_leaf_tree.level_table2.length ∧
      (⟨.val (1 / 4), [1]⟩ : t9_path_t LogCost).nodes =
        chain_to 1 ((⟨0, 32, 0, [], [.mk 2 98 (.val (1 / 2)) []]⟩ : frame LogCost) :: []) ∧
      ∃ tree1 kept removed,
        t9_model_prune_path two_leaf_model (⟨.val (1 / 4), [1]⟩ : t9_path_t LogCost) =
          .ok (.T9_SUCCESS, { two_leaf_model with search_tree := some tree1 }) ∧
        tree1.root = spec_prune_walk
          (⟨.val (1 / 4), [1]⟩ : t9_path_t LogCost).nodes.reverse two_leaf_tree.root ∧
        (⟨.val (1 / 4), [1]⟩ : t9_path_t LogCost).nodes = kept ++ removed ∧
        sole_chain two_leaf_tree.root removed ∧
        (∀ x, kept.getLast? = some x → ¬ sole_chain two_leaf_tree.root (x :: removed)) ∧
        node_addrs tree1.root =
          (node_addrs two_leaf_tree.root).filter (fun b => decide (b ∉ removed)) ∧
        tree1.next_addr = two_leaf_tree.next_addr ∧
        tree1.level_table2.length = two_leaf_tree.level_table2.length ∧
        tree_synced tree1 :=
  ⟨rfl, rfl, ⟨tree_ok_two_leaf.1, tree_ok_two_leaf.2.1⟩, by decide, rfl,
    prune_path_removes_longest_suffix two_leaf_model two_leaf_tree
      ⟨0, 32, 0, [], [.mk 2 98 (.val (1 / 2)) []]⟩ [] 1 97 (.val (1 / 4)) []
      ⟨.val (1 / 4), [1]⟩ rfl rfl ⟨tree_ok_two_leaf.1, tree_ok_two_leaf.2.1⟩ (by decide) rfl⟩

section StableSort

variable {C : Type} [T9Math C]

theorem filter_ordered_insert_neg (f : t9_path_t C → Bool) (a : t9_path_t C) (hf : f a = false) :
    ∀ s : List (t9_path_t C),
      (List.orderedInsert (fun a b : t9_path_t C => a.probability ≤ b.probability) a s).filter f =
        s.filter f := by
  intro s
  induction s with
  | nil => simp [hf]
  | cons b s ih =>
    simp only [List.orderedInsert]
    split_ifs with h
    · simp [List.filter_cons, hf]
    · simp only [List.filter_cons, ih]

theorem ordered_insert_le_all (a : t9_path_t C) :
    ∀ l : List (t9_path_t C), (∀ b ∈ l, a.probability ≤ b.probability) →
      List.orderedInsert (fun a b : t9_path_t C => a.probability ≤ b.probability) a l = a :: l := by
  intro l h
  cases l with
  | nil => rfl
  | cons b l =>
    simp only [List.orderedInsert]
    rw [if_pos (h b (List.mem_cons_self _ _))]

theorem filter_ordered_insert_pos (f : t9_path_t C → Bool) (a : t9_path_t C) (hf : f a = true) :
    ∀ s : List (t9_path_t C), paths_sorted s →
      (List.orderedInsert (fun a b : t9_path_t C => a.probability ≤ b.probability) a s).filter f =
        List.orderedInsert (fun a b : t9_path_t C => a.probability ≤ b.probability) a
          (s.filter f) := by
  intro s
  induction s with
  | nil => intro _; simp [hf]
  | cons b s ih =>
    intro hs
    have hs2 : paths_sorted s := (List.pairwise_cons.1 hs).2
    have hb : ∀ x ∈ s, b.probability ≤ x.probability := (List.pairwise_cons.1 hs).1
    simp only [List.orderedInsert]
    split_ifs with h
    · rw [List.filter_cons, if_pos hf]
      rw [ordered_insert_le_all a ((b :: s).filter f)]
      intro x hx
      have hx2 := (List.mem_filter.1 hx).1
      rcases List.mem_cons.1 hx2 with hx3 | hx3
      · rw [hx3]; exact h
      · exact le_trans h (hb x hx3)
    · cases hfb : f b with
      | true =>
        rw [List.filter_cons, if_pos hfb, List.filter_cons, if_pos hfb, ih hs2]
        simp only [List.orderedInsert]
        rw [if_neg h]
      | false =>
        rw [List.filter_cons, if_neg (by simp [hfb]), List.filter_cons,
          if_neg (by simp [hfb]), ih hs2]

theorem insertion_sort_sorted (l : List (t9_path_t C)) :
    paths_sorted (l.insertionSort (fun a b => a.probability ≤ b.probability)) := by
  haveI : IsTotal (t9_path_t C) (fun a b => a.probability ≤ b.probability) :=
    ⟨fun a b => le_total _ _⟩
  haveI : IsTrans (t9_path_t C) (fun a b => a.probability ≤ b.probability) :=
    ⟨fun a b c => le_trans⟩
  exact List.sorted_insertionSort _ l

theorem filter_insertion_sort (f : t9_path_t C → Bool) :
    ∀ l : List (t9_path_t C),
      (l.filter f).insertionSort (fun a b => a.probability ≤ b.probability) =
        (l.insertionSort (fun a b => a.probability ≤ b.probability)).filter f := by
  intro l
  induction l with
  | nil => rfl
  | cons a l ih =>
    have hs := insertion_sort_sorted l
    cases hfa : f a with
    | true =>
      rw [List.filter_cons, if_pos hfa]
      simp only [List.insertionSort]
      rw [ih, filter_ordered_insert_pos f a hfa _ hs]
    | false =>
      rw [List.filter_cons, if_neg (by simp [hfa])]
      simp only [List.insertionSort]
      rw [ih, filter_ordered_insert_neg f a hfa]

theorem take_filter_of_all (f : t9_path_t C → Bool) (K : Nat) :
    ∀ s : List (t9_path_t C), (∀ x ∈ s.take K, f x = true) →
      (s.filter f).take K = s.take K := by
  induction K with
  | zero => intro s _; simp
  | succ K ih =>
    intro s h
    cases s with
    | nil => rfl
    | cons a s =>
      have ha : f a = true := h a (by simp)
      rw [List.filter_cons, if_pos ha, List.take_succ_cons, List.take_succ_cons,
        ih s (fun x hx => h x (by simp [hx]))]

theorem bubble_from_perm (l : List (t9_path_t C)) :
    ∀ p : t9_path_t C, (bubble_from p l).Perm (p :: l) := by
  induction l with
  | nil => intro p; exact List.Perm.refl _
  | cons q rest ih =>
    intro p
    simp only [bubble_from]
    split_ifs with h
    · exact ((ih p).cons q).trans (List.Perm.swap p q rest)
    · exact (ih q).cons p

theorem bubble_pass_perm (l : List (t9_path_t C)) : (bubble_pass l).Perm l := by
  cases l with
  | nil => exact List.Perm.refl _
  | cons p rest => exact bubble_from_perm rest p

theorem iterate_pass_perm (n : Nat) :
    ∀ l : List (t9_path_t C), (bubble_pass^[n] l).Perm l := by
  induction n with
  | zero => intro l; exact List.Perm.refl _
  | succ n ih =>
    intro l
    rw [Function.iterate_succ_apply]
    exact (ih _).trans (bubble_pass_perm l)

theorem sort_paths_perm (paths : List (t9_path_t C)) : (sort_paths paths).Perm paths := by
  unfold sort_paths
  split_ifs with h0
  · exact List.Perm.refl _
  · rw [sort_outer_eq _ _ paths (by omega)]
    exact iterate_pass_perm _ paths

theorem bubble_from_filter_cost (c : C) (l : List (t9_path_t C)) :
    ∀ p : t9_path_t C,
      (bubble_from p l).filter (fun q => decide (q.probability = c)) =
        (p :: l).filter (fun q => decide (q.probability = c)) := by
  induction l with
  | nil => intro p; rfl
  | cons q rest ih =>
    intro p
    simp only [bubble_from]
    split_ifs with h
    · rw [List.filter_cons, ih p]
      by_cases hq : q.probability = c
      · have hp : ¬ p.probability = c := fun hp => by
          rw [hq, hp] at h; exact lt_irrefl _ h
        simp [List.filter_cons, hq, hp]
      · simp [List.filter_cons, hq]
    · rw [List.filter_cons, ih q]
      simp only [List.filter_cons]

theorem bubble_pass_filter_cost (c : C) (l : List (t9_path_t C)) :
    (bubble_pass l).filter (fun q => decide (q.probability = c)) =
      l.filter (fun q => decide (q.probability = c)) := by
  cases l with
  | nil => rfl
  | cons p rest => exact bubble_from_filter_cost c rest p

theorem iterate_pass_filter_cost (c : C) (n : Nat) :
    ∀ l : List (t9_path_t C),
      (bubble_pass^[n] l).filter (fun q => decide (q.probability = c)) =
        l.filter (fun q => decide (q.probability = c)) := by
  induction n with
  | zero => intro l; rfl
  | succ n ih =>
    intro l
    rw [Function.iterate_succ_apply, ih, bubble_pass_filter_cost]

theorem sort_paths_filter_cost (c : C) (paths : List (t9_path_t C)) :
    (sort_paths paths).filter (fun q => decide (q.probability = c)) =
      paths.filter (fun q => decide (q.probability = c)) := by
  unfold sort_paths
  split_ifs with h0
  · rfl
  · rw [sort_outer_eq _ _ paths (by omega)]
    exact iterate_pass_filter_cost c _ paths

theorem insertion_sort_filter_cost (c : C) (l : List (t9_path_t C)) :
    (l.insertionSort (fun a b => a.probability ≤ b.probability)).filter
        (fun q => decide (q.probability = c)) =
      l.filter (fun q => decide (q.probability = c)) := by
  rw [← filter_insertion_sort]
  apply List.Sorted.insertionSort_eq
  apply List.Pairwise.imp_of_mem _ (List.pairwise_of_forall (fun _ _ => trivial))
  intro a b ha hb _
  have h1 := (List.mem_filter.1 ha).2
  have h2 := (List.mem_filter.1 hb).2
  simp only [decide_eq_true_eq] at h1 h2
  rw [h1, h2]

theorem stable_sort_unique :
    ∀ l1 l2 : List (t9_path_t C), paths_sorted l1 → paths_sorted l2 →
      (∀ c : C, l1.filter (fun q => decide (q.probability = c)) =
        l2.filter (fun q => decide (q.probability = c))) → l1 = l2 := by
  intro l1
  induction l1 with
  | nil =>
    intro l2 _ _ h
    cases l2 with
    | nil => rfl
    | cons b t2 =>
      have := h b.probability
      simp [List.filter_cons] at this
  | cons a t1 ih =>
    intro l2 h1 h2 h
    cases l2 with
    | nil =>
      have := h a.probability
      simp [List.filter_cons] at this
    | cons b t2 =>
      have ha : a ∈ b :: t2 := by
        have h3 := h a.probability
        have : a ∈ (a :: t1).filter (fun q => decide (q.probability = a.probability)) := by
          simp [List.filter_cons]
        rw [h3] at this
        exact (List.mem_filter.1 this).1
      have hb : b ∈ a :: t1 := by
        have h3 := h b.probability
        have : b ∈ (b :: t2).filter (fun q => decide (q.probability = b.probability)) := by
          simp [List.filter_cons]
        rw [← h3] at this
        exact (List.mem_filter.1 this).1
      have hab : a.probability = b.probability := by
        apply le_antisymm
        · rcases List.mem_cons.1 hb with e | e
          · rw [e]
          · exact (List.pairwise_cons.1 h1).1 b e
        · rcases List.mem_cons.1 ha with e | e
          · rw [e]
          · exact (List.pairwise_cons.1 h2).1 a e
      have heq : a = b := by
        have h4 := h a.probability
        rw [List.filter_cons, if_pos (by simp), List.filter_cons, if_pos (by simp [hab])] at h4
        exact (List.cons.inj h4).1
      subst heq
      congr 1
      apply ih t2 (List.pairwise_cons.1 h1).2 (List.pairwise_cons.1 h2).2
      intro c
      have h4 := h c
      by_cases hc2 : a.probability = c
      · rw [List.filter_cons, if_pos (by simp [hc2]), List.filter_cons,
          if_pos (by simp [hc2])] at h4
        exact (List.cons.inj h4).2
      · rw [List.filter_cons, if_neg (by simp [hc2]), List.filter_cons,
          if_neg (by simp [hc2])] at h4
        exact h4

theorem sort_paths_eq_insertion_sort (paths : List (t9_path_t C)) :
    sort_paths paths = paths.insertionSort (fun a b => a.probability ≤ b.probability) := by
  apply stable_sort_unique _ _ (sort_paths_sorted paths) (insertion_sort_sorted paths)
  intro c
  rw [sort_paths_filter_cost, insertion_sort_filter_cost]

end StableSort

/-- C31: `t9_model_sort_paths` changes the kept list only, for every model.  The
new list is a permutation of the old one in which no entry costs more than a
later one, in which the entries of any one cost stand in the order they had
before (so the sort is stable, also among entries of infinite cost) and in which
no entry of infinite cost stands before an entry of finite cost; its first entry
costs no more than any entry; it is the list Mathlib's stable insertion sort
returns. -/
theorem sort_paths_stable_ascending {C : Type} [T9Math C] (model : t9_model_t C) :
    t9_model_sort_paths model =
        { model with paths := (t9_model_sort_paths model).paths } ∧
      (t9_model_sort_paths model).paths.Perm model.paths ∧
      (∀ i j p q, i < j → (t9_model_sort_paths model).paths.get? i = some p →
        (t9_model_sort_paths model).paths.get? j = some q →
        p.probability ≤ q.probability) ∧
      (∀ c : C, (t9_model_sort_paths model).paths.filter
          (fun q => decide (q.probability = c)) =
        model.paths.filter (fun q => decide (q.probability = c))) ∧
      (∀ i j p q, i < j → (t9_model_sort_paths model).paths.get? i = some p →
        (t9_model_sort_paths model).paths.get? j = some q →
        q.probability < infinite_cost → p.probability < infinite_cost) ∧
      (∀ best, (t9_model_sort_paths model).paths.head? = some best →
        ∀ q ∈ model.paths, best.probability ≤ q.probability) ∧
      (t9_model_sort_paths model).paths =
        model.paths.insertionSort (fun a b => a.probability ≤ b.probability) := by
  have hs : paths_sorted (sort_paths model.paths) := sort_paths_sorted model.paths
  have hle : ∀ i j p q, i < j → (sort_paths model.paths).get? i = some p →
      (sort_paths model.paths).get? j = some q → p.probability ≤ q.probability := by
    intro i j p q hij hp hq
    obtain ⟨hi, hpi⟩ := List.get?_eq_some.1 hp
    obtain ⟨hj, hqj⟩ := List.get?_eq_some.1 hq
    rw [← hpi, ← hqj]
    exact List.pairwise_iff_get.1 hs ⟨i, hi⟩ ⟨j, hj⟩ hij
  refine ⟨rfl, sort_paths_perm model.paths, hle, fun c => sort_paths_filter_cost c model.paths,
    ?_, ?_, sort_paths_eq_insertion_sort model.paths⟩
  · intro i j p q hij hp hq hfin
    exact lt_of_le_of_lt (hle i j p q hij hp hq) hfin
  · intro best hb q hq
    have hq2 : q ∈ sort_paths model.paths := (sort_paths_perm model.paths).mem_iff.2 hq
    show best.probability ≤ q.probability
    have hb2 : (sort_paths model.paths).head? = some best := hb
    cases hsp : sort_paths model.paths with
    | nil => rw [hsp] at hq2; cases hq2
    | cons x rest =>
      rw [hsp] at hb2 hq2 hs
      simp only [List.head?_cons, Option.some.injEq] at hb2
      subst hb2
      rcases List.mem_cons.1 hq2 with e | e
      · rw [e]
      · exact (List.pairwise_cons.1 hs).1 q e

/-- C34: the key `*` has the empty symbol string and the key `#` the string that
holds the space only, so the symbol set of `*` is empty and that of `#` is the
space; `t9_corpus_ctol` maps the space to `#` and maps no symbol to `*`; with
`PROBABILITY_BUTTON = 1` the press probability
`t9_corpus_tree_button_for_letter` returns for the key `*` is zero for every
symbol, and so is `press_probability`. -/
theorem star_maps_to_nothing_hash_to_space :
    t9_corpus_ltoc ('*').toNat = some [] ∧ key_symbol_set ('*').toNat = [] ∧
      t9_corpus_ltoc ('#').toNat = some [(' ').toNat] ∧
      key_symbol_set ('#').toNat = [(' ').toNat] ∧
      t9_corpus_ctol (' ').toNat = some ('#').toNat ∧
      (∀ s, t9_corpus_ctol s ≠ some ('*').toNat) ∧
      (∀ letter, t9_corpus_tree_button_for_letter ('*').toNat letter = .ok 0) ∧
      (∀ letter, press_probability ('*').toNat letter = 0) := by
  have hset : key_symbol_set ('*').toNat = [] := by decide
  refine ⟨by decide, hset, by decide, by decide, by decide, ?_, ?_, ?_⟩
  · intro s hs
    obtain ⟨set, h1, h2⟩ := (ctol_some_iff s _).1 hs
    have h3 : t9_corpus_ltoc ('*').toNat = some [] := by decide
    rw [h3] at h1
    cases h1
    simp [cstr] at h2
  · intro letter
    rw [button_for_letter_value _ _ (by decide), hset]
    simp [PROBABILITY_BUTTON]
  · intro letter
    unfold press_probability
    rw [hset]
    simp [PROBABILITY_BUTTON]

section FinalizeTwice

theorem finalize_children_count_sum (k : Nat) :
    ∀ cs : List t9_corpus_node_t, count_sum (finalized_children k cs) = count_sum cs
  | [] => rfl
  | .mk c s p gs :: rest => by
    simp only [finalized_children, finalized_child, count_sum, count_mk,
      finalize_children_count_sum k rest]

mutual
theorem finalize_child_again (k k1 : Nat) :
    ∀ n : t9_corpus_node_t, finalized_child k (finalized_child k1 n) = finalized_child k n
  | .mk c s p cs => by
    simp only [finalized_child, finalize_children_again c c cs]
theorem finalize_children_again (k k1 : Nat) :
    ∀ cs : List t9_corpus_node_t,
      finalized_children k (finalized_children k1 cs) = finalized_children k cs
  | [] => rfl
  | n :: rest => by
    simp only [finalized_children, finalize_child_again k k1 n,
      finalize_children_again k k1 rest]
end

theorem finalize_once (tree : t9_corpus_tree_t) :
    finalized_tree tree =
      ⟨.mk (tree.root.count + count_sum tree.root.children) tree.root.symbol 0
        (finalized_children (tree.root.count + count_sum tree.root.children)
          tree.root.children)⟩ := rfl

theorem finalize_twice (tree : t9_corpus_tree_t) :
    finalized_tree (finalized_tree tree) =
      ⟨.mk (tree.root.count + count_sum tree.root.children + count_sum tree.root.children)
        tree.root.symbol 0
        (finalized_children
          (tree.root.count + count_sum tree.root.children + count_sum tree.root.children)
          tree.root.children)⟩ := by
  rw [finalize_once (finalized_tree tree), finalize_once tree]
  simp only [count_mk, symbol_mk, children_mk, finalize_children_count_sum,
    finalize_children_again]

theorem finalize_children_maps (k : Nat) :
    ∀ cs : List t9_corpus_node_t,
      (finalized_children k cs).map t9_corpus_node_t.count = cs.map t9_corpus_node_t.count ∧
      (finalized_children k cs).map t9_corpus_node_t.symbol = cs.map t9_corpus_node_t.symbol ∧
      (finalized_children k cs).map t9_corpus_node_t.probability =
        cs.map (fun n => rounded_quotient FLT_MANT_DIG n.count k) ∧
      (finalized_children k cs).map t9_corpus_node_t.children =
        cs.map (fun n => finalized_children n.count n.children)
  | [] => ⟨rfl, rfl, rfl, rfl⟩
  | .mk c s p gs :: rest => by
    obtain ⟨h1, h2, h3, h4⟩ := finalize_children_maps k rest
    simp only [finalized_children, finalized_child, List.map_cons, count_mk, symbol_mk,
      probability_mk, children_mk, h1, h2, h3, h4, and_self]

mutual
theorem finalized_child_counts_pos (pc : Nat) :
    ∀ node : t9_corpus_node_t, all_nodes (fun n => 0 < n.count) node →
      all_nodes (fun n => 0 < n.count) (finalized_child pc node)
  | .mk c s p cs, h => by
    simp only [all_nodes, count_mk] at h
    simp only [finalized_child, all_nodes, count_mk]
    exact ⟨h.1, finalized_children_counts_pos c cs h.2⟩
theorem finalized_children_counts_pos (pc : Nat) :
    ∀ cs : List t9_corpus_node_t, all_nodes_list (fun n => 0 < n.count) cs →
      all_nodes_list (fun n => 0 < n.count) (finalized_children pc cs)
  | [], _ => by simp [finalized_children, all_nodes_list]
  | child :: rest, h => by
    simp only [all_nodes_list] at h
    simp only [finalized_children, all_nodes_list]
    exact ⟨finalized_child_counts_pos pc child h.1, finalized_children_counts_pos pc rest h.2⟩
end

theorem count_sum_pos_of_counts_pos (cs : List t9_corpus_node_t) (hne : cs ≠ [])
    (h : all_nodes_list (fun n => 0 < n.count) cs) : 0 < count_sum cs := by
  cases cs with
  | nil => exact absurd rfl hne
  | cons child rest =>
    simp only [all_nodes_list] at h
    obtain ⟨c1, s1, p1, cs1⟩ := child
    simp only [all_nodes, count_mk] at h
    simp only [count_sum, count_mk]
    omega

end FinalizeTwice

/-- C39 (the defect): `t9_corpus_tree_finalize` is not idempotent.  Its first
loop, commented `Count children of root node`, adds the counts of the children
to the count of the root without clearing it first.  On a built trie, whose
root count already is that sum, a second call returns a trie whose root count
is twice the sum of the counts of its children, and the children of the root
store the quotient by the doubled count: whenever the root has children the two
tries differ, and the probabilities of the children of the root, which summed
to 1 up to `2 ^ -22`, now sum to 1/2 up to `2 ^ -23`.  Counts, symbols and
subtrees below the root are as after the first call. -/
theorem second_finalize_doubles_root_count (corpus : corpus_t) (N : Nat) (hN : 1 ≤ N)
    (hlen : N < corpus.train_buffer.length)
    (hsize : corpus.train_buffer.length < SIZE_MOD) :
    ∃ tree1 tree2, build_corpus_tree corpus N = .ok tree1 ∧
      t9_corpus_tree_finalize tree1 = .ok tree2 ∧
      tree1.root.count = count_sum tree1.root.children ∧
      tree2.root.count = 2 * count_sum tree1.root.children ∧
      count_sum tree2.root.children = count_sum tree1.root.children ∧
      tree2.root.symbol = tree1.root.symbol ∧
      tree1.root.probability = 0 ∧ tree2.root.probability = 0 ∧
      tree1.root.children.map t9_corpus_node_t.probability =
        tree1.root.children.map
          (fun n => rounded_quotient FLT_MANT_DIG n.count tree1.root.count) ∧
      tree2.root.children.map t9_corpus_node_t.probability =
        tree1.root.children.map
          (fun n => rounded_quotient FLT_MANT_DIG n.count (2 * tree1.root.count)) ∧
      tree2.root.children.map t9_corpus_node_t.count =
        tree1.root.children.map t9_corpus_node_t.count ∧
      tree2.root.children.map t9_corpus_node_t.symbol =
        tree1.root.children.map t9_corpus_node_t.symbol ∧
      tree2.root.children.map t9_corpus_node_t.children =
        tree1.root.children.map t9_corpus_node_t.children ∧
      (tree1.root.children ≠ [] →
        tree2 ≠ tree1 ∧ tree2.root.count ≠ count_sum tree2.root.children ∧
        |prob_sum tree1.root.children - 1| ≤ 1 / 2 ^ 22 ∧
        |prob_sum tree2.root.children - 1 / 2| ≤ 1 / 2 ^ 23) := by
  obtain ⟨tree0, h0⟩ := insert_ngrams_returns t9_corpus_tree_create corpus N hN hlen hsize
  have hb := build_eq corpus N tree0 h0
  have hpos := insert_ngrams_counts_pos corpus N tree0 h0
  have hc := insert_ngrams_root_count corpus N tree0 h0
  obtain ⟨⟨c, s, p, cs⟩⟩ := tree0
  simp only [count_mk] at hc
  subst hc
  simp only [children_mk] at hpos
  have hpos1 : all_nodes_list (fun n => 0 < n.count)
      (finalized_tree ⟨.mk 0 s p cs⟩).root.children := by
    simp only [finalized_tree, finalized_node, children_mk, count_mk]
    exact finalized_children_counts_pos _ cs hpos
  have h2 := tree_finalize_returns (finalized_tree ⟨.mk 0 s p cs⟩) hpos1
  refine ⟨_, _, hb, h2, ?_⟩
  rw [finalize_twice ⟨.mk 0 s p cs⟩, finalize_once ⟨.mk 0 s p cs⟩]
  simp only [count_mk, symbol_mk, probability_mk, children_mk, Nat.zero_add,
    finalize_children_count_sum]
  obtain ⟨a1, a2, a3, a4⟩ := finalize_children_maps (count_sum cs) cs
  obtain ⟨b1, b2, b3, b4⟩ := finalize_children_maps (count_sum cs + count_sum cs) cs
  have e2 : 2 * count_sum cs = count_sum cs + count_sum cs := by omega
  have hmap : ∀ k : Nat,
      (finalized_children (count_sum cs) cs).map
          (fun n => rounded_quotient FLT_MANT_DIG n.count k) =
        cs.map (fun n => rounded_quotient FLT_MANT_DIG n.count k) := by
    intro k
    have h := congrArg (List.map (fun c : Nat => rounded_quotient FLT_MANT_DIG c k)) a1
    simp only [List.map_map] at h
    exact h
  rw [e2]
  refine ⟨trivial, rfl, trivial, trivial, trivial, trivial, ?_, ?_, by rw [a1, b1],
    by rw [a2, b2], by rw [a4, b4], ?_⟩
  · rw [a3, hmap]
  · rw [b3, hmap]
  · intro hne
    have hcs : cs ≠ [] := by
      intro e
      rw [e] at hne
      exact hne rfl
    have hs : 0 < count_sum cs := count_sum_pos_of_counts_pos cs hcs hpos
    refine ⟨?_, by omega, prob_sum_finalize_one _ cs rfl hs, ?_⟩
    · intro h
      have := congrArg (fun t : t9_corpus_tree_t => t.root.count) h
      simp only [count_mk] at this
      omega
    · have h := prob_sum_finalize_children (count_sum cs + count_sum cs) (by omega) cs
      have hq : (0 : ℚ) < (count_sum cs : ℚ) := by exact_mod_cast hs
      have e : (count_sum cs : ℚ) / ((count_sum cs + count_sum cs : ℕ) : ℚ) = 1 / 2 := by
        push_cast
        field_simp
        ring
      rw [e] at h
      have e4 : (4 : ℚ) / 2 ^ FLT_MANT_DIG * (1 / 2) = 1 / 2 ^ 23 := by
        norm_num [FLT_MANT_DIG]
      rw [e4] at h
      exact h

/-- Witness of C39, the failing input: the trie of the text `banana` with `N = 2`
has the root count 4 and the probabilities 1/4, 1/2, 1/4 at the children of the
root; after a second call of `t9_corpus_tree_finalize` the root count is 8 and
the probabilities are 1/8, 1/4, 1/8. -/
theorem second_finalize_doubles_root_count_witness :
    (1 ≤ 2 ∧ 2 < banana.train_buffer.length ∧ banana.train_buffer.length < SIZE_MOD) ∧
      (∃ tree1 tree2, build_corpus_tree banana 2 = .ok tree1 ∧
        t9_corpus_tree_finalize tree1 = .ok tree2 ∧
        tree1.root.count = count_sum tree1.root.children ∧
        tree2.root.count = 2 * count_sum tree1.root.children ∧
        count_sum tree2.root.children = count_sum tree1.root.children ∧
        tree2.root.symbol = tree1.root.symbol ∧
        tree1.root.probability = 0 ∧ tree2.root.probability = 0 ∧
        tree1.root.children.map t9_corpus_node_t.probability =
          tree1.root.children.map
            (fun n => rounded_quotient FLT_MANT_DIG n.count tree1.root.count) ∧
        tree2.root.children.map t9_corpus_node_t.probability =
          tree1.root.children.map
            (fun n => rounded_quotient FLT_MANT_DIG n.count (2 * tree1.root.count)) ∧
        tree2.root.children.map t9_corpus_node_t.count =
          tree1.root.children.map t9_corpus_node_t.count ∧
        tree2.root.children.map t9_corpus_node_t.symbol =
          tree1.root.children.map t9_corpus_node_t.symbol ∧
        tree2.root.children.map t9_corpus_node_t.children =
          tree1.root.children.map t9_corpus_node_t.children ∧
        (tree1.root.children ≠ [] →
          tree2 ≠ tree1 ∧ tree2.root.count ≠ count_sum tree2.root.children ∧
          |prob_sum tree1.root.children - 1| ≤ 1 / 2 ^ 22 ∧
          |prob_sum tree2.root.children - 1 / 2| ≤ 1 / 2 ^ 23)) ∧
      (match t9_corpus_tree_finalize banana_tree with
        | .ok tree2 =>
          some (banana_tree.root.count,
            banana_tree.root.children.map t9_corpus_node_t.probability,
            tree2.root.count, tree2.root.children.map t9_corpus_node_t.probability)
        | .error _ => none) =
        some (4, [1 / 4, 1 / 2, 1 / 4], 8, [1 / 8, 1 / 4, 1 / 8]) :=
  ⟨⟨by decide, by decide, by decide⟩,
    second_finalize_doubles_root_count banana 2 (by decide) (by decide) (by decide),
    by decide!⟩

section BuildLoop

theorem window_in_text (text : List Nat) (N offset : Nat) (h : offset + N ≤ text.length) :
    ((text ++ [0]).drop offset).take N = (text.drop offset).take N := by
  rw [List.drop_append_of_le_length (by omega), List.take_append_of_le_length]
  rw [List.length_drop]
  omega

theorem insert_ngrams_loop_closed (corpus : corpus_t) (N : Nat) (hN : 1 ≤ N)
    (hsize : corpus.train_buffer.length < SIZE_MOD) (d : Nat) :
    ∀ (fuel offset : Nat) (root : t9_corpus_node_t) (ngram : List Nat),
      offset + N + d = corpus.train_buffer.length → d < fuel →
      insert_ngrams_loop corpus N fuel root ngram offset =
        .ok (((List.range' offset d).map
            (fun o => (corpus.train_buffer.drop o).take N)).foldl
          t9_corpus_node_insert_ngram (t9_corpus_node_insert_ngram root ngram)) := by
  induction d with
  | zero =>
    intro fuel offset root ngram ho hf
    obtain ⟨fuel1, rfl⟩ : ∃ f, fuel = f + 1 := ⟨fuel - 1, by omega⟩
    unfold insert_ngrams_loop
    rw [ngram_stop corpus N offset hsize (by omega) hN]
    simp [corpus_t.train_buffer_size]
  | succ d ih =>
    intro fuel offset root ngram ho hf
    obtain ⟨fuel1, rfl⟩ : ∃ f, fuel = f + 1 := ⟨fuel - 1, by omega⟩
    unfold insert_ngrams_loop
    rw [ngram_window corpus N offset hsize (by omega)]
    simp only
    rw [if_pos (by simp only [corpus_t.train_buffer_size]; omega)]
    rw [ih fuel1 (offset + 1) _ _ (by omega) (by omega),
      window_in_text _ N offset (by omega)]
    simp only [List.range'_succ, List.map_cons, List.foldl_cons]

theorem insert_ngrams_closed (tree : t9_corpus_tree_t) (corpus : corpus_t) (N : Nat)
    (hN : 1 ≤ N) (hlen : N < corpus.train_buffer.length)
    (hsize : corpus.train_buffer.length < SIZE_MOD) :
    t9_corpus_tree_insert_ngrams tree corpus N =
      .ok ⟨(inserted_windows corpus.train_buffer N).foldl t9_corpus_node_insert_ngram
        tree.root⟩ := by
  unfold t9_corpus_tree_insert_ngrams
  rw [ngram_window corpus N 0 hsize (by omega)]
  simp only
  obtain ⟨k, hk⟩ : ∃ k, corpus.train_buffer.length - N = k + 1 :=
    ⟨corpus.train_buffer.length - N - 1, by omega⟩
  rw [insert_ngrams_loop_closed corpus N hN hsize k
    SIZE_MOD (0 + 1) tree.root _ (by omega) (by simp only [SIZE_MOD] at hsize ⊢; omega),
    window_in_text _ N 0 (by omega)]
  simp only [inserted_windows, List.range_eq_range', hk, List.range'_succ, List.map_cons,
    List.foldl_cons, Nat.zero_add]

theorem insert_ngram_cstr (ngram : List Nat) :
    ∀ node : t9_corpus_node_t,
      t9_corpus_node_insert_ngram node ngram = t9_corpus_node_insert_ngram node (cstr ngram) := by
  induction ngram with
  | nil => intro node; rfl
  | cons x rest ih =>
    intro node
    by_cases hx : x = 0
    · subst hx
      rw [insert_ngram_zero]
      simp only [cstr, if_true]
      rw [insert_ngram_nil]
    · obtain ⟨c, s, p, cs⟩ := node
      simp only [cstr, if_neg hx]
      rw [insert_ngram_cons c s p cs x rest hx, insert_ngram_cons c s p cs x (cstr rest) hx]
      congr 2
      funext child
      exact ih _

theorem insert_ngram_symbol (ngram : List Nat) (node : t9_corpus_node_t) :
    (t9_corpus_node_insert_ngram node ngram).symbol = node.symbol := by
  cases ngram with
  | nil => rw [insert_ngram_nil]
  | cons x rest =>
    by_cases hx : x = 0
    · subst hx; rw [insert_ngram_zero]
    · obtain ⟨c, s, p, cs⟩ := node
      rw [insert_ngram_cons c s p cs x rest hx]
      rfl

theorem insert_ngram_no_zero (ngram : List Nat) :
    ∀ node : t9_corpus_node_t, all_nodes (fun n => n.symbol ≠ 0) node →
      all_nodes (fun n => n.symbol ≠ 0) (t9_corpus_node_insert_ngram node ngram) := by
  induction ngram with
  | nil => intro node h; rw [insert_ngram_nil]; exact h
  | cons x rest ih =>
    intro node h
    by_cases hx : x = 0
    · subst hx; rw [insert_ngram_zero]; exact h
    · obtain ⟨c, s, p, cs⟩ := node
      rw [insert_ngram_cons c s p cs x rest hx]
      simp only [all_nodes, symbol_mk] at h ⊢
      refine ⟨h.1, all_nodes_list_with_child _ x _ ?_ ?_ cs h.2⟩
      · intro child hc
        apply ih
        obtain ⟨c1, s1, p1, cs1⟩ := child
        simp only [all_nodes, symbol_mk, children_mk] at hc ⊢
        exact hc
      · apply ih
        simp only [all_nodes, symbol_mk, children_mk, all_nodes_list, and_true]
        exact hx

theorem with_child_symbols (x : Nat) (f : t9_corpus_node_t → t9_corpus_node_t)
    (hf : ∀ child, (f child).symbol = child.symbol) :
    ∀ cs : List t9_corpus_node_t,
      (with_child x f cs).map t9_corpus_node_t.symbol =
        if x ∈ cs.map t9_corpus_node_t.symbol then cs.map t9_corpus_node_t.symbol
        else cs.map t9_corpus_node_t.symbol ++ [x] := by
  intro cs
  induction cs with
  | nil => simp [with_child, hf, symbol_mk]
  | cons c rest ih =>
    simp only [with_child]
    by_cases hc : c.symbol = x
    · rw [if_pos hc]
      simp [hf, hc]
    · rw [if_neg hc]
      simp only [List.map_cons, ih, List.mem_cons]
      by_cases hx : x ∈ rest.map t9_corpus_node_t.symbol
      · rw [if_pos hx, if_pos (Or.inr hx)]
      · rw [if_neg hx, if_neg (by
          intro h
          rcases h with h | h
          · exact hc h.symm
          · exact hx h)]
        rfl

theorem with_child_symbols_nodup (x : Nat) (f : t9_corpus_node_t → t9_corpus_node_t)
    (hf : ∀ child, (f child).symbol = child.symbol) (cs : List t9_corpus_node_t)
    (h : (cs.map t9_corpus_node_t.symbol).Nodup) :
    ((with_child x f cs).map t9_corpus_node_t.symbol).Nodup := by
  rw [with_child_symbols x f hf cs]
  split_ifs with hx
  · exact h
  · rw [List.nodup_append]
    refine ⟨h, List.nodup_singleton x, ?_⟩
    intro a ha hb
    rw [List.mem_singleton] at hb
    subst hb
    exact hx ha

theorem insert_ngram_distinct (ngram : List Nat) :
    ∀ node : t9_corpus_node_t,
      all_nodes (fun n => (n.children.map t9_corpus_node_t.symbol).Nodup) node →
      all_nodes (fun n => (n.children.map t9_corpus_node_t.symbol).Nodup)
        (t9_corpus_node_insert_ngram node ngram) := by
  induction ngram with
  | nil => intro node h; rw [insert_ngram_nil]; exact h
  | cons x rest ih =>
    intro node h
    by_cases hx : x = 0
    · subst hx; rw [insert_ngram_zero]; exact h
    · obtain ⟨c, s, p, cs⟩ := node
      rw [insert_ngram_cons c s p cs x rest hx]
      simp only [all_nodes, children_mk] at h ⊢
      refine ⟨with_child_symbols_nodup x _ ?_ cs h.1,
        all_nodes_list_with_child _ x _ ?_ ?_ cs h.2⟩
      · intro child
        rw [insert_ngram_symbol]
        rfl
      · intro child hc
        apply ih
        obtain ⟨c1, s1, p1, cs1⟩ := child
        simp only [all_nodes, symbol_mk, children_mk] at hc ⊢
        exact hc
      · apply ih
        simp [all_nodes, children_mk, all_nodes_list]

theorem foldl_insert_invariant (P : t9_corpus_node_t → Prop)
    (hstep : ∀ root ngram, P root → P (t9_corpus_node_insert_ngram root ngram)) :
    ∀ (ws : List (List Nat)) (root : t9_corpus_node_t), P root →
      P (ws.foldl t9_corpus_node_insert_ngram root) := by
  intro ws
  induction ws with
  | nil => intro root h; exact h
  | cons w ws ih => intro root h; exact ih _ (hstep root w h)

theorem foldl_insert_cstr :
    ∀ (ws : List (List Nat)) (root : t9_corpus_node_t),
      ws.foldl t9_corpus_node_insert_ngram root =
        (ws.map cstr).foldl t9_corpus_node_insert_ngram root := by
  intro ws
  induction ws with
  | nil => intro root; rfl
  | cons w ws ih =>
    intro root
    simp only [List.foldl_cons, List.map_cons]
    rw [← insert_ngram_cstr w root]
    exact ih _

theorem full_list_counts_pos :
    ∀ (k : Nat) (cs : List t9_corpus_node_t), full_list k cs →
      all_nodes_list (fun n => 1 ≤ n.count) cs
  | _, [], _ => by simp [all_nodes_list]
  | k, .mk c s p gs :: rest, h => by
    simp only [full_list, full] at h
    simp only [all_nodes_list, all_nodes, count_mk]
    refine ⟨⟨h.1.1, ?_⟩, full_list_counts_pos k rest h.2⟩
    cases k with
    | zero =>
      have hg : gs = [] := h.1.2
      rw [hg]
      simp [all_nodes_list]
    | succ k1 =>
      have hg : count_sum gs = c ∧ full_list k1 gs := h.1.2
      exact full_list_counts_pos k1 gs hg.2

theorem insert_ngrams_loop_error (corpus : corpus_t) (N fuel offset : Nat)
    (root : t9_corpus_node_t) (ngram : List Nat) (e : Fault) (hf : 0 < fuel)
    (h : t9_corpus_ngram corpus N offset = .error e) :
    insert_ngrams_loop corpus N fuel root ngram offset = .error e := by
  obtain ⟨fuel1, rfl⟩ : ∃ f, fuel = f + 1 := ⟨fuel - 1, by omega⟩
  unfold insert_ngrams_loop
  rw [h]

theorem insert_ngrams_loop_step (corpus : corpus_t) (N fuel offset : Nat)
    (root : t9_corpus_node_t) (ngram ngram1 : List Nat) (offset1 : Nat) (hf : 0 < fuel)
    (h : t9_corpus_ngram corpus N offset = .ok (ngram1, offset1))
    (hne : offset1 ≠ corpus.train_buffer.length) :
    insert_ngrams_loop corpus N fuel root ngram offset =
      insert_ngrams_loop corpus N (fuel - 1) (t9_corpus_node_insert_ngram root ngram)
        ngram1 offset1 := by
  obtain ⟨fuel1, rfl⟩ : ∃ f, fuel = f + 1 := ⟨fuel - 1, by omega⟩
  show insert_ngrams_loop corpus N (fuel1 + 1) root ngram offset =
    insert_ngrams_loop corpus N fuel1 (t9_corpus_node_insert_ngram root ngram) ngram1 offset1
  rw [insert_ngrams_loop, h]
  simp only
  rw [if_pos (by simp only [corpus_t.train_buffer_size]; exact hne)]

theorem insert_ngrams_error_first (corpus : corpus_t) (N : Nat) (tree : t9_corpus_tree_t)
    (e1 : t9_corpus_ngram corpus N 0 = .error .undefined_behaviour) :
    t9_corpus_tree_insert_ngrams tree corpus N = .error .undefined_behaviour := by
  unfold t9_corpus_tree_insert_ngrams
  rw [e1]

theorem insert_ngrams_error_second (corpus : corpus_t) (N : Nat) (tree : t9_corpus_tree_t)
    (w : List Nat) (o : Nat)
    (e1 : t9_corpus_ngram corpus N 0 = .ok (w, o))
    (e2 : t9_corpus_ngram corpus N o = .error .undefined_behaviour) :
    t9_corpus_tree_insert_ngrams tree corpus N = .error .undefined_behaviour := by
  unfold t9_corpus_tree_insert_ngrams
  have hf1 : 0 < SIZE_MOD := by simp only [SIZE_MOD]; omega
  rw [e1]
  simp only
  rw [insert_ngrams_loop_error corpus N SIZE_MOD o _ _ _ hf1 e2]

theorem insert_ngrams_error_third (corpus : corpus_t) (N : Nat) (tree : t9_corpus_tree_t)
    (w w2 : List Nat) (o o2 : Nat)
    (e1 : t9_corpus_ngram corpus N 0 = .ok (w, o))
    (e2 : t9_corpus_ngram corpus N o = .ok (w2, o2))
    (hne : o2 ≠ corpus.train_buffer.length)
    (e3 : t9_corpus_ngram corpus N o2 = .error .undefined_behaviour) :
    t9_corpus_tree_insert_ngrams tree corpus N = .error .undefined_behaviour := by
  unfold t9_corpus_tree_insert_ngrams
  have hf1 : 0 < SIZE_MOD := by simp only [SIZE_MOD]; omega
  have hf2 : 0 < SIZE_MOD - 1 := by simp only [SIZE_MOD]; omega
  rw [e1]
  simp only
  rw [insert_ngrams_loop_step corpus N SIZE_MOD o _ _ w2 o2 hf1 e2 hne,
    insert_ngrams_loop_error corpus N (SIZE_MOD - 1) o2 _ _ _ hf2 e3]

theorem short_text_loop (corpus : corpus_t) (N : Nat) (tree : t9_corpus_tree_t)
    (hN : 1 ≤ N) (hN2 : N < 65536) (hlen : corpus.train_buffer.length ≤ N) :
    t9_corpus_tree_insert_ngrams tree corpus N = .error .undefined_behaviour := by
  by_cases h0 : corpus.train_buffer.length = 0
  · by_cases h1 : N = 1
    · have e1 : t9_corpus_ngram corpus N 0 = .ok ([0], 1) := by
        unfold t9_corpus_ngram read_bytes
        have hb : corpus.train_buffer = [] := List.length_eq_zero.1 h0
        simp only [corpus_t.train_buffer_size, SIZE_MOD, hb, h1]
        norm_num
      have e2 : t9_corpus_ngram corpus N 1 = .error .undefined_behaviour := by
        unfold t9_corpus_ngram read_bytes
        simp only [corpus_t.train_buffer_size, SIZE_MOD, h0, h1]
        norm_num
      exact insert_ngrams_error_second corpus N tree _ _ e1 e2
    · have e1 : t9_corpus_ngram corpus N 0 = .error .undefined_behaviour := by
        unfold t9_corpus_ngram read_bytes
        simp only [corpus_t.train_buffer_size, SIZE_MOD, h0]
        norm_num
        rw [if_neg (by omega), if_neg (by omega)]
      exact insert_ngrams_error_first corpus N tree e1
  · have e1 : t9_corpus_ngram corpus N 0 = .ok ([], corpus.train_buffer.length) := by
      unfold t9_corpus_ngram
      simp only [corpus_t.train_buffer_size, SIZE_MOD]
      norm_num
      intro h
      omega
    by_cases h1 : N = 1
    · have hl : corpus.train_buffer.length = 1 := by omega
      have e2 : t9_corpus_ngram corpus N corpus.train_buffer.length =
          .ok (((corpus.train_buffer ++ [0]).drop 1).take 1, 2) := by
        unfold t9_corpus_ngram read_bytes
        simp only [corpus_t.train_buffer_size, SIZE_MOD, hl, h1]
        norm_num
      have e3 : t9_corpus_ngram corpus N 2 = .error .undefined_behaviour := by
        unfold t9_corpus_ngram read_bytes
        simp only [corpus_t.train_buffer_size, SIZE_MOD, hl, h1]
        norm_num
      exact insert_ngrams_error_third corpus N tree _ _ _ _ e1 e2 (by omega) e3
    · have e2 : t9_corpus_ngram corpus N corpus.train_buffer.length =
          .error .undefined_behaviour := by
        unfold t9_corpus_ngram read_bytes
        simp only [corpus_t.train_buffer_size, SIZE_MOD]
        norm_num
        rw [if_neg (by omega), if_neg (by omega)]
      exact insert_ngrams_error_second corpus N tree _ _ e1 e2

end BuildLoop

/-- C36 (the defect): for a text that is not longer than the window length `N`
(`1 ≤ N`, a `uint16_t`), the empty text included, `t9_corpus_tree_insert_ngrams`
does not return a trie: a call of `t9_corpus_ngram` copies a window that starts
at or behind the terminator of the text and reaches outside the allocation, so
the run, and with it `build_corpus_tree`, leaves defined behaviour.  For a text
longer than `N` the loop returns and has inserted the windows at the offsets
`0, ..., len - N - 1`, which lie inside the text. -/
theorem short_text_reads_outside_buffer (corpus : corpus_t) (N : Nat)
    (tree : t9_corpus_tree_t) (hN : 1 ≤ N) (hN2 : N < 65536) :
    (corpus.train_buffer.length ≤ N →
        t9_corpus_tree_insert_ngrams tree corpus N = .error .undefined_behaviour ∧
        build_corpus_tree corpus N = .error .undefined_behaviour) ∧
      (N < corpus.train_buffer.length → corpus.train_buffer.length < SIZE_MOD →
        t9_corpus_tree_insert_ngrams tree corpus N =
          .ok ⟨(inserted_windows corpus.train_buffer N).foldl t9_corpus_node_insert_ngram
            tree.root⟩ ∧
        (inserted_windows corpus.train_buffer N).length = corpus.train_buffer.length - N ∧
        ∀ o, o < corpus.train_buffer.length - N →
          (inserted_windows corpus.train_buffer N).get? o =
              some ((corpus.train_buffer.drop o).take N) ∧
            o + N < corpus.train_buffer.length) := by
  constructor
  · intro hlen
    refine ⟨short_text_loop corpus N tree hN hN2 hlen, ?_⟩
    unfold build_corpus_tree
    rw [short_text_loop corpus N t9_corpus_tree_create hN hN2 hlen]
  · intro hlen hsize
    refine ⟨insert_ngrams_closed tree corpus N hN hlen hsize, by simp [inserted_windows], ?_⟩
    intro o ho
    refine ⟨?_, by omega⟩
    simp only [inserted_windows, List.get?_map]
    rw [List.get?_range ho]
    rfl

/-- Witness of C36: the text `ab` with windows of length 3. -/
theorem short_text_reads_outside_buffer_witness :
    1 ≤ 3 ∧ 3 < 65536 ∧ (⟨bytes "ab", []⟩ : corpus_t).train_buffer.length ≤ 3 ∧
      t9_corpus_tree_insert_ngrams t9_corpus_tree_create ⟨bytes "ab", []⟩ 3 =
        .error .undefined_behaviour ∧
      build_corpus_tree ⟨bytes "ab", []⟩ 3 = .error .undefined_behaviour :=
  ⟨by decide, by decide, by decide,
    (short_text_reads_outside_buffer ⟨bytes "ab", []⟩ 3 t9_corpus_tree_create (by decide)
      (by decide)).1 (by decide)⟩

/-- C33 (as stated, refuted): the text `abc`, zero byte, `def` with `N = 2` has the
node `d` with the child `e` in its trie, counted once, while the trie of the
text `abc` before the zero byte has no node `d`: the symbols behind the zero byte
were inserted. -/
theorem zero_byte_does_not_end_text :
    (match t9_corpus_tree_insert_ngrams t9_corpus_tree_create
        ⟨[97, 98, 99, 0, 100, 101, 102], []⟩ 2 with
      | .ok tree => some (count_at tree [100, 101])
      | .error _ => none) = some (some 1) ∧
    (match t9_corpus_tree_insert_ngrams t9_corpus_tree_create ⟨[97, 98, 99], []⟩ 2 with
      | .ok tree => some (count_at tree [100, 101])
      | .error _ => none) = some none := by
  constructor
  · decide
  · decide

/-! ### Which words a filled trie holds -/

theorem matching_child_with_child_same (x : Nat) (f : t9_corpus_node_t → t9_corpus_node_t)
    (hf : ∀ child, (f child).symbol = child.symbol) (cs : List t9_corpus_node_t) :
    matching_child x (with_child x f cs) =
      some (f ((matching_child x cs).getD (.mk 0 x 0 []))) := by
  induction cs with
  | nil => simp [with_child, matching_child, hf, symbol_mk]
  | cons c rest ih =>
    unfold with_child
    by_cases hc : c.symbol = x
    · simp only [hc, if_true, matching_child, hf, Option.getD_some]
    · simp only [hc, if_false, matching_child, ih]

theorem matching_child_with_child_other (x y : Nat) (f : t9_corpus_node_t → t9_corpus_node_t)
    (hf : ∀ child, (f child).symbol = child.symbol) (hxy : y ≠ x)
    (cs : List t9_corpus_node_t) :
    matching_child y (with_child x f cs) = matching_child y cs := by
  induction cs with
  | nil => simp [with_child, matching_child, hf, symbol_mk, Ne.symm hxy]
  | cons c rest ih =>
    unfold with_child
    by_cases hc : c.symbol = x
    · have hcy : c.symbol ≠ y := by rw [hc]; exact Ne.symm hxy
      rw [if_pos hc]
      simp only [matching_child, hf, if_neg hcy]
    · simp only [hc, if_false, matching_child, ih]

theorem descend_is_some_children (c1 c2 s1 s2 : Nat) (p1 p2 : ℚ) (cs : List t9_corpus_node_t)
    (w : List Nat) :
    (descend (.mk c1 s1 p1 cs) w).isSome = (descend (.mk c2 s2 p2 cs) w).isSome := by
  cases w with
  | nil => rfl
  | cons y rest => simp only [descend, children_mk]

/-- A word can be followed from the node after an insert exactly when it could
be followed before or is an initial piece of the inserted string. -/
theorem descend_insert (g : List Nat) :
    ∀ (node : t9_corpus_node_t) (w : List Nat),
      (descend (t9_corpus_node_insert_ngram node g) w).isSome = true ↔
        ((descend node w).isSome = true ∨ w <+: cstr g) := by
  induction g with
  | nil =>
    intro node w
    rw [insert_ngram_nil]
    simp only [cstr, List.prefix_nil]
    constructor
    · exact fun h => Or.inl h
    · rintro (h | h)
      · exact h
      · rw [h]; rfl
  | cons x rest ih =>
    intro node w
    by_cases hx : x = 0
    · rw [hx, insert_ngram_zero]
      simp only [cstr, if_true, List.prefix_nil]
      constructor
      · exact fun h => Or.inl h
      · rintro (h | h)
        · exact h
        · rw [h]; rfl
    · obtain ⟨c, s, p, cs⟩ := node
      rw [insert_ngram_cons c s p cs x rest hx]
      simp only [cstr, if_neg hx]
      cases w with
      | nil => simp [descend]
      | cons y w1 =>
        have hf : ∀ child : t9_corpus_node_t,
            (t9_corpus_node_insert_ngram
              (.mk (child.count + 1) child.symbol child.probability child.children)
              rest).symbol = child.symbol := by
          intro child
          rw [insert_ngram_symbol]
          rfl
        simp only [descend, children_mk]
        by_cases hy : y = x
        · subst hy
          rw [matching_child_with_child_same y _ hf cs]
          simp only [List.cons_prefix_cons, true_and]
          rw [ih]
          cases hm : matching_child y cs with
          | none =>
            simp only [Option.getD_none, children_mk, Option.isSome_none]
            constructor
            · rintro (h | h)
              · right
                cases w1 with
                | nil => exact List.nil_prefix
                | cons z w2 => simp [descend, children_mk, matching_child] at h
              · exact Or.inr h
            · rintro (h | h)
              · cases h
              · exact Or.inr h
          | some child0 =>
            obtain ⟨c0, s0, p0, cs0⟩ := child0
            simp only [Option.getD_some, count_mk, symbol_mk, probability_mk, children_mk]
            rw [descend_is_some_children (c0 + 1) c0 s0 s0 p0 p0 cs0 w1]
        · rw [matching_child_with_child_other x y _ hf hy cs]
          constructor
          · exact fun h => Or.inl h
          · rintro (h | h)
            · exact h
            · exact absurd (List.cons_prefix_cons.mp h).1 hy

theorem descend_foldl_insert :
    ∀ (ws : List (List Nat)) (root : t9_corpus_node_t) (w : List Nat),
      (descend (ws.foldl t9_corpus_node_insert_ngram root) w).isSome = true ↔
        ((descend root w).isSome = true ∨ ∃ win ∈ ws, w <+: cstr win) := by
  intro ws
  induction ws with
  | nil => intro root w; simp
  | cons g rest ih =>
    intro root w
    simp only [List.foldl_cons, List.mem_cons, exists_eq_or_imp]
    rw [ih, descend_insert]
    tauto

theorem descend_create (w : List Nat) :
    (descend t9_corpus_tree_create.root w).isSome = true ↔ w = [] := by
  cases w with
  | nil => simp [descend]
  | cons y rest => simp [descend, t9_corpus_tree_create, children_mk, matching_child]

theorem prefix_zero_free (w l : List Nat) (h : w <+: cstr l) : 0 ∉ w :=
  fun h0 => zero_not_mem_cstr l (h.subset h0)

/-- C33 (amended): a zero byte ends the window it lies in, not the text.  For
every text longer than the window length `N ≥ 1`, with or without zero bytes,
`t9_corpus_tree_insert_ngrams` on a created tree returns a trie in which no node
carries the zero symbol; every non-empty word that can be followed from the root
is free of zero bytes and is an initial piece of some window of length `N` of the
whole text, cut at the first zero byte of the window; and every initial piece of
a window cut in this way is in the trie, wherever the window starts, before or
behind a zero byte, as long as the window ends before the last symbol of the
text (the window at the last start offset is the subject of C1). -/
theorem zero_byte_keeps_later_windows (corpus : corpus_t) (N : Nat) (hN : 1 ≤ N)
    (hlen : N < corpus.train_buffer.length)
    (hsize : corpus.train_buffer.length < SIZE_MOD) :
    ∃ tree1, t9_corpus_tree_insert_ngrams t9_corpus_tree_create corpus N = .ok tree1 ∧
      all_nodes (fun n => n.symbol ≠ 0) tree1.root ∧
      (∀ w, w ≠ [] → (descend tree1.root w).isSome = true →
        0 ∉ w ∧ ∃ o, o + N ≤ corpus.train_buffer.length ∧
          w <+: cstr ((corpus.train_buffer.drop o).take N)) ∧
      (∀ o w, o + N < corpus.train_buffer.length →
        w <+: cstr ((corpus.train_buffer.drop o).take N) →
        (descend tree1.root w).isSome = true) := by
  refine ⟨_, insert_ngrams_closed t9_corpus_tree_create corpus N hN hlen hsize, ?_, ?_, ?_⟩
  · apply foldl_insert_invariant _ (fun root ngram h => insert_ngram_no_zero ngram root h)
    simp [t9_corpus_tree_create, all_nodes, all_nodes_list, symbol_mk]
  · intro w hw hd
    rw [descend_foldl_insert, descend_create] at hd
    rcases hd with hd | ⟨win, hwin, hp⟩
    · exact absurd hd hw
    · simp only [inserted_windows, List.mem_map, List.mem_range] at hwin
      obtain ⟨o, ho, rfl⟩ := hwin
      exact ⟨prefix_zero_free w _ hp, o, by omega, hp⟩
  · intro o w ho hp
    rw [descend_foldl_insert]
    right
    refine ⟨_, ?_, hp⟩
    simp only [inserted_windows, List.mem_map, List.mem_range]
    exact ⟨o, by omega, rfl⟩

/-- Witness of C33 (amended): the text `abc`, zero byte, `def` with `N = 2`. -/
theorem zero_byte_keeps_later_windows_witness :
    1 ≤ 2 ∧ 2 < (⟨[97, 98, 99, 0, 100, 101, 102], []⟩ : corpus_t).train_buffer.length ∧
      (⟨[97, 98, 99, 0, 100, 101, 102], []⟩ : corpus_t).train_buffer.length < SIZE_MOD ∧
      ∃ tree1, t9_corpus_tree_insert_ngrams t9_corpus_tree_create
          ⟨[97, 98, 99, 0, 100, 101, 102], []⟩ 2 = .ok tree1 ∧
        all_nodes (fun n => n.symbol ≠ 0) tree1.root ∧
        (∀ w, w ≠ [] → (descend tree1.root w).isSome = true →
          0 ∉ w ∧ ∃ o,
            o + 2 ≤ (⟨[97, 98, 99, 0, 100, 101, 102], []⟩ : corpus_t).train_buffer.length ∧
            w <+: cstr
              (((⟨[97, 98, 99, 0, 100, 101, 102], []⟩ : corpus_t).train_buffer.drop o).take
                2)) ∧
        (∀ o w,
          o + 2 < (⟨[97, 98, 99, 0, 100, 101, 102], []⟩ : corpus_t).train_buffer.length →
          w <+: cstr
            (((⟨[97, 98, 99, 0, 100, 101, 102], []⟩ : corpus_t).train_buffer.drop o).take
              2) →
          (descend tree1.root w).isSome = true) :=
  ⟨by decide, by decide, by decide,
    zero_byte_keeps_later_windows ⟨[97, 98, 99, 0, 100, 101, 102], []⟩ 2 (by decide)
      (by decide) (by decide)⟩

/-- C35 (as stated, refuted): the text `abcd` with `N = 1` has no zero byte and is
longer than `N`.  Its trie has three children of the root, each of count 1, and
after finalize the root count 3; each child stores the `float` nearest to 1/3,
which is 11184811/33554432, and the three stored probabilities sum to
33554433/33554432, not to 1. -/
theorem counts_conserved_counterexample :
    (match build_corpus_tree ⟨bytes "abcd", []⟩ 1 with
      | .ok tree =>
        some (tree.root.count, tree.root.children.map t9_corpus_node_t.count,
          tree.root.children.map t9_corpus_node_t.probability,
          prob_sum tree.root.children)
      | .error _ => none) =
      some (3, [1, 1, 1], List.replicate 3 (11184811 / 33554432), 33554433 / 33554432) ∧
    (33554433 / 33554432 : ℚ) ≠ 1 := by
  constructor
  · decide!
  · norm_num

/-- C35 (amended): for a text without zero bytes that is longer than the window
length `N ≥ 1`, `t9_corpus_tree_insert_ngrams` on a created tree returns a trie in
which every node below the root has a count of at least 1, no node lies deeper
than `N`, the children of every node carry pairwise distinct symbols, and
(`full_list`) every node below the root at a depth smaller than `N` has a count
equal to the sum of the counts of its children while the nodes at depth `N` have
no children.  `t9_corpus_tree_finalize` then returns a trie in which, at every
node that has children, the counts of the children sum to the count of the node,
every child stores the `float` quotient of its count and that count, and the
stored probabilities of the children sum to 1 up to the rounding of the
quotients: the sum differs from 1 by at most `2 ^ -22`. -/
theorem counts_are_conserved (corpus : corpus_t) (N : Nat) (hN : 1 ≤ N)
    (hlen : N < corpus.train_buffer.length)
    (hsize : corpus.train_buffer.length < SIZE_MOD) (hzero : 0 ∉ corpus.train_buffer) :
    ∃ tree1 tree2, t9_corpus_tree_insert_ngrams t9_corpus_tree_create corpus N = .ok tree1 ∧
      all_nodes_list (fun n => 1 ≤ n.count) tree1.root.children ∧
      height_le N tree1.root ∧
      all_nodes (fun n => (n.children.map t9_corpus_node_t.symbol).Nodup) tree1.root ∧
      full_list (N - 1) tree1.root.children ∧
      t9_corpus_tree_finalize tree1 = .ok tree2 ∧
      all_nodes (fun n => n.children ≠ [] →
        count_sum n.children = n.count ∧ |prob_sum n.children - 1| ≤ 1 / 2 ^ 22)
        tree2.root ∧
      all_nodes (fun parent => ∀ child ∈ parent.children,
        child.probability = rounded_quotient FLT_MANT_DIG child.count parent.count)
        tree2.root := by
  obtain ⟨tree1, h1⟩ := insert_ngrams_returns t9_corpus_tree_create corpus N hN hlen hsize
  obtain ⟨k, hk⟩ : ∃ k, N = k + 1 := ⟨N - 1, by omega⟩
  have hfull : full_list (N - 1) tree1.root.children := by
    have : N - 1 = k := by omega
    rw [this]
    exact insert_ngrams_invariant corpus N (fun root => full_list k root.children)
      (fun ngram => cstr ngram = [] ∨ (ngram.length = k + 1 ∧ 0 ∉ ngram))
      (fun root ngram hP hG => insert_root_full k ngram root hG hP)
      (fun offset ngram offset1 hn => hk ▸
        ngram_zero_free corpus N offset ngram offset1 hzero hsize hn)
      t9_corpus_tree_create tree1 (by simp [t9_corpus_tree_create, full_list,
        children_mk]) h1
  refine ⟨tree1, finalized_tree tree1, h1, full_list_counts_pos _ _ hfull, ?_, ?_, hfull,
    tree_finalize_returns tree1 (insert_ngrams_counts_pos corpus N tree1 h1), ?_,
    (finalize_ratio_of_filled corpus N tree1 h1).1⟩
  · exact insert_ngrams_invariant corpus N (fun root => height_le N root)
      (fun ngram => ngram.length ≤ N)
      (fun root ngram hP hG => height_le_insert ngram N root hG hP)
      (fun offset ngram offset1 hn => ngram_length_le corpus N offset ngram offset1 hn)
      t9_corpus_tree_create tree1 (by
        rw [hk]
        simp [t9_corpus_tree_create, height_le, height_le_list]) h1
  · exact insert_ngrams_invariant corpus N
      (fun root => all_nodes (fun n => (n.children.map t9_corpus_node_t.symbol).Nodup) root)
      (fun _ => True)
      (fun root ngram hP _ => insert_ngram_distinct ngram root hP)
      (fun _ _ _ _ => trivial)
      t9_corpus_tree_create tree1 (by
        simp [t9_corpus_tree_create, all_nodes, all_nodes_list, children_mk]) h1
  · exact children_sum_one_of_built corpus N _ hN hzero hsize (build_eq corpus N tree1 h1)

/-- Witness of C35 (amended): the text `banana` with `N = 2`. -/
theorem counts_are_conserved_witness :
    1 ≤ 2 ∧ 2 < banana.train_buffer.length ∧ banana.train_buffer.length < SIZE_MOD ∧
      0 ∉ banana.train_buffer ∧
      ∃ tree1 tree2, t9_corpus_tree_insert_ngrams t9_corpus_tree_create banana 2 = .ok tree1 ∧
        all_nodes_list (fun n => 1 ≤ n.count) tree1.root.children ∧
        height_le 2 tree1.root ∧
        all_nodes (fun n => (n.children.map t9_corpus_node_t.symbol).Nodup) tree1.root ∧
        full_list (2 - 1) tree1.root.children ∧
        t9_corpus_tree_finalize tree1 = .ok tree2 ∧
        all_nodes (fun n => n.children ≠ [] →
          count_sum n.children = n.count ∧ |prob_sum n.children - 1| ≤ 1 / 2 ^ 22)
          tree2.root ∧
        all_nodes (fun parent => ∀ child ∈ parent.children,
          child.probability = rounded_quotient FLT_MANT_DIG child.count parent.count)
          tree2.root :=
  ⟨by decide, by decide, by decide, by decide,
    counts_are_conserved banana 2 (by decide) (by decide) (by decide) (by decide)⟩

section KeptChains

variable {C : Type} [T9Math C]

mutual
theorem frontier_descends :
    ∀ (node : t9_search_node_t C) (pre : List Nat) (cost : C) (q : t9_path_t C),
      q ∈ frontier node pre cost →
      ∃ chain last, q.nodes = pre ++ chain.map t9_search_node_t.addr ∧
        List.Chain (fun parent child => child ∈ parent.children2) node chain ∧
        (node :: chain).getLast? = some last ∧ last.children2 = [] ∧
        (chain = [] → q.probability = cost) ∧
        (chain ≠ [] → q.probability = last.probability)
  | .mk a s p [], pre, cost, q, h => by
    simp only [frontier, List.mem_singleton] at h
    subst h
    exact ⟨[], .mk a s p [], by simp, List.Chain.nil, rfl, rfl, fun _ => rfl,
      fun hne => absurd rfl hne⟩
  | .mk a s p (c :: cs), pre, cost, q, h => by
    simp only [frontier] at h
    obtain ⟨child, hc, chain, last, h1, h2, h3, h4, h5⟩ :=
      frontier_list_descends (c :: cs) pre q h
    refine ⟨child :: chain, last, by simpa using h1, List.Chain.cons hc h2, ?_, h4,
      fun hne => (by cases hne), fun _ => h5⟩
    rw [List.getLast?_cons_cons]
    exact h3
theorem frontier_list_descends :
    ∀ (cs : List (t9_search_node_t C)) (pre : List Nat) (q : t9_path_t C),
      q ∈ frontier_list cs pre →
      ∃ child ∈ cs, ∃ chain last,
        q.nodes = pre ++ child.addr :: chain.map t9_search_node_t.addr ∧
        List.Chain (fun parent child => child ∈ parent.children2) child chain ∧
        (child :: chain).getLast? = some last ∧ last.children2 = [] ∧
        q.probability = last.probability
  | [], _, _, h => by simp [frontier_list] at h
  | c :: rest, pre, q, h => by
    simp only [frontier_list, List.mem_append] at h
    rcases h with h | h
    · obtain ⟨chain, last, h1, h2, h3, h4, h5, h6⟩ :=
        frontier_descends c (pre ++ [c.addr]) c.probability q h
      refine ⟨c, List.mem_cons_self _ _, chain, last, by simpa using h1, h2, h3, h4, ?_⟩
      by_cases hch : chain = []
      · rw [h5 hch]
        subst hch
        simp only [List.getLast?_singleton, Option.some.injEq] at h3
        rw [h3]
      · exact h6 hch
    · obtain ⟨child, hc, chain, last, h1, h2, h3, h4, h5⟩ :=
        frontier_list_descends rest pre q h
      exact ⟨child, List.mem_cons_of_mem _ hc, chain, last, h1, h2, h3, h4, h5⟩
end

theorem node_addrs_of_mem (c : t9_search_node_t C) :
    ∀ cs : List (t9_search_node_t C), c ∈ cs → ∀ x ∈ node_addrs c, x ∈ node_addrs_list cs := by
  intro cs
  induction cs with
  | nil => intro h; cases h
  | cons d rest ih =>
    intro h x hx
    simp only [node_addrs_list, List.mem_append]
    rcases List.mem_cons.1 h with e | e
    · left; rw [← e]; exact hx
    · right; exact ih e x hx

theorem nodup_of_mem (c : t9_search_node_t C) :
    ∀ cs : List (t9_search_node_t C), c ∈ cs → (node_addrs_list cs).Nodup →
      (node_addrs c).Nodup := by
  intro cs
  induction cs with
  | nil => intro h; cases h
  | cons d rest ih =>
    intro h hnd
    simp only [node_addrs_list] at hnd
    rcases List.mem_cons.1 h with e | e
    · rw [e]; exact (List.nodup_append.1 hnd).1
    · exact ih e (List.nodup_append.1 hnd).2.1

theorem find_node_list_of_mem (x : Nat) (c n : t9_search_node_t C)
    (hf : find_node x c = some n) :
    ∀ cs : List (t9_search_node_t C), c ∈ cs → (node_addrs_list cs).Nodup →
      find_node_list x cs = some n := by
  intro cs
  induction cs with
  | nil => intro h; cases h
  | cons d rest ih =>
    intro h hnd
    simp only [node_addrs_list] at hnd
    simp only [find_node_list]
    by_cases e : c = d
    · rw [← e, hf]
    · have hr : c ∈ rest := by
        rcases List.mem_cons.1 h with e2 | e2
        · exact absurd e2 e
        · exact e2
      have hx : x ∈ node_addrs_list rest :=
        node_addrs_of_mem c rest hr x (find_node_mem c n x hf)
      have hnot : x ∉ node_addrs d := fun hd =>
        (List.nodup_append.1 hnd).2.2 hd hx
      rw [find_node_none d x hnot]
      exact ih hr (List.nodup_append.1 hnd).2.1

theorem find_node_of_child (x a s : Nat) (p : C) (cs : List (t9_search_node_t C))
    (c n : t9_search_node_t C) (hc : c ∈ cs) (hnd : (node_addrs (.mk a s p cs)).Nodup)
    (hf : find_node x c = some n) : find_node x (.mk a s p cs) = some n := by
  simp only [node_addrs, List.nodup_cons] at hnd
  have hx : x ∈ node_addrs_list cs := node_addrs_of_mem c cs hc x (find_node_mem c n x hf)
  simp only [find_node]
  rw [if_neg (fun e : a = x => hnd.1 (by rw [e]; exact hx))]
  exact find_node_list_of_mem x c n hf cs hc hnd.2

theorem find_node_chain :
    ∀ (chain : List (t9_search_node_t C)) (node : t9_search_node_t C),
      (node_addrs node).Nodup →
      List.Chain (fun parent child => child ∈ parent.children2) node chain →
      ∀ n ∈ chain, find_node n.addr node = some n := by
  intro chain
  induction chain with
  | nil => intro node _ _ n hn; cases hn
  | cons c rest ih =>
    intro node hnd hch n hn
    obtain ⟨a, s, p, cs⟩ := node
    have hc : c ∈ cs := (List.chain_cons.1 hch).1
    have hrest := (List.chain_cons.1 hch).2
    have hndc : (node_addrs c).Nodup := by
      simp only [node_addrs, List.nodup_cons] at hnd
      exact nodup_of_mem c cs hc hnd.2
    apply find_node_of_child n.addr a s p cs c n hc hnd
    rcases List.mem_cons.1 hn with e | e
    · rw [e]
      obtain ⟨a1, s1, p1, cs1⟩ := c
      exact find_node_self a1 s1 p1 cs1
    · exact ih c hndc hrest n e

mutual
theorem frontier_nodes_nodup :
    ∀ (node : t9_search_node_t C) (pre : List Nat) (cost : C),
      (node_addrs node).Nodup →
      ((frontier node pre cost).map t9_path_t.nodes).Nodup
  | .mk a s p [], pre, cost, _ => by simp [frontier]
  | .mk a s p (c :: cs), pre, cost, h => by
    simp only [frontier]
    simp only [node_addrs, List.nodup_cons] at h
    exact frontier_list_nodes_nodup (c :: cs) pre h.2
theorem frontier_list_nodes_nodup :
    ∀ (cs : List (t9_search_node_t C)) (pre : List Nat),
      (node_addrs_list cs).Nodup →
      ((frontier_list cs pre).map t9_path_t.nodes).Nodup
  | [], _, _ => by simp [frontier_list]
  | c :: rest, pre, h => by
    simp only [node_addrs_list] at h
    obtain ⟨h1, h2, h3⟩ := List.nodup_append.1 h
    simp only [frontier_list, List.map_append]
    rw [List.nodup_append]
    refine ⟨frontier_nodes_nodup c _ _ h1, frontier_list_nodes_nodup rest pre h2, ?_⟩
    intro nodes hn1 hn2
    obtain ⟨q1, hq1, e1⟩ := List.mem_map.1 hn1
    obtain ⟨q2, hq2, e2⟩ := List.mem_map.1 hn2
    obtain ⟨chain1, -, d1, -, -, -, -, -⟩ :=
      frontier_descends c (pre ++ [c.addr]) c.probability q1 hq1
    obtain ⟨child, hc, chain2, -, d2, -, -, -, -⟩ := frontier_list_descends rest pre q2 hq2
    rw [e1] at d1
    rw [e2] at d2
    rw [d1, List.append_assoc, List.append_cancel_left_eq] at d2
    simp only [List.singleton_append, List.cons.injEq] at d2
    have hc1 : c.addr ∈ node_addrs c := by
      obtain ⟨a1, s1, p1, cs1⟩ := c
      simp [node_addrs, t9_search_node_t.addr]
    have hc2 : child.addr ∈ node_addrs_list rest := by
      apply node_addrs_of_mem child rest hc
      obtain ⟨a1, s1, p1, cs1⟩ := child
      simp [node_addrs, t9_search_node_t.addr]
    exact h3 hc1 (d2.1 ▸ hc2)
end

theorem search_leaf_subperm (model : t9_model_t C) (tmp_path : t9_path_t C) :
    (search_leaf model tmp_path).paths.Subperm
      (model.paths ++ [⟨tmp_path.probability, tmp_path.nodes⟩]) := by
  have hp : (sort_paths (model.paths ++ [t9_path_duplicate tmp_path])).Perm
      (model.paths ++ [⟨tmp_path.probability, tmp_path.nodes⟩]) :=
    sort_paths_perm _
  unfold search_leaf
  simp only [t9_model_sort_paths]
  split_ifs with h
  · exact ((List.dropLast_sublist _).subperm).trans hp.subperm
  · exact hp.subperm

mutual
theorem node_search_subperm :
    ∀ (node : t9_search_node_t C) (model : t9_model_t C) (tmp_path : t9_path_t C),
      (t9_node_search_paths node model tmp_path).1.paths.Subperm
          (model.paths ++ frontier node tmp_path.nodes tmp_path.probability) ∧
        (t9_node_search_paths node model tmp_path).2.nodes = tmp_path.nodes
  | .mk a s p [], model, tmp_path => by
    simp only [t9_node_search_paths]
    split_ifs with hcut
    · exact ⟨(List.sublist_append_left _ _).subperm, rfl⟩
    · exact ⟨search_leaf_subperm model tmp_path, rfl⟩
  | .mk a s p (c :: cs), model, tmp_path => by
    simp only [t9_node_search_paths]
    split_ifs with hcut
    · exact ⟨(List.sublist_append_left _ _).subperm, rfl⟩
    · simp only [frontier]
      exact search_children_subperm (c :: cs) model tmp_path
theorem search_children_subperm :
    ∀ (cs : List (t9_search_node_t C)) (model : t9_model_t C) (tmp_path : t9_path_t C),
      (search_children cs model tmp_path).1.paths.Subperm
          (model.paths ++ frontier_list cs tmp_path.nodes) ∧
        (search_children cs model tmp_path).2.nodes = tmp_path.nodes
  | [], model, tmp_path => by
    simp only [search_children, frontier_list, List.append_nil]
    exact ⟨List.Subperm.refl _, trivial⟩
  | child :: rest, model, tmp_path => by
    obtain ⟨h1, h2⟩ := node_search_subperm child model (t9_path_push tmp_path child)
    have hn : (t9_path_pop
        (t9_node_search_paths child model (t9_path_push tmp_path child)).2).nodes =
        tmp_path.nodes := by
      show (t9_node_search_paths child model (t9_path_push tmp_path child)).2.nodes.dropLast =
        tmp_path.nodes
      rw [h2]
      simp only [t9_path_push, List.dropLast_concat]
    obtain ⟨h3, h4⟩ := search_children_subperm rest
      (t9_node_search_paths child model (t9_path_push tmp_path child)).1
      (t9_path_pop (t9_node_search_paths child model (t9_path_push tmp_path child)).2)
    rw [hn] at h3 h4
    simp only [search_children, frontier_list]
    refine ⟨?_, h4⟩
    rw [← List.append_assoc]
    exact h3.trans ((List.subperm_append_right _).2 h1)
end

theorem search_paths_subperm (model : t9_model_t C) (tree : t9_search_tree_t C)
    (htree : model.search_tree = some tree) :
    ∃ paths, t9_search_tree_search_paths model = .ok { model with paths := paths } ∧
      paths.Subperm (root_frontier tree.root) := by
  obtain ⟨paths, h1, -⟩ := search_paths_facts model tree htree
  refine ⟨paths, h1, ?_⟩
  unfold t9_search_tree_search_paths at h1
  rw [htree] at h1
  simp only [Except.ok.injEq] at h1
  have h2 := (node_search_subperm tree.root { model with paths := [] } t9_path_create).1
  simp only [htree] at h2
  rw [h1] at h2
  simpa [root_frontier, t9_path_create] using h2

end KeptChains

/-- C32: `t9_search_tree_search_paths` on a tree without a pointer used twice in
which every leaf is `D ≥ 1` levels below the root.  The call returns, and every
entry of the kept list is a chain of `D` nodes of the tree: the first is a child
of the root, each next one a child of the one before, the last has no children;
the entry holds the pointers of these nodes in this order (every pointer leads
to its node) and the cost stored in the last node.  No two entries hold the same
sequence of pointers. -/
theorem kept_paths_are_frontier_chains {C : Type} [T9Math C] (m : t9_model_t C)
    (tree : t9_search_tree_t C) (D : Nat) (hm : m.search_tree = some tree)
    (hnd : (node_addrs tree.root).Nodup) (hD : uniform D tree.root) (hD1 : 1 ≤ D) :
    ∃ paths, t9_search_tree_search_paths m = .ok { m with paths := paths } ∧
      (∀ q ∈ paths, ∃ (chain : List (t9_search_node_t C)) (last : t9_search_node_t C),
        q.nodes = chain.map t9_search_node_t.addr ∧ q.nodes.length = D ∧
        List.Chain (fun parent child => child ∈ parent.children2) tree.root chain ∧
        chain.getLast? = some last ∧ last.children2 = [] ∧
        q.probability = last.probability ∧
        ∀ n ∈ chain, find_node n.addr tree.root = some n) ∧
      (paths.map t9_path_t.nodes).Nodup := by
  obtain ⟨paths, h1, h2⟩ := search_paths_subperm m tree hm
  refine ⟨paths, h1, ?_, ?_⟩
  · intro q hq
    have hq2 : q ∈ root_frontier tree.root := h2.subset hq
    obtain ⟨chain, last, c1, c2, c3, c4, c5, c6⟩ := frontier_descends tree.root [] 0 q hq2
    have hlen := (root_frontier_nodes tree.root q hq2).2 D hD
    have hne : chain ≠ [] := by
      intro e
      rw [e] at c1
      simp only [List.map_nil, List.append_nil] at c1
      rw [c1] at hlen
      simp only [List.length_nil] at hlen
      omega
    refine ⟨chain, last, by simpa using c1, hlen, c2, ?_, c4, c6 hne,
      find_node_chain chain tree.root hnd c2⟩
    cases chain with
    | nil => exact absurd rfl hne
    | cons c rest =>
      rw [List.getLast?_cons_cons] at c3
      exact c3
  · obtain ⟨l, hperm, hsub⟩ := h2
    have hn := frontier_nodes_nodup tree.root [] 0 hnd
    have h3 : (l.map t9_path_t.nodes).Nodup := (hsub.map t9_path_t.nodes).nodup hn
    exact (hperm.map t9_path_t.nodes).nodup_iff.1 h3

/-- Witness of C32: the tree of two leaves, one level deep. -/
theorem kept_paths_are_frontier_chains_witness :
    two_leaf_model.search_tree = some two_leaf_tree ∧
      (node_addrs two_leaf_tree.root).Nodup ∧ uniform 1 two_leaf_tree.root ∧ 1 ≤ 1 ∧
      ∃ paths, t9_search_tree_search_paths two_leaf_model =
          .ok { two_leaf_model with paths := paths } ∧
        (∀ q ∈ paths, ∃ (chain : List (t9_search_node_t LogCost))
            (last : t9_search_node_t LogCost),
          q.nodes = chain.map t9_search_node_t.addr ∧ q.nodes.length = 1 ∧
          List.Chain (fun parent child => child ∈ parent.children2) two_leaf_tree.root
            chain ∧
          chain.getLast? = some last ∧ last.children2 = [] ∧
          q.probability = last.probability ∧
          ∀ n ∈ chain, find_node n.addr two_leaf_tree.root = some n) ∧
        (paths.map t9_path_t.nodes).Nodup :=
  ⟨rfl, tree_ok_two_leaf.1, tree_ok_two_leaf.2.2.2, le_refl 1,
    kept_paths_are_frontier_chains two_leaf_model two_leaf_tree 1 rfl tree_ok_two_leaf.1
      tree_ok_two_leaf.2.2.2 (le_refl 1)⟩

section LastKeyAll

variable {C : Type} [T9Math C]

/-- The last keystroke of a sequence typed into a fresh model: every call made
for it, the trees it leaves, and the cost formula on them. -/
theorem last_keystroke_all (m : t9_model_t C) (init : List Nat) (key : Nat)
    (hfresh : m.search_tree = some t9_search_tree_create) (hK : 1 ≤ m.number_paths)
    (hinit : ∀ s ∈ init, is_key_symbol s) (hkey : is_key_symbol key) :
    ∃ (tree0 : t9_search_tree_t C) (paths0 : List (t9_path_t C))
      (tree2 : t9_search_tree_t C) (paths : List (t9_path_t C))
      (tree3 : t9_search_tree_t C),
      t9_search_tree_type m init =
        .ok (.T9_SUCCESS, { m with search_tree := some tree0, paths := paths0 }) ∧
      t9_search_node_insert tree0.root key [] 0
          { m with search_tree := some { tree0 with
              level_table2 := tree0.level_table2 ++ [[]] }, paths := paths0 } =
        .ok (tree2.root,
          { m with search_tree := some { tree2 with root := tree0.root },
                   paths := paths0 }) ∧
      t9_search_tree_search_paths { m with search_tree := some tree2, paths := paths0 } =
        .ok { m with search_tree := some tree2, paths := paths } ∧
      t9_search_tree_prune { m with search_tree := some tree2, paths := paths } =
        .ok { m with search_tree := some tree3, paths := paths } ∧
      t9_search_tree_type m (init ++ [key]) =
        .ok (.T9_SUCCESS, { m with search_tree := some tree3, paths := paths }) ∧
      key_step m.corpus_tree m.ngram_length key tree0 tree2 paths tree3 ∧
      tree0.level_table2.length = init.length ∧
      paths ≠ [] ∧ (∀ q ∈ paths, q ∈ root_frontier tree2.root) ∧
      tree2.root.probability = 0 ∧ tree3.root.probability = 0 ∧
      costs_follow m.corpus_tree m.ngram_length (init ++ [key]) tree2.root [] ∧
      costs_follow m.corpus_tree m.ngram_length (init ++ [key]) tree3.root [] := by
  have hz : ∀ s ∈ init, s ≠ 0 := fun s hs => key_symbol_nonzero s (hinit s hs)
  have hs : m.search_tree ≠ none := by rw [hfresh]; simp
  obtain ⟨tree0, paths0, hrun0, hok0, hP⟩ := type_loop_induct m hK
    (fun keys0 tree => tree.level_table2.length = keys0.length ∧
      tree.root.probability = 0 ∧
      costs_follow m.corpus_tree m.ngram_length keys0 tree.root [])
    (by
      intro keys0 key tree tree2 paths tree3 hP hok _ hstep
      refine ⟨?_, ?_, (key_step_costs _ _ key keys0 tree tree2 paths tree3 hok hP.1 hP.2.2
        hstep).2⟩
      · rw [hstep.2.2.2.1, hP.1]; simp
      · rw [(key_step_root_cost _ _ _ _ _ _ _ hstep).2]; exact hP.2.1)
    init [] t9_search_tree_create m.paths hinit tree_ok_create
    ⟨rfl, rfl, by simp [t9_search_tree_create, costs_follow, costs_follow_list]⟩
  simp only [List.nil_append] at hP
  have hm : ({ m with search_tree := some t9_search_tree_create, paths := m.paths } :
      t9_model_t C) = m := model_eta m _ hfresh
  rw [hm] at hrun0
  obtain ⟨tree2, paths, tree3, hins, hsearch, hprune, hfull, hne, hsub, hstep⟩ :=
    keystroke_detail
      (t9_model_t.mk m.corpus m.corpus_tree (some tree0) paths0 m.ngram_length m.number_paths)
      tree0 key hok0 hkey hK
  have hc := key_step_costs _ _ key init tree0 tree2 paths tree3 hok0 hP.1 hP.2.2 hstep
  have hr := key_step_root_cost _ _ _ _ _ _ _ hstep
  refine ⟨tree0, paths0, tree2, paths, tree3, ?_, hins, hsearch, hprune, ?_, hstep, hP.1, hne,
    hsub, by rw [hr.1]; exact hP.2.1, by rw [hr.2]; exact hP.2.1, hc.1, hc.2⟩
  · rw [tree_type_eq_loop m init hinit hs]; exact hrun0
  · have hall : ∀ s ∈ init ++ [key], is_key_symbol s := by
      intro s hs
      rcases List.mem_append.mp hs with hs | hs
      · exact hinit s hs
      · rw [List.mem_singleton.mp hs]; exact hkey
    rw [tree_type_eq_loop m (init ++ [key]) hall hs, type_loop_append init [key] hz m, hrun0]
    exact type_loop_cons key []
      (t9_model_t.mk m.corpus m.corpus_tree (some tree0) paths0 m.ngram_length m.number_paths)
      tree0
      (t9_model_t.mk m.corpus m.corpus_tree (some tree3) paths m.ngram_length m.number_paths)
      (key_symbol_nonzero key hkey) rfl hfull

theorem root_frontier_prune_root (keep : List Nat → Bool) (root : t9_search_node_t C)
    (hc : (prune_root keep root).children2 ≠ []) :
    root_frontier (prune_root keep root) =
      (root_frontier root).filter (fun q => keep q.nodes) := by
  obtain ⟨a, s, p, cs⟩ := root
  simp only [prune_root] at hc ⊢
  have hcs : cs ≠ [] := by
    intro e
    rw [e] at hc
    exact hc rfl
  have h1 : root_frontier (.mk a s p cs : t9_search_node_t C) = frontier_list cs [] := by
    cases cs with
    | nil => exact absurd rfl hcs
    | cons c rest => rfl
  have h2 : root_frontier (.mk a s p (prune_list keep cs []) : t9_search_node_t C) =
      frontier_list (prune_list keep cs []) [] := by
    cases hp : prune_list keep cs [] with
    | nil =>
      rw [hp] at hc
      exact absurd rfl hc
    | cons c rest => rfl
  rw [h1, h2, prune_list_frontier]

theorem exhaustive_prune_root (K : Nat) (root : t9_search_node_t C)
    (hc : (prune_root (kept_by (exhaustive_search K root)) root).children2 ≠ []) :
    exhaustive_search K (prune_root (kept_by (exhaustive_search K root)) root) =
      exhaustive_search K root := by
  have h := root_frontier_prune_root (kept_by (exhaustive_search K root)) root hc
  unfold exhaustive_search at h ⊢
  rw [h, filter_insertion_sort]
  apply take_filter_of_all
  intro x hx
  exact kept_by_self _ x hx

end LastKeyAll

/-- C37: a valid key sequence, written `init ++ [key]`, typed into a fresh model
that keeps `K ≥ 1` paths and whose corpus trie was built from its corpus, when
the float operations obey `cost_range_laws` (for every `N`).  For the last key:
the insert returns the tree `tree2`, the search on it the kept list `paths`, the
prune the tree `tree3` with the same kept list, which is the state
`t9_search_tree_type` returns with; a further `t9_search_tree_search_paths` on the
pruned tree returns the very same kept list: same entries, that is same pointer
sequences and costs, in the same order. -/
theorem search_after_prune_is_unchanged {C : Type} [T9Math C] (m : t9_model_t C)
    (ct : t9_corpus_tree_t) (init : List Nat) (key : Nat)
    (hfresh : m.search_tree = some t9_search_tree_create)
    (hct : m.corpus_tree = some ct)
    (hbuild : build_corpus_tree m.corpus m.ngram_length = .ok ct)
    (laws : cost_range_laws C) (hK : 1 ≤ m.number_paths)
    (hinit : ∀ s ∈ init, is_key_symbol s) (hkey : is_key_symbol key) :
    ∃ (tree0 : t9_search_tree_t C) (paths0 : List (t9_path_t C))
      (tree2 : t9_search_tree_t C) (paths : List (t9_path_t C))
      (tree3 : t9_search_tree_t C),
      t9_search_tree_type m init =
        .ok (.T9_SUCCESS, { m with search_tree := some tree0, paths := paths0 }) ∧
      t9_search_node_insert tree0.root key [] 0
          { m with search_tree := some { tree0 with
              level_table2 := tree0.level_table2 ++ [[]] }, paths := paths0 } =
        .ok (tree2.root,
          { m with search_tree := some { tree2 with root := tree0.root },
                   paths := paths0 }) ∧
      t9_search_tree_search_paths { m with search_tree := some tree2, paths := paths0 } =
        .ok { m with search_tree := some tree2, paths := paths } ∧
      t9_search_tree_prune { m with search_tree := some tree2, paths := paths } =
        .ok { m with search_tree := some tree3, paths := paths } ∧
      t9_search_tree_type m (init ++ [key]) =
        .ok (.T9_SUCCESS, { m with search_tree := some tree3, paths := paths }) ∧
      t9_search_tree_search_paths { m with search_tree := some tree3, paths := paths } =
        .ok { m with search_tree := some tree3, paths := paths } := by
  obtain ⟨tree0, paths0, tree2, paths, tree3, hrun0, hins, hsearch, hprune, hrun1, hstep,
    hlen0, hne, hsub, hr2, hr3, hf2, hf3⟩ := last_keystroke_all m init key hfresh hK hinit hkey
  have hunit : ∀ word, 0 ≤ t9_corpus_tree_conditional_probability m.corpus_tree word ∧
      t9_corpus_tree_conditional_probability m.corpus_tree word ≤ 1 := by
    intro word
    rw [hct]
    exact conditional_probability_unit_of_built m.corpus m.ngram_length ct word hbuild
  have hzero : cost_in_range (0 : C) :=
    ⟨le_refl _, (laws.neg_ln_range 0 (by norm_num) (by norm_num)).1⟩
  have h2 := (monotone_of_follow laws m.corpus_tree hunit m.ngram_length tree2.root _ []
    hf2 (by rw [hr2]; exact hzero)).1
  have h3 := (monotone_of_follow laws m.corpus_tree hunit m.ngram_length tree3.root _ []
    hf3 (by rw [hr3]; exact hzero)).1
  have e2 := search_paths_exhaustive
    (t9_model_t.mk m.corpus m.corpus_tree (some tree2) paths0 m.ngram_length m.number_paths)
    tree2 rfl h2
  have e3 := search_paths_exhaustive
    (t9_model_t.mk m.corpus m.corpus_tree (some tree3) paths m.ngram_length m.number_paths)
    tree3 rfl h3
  have hp : exhaustive_search m.number_paths tree2.root = paths := by
    have h := hsearch
    rw [e2] at h
    simp only [Except.ok.injEq, t9_model_t.mk.injEq, true_and, and_true] at h
    exact h
  refine ⟨tree0, paths0, tree2, paths, tree3, hrun0, hins, hsearch, hprune, hrun1, ?_⟩
  · rw [e3]
    simp only [Except.ok.injEq, t9_model_t.mk.injEq, true_and, and_true]
    obtain ⟨hok2, hok3, hl2, hl3, -, -, -, -, hroot, -⟩ := hstep
    rcases hroot with hroot | hroot
    · rw [hroot]; exact hp
    · have hc3 : tree3.root.children2 ≠ [] := by
        have hu := hok3.2.2.2
        rw [hl3] at hu
        cases hr : tree3.root with
        | mk a s p cs =>
          rw [hr] at hu
          simp only [uniform] at hu
          exact hu.1
      rw [hroot, ← hp] at hc3 ⊢
      exact exhaustive_prune_root m.number_paths tree2.root hc3

/-- Witness of C37: the keys `2` and `6` typed into the fresh model of the text
`banana`, with the costs of `LogCost`. -/
theorem search_after_prune_is_unchanged_witness :
    (banana_fresh 3).search_tree = some t9_search_tree_create ∧
      (banana_fresh 3).corpus_tree = some banana_tree ∧
      build_corpus_tree (banana_fresh 3).corpus (banana_fresh 3).ngram_length =
        .ok banana_tree ∧
      cost_range_laws LogCost ∧ 1 ≤ (banana_fresh 3).number_paths ∧
      (∀ s ∈ [50], is_key_symbol s) ∧ is_key_symbol 54 ∧
      ∃ (tree0 : t9_search_tree_t LogCost) (paths0 : List (t9_path_t LogCost))
        (tree2 : t9_search_tree_t LogCost) (paths : List (t9_path_t LogCost))
        (tree3 : t9_search_tree_t LogCost),
        t9_search_tree_type (banana_fresh 3) [50] =
          .ok (.T9_SUCCESS, t9_model_t.mk (banana_fresh 3).corpus (banana_fresh 3).corpus_tree
            (some tree0) paths0 (banana_fresh 3).ngram_length (banana_fresh 3).number_paths) ∧
        t9_search_node_insert tree0.root 54 [] 0
            (t9_model_t.mk (banana_fresh 3).corpus (banana_fresh 3).corpus_tree
              (some (t9_search_tree_t.mk tree0.root (tree0.level_table2 ++ [[]])
                tree0.next_addr))
              paths0 (banana_fresh 3).ngram_length (banana_fresh 3).number_paths) =
          .ok (tree2.root,
            t9_model_t.mk (banana_fresh 3).corpus (banana_fresh 3).corpus_tree
              (some (t9_search_tree_t.mk tree0.root tree2.level_table2 tree2.next_addr))
              paths0 (banana_fresh 3).ngram_length (banana_fresh 3).number_paths) ∧
        t9_search_tree_search_paths
            (t9_model_t.mk (banana_fresh 3).corpus (banana_fresh 3).corpus_tree (some tree2)
              paths0 (banana_fresh 3).ngram_length (banana_fresh 3).number_paths) =
          .ok (t9_model_t.mk (banana_fresh 3).corpus (banana_fresh 3).corpus_tree (some tree2)
            paths (banana_fresh 3).ngram_length (banana_fresh 3).number_paths) ∧
        t9_search_tree_prune
            (t9_model_t.mk (banana_fresh 3).corpus (banana_fresh 3).corpus_tree (some tree2)
              paths (banana_fresh 3).ngram_length (banana_fresh 3).number_paths) =
          .ok (t9_model_t.mk (banana_fresh 3).corpus (banana_fresh 3).corpus_tree (some tree3)
            paths (banana_fresh 3).ngram_length (banana_fresh 3).number_paths) ∧
        t9_search_tree_type (banana_fresh 3) ([50] ++ [54]) =
          .ok (.T9_SUCCESS, t9_model_t.mk (banana_fresh 3).corpus (banana_fresh 3).corpus_tree
            (some tree3) paths (banana_fresh 3).ngram_length (banana_fresh 3).number_paths) ∧
        t9_search_tree_search_paths
            (t9_model_t.mk (banana_fresh 3).corpus (banana_fresh 3).corpus_tree (some tree3)
              paths (banana_fresh 3).ngram_length (banana_fresh 3).number_paths) =
          .ok (t9_model_t.mk (banana_fresh 3).corpus (banana_fresh 3).corpus_tree (some tree3)
            paths (banana_fresh 3).ngram_length (banana_fresh 3).number_paths) :=
  ⟨rfl, rfl, banana_tree_built, log_cost_range_laws, by decide, by decide, by decide,
    search_after_prune_is_unchanged (banana_fresh 3) banana_tree [50] 54 rfl rfl
      banana_tree_built log_cost_range_laws (by decide) (by decide) (by decide)⟩

section RoundTrip

variable {C : Type} [T9Math C]

mutual
theorem frontier_words_all_words :
    ∀ (node : t9_search_node_t C) (word : List Nat) (cost : C),
      node.children2 ≠ [] →
      ∀ cw ∈ frontier_words node word cost, cw ∈ all_words node word
  | .mk a s p [], _, _, h => absurd rfl h
  | .mk a s p (c :: cs), word, cost, _ => by
    intro cw hcw
    simp only [frontier_words] at hcw
    simp only [all_words]
    exact frontier_words_list_all_words (c :: cs) word cw hcw
theorem frontier_words_list_all_words :
    ∀ (cs : List (t9_search_node_t C)) (word : List Nat),
      ∀ cw ∈ frontier_words_list cs word, cw ∈ all_words_list cs word
  | [], _ => by
    intro cw hcw
    simp [frontier_words_list] at hcw
  | .mk a s p gs :: rest, word => by
    intro cw hcw
    simp only [frontier_words_list, List.mem_append] at hcw
    simp only [all_words_list, List.mem_cons, List.mem_append]
    rcases hcw with h | h
    · cases gs with
      | nil =>
        simp only [frontier_words, List.mem_singleton] at h
        left
        exact h
      | cons g gs1 =>
        right; left
        exact frontier_words_all_words (.mk a s p (g :: gs1)) _ _ (by simp [t9_search_node_t.children2])
          cw h
    · right; right
      exact frontier_words_list_all_words rest word cw h
end

theorem ctol_of_key_set (s k : Nat) (h : s ∈ key_symbol_set k) : t9_corpus_ctol s = some k := by
  unfold key_symbol_set at h
  cases hl : t9_corpus_ltoc k with
  | none =>
    rw [hl] at h
    simp [cstr] at h
  | some set =>
    rw [hl] at h
    exact (ctol_some_iff s k).2 ⟨set, hl, h⟩

theorem path_possible_keys (ct : Option t9_corpus_tree_t) (N : Nat) :
    ∀ (keys path word : List Nat), path_possible ct N keys path word →
      word.length = keys.length →
      List.Forall₂ (fun symbol key => symbol ∈ key_symbol_set key) word keys ∧
        (∀ c ∈ word, t9_corpus_ctol c ≠ none) ∧ key_sequence word = keys := by
  intro keys
  induction keys with
  | nil =>
    intro path word _ hlen
    have hw : word = [] := List.length_eq_zero.1 hlen
    subst hw
    exact ⟨List.Forall₂.nil, by simp, rfl⟩
  | cons k ks ih =>
    intro path word hp hlen
    cases word with
    | nil => simp at hlen
    | cons s rest =>
      simp only [path_possible] at hp
      obtain ⟨h1, -, h3⟩ := hp
      obtain ⟨r1, r2, r3⟩ := ih (path ++ [s]) rest h3 (by simpa using hlen)
      have hc := ctol_of_key_set s k h1
      refine ⟨List.Forall₂.cons h1 r1, ?_, ?_⟩
      · intro c hcm
        rcases List.mem_cons.1 hcm with e | e
        · rw [e, hc]; simp
        · exact r2 c e
      · simp only [key_sequence, List.map_cons, hc, Option.getD_some] at r3 ⊢
        rw [r3]

end RoundTrip

/-- C38: a non-empty valid key sequence, written `init ++ [key]`, typed by
`t9_model_autocomplete` into a fresh model with `1 ≤ N ≤ 255` that keeps `K ≥ 1`
paths and whose corpus trie was built from its corpus, with
`PROBABILITY_BUTTON = 1`, when the float operations obey `cost_range_laws` and
`cost_finite_laws`.  The call returns T9_SUCCESS with a suggestion of one symbol
per key, read from the first entry of the kept list, which costs no more than
any other entry.  If that entry has a finite cost, every symbol of the
suggestion is in the symbol set of the key pressed at its position, and
`t9_corpus_lexicon_from_corpus` on the suggestion returns the typed key
sequence. -/
theorem finite_suggestion_spells_keys {C : Type} [T9Math C] (m : t9_model_t C)
    (ct : t9_corpus_tree_t) (init : List Nat) (key : Nat)
    (hfresh : m.search_tree = some t9_search_tree_create)
    (hct : m.corpus_tree = some ct)
    (hbuild : build_corpus_tree m.corpus m.ngram_length = .ok ct)
    (rl : cost_range_laws C) (fl : cost_finite_laws C)
    (hN : 1 ≤ m.ngram_length) (hN2 : m.ngram_length < 256) (hK : 1 ≤ m.number_paths)
    (hinit : ∀ s ∈ init, is_key_symbol s) (hkey : is_key_symbol key) :
    ∃ (tree3 : t9_search_tree_t C) (best : t9_path_t C) (rest : List (t9_path_t C))
      (suggestion : List Nat),
      t9_model_autocomplete m (init ++ [key]) =
        .ok (.T9_SUCCESS, { m with search_tree := some tree3, paths := best :: rest },
          some suggestion) ∧
      (∀ q ∈ rest, best.probability ≤ q.probability) ∧
      suggestion.length = (init ++ [key]).length ∧
      (best.probability < infinite_cost →
        List.Forall₂ (fun symbol key => symbol ∈ key_symbol_set key) suggestion
            (init ++ [key]) ∧
          t9_corpus_lexicon_from_corpus suggestion suggestion.length =
            .ok (some (init ++ [key]))) := by
  obtain ⟨tree0, paths0, tree2, paths, tree3, hrun0, hins, hsearch, hprune, hrun1, hstep,
    hlen0, hne, hsub, hr2, hr3, hf2, hf3⟩ := last_keystroke_all m init key hfresh hK hinit hkey
  obtain ⟨hok2, hok3, hl2, hl3, -, -, -, -, hroot, -⟩ := hstep
  have hsorted : paths_sorted paths := by
    obtain ⟨paths1, e1, -, -, hs1, -⟩ := search_paths_facts
      (t9_model_t.mk m.corpus m.corpus_tree (some tree2) paths0 m.ngram_length m.number_paths)
      tree2 rfl
    rw [e1] at hsearch
    simp only [Except.ok.injEq, t9_model_t.mk.injEq, true_and, and_true] at hsearch
    rw [← hsearch]
    exact hs1
  have hc2 : tree2.root.children2 ≠ [] := by
    have hu := hok2.2.2.2
    rw [hl2] at hu
    cases hr : tree2.root with
    | mk a s p cs =>
      rw [hr] at hu
      simp only [uniform] at hu
      exact hu.1
  have hc3 : tree3.root.children2 ≠ [] := by
    have hu := hok3.2.2.2
    rw [hl3] at hu
    cases hr : tree3.root with
    | mk a s p cs =>
      rw [hr] at hu
      simp only [uniform] at hu
      exact hu.1
  cases paths with
  | nil => exact absurd rfl hne
  | cons best rest =>
    have hq3 : best ∈ root_frontier tree3.root := by
      rcases hroot with e | e
      · rw [e]; exact hsub best (by simp)
      · rw [e]
        exact (prune_root_paths _ tree2.root hc2 best (hsub best (by simp))
          (kept_by_self _ best (by simp))).1
    have hnodes := frontier_nodes_mem tree3.root best hq3
    have hflen := (root_frontier_nodes tree3.root best hq3).2 _ hok3.2.2.2
    obtain ⟨str, hstr, hslen⟩ := flatten_loop_ok tree3.root best.nodes hnodes
    have hlen : str.length = (init ++ [key]).length := by
      rw [hslen, hflen, hl3, hlen0]
      simp
    have hnz : best.nodes.length ≠ 0 := by
      rw [hflen, hl3]
      omega
    refine ⟨tree3, best, rest, str, ?_, fun q hq => (List.pairwise_cons.mp hsorted).1 q hq,
      hlen, ?_⟩
    · simp only [t9_model_autocomplete, hrun1, t9_path_flatten]
      simp only [if_neg hnz, hstr]
    · intro hfin
      have hcw := frontier_word_cost tree3.root hok3.1 best hq3 str hstr
      have hcw2 := frontier_words_all_words tree3.root [] 0 hc3 _ hcw
      have hunit : ∀ word, 0 ≤ t9_corpus_tree_conditional_probability m.corpus_tree word ∧
          t9_corpus_tree_conditional_probability m.corpus_tree word ≤ 1 := by
        intro word
        rw [hct]
        exact conditional_probability_unit_of_built m.corpus m.ngram_length ct word hbuild
      have hzero : cost_in_range (0 : C) :=
        ⟨le_refl _, (rl.neg_ln_range 0 (by norm_num) (by norm_num)).1⟩
      have hzfin : (0 : C) < infinite_cost ↔ True := by
        refine ⟨fun _ => trivial, fun _ => ?_⟩
        exact lt_of_le_of_lt (rl.neg_ln_range 1 (by norm_num) (by norm_num)).1
          ((fl.neg_ln_finite 1 (by norm_num) (by norm_num)).2 (by norm_num))
      have hN3 : m.ngram_length < SIZE_MOD := by unfold SIZE_MOD; omega
      obtain ⟨rest1, hw, hiff⟩ := finite_of_follow rl fl m.corpus_tree hunit m.ngram_length hN
        hN3 tree3.root _ [] True hf3 (by rw [hr3]; exact hzero) (by rw [hr3]; exact hzfin)
        (by simp) _ hcw2
      simp only [List.nil_append] at hw
      rw [← hw, true_and] at hiff
      obtain ⟨p1, p2, p3⟩ := path_possible_keys m.corpus_tree m.ngram_length (init ++ [key]) []
        str (hiff.1 hfin) hlen
      refine ⟨p1, ?_⟩
      unfold t9_corpus_lexicon_from_corpus
      rw [lexicon_loop_total str str.length 0 [] (by simp)]
      simp only [List.drop_zero, List.nil_append, p3]
      rw [if_pos p2]

/-- Witness of C38: the keys `2` and `6` typed into the fresh model of the text
`banana`, with the costs of `LogCost`. -/
theorem finite_suggestion_spells_keys_witness :
    (banana_fresh 3).search_tree = some t9_search_tree_create ∧
      (banana_fresh 3).corpus_tree = some banana_tree ∧
      build_corpus_tree (banana_fresh 3).corpus (banana_fresh 3).ngram_length =
        .ok banana_tree ∧
      cost_range_laws LogCost ∧ cost_finite_laws LogCost ∧
      1 ≤ (banana_fresh 3).ngram_length ∧ (banana_fresh 3).ngram_length < 256 ∧
      1 ≤ (banana_fresh 3).number_paths ∧
      (∀ s ∈ [50], is_key_symbol s) ∧ is_key_symbol 54 ∧
      ∃ (tree3 : t9_search_tree_t LogCost) (best : t9_path_t LogCost)
        (rest : List (t9_path_t LogCost)) (suggestion : List Nat),
        t9_model_autocomplete (banana_fresh 3) ([50] ++ [54]) =
          .ok (.T9_SUCCESS,
            t9_model_t.mk (banana_fresh 3).corpus (banana_fresh 3).corpus_tree (some tree3)
              (best :: rest) (banana_fresh 3).ngram_length (banana_fresh 3).number_paths,
            some suggestion) ∧
        (∀ q ∈ rest, best.probability ≤ q.probability) ∧
        suggestion.length = ([50] ++ [54]).length ∧
        (best.probability < infinite_cost →
          List.Forall₂ (fun symbol key => symbol ∈ key_symbol_set key) suggestion
              ([50] ++ [54]) ∧
            t9_corpus_lexicon_from_corpus suggestion suggestion.length =
              .ok (some ([50] ++ [54]))) :=
  ⟨rfl, rfl, banana_tree_built, log_cost_range_laws, log_cost_finite_laws, by decide, by decide,
    by decide, by decide, by decide,
    finite_suggestion_spells_keys (banana_fresh 3) banana_tree [50] 54 rfl rfl
      banana_tree_built log_cost_range_laws log_cost_finite_laws (by decide) (by decide)
      (by decide) (by decide) (by decide)⟩

section InfiniteCost

variable {C : Type} [T9Math C]

theorem first_frontier_word (root : t9_search_node_t C) (h : (node_addrs root).Nodup)
    (first : t9_path_t C) (rest : List (t9_path_t C)) (str : List Nat)
    (hf : root_frontier root = first :: rest)
    (hstr : flatten_loop root first.nodes = .ok str) :
    (frontier_words root [] 0).head? = some (first.probability, str) := by
  have h1 := root_frontier_words root h
  rw [hf] at h1
  simp only [List.map_cons] at h1
  cases hw : frontier_words root [] 0 with
  | nil => rw [hw] at h1; simp at h1
  | cons cw tl =>
    rw [hw] at h1
    simp only [List.map_cons, List.cons.injEq, Prod.mk.injEq] at h1
    obtain ⟨⟨hc, hs⟩, -⟩ := h1
    rw [flatten_loop_symbols root first.nodes str hstr] at hs
    have := map_some_inj _ _ hs
    simp only [List.head?_cons, Option.some.injEq]
    rw [Prod.ext_iff]
    exact ⟨hc.symm, this.symm⟩

/-- When all root-to-frontier paths of the tree after the last insert have one
cost, the first kept path is the first frontier path and the suggestion is its
word. -/
theorem equal_cost_first_path (m m0 m1 : t9_model_t C)
    (tree tree0 : t9_search_tree_t C) (init : List Nat) (key : Nat)
    (root2 : t9_search_node_t C) (c : C)
    (hm : m.search_tree = some tree) (hok : tree_ok tree) (hK : 1 ≤ m.number_paths)
    (hvalid : ∀ s ∈ init, is_key_symbol s) (hkey : is_key_symbol key)
    (hinit : type_loop init m = .ok (.T9_SUCCESS, m0)) (hm0 : m0.search_tree = some tree0)
    (hgrow : t9_search_node_insert tree0.root key [] 0
        { m0 with search_tree := some { tree0 with
            level_table2 := tree0.level_table2 ++ [[]] } } = .ok (root2, m1))
    (hties : ∀ x ∈ root_frontier root2, x.probability = c) :
    ∃ first rest model1 kept str,
      root_frontier root2 = first :: rest ∧
      t9_model_autocomplete m (init ++ [key]) = .ok (.T9_SUCCESS, model1, some str) ∧
      model1.paths = first :: kept ∧
      first.nodes.map (fun a => (find_node a root2).map t9_search_node_t.symbol) =
        str.map some ∧
      (frontier_words root2 [] 0).head? = some (c, str) ∧
      str.length = tree.level_table2.length + init.length + 1 := by
  have hnz : ∀ s ∈ init, s ≠ 0 := fun s hs => key_symbol_nonzero s (hvalid s hs)
  have hkz : key ≠ 0 := key_symbol_nonzero key hkey
  -- the state after `init`
  obtain ⟨tree1, paths1, hrun, hok1, hlen1, -⟩ := type_loop_spec init m tree hm hok hK
    (by rw [cstr_of_nonzero init hnz]; exact hvalid)
  rw [hinit] at hrun
  simp only [Except.ok.injEq, Prod.mk.injEq, true_and] at hrun
  subst hrun
  simp only [Option.some.injEq] at hm0
  subst hm0
  -- the last keystroke
  obtain ⟨tree2, paths, tree3, ⟨m1b, hins⟩, hok2, hlen2, hsearch, hfull, -, -, hne, -, -, hq⟩ :=
    keystroke_spec { m with search_tree := some tree1, paths := paths1 } tree1 key hok1 hkey hK
  rw [hgrow] at hins
  simp only [Except.ok.injEq, Prod.mk.injEq] at hins
  obtain ⟨hroot, -⟩ := hins
  rw [hroot] at hties ⊢
  have hs2 := search_paths_ties
    ({ m with search_tree := some tree2, paths := paths1 } : t9_model_t C) tree2 c rfl hties
  simp only at hsearch hs2
  rw [hsearch] at hs2
  simp only [Except.ok.injEq, t9_model_t.mk.injEq, true_and, and_true] at hs2
  cases hf : root_frontier tree2.root with
  | nil =>
    rw [hf] at hs2
    simp only [List.take_nil] at hs2
    exact absurd hs2 hne
  | cons first rest =>
    rw [hf] at hs2
    obtain ⟨k, hk⟩ : ∃ k, m.number_paths = k + 1 := ⟨m.number_paths - 1, by omega⟩
    rw [hk, List.take_succ_cons] at hs2
    have hfirst : first ∈ paths := by rw [hs2]; simp
    have hin2 : first ∈ root_frontier tree2.root := by rw [hf]; simp
    have hnodes := frontier_nodes_mem tree2.root first hin2
    have hflen := (root_frontier_nodes tree2.root first hin2).2 _ hok2.2.2.2
    obtain ⟨str, hstr, hslen⟩ := flatten_loop_ok tree2.root first.nodes hnodes
    have hword := first_frontier_word tree2.root hok2.1 first rest str hf hstr
    rw [hties first hin2] at hword
    refine ⟨first, rest, { m with search_tree := some tree3, paths := paths },
      rest.take k, str, rfl, ?_, hs2, flatten_loop_symbols tree2.root first.nodes str hstr,
      hword, ?_⟩
    · have hv : t9_corpus_validate_lexicon_symbols (init ++ [key]) = true := by
        rw [validate_symbols_iff, cstr_append_nonzero init [key] hnz]
        intro s hs
        rcases List.mem_append.mp hs with hs | hs
        · exact hvalid s hs
        · simp only [cstr, if_neg hkz, List.mem_singleton] at hs
          rw [hs]; exact hkey
      have htype : type_loop (init ++ [key]) m =
          .ok (.T9_SUCCESS, { m with search_tree := some tree3, paths := paths }) := by
        rw [type_loop_append init [key] hnz m, hinit]
        simp only [type_loop, if_neg hkz, hfull]
      have hfl3 : first.nodes.length ≠ 0 := by omega
      simp only [t9_model_autocomplete, t9_search_tree_type, hm, hv, htype]
      rw [if_neg (by decide)]
      simp only [hs2, t9_path_flatten, if_neg hfl3, (hq first hfirst).2.2, hstr]
    · rw [cstr_of_nonzero init hnz] at hlen1
      omega

mutual
theorem follow_labels_nonzero (ct : Option t9_corpus_tree_t) (N : Nat) :
    ∀ (node : t9_search_node_t C) (keys path : List Nat),
      costs_follow ct N keys node path → ∀ l ∈ node_labels_list node.children2, l.2 ≠ 0
  | .mk a s p cs, keys, path, hf => by
    simp only [costs_follow] at hf
    exact follow_labels_list_nonzero ct N cs keys p path hf
theorem follow_labels_list_nonzero (ct : Option t9_corpus_tree_t) (N : Nat) :
    ∀ (cs : List (t9_search_node_t C)) (keys : List Nat) (p : C) (path : List Nat),
      costs_follow_list ct N keys p path cs → ∀ l ∈ node_labels_list cs, l.2 ≠ 0
  | [], _, _, _, _ => by
    intro l hl
    simp [node_labels_list] at hl
  | .mk a s q gs :: rest, keys, p, path, hf => by
    simp only [costs_follow_list] at hf
    obtain ⟨h1, h2⟩ := hf
    cases keys with
    | nil => exact absurd h1 (by simp)
    | cons k ks =>
      simp only at h1
      obtain ⟨hsym, -, hsub⟩ := h1
      intro l hl
      simp only [node_labels_list, node_labels, List.mem_append, List.mem_cons] at hl
      rcases hl with (hl | hl) | hl
      · rw [hl]; exact corpus_symbols_nonzero _ hsym
      · exact follow_labels_nonzero ct N (.mk a s q gs) ks _ hsub l hl
      · exact follow_labels_list_nonzero ct N rest (k :: ks) p path h2 l hl
end

mutual
theorem all_words_longer :
    ∀ (node : t9_search_node_t C) (path : List Nat),
      ∀ cw ∈ all_words node path, path.length < cw.2.length
  | .mk a s p cs, path => by
    simp only [all_words]
    exact all_words_list_longer cs path
theorem all_words_list_longer :
    ∀ (cs : List (t9_search_node_t C)) (path : List Nat),
      ∀ cw ∈ all_words_list cs path, path.length < cw.2.length
  | [], _ => by
    intro cw h
    simp [all_words_list] at h
  | c :: rest, path => by
    intro cw h
    simp only [all_words_list, List.mem_cons, List.mem_append] at h
    rcases h with h | h | h
    · rw [h]; simp
    · have := all_words_longer c (path ++ [c.symbol]) cw h
      simp only [List.length_append, List.length_singleton] at this
      omega
    · exact all_words_list_longer rest path cw h
end

theorem impossible_is_infinite (rl : cost_range_laws C) (fl : cost_finite_laws C)
    (ct : Option t9_corpus_tree_t)
    (hunit : ∀ word, 0 ≤ t9_corpus_tree_conditional_probability ct word ∧
      t9_corpus_tree_conditional_probability ct word ≤ 1) (N : Nat) (hN : 1 ≤ N)
    (hN2 : N < SIZE_MOD) (keys : List Nat) (root : t9_search_node_t C)
    (hr : root.probability = 0) (hf : costs_follow ct N keys root []) :
    ∀ cw ∈ all_words root [], ¬ path_possible ct N keys [] cw.2 → cw.1 = infinite_cost := by
  intro cw hcw hno
  have hzero : cost_in_range (0 : C) :=
    ⟨le_refl _, (rl.neg_ln_range 0 (by norm_num) (by norm_num)).1⟩
  have hzfin : (0 : C) < infinite_cost ↔ True := by
    refine ⟨fun _ => trivial, fun _ => ?_⟩
    exact lt_of_le_of_lt (rl.neg_ln_range 1 (by norm_num) (by norm_num)).1
      ((fl.neg_ln_finite 1 (by norm_num) (by norm_num)).2 (by norm_num))
  have hrange := (monotone_of_follow rl ct hunit N root _ [] hf
    (by rw [hr]; exact hzero)).2 cw hcw
  obtain ⟨rest, hw, hiff⟩ := finite_of_follow rl fl ct hunit N hN
    hN2 root _ [] True hf (by rw [hr]; exact hzero) (by rw [hr]; exact hzfin) (by simp)
    cw hcw
  simp only [List.nil_append] at hw
  rw [← hw, true_and] at hiff
  exact le_antisymm hrange.2 (not_lt.mp (fun hlt => hno (hiff.1 hlt)))

theorem grow_head_word (ct : Option t9_corpus_tree_t) (N key : Nat) (hN : 1 ≤ N)
    (hN2 : N < SIZE_MOD) (root : t9_search_node_t C) (c0 : C) (w0 : List Nat)
    (tl : List (C × List Nat))
    (hl : ∀ l ∈ node_labels_list root.children2, l.2 ≠ 0)
    (hw : frontier_words root [] root.probability = (c0, w0) :: tl) :
    ∃ c1 tl1, frontier_words (grow_pure ct N key root []) [] 0 = (c1, w0 ++ [48]) :: tl1 := by
  rw [grow_pure_frontier ct N key hN hN2 root [] 0 hl (by simp), hw]
  have hc : CORPUS_SYMBOLS = 48 :: CORPUS_SYMBOLS.tail := by decide
  simp only [List.flatMap_cons]
  rw [hc]
  simp only [List.map_cons, List.cons_append]
  exact ⟨_, _, rfl⟩

theorem step_head_word (ct : Option t9_corpus_tree_t) (N key : Nat) (hN : 1 ≤ N)
    (hN2 : N < SIZE_MOD) (keys0 : List Nat) (tree tree2 : t9_search_tree_t C)
    (paths : List (t9_path_t C)) (tree3 : t9_search_tree_t C)
    (hstep : key_step ct N key tree tree2 paths tree3)
    (hp : tree.root.probability = 0) (hf : costs_follow ct N keys0 tree.root [])
    (c0 : C) (tl : List (C × List Nat)) (k : Nat)
    (hw : frontier_words tree.root [] 0 = (c0, List.replicate k 48) :: tl) :
    ∃ c1 tl1, frontier_words tree2.root [] 0 = (c1, List.replicate (k + 1) 48) :: tl1 := by
  obtain ⟨-, -, -, -, hstrip, -, -, -, -, -⟩ := hstep
  rw [← frontier_words_strip, hstrip, List.replicate_succ']
  exact grow_head_word ct N key hN hN2 tree.root c0 _ tl
    (follow_labels_nonzero ct N tree.root keys0 [] hf) (by rw [hp]; exact hw)

theorem shallow_head_word (m : t9_model_t C) (hK : 1 ≤ m.number_paths)
    (hN : 1 ≤ m.ngram_length) (hN2 : m.ngram_length < 256)
    (hfresh : m.search_tree = some t9_search_tree_create) (init : List Nat)
    (hinit : ∀ s ∈ init, is_key_symbol s) (hshallow : init.length < m.ngram_length) :
    ∃ (tree0 : t9_search_tree_t C) (paths0 : List (t9_path_t C)),
      type_loop init m =
        .ok (.T9_SUCCESS, { m with search_tree := some tree0, paths := paths0 }) ∧
      tree_ok tree0 ∧ tree0.level_table2.length = init.length ∧
      tree0.root.probability = 0 ∧
      costs_follow m.corpus_tree m.ngram_length init tree0.root [] ∧
      ∃ c0 tl, frontier_words tree0.root [] 0 = (c0, List.replicate init.length 48) :: tl := by
  have hN3 : m.ngram_length < SIZE_MOD := by unfold SIZE_MOD; omega
  obtain ⟨tree0, paths0, hrun0, hok0, hP⟩ := type_loop_induct m hK
    (fun keys0 tree => tree.level_table2.length = keys0.length ∧
      tree.root.probability = 0 ∧
      costs_follow m.corpus_tree m.ngram_length keys0 tree.root [] ∧
      (keys0.length < m.ngram_length →
        ∃ c0 tl, frontier_words tree.root [] 0 = (c0, List.replicate keys0.length 48) :: tl))
    (by
      intro keys0 key tree tree2 paths tree3 hP hok _ hstep
      refine ⟨?_, ?_, (key_step_costs _ _ key keys0 tree tree2 paths tree3 hok hP.1 hP.2.2.1
        hstep).2, ?_⟩
      · rw [hstep.2.2.2.1, hP.1]; simp
      · rw [(key_step_root_cost _ _ _ _ _ _ _ hstep).2]; exact hP.2.1
      · intro hlt
        simp only [List.length_append, List.length_singleton] at hlt ⊢
        obtain ⟨c0, tl, hw⟩ := hP.2.2.2 (by omega)
        have h32 : tree3 = tree2 := hstep.2.2.2.2.2.2.2.2.2 (by rw [hP.1]; exact hlt)
        rw [h32]
        exact step_head_word _ _ key hN hN3 keys0 tree tree2 paths tree3 hstep hP.2.1
          hP.2.2.1 c0 tl _ hw)
    init [] t9_search_tree_create m.paths hinit tree_ok_create
    ⟨rfl, rfl, by simp [t9_search_tree_create, costs_follow, costs_follow_list],
      fun _ => ⟨0, [], by simp [t9_search_tree_create, frontier_words]⟩⟩
  simp only [List.nil_append] at hP
  have hm : ({ m with search_tree := some t9_search_tree_create, paths := m.paths } :
      t9_model_t C) = m := model_eta m _ hfresh
  rw [hm] at hrun0
  exact ⟨tree0, paths0, hrun0, hok0, hP.1, hP.2.1, hP.2.2.1, hP.2.2.2 hshallow⟩

/-- When no word is possible for the keys, every candidate has the infinite cost
and the suggestion is the first word in discovery order: the first symbol of the
alphabet, once per key (as long as the tree has not been pruned before the last
key). -/
theorem all_infinite_suggestion (m : t9_model_t C) (ct : t9_corpus_tree_t)
    (init : List Nat) (key : Nat)
    (hfresh : m.search_tree = some t9_search_tree_create)
    (hct : m.corpus_tree = some ct)
    (hbuild : build_corpus_tree m.corpus m.ngram_length = .ok ct)
    (rl : cost_range_laws C) (fl : cost_finite_laws C)
    (hN : 1 ≤ m.ngram_length) (hN2 : m.ngram_length < 256) (hK : 1 ≤ m.number_paths)
    (hinit : ∀ s ∈ init, is_key_symbol s) (hkey : is_key_symbol key)
    (hshallow : init.length < m.ngram_length)
    (himp : ∀ w, w ≠ [] →
      ¬ path_possible m.corpus_tree m.ngram_length (init ++ [key]) [] w) :
    ∃ model1, t9_model_autocomplete m (init ++ [key]) =
      .ok (.T9_SUCCESS, model1, some (List.replicate (init.length + 1) 48)) := by
  have hN3 : m.ngram_length < SIZE_MOD := by unfold SIZE_MOD; omega
  have hunit : ∀ word, 0 ≤ t9_corpus_tree_conditional_probability m.corpus_tree word ∧
      t9_corpus_tree_conditional_probability m.corpus_tree word ≤ 1 := by
    intro word
    rw [hct]
    exact conditional_probability_unit_of_built m.corpus m.ngram_length ct word hbuild
  obtain ⟨tree0, paths0, hrun0, hok0, hlen0, hp0, hf0, c0, tl, hw0⟩ :=
    shallow_head_word m hK hN hN2 hfresh init hinit hshallow
  obtain ⟨tree2, paths, tree3, hins, -, -, -, -, -, hstep⟩ :=
    keystroke_detail
      (t9_model_t.mk m.corpus m.corpus_tree (some tree0) paths0 m.ngram_length m.number_paths)
      tree0 key hok0 hkey hK
  have hf2 := (key_step_costs _ _ key init tree0 tree2 paths tree3 hok0 hlen0 hf0 hstep).1
  have hp2 : tree2.root.probability = 0 := by
    rw [(key_step_root_cost _ _ _ _ _ _ _ hstep).1]; exact hp0
  obtain ⟨c1, tl1, hw2⟩ := step_head_word _ _ key hN hN3 init tree0 tree2 paths tree3 hstep
    hp0 hf0 c0 tl _ hw0
  have hne2 : tree2.root.children2 ≠ [] := by
    intro he
    cases hr : tree2.root with
    | mk a s p cs =>
      rw [hr] at he hw2
      simp only [t9_search_node_t.children2] at he
      subst he
      simp only [frontier_words, List.cons.injEq, Prod.mk.injEq] at hw2
      have := congrArg List.length hw2.1.2
      simp at this
  have hties : ∀ x ∈ root_frontier tree2.root, x.probability = infinite_cost := by
    intro x hx
    have h1 : (x.probability,
        x.nodes.map (fun a => (find_node a tree2.root).map t9_search_node_t.symbol)) ∈
        (root_frontier tree2.root).map (fun q => (q.probability,
          q.nodes.map (fun a => (find_node a tree2.root).map t9_search_node_t.symbol))) :=
      List.mem_map.mpr ⟨x, hx, rfl⟩
    rw [root_frontier_words tree2.root hstep.1.1] at h1
    obtain ⟨cw, hcw, he⟩ := List.mem_map.mp h1
    simp only [Prod.mk.injEq] at he
    have hall := frontier_words_all_words tree2.root [] 0 hne2 cw hcw
    have hlong := all_words_longer tree2.root [] cw hall
    rw [← he.1]
    apply impossible_is_infinite rl fl m.corpus_tree hunit m.ngram_length hN hN3
      (init ++ [key]) tree2.root hp2 hf2 cw hall
    apply himp
    intro hnil
    rw [hnil] at hlong
    simp at hlong
  obtain ⟨first, rest, model1, kept, str, -, hauto, -, -, hhead, -⟩ :=
    equal_cost_first_path m
      (t9_model_t.mk m.corpus m.corpus_tree (some tree0) paths0 m.ngram_length m.number_paths)
      _ t9_search_tree_create tree0 init key tree2.root infinite_cost hfresh tree_ok_create hK
      hinit hkey hrun0 rfl hins hties
  rw [hw2] at hhead
  simp only [List.head?_cons, Option.some.injEq, Prod.mk.injEq] at hhead
  rw [← hhead.2] at hauto
  exact ⟨model1, hauto⟩

/-- C19: let a non-empty sequence of key symbols, written `init ++ [key]`, be
typed into a model whose tree is in the state `tree_ok` and that keeps `K ≥ 1`
paths; `root2` is the candidate tree after the last key was inserted.  When
every root-to-frontier path of `root2` has the same cost `c` (in particular when
all are infinite), `t9_model_autocomplete` returns T9_SUCCESS, the first kept
path is the first frontier path of `root2` in depth-first discovery order, and
the suggestion is the string of the symbols along that path: the symbols of the
nodes the path names, which is the first word of `frontier_words root2`, the
words spelled by the root-to-frontier paths in discovery order.  The example:
no symbol belongs to the key `*`, so on every fresh model with a built trie,
under the laws of the costs, every candidate for the sequence `*` is infinite
and the suggestion is `0`, the first symbol of the alphabet. -/
theorem equal_cost_returns_first_frontier_path (m m0 m1 : t9_model_t C)
    (tree tree0 : t9_search_tree_t C) (init : List Nat) (key : Nat)
    (root2 : t9_search_node_t C) (c : C)
    (hm : m.search_tree = some tree) (hok : tree_ok tree) (hK : 1 ≤ m.number_paths)
    (hvalid : ∀ s ∈ init, is_key_symbol s) (hkey : is_key_symbol key)
    (hinit : type_loop init m = .ok (.T9_SUCCESS, m0)) (hm0 : m0.search_tree = some tree0)
    (hgrow : t9_search_node_insert tree0.root key [] 0
        { m0 with search_tree := some { tree0 with
            level_table2 := tree0.level_table2 ++ [[]] } } = .ok (root2, m1))
    (hties : ∀ x ∈ root_frontier root2, x.probability = c) :
    (∃ first rest model1 kept str,
      root_frontier root2 = first :: rest ∧
      t9_model_autocomplete m (init ++ [key]) = .ok (.T9_SUCCESS, model1, some str) ∧
      model1.paths = first :: kept ∧
      first.nodes.map (fun a => (find_node a root2).map t9_search_node_t.symbol) =
        str.map some ∧
      (frontier_words root2 [] 0).head? = some (c, str) ∧
      str.length = tree.level_table2.length + init.length + 1) ∧
    (∀ (fresh : t9_model_t C) (ct : t9_corpus_tree_t),
      fresh.search_tree = some t9_search_tree_create → fresh.corpus_tree = some ct →
      build_corpus_tree fresh.corpus fresh.ngram_length = .ok ct →
      cost_range_laws C → cost_finite_laws C →
      1 ≤ fresh.ngram_length → fresh.ngram_length < 256 → 1 ≤ fresh.number_paths →
      ∃ model1, t9_model_autocomplete fresh (bytes "*") =
        .ok (.T9_SUCCESS, model1, some (bytes "0"))) := by
  refine ⟨equal_cost_first_path m m0 m1 tree tree0 init key root2 c hm hok hK hvalid hkey
    hinit hm0 hgrow hties, ?_⟩
  intro fresh ct hfresh hct hbuild rl fl hN hN2 hKf
  have h := all_infinite_suggestion fresh ct [] 42 hfresh hct hbuild rl fl hN hN2 hKf
    (by simp) (Or.inr (Or.inl (by decide))) (by simp only [List.length_nil]; omega)
    (by
      intro w hw hp
      cases w with
      | nil => exact hw rfl
      | cons s rest =>
        simp only [List.nil_append, path_possible] at hp
        have hset : key_symbol_set 42 = [] := by decide
        rw [hset] at hp
        simp at hp)
  exact h

end InfiniteCost

/-- Witness of C19: the key `*` typed into the fresh model of the text `banana`
with `N = 2` and three kept paths; all 65 candidates have likelihood 0, and the
suggestion is `0`, the first symbol of the alphabet. -/
theorem equal_cost_returns_first_frontier_path_witness :
    ((∃ first rest model1 kept str,
      root_frontier (star_grown "banana" 2 3).1 = first :: rest ∧
      t9_model_autocomplete (example_model "banana" 2 3) ([] ++ [42]) =
        .ok (.T9_SUCCESS, model1, some str) ∧
      model1.paths = first :: kept ∧
      first.nodes.map
          (fun a => (find_node a (star_grown "banana" 2 3).1).map t9_search_node_t.symbol) =
        str.map some ∧
      (frontier_words (star_grown "banana" 2 3).1 [] 0).head? = some (LogCost.val 0, str) ∧
      str.length =
        (t9_search_tree_create : t9_search_tree_t LogCost).level_table2.length +
          ([] : List Nat).length + 1) ∧
    (∀ (fresh : t9_model_t LogCost) (ct : t9_corpus_tree_t),
      fresh.search_tree = some t9_search_tree_create → fresh.corpus_tree = some ct →
      build_corpus_tree fresh.corpus fresh.ngram_length = .ok ct →
      cost_range_laws LogCost → cost_finite_laws LogCost →
      1 ≤ fresh.ngram_length → fresh.ngram_length < 256 → 1 ≤ fresh.number_paths →
      ∃ model1, t9_model_autocomplete fresh (bytes "*") =
        .ok (.T9_SUCCESS, model1, some (bytes "0")))) ∧
    (frontier_words (star_grown "banana" 2 3).1 [] 0).head? =
      some (LogCost.val 0, bytes "0") ∧
    suggestion_of (t9_model_autocomplete (example_model "banana" 2 3) (bytes "*")) =
      some (bytes "0") :=
  ⟨equal_cost_returns_first_frontier_path (example_model "banana" 2 3)
    (example_model "banana" 2 3) (star_grown "banana" 2 3).2 t9_search_tree_create
    t9_search_tree_create [] 42 (star_grown "banana" 2 3).1 (LogCost.val 0) (by rfl)
    tree_ok_create (by decide!) (by simp) (Or.inr (Or.inl (by decide))) rfl (by rfl)
    star_grown_eq star_grown_infinite, by decide!, by decide!⟩

section OneStepPerKey

variable {C : Type} [T9Math C]

theorem type_first_key (m : t9_model_t C) (tree : t9_search_tree_t C) (key : Nat)
    (rest : List Nat) (hm : m.search_tree = some tree) (hkey : is_key_symbol key)
    (hrest : ∀ s ∈ rest, is_key_symbol s) :
    t9_search_tree_type m (key :: rest) =
      then_type (t9_search_tree_insert
        { m with search_tree := some { tree with
            level_table2 := tree.level_table2 ++ [[]] } } key) rest := by
  have hkz : key ≠ 0 := key_symbol_nonzero key hkey
  have hs : m.search_tree ≠ none := by rw [hm]; simp
  rw [tree_type_eq_loop m (key :: rest) (by
    intro s hsm
    rcases List.mem_cons.mp hsm with h | h
    · rw [h]; exact hkey
    · exact hrest s h) hs]
  simp only [type_loop, if_neg hkz, hm]
  unfold then_type
  cases hi : t9_search_tree_insert
      { m with search_tree := some { tree with
          level_table2 := tree.level_table2 ++ [[]] } } key with
  | error e => rfl
  | ok r =>
    obtain ⟨e, m1⟩ := r
    obtain ⟨he, hs1⟩ := tree_insert_some _ m1 key e hi
    subst he
    simp only
    rw [tree_type_eq_loop m1 rest hrest hs1]

/-- C22: `t9_search_tree_type` takes the keys in order and does one step per
key.  For the first key of a sequence the step is one call of
`t9_search_tree_insert` on the model with a new level list pushed, and the
remaining keys are typed into the model this call leaves; on a tree in the state
`tree_ok` with `K ≥ 1` the call is `t9_search_node_insert`, then
`t9_search_tree_search_paths` on the grown tree, then `t9_search_tree_prune`,
which leaves the tree as it is while the tree is less than `N` levels deep, and
typing the single key returns the model with the pruned tree and the kept paths.
So typing is compositional: typing the concatenation of two valid key sequences
is typing the first and then, when that returned T9_SUCCESS, typing the second
into the model it left: same return value, same model, same failure.
T9_FAILURE is returned by the first call only for a model without search tree,
which it leaves as it is and on which the second call fails the same way.  On a
model whose tree is in the state `tree_ok` and that keeps `K ≥ 1` paths all
three calls return T9_SUCCESS. -/
theorem typing_is_compositional (m : t9_model_t C) (a b : List Nat)
    (ha : ∀ s ∈ a, is_key_symbol s) (hb : ∀ s ∈ b, is_key_symbol s) :
    t9_search_tree_type m (a ++ b) = then_type (t9_search_tree_type m a) b ∧
      (∀ m1, t9_search_tree_type m a = .ok (.T9_FAILURE, m1) →
        m1 = m ∧ t9_search_tree_type m1 b = .ok (.T9_FAILURE, m1)) ∧
      (∀ tree, m.search_tree = some tree → tree_ok tree → 1 ≤ m.number_paths →
        ∃ m1 m2, t9_search_tree_type m a = .ok (.T9_SUCCESS, m1) ∧
          t9_search_tree_type m1 b = .ok (.T9_SUCCESS, m2) ∧
          t9_search_tree_type m (a ++ b) = .ok (.T9_SUCCESS, m2)) ∧
      (∀ tree key rest, m.search_tree = some tree → a = key :: rest →
        t9_search_tree_type m a =
          then_type (t9_search_tree_insert
            { m with search_tree := some { tree with
                level_table2 := tree.level_table2 ++ [[]] } } key) rest ∧
        (tree_ok tree → 1 ≤ m.number_paths →
          ∃ tree2 paths tree3,
            t9_search_node_insert tree.root key [] 0
                { m with search_tree := some { tree with
                    level_table2 := tree.level_table2 ++ [[]] } } =
              .ok (tree2.root,
                { m with search_tree := some { tree2 with root := tree.root } }) ∧
            t9_search_tree_search_paths { m with search_tree := some tree2 } =
              .ok { m with search_tree := some tree2, paths := paths } ∧
            t9_search_tree_prune { m with search_tree := some tree2, paths := paths } =
              .ok { m with search_tree := some tree3, paths := paths } ∧
            (tree.level_table2.length + 1 < m.ngram_length → tree3 = tree2) ∧
            tree2.level_table2.length = tree.level_table2.length + 1 ∧
            tree3.level_table2.length = tree.level_table2.length + 1 ∧
            paths ≠ [] ∧
            t9_search_tree_type m [key] =
              .ok (.T9_SUCCESS, { m with search_tree := some tree3, paths := paths }) ∧
            t9_search_tree_type m a =
              t9_search_tree_type { m with search_tree := some tree3, paths := paths }
                rest)) := by
  have hza : ∀ s ∈ a, s ≠ 0 := fun s hs => key_symbol_nonzero s (ha s hs)
  have hzb : ∀ s ∈ b, s ≠ 0 := fun s hs => key_symbol_nonzero s (hb s hs)
  have hva : t9_corpus_validate_lexicon_symbols a = true := by
    rw [validate_symbols_iff, cstr_of_nonzero a hza]; exact ha
  have hvb : t9_corpus_validate_lexicon_symbols b = true := by
    rw [validate_symbols_iff, cstr_of_nonzero b hzb]; exact hb
  have hvab : t9_corpus_validate_lexicon_symbols (a ++ b) = true := by
    rw [validate_symbols_iff, cstr_append_nonzero a b hza, cstr_of_nonzero b hzb]
    intro s hs
    rcases List.mem_append.mp hs with hs | hs
    · exact ha s hs
    · exact hb s hs
  have htype : ∀ (x : List Nat) (mx : t9_model_t C),
      t9_corpus_validate_lexicon_symbols x = true → mx.search_tree ≠ none →
      t9_search_tree_type mx x = type_loop x mx := by
    intro x mx hx hsx
    unfold t9_search_tree_type
    cases hmx : mx.search_tree with
    | none => exact absurd hmx hsx
    | some t =>
      simp only [hx]
      rw [if_neg (by decide)]
  have hmain : t9_search_tree_type m (a ++ b) = then_type (t9_search_tree_type m a) b := by
    unfold then_type
    cases hm : m.search_tree with
    | none => simp only [t9_search_tree_type, hm]
    | some tree =>
      have hs : m.search_tree ≠ none := by rw [hm]; simp
      rw [htype (a ++ b) m hvab hs, htype a m hva hs, type_loop_append a b hza m]
      cases hr : type_loop a m with
      | error e => rfl
      | ok r =>
        obtain ⟨e, m1⟩ := r
        obtain ⟨he, hs1⟩ := type_loop_some a m m1 e hs hr
        subst he
        simp only
        rw [htype b m1 hvb hs1]
  refine ⟨hmain, ?_, ?_, ?_⟩
  · intro m1 h
    cases hm : m.search_tree with
    | none =>
      simp only [t9_search_tree_type, hm, Except.ok.injEq, Prod.mk.injEq, true_and] at h
      subst h
      exact ⟨rfl, by simp only [t9_search_tree_type, hm]⟩
    | some tree =>
      have hs : m.search_tree ≠ none := by rw [hm]; simp
      rw [htype a m hva hs] at h
      have := (type_loop_some a m m1 _ hs h).1
      cases this
  · intro tree hm hok hK
    have hs : m.search_tree ≠ none := by rw [hm]; simp
    obtain ⟨tree1, paths1, hrun1, hok1, -, -⟩ := type_loop_spec a m tree hm hok hK
      (by rw [cstr_of_nonzero a hza]; exact ha)
    obtain ⟨tree2, paths2, hrun2, -, -, -⟩ := type_loop_spec b
      { m with search_tree := some tree1, paths := paths1 } tree1 rfl hok1 hK
      (by rw [cstr_of_nonzero b hzb]; exact hb)
    simp only at hrun2
    have h1 : t9_search_tree_type m a =
        .ok (.T9_SUCCESS, { m with search_tree := some tree1, paths := paths1 }) := by
      rw [htype a m hva hs]; exact hrun1
    have h2 : t9_search_tree_type { m with search_tree := some tree1, paths := paths1 } b =
        .ok (.T9_SUCCESS, { m with search_tree := some tree2, paths := paths2 }) := by
      rw [htype b _ hvb (by simp)]; exact hrun2
    refine ⟨{ m with search_tree := some tree1, paths := paths1 },
      { m with search_tree := some tree2, paths := paths2 }, h1, h2, ?_⟩
    rw [hmain, h1]
    exact h2
  · intro tree key rest hm hkr
    have hkey : is_key_symbol key := ha key (by rw [hkr]; simp)
    have hrest : ∀ s ∈ rest, is_key_symbol s :=
      fun s hs => ha s (by rw [hkr]; exact List.mem_cons_of_mem _ hs)
    have hfirst := type_first_key m tree key rest hm hkey hrest
    rw [hkr]
    refine ⟨hfirst, ?_⟩
    intro hok hK
    obtain ⟨tree2, paths, tree3, hnode, hsearch, hprune, hfull, hne, -, hstep⟩ :=
      keystroke_detail m tree key hok hkey hK
    obtain ⟨-, -, hl2, hl3, -, -, -, -, -, hshallow⟩ := hstep
    refine ⟨tree2, paths, tree3, hnode, hsearch, hprune, hshallow, hl2, hl3, hne, ?_, ?_⟩
    · rw [type_first_key m tree key [] hm hkey (by simp), hfull]
      simp only [then_type, t9_search_tree_type, type_loop]
      rfl
    · rw [hfirst, hfull]
      rfl

end OneStepPerKey

/-- Witness of C22: the keys `2` and `6` typed into the fresh model of the text
`banana`. -/
theorem typing_is_compositional_witness :
    (∀ s ∈ bytes "2", is_key_symbol s) ∧ (∀ s ∈ bytes "6", is_key_symbol s) ∧
      t9_search_tree_type (example_model "banana" 2 3) (bytes "2" ++ bytes "6") =
        then_type (t9_search_tree_type (example_model "banana" 2 3) (bytes "2")) (bytes "6") ∧
      (∀ m1, t9_search_tree_type (example_model "banana" 2 3) (bytes "2") =
          .ok (.T9_FAILURE, m1) →
        m1 = example_model "banana" 2 3 ∧
          t9_search_tree_type m1 (bytes "6") = .ok (.T9_FAILURE, m1)) ∧
      (∀ tree, (example_model "banana" 2 3).search_tree = some tree → tree_ok tree →
        1 ≤ (example_model "banana" 2 3).number_paths →
        ∃ m1 m2, t9_search_tree_type (example_model "banana" 2 3) (bytes "2") =
            .ok (.T9_SUCCESS, m1) ∧
          t9_search_tree_type m1 (bytes "6") = .ok (.T9_SUCCESS, m2) ∧
          t9_search_tree_type (example_model "banana" 2 3) (bytes "2" ++ bytes "6") =
            .ok (.T9_SUCCESS, m2)) ∧
      (∀ tree key rest, (example_model "banana" 2 3).search_tree = some tree →
        bytes "2" = key :: rest →
        t9_search_tree_type (example_model "banana" 2 3) (bytes "2") =
          then_type (t9_search_tree_insert
            { example_model "banana" 2 3 with search_tree := some { tree with
                level_table2 := tree.level_table2 ++ [[]] } } key) rest ∧
        (tree_ok tree → 1 ≤ (example_model "banana" 2 3).number_paths →
          ∃ tree2 paths tree3,
            t9_search_node_insert tree.root key [] 0
                { example_model "banana" 2 3 with search_tree := some { tree with
                    level_table2 := tree.level_table2 ++ [[]] } } =
              .ok (tree2.root,
                { example_model "banana" 2 3 with
                  search_tree := some { tree2 with root := tree.root } }) ∧
            t9_search_tree_search_paths
                { example_model "banana" 2 3 with search_tree := some tree2 } =
              .ok { example_model "banana" 2 3 with
                search_tree := some tree2, paths := paths } ∧
            t9_search_tree_prune
                { example_model "banana" 2 3 with
                  search_tree := some tree2, paths := paths } =
              .ok { example_model "banana" 2 3 with
                search_tree := some tree3, paths := paths } ∧
            (tree.level_table2.length + 1 < (example_model "banana" 2 3).ngram_length →
              tree3 = tree2) ∧
            tree2.level_table2.length = tree.level_table2.length + 1 ∧
            tree3.level_table2.length = tree.level_table2.length + 1 ∧
            paths ≠ [] ∧
            t9_search_tree_type (example_model "banana" 2 3) [key] =
              .ok (.T9_SUCCESS, { example_model "banana" 2 3 with
                search_tree := some tree3, paths := paths }) ∧
            t9_search_tree_type (example_model "banana" 2 3) (bytes "2") =
              t9_search_tree_type
                { example_model "banana" 2 3 with
                  search_tree := some tree3, paths := paths } rest)) :=
  ⟨by decide, by decide,
    typing_is_compositional (example_model "banana" 2 3) (bytes "2") (bytes "6")
      (by decide) (by decide)⟩

theorem banana_tree3_built :
    build_corpus_tree ⟨bytes "banana", bytes "00a"⟩ 3 = .ok banana_tree3 := by
  have hok : is_ok (build_corpus_tree ⟨bytes "banana", bytes "00a"⟩ 3) = true := by decide!
  obtain ⟨t, ht⟩ := ok_of_is_ok _ hok
  simp only [banana_tree3, ht]

theorem banana_test_impossible :
    ∀ w, w ≠ [] →
      ¬ path_possible banana_test_model.corpus_tree banana_test_model.ngram_length
        ([48, 48] ++ [50]) [] w := by
  intro w hw hp
  cases w with
  | nil => exact hw rfl
  | cons s rest =>
    simp only [List.cons_append, List.nil_append, path_possible] at hp
    obtain ⟨hs, hc, -⟩ := hp
    have hs48 : s = 48 := by
      have : key_symbol_set 48 = [48] := by decide
      rw [this] at hs
      simpa using hs
    subst hs48
    have hz : t9_corpus_tree_conditional_probability banana_test_model.corpus_tree
        (context banana_test_model.ngram_length [] ++ [48]) = 0 := by decide!
    exact hc hz

/-- C20 (as stated, refuted): the fresh model of the text `banana` with `N = 3`,
one kept path and the test text `00a`.  No symbol of the key `0` occurs in the
training text, so every candidate has the infinite cost and the suggestion is
`000`, the first word in discovery order.  It differs from the test text at one
of three positions, and `t9_model_evaluate` returns the `double` nearest to 1/3,
which is 6004799503160661/18014398509481984 and not 1/3. -/
theorem evaluate_error_rate_counterexample :
    banana_test_model.search_tree = some t9_search_tree_create ∧
      1 ≤ banana_test_model.number_paths ∧
      banana_test_model.corpus.test_buffer = bytes "00a" ∧
      (∀ c ∈ banana_test_model.corpus.test_buffer, c ∈ CORPUS_SYMBOLS) ∧
      ∃ m1,
        t9_model_autocomplete banana_test_model
            (key_sequence banana_test_model.corpus.test_buffer) =
          .ok (.T9_SUCCESS, m1, some (bytes "000")) ∧
        differing_positions (bytes "000") banana_test_model.corpus.test_buffer
          banana_test_model.corpus.test_buffer.length = 1 ∧
        banana_test_model.corpus.test_buffer.length = 3 ∧
        t9_model_evaluate banana_test_model =
          .ok (.T9_SUCCESS, m1, some (6004799503160661 / 18014398509481984)) ∧
        (6004799503160661 / 18014398509481984 : ℚ) ≠ 1 / 3 := by
  have halpha : ∀ c ∈ banana_test_model.corpus.test_buffer, c ∈ CORPUS_SYMBOLS := by decide
  refine ⟨rfl, by decide, rfl, halpha, ?_⟩
  obtain ⟨model1, hauto⟩ := all_infinite_suggestion banana_test_model banana_tree3 [48, 48] 50
    rfl rfl banana_tree3_built log_cost_range_laws log_cost_finite_laws (by decide) (by decide)
    (by decide) (by decide) (by decide) (by decide) banana_test_impossible
  have hkeys : key_sequence banana_test_model.corpus.test_buffer = [48, 48] ++ [50] := by
    decide
  have hrep : List.replicate (([48, 48] : List Nat).length + 1) 48 = bytes "000" := by decide
  rw [hrep] at hauto
  obtain ⟨m1, sug, ha, he⟩ := evaluate_returns_quotient banana_test_model rfl (by decide)
    (by decide) halpha
  rw [hkeys, hauto] at ha
  simp only [Except.ok.injEq, Prod.mk.injEq, true_and, Option.some.injEq] at ha
  obtain ⟨hm1, hsug⟩ := ha
  rw [← hsug] at he
  have hd : differing_positions (bytes "000") banana_test_model.corpus.test_buffer
      banana_test_model.corpus.test_buffer.length = 1 := by decide
  have hlen : banana_test_model.corpus.test_buffer.length = 3 := by decide
  rw [hd, hlen] at he
  have hq : rounded_quotient DBL_MANT_DIG 1 3 = 6004799503160661 / 18014398509481984 := by
    decide!
  rw [hq, ← hm1] at he
  refine ⟨model1, ?_, hd, hlen, he, by norm_num⟩
  rw [hkeys]
  exact hauto

end T9
